import Mathlib

/-!
# MayanSort `gosort` : a shallow embedding of `src/gosort.hpp`

The sequence is a `List α`; `Size` is `std::iterator_traits<It>::difference_type`
(a signed integer, `src/mayandef.hpp`), modelled by `Int`.  Every element access goes
through `less` (one comparator call on two elements) or `swap` (one `std::swap`), which
report `Res.oob` when an index lies outside `[0, n)`.  Loops are run by `iter` on a budget
taken from the loop's own decreasing measure; an exhausted budget is `Res.timeout`.
Index arithmetic is done in `Int`: a range of fewer than `2^62` elements cannot
overflow a 64 bit `Size`.
-/

namespace MayanSort
namespace gosort

/-- Outcome of running a piece of the program. -/
inductive Res (β : Type) where
  | ok : β → Res β
  | oob : Res β
  | timeout : Res β
deriving DecidableEq, Repr

/-- Sequencing of outcomes: the first fault stops the run. -/
def Res.bind {β γ : Type} : Res β → (β → Res γ) → Res γ
  | .ok x, f => f x
  | .oob, _ => .oob
  | .timeout, _ => .timeout

instance : Monad Res where
  pure := Res.ok
  bind := Res.bind

/-- The sequence together with the counters of comparator calls and of `std::swap` calls. -/
structure Mem (α : Type) where
  arr : List α
  comps : Nat
  swaps : Nat
deriving DecidableEq, Repr

/-- Initial memory: the caller's sequence, no call made yet. -/
def Mem.init {α : Type} (l : List α) : Mem α := ⟨l, 0, 0⟩

/-- Element at a signed index, `none` outside `[0, n)`. -/
def rd {α : Type} (l : List α) (i : Int) : Option α :=
  if 0 ≤ i then l[i.toNat]? else none

/-- The sequence after exchanging the elements `x` (at `i`) and `y` (at `j`). -/
def swapL {α : Type} (l : List α) (i j : Int) (x y : α) : List α :=
  (l.set i.toNat y).set j.toNat x

/-- One call `comp(arr[i], arr[j])`. -/
def less {α : Type} (comp : α → α → Bool) (s : Mem α) (i j : Int) : Res (Bool × Mem α) :=
  match rd s.arr i, rd s.arr j with
  | some x, some y => .ok (comp x y, { s with comps := s.comps + 1 })
  | _, _ => .oob

/-- One call `std::swap(arr[i], arr[j])`. -/
def swap {α : Type} (s : Mem α) (i j : Int) : Res (Mem α) :=
  match rd s.arr i, rd s.arr j with
  | some x, some y => .ok { s with arr := swapL s.arr i j x y, swaps := s.swaps + 1 }
  | _, _ => .oob

/-- A loop: `body` either continues with a new loop state (`Sum.inl`) or leaves the loop
with a result (`Sum.inr`); the first argument is the iteration budget. -/
def iter {σ β : Type} (body : σ → Res (σ ⊕ β)) : Nat → σ → Res β
  | 0, _ => .timeout
  | f + 1, s =>
    match body s with
    | .ok (.inl s') => iter body f s'
    | .ok (.inr r) => .ok r
    | .oob => .oob
    | .timeout => .timeout

/-- Division of `Size` values as C++ does it (truncation toward zero). -/
def cdiv (x y : Int) : Int := Int.tdiv x y

/-- Body of the inner loop of `_insertion_sort`:
`for (j = i; j > a && comp(arr[j], arr[j-1]); j--) std::swap(arr[j], arr[j-1]);` -/
def insInnerBody {α : Type} (comp : α → α → Bool) (a : Int) (p : Int × Mem α) :
    Res ((Int × Mem α) ⊕ Mem α) :=
  if p.1 > a then do
    let r ← less comp p.2 p.1 (p.1 - 1)
    if r.1 then do
      let s ← swap r.2 p.1 (p.1 - 1)
      pure (.inl (p.1 - 1, s))
    else pure (.inr r.2)
  else pure (.inr p.2)

/-- Inner loop of `_insertion_sort`, started at `j = i`. -/
def insInner {α : Type} (comp : α → α → Bool) (a : Int) (i : Int) (s : Mem α) : Res (Mem α) :=
  iter (insInnerBody comp a) ((i - a).toNat + 1) (i, s)

/-- Body of the outer loop of `_insertion_sort`: `for (i = a + 1; i < b; i++)`. -/
def insOuterBody {α : Type} (comp : α → α → Bool) (a b : Int) (p : Int × Mem α) :
    Res ((Int × Mem α) ⊕ Mem α) :=
  if p.1 < b then do
    let s ← insInner comp a p.1 p.2
    pure (.inl (p.1 + 1, s))
  else pure (.inr p.2)

/-- Source `_insertion_sort(arr, a, b, comp)`. -/
def _insertion_sort {α : Type} (comp : α → α → Bool) (s : Mem α) (a b : Int) : Res (Mem α) :=
  iter (insOuterBody comp a b) ((b - a).toNat + 1) (a + 1, s)

/-- Body of the loop of `_heap_sift`, loop state `(root, arr)`. -/
def heapSiftBody {α : Type} (comp : α → α → Bool) (hi first : Int) (p : Int × Mem α) :
    Res ((Int × Mem α) ⊕ Mem α) :=
  let child := 2 * p.1 + 1
  if child ≥ hi then pure (.inr p.2)
  else do
    let q ← (if child + 1 < hi then do
        let r ← less comp p.2 (first + child) (first + child + 1)
        pure (if r.1 then child + 1 else child, r.2)
      else pure (child, p.2))
    let r ← less comp q.2 (first + q.1) (first + p.1)
    if r.1 then pure (.inr r.2)
    else do
      let s ← swap r.2 (first + p.1) (first + q.1)
      pure (.inl (q.1, s))

/-- Source `_heap_sift(arr, lo, hi, first, comp)`. -/
def _heap_sift {α : Type} (comp : α → α → Bool) (s : Mem α) (lo hi first : Int) : Res (Mem α) :=
  iter (heapSiftBody comp hi first) ((hi - lo).toNat + 1) (lo, s)

/-- Body of the heap construction loop of `_heap_sort`:
`for (i = (hi - 1) / 2; i >= 0; i--) _heap_sift(arr, i, hi, first, comp);` -/
def heapBuildBody {α : Type} (comp : α → α → Bool) (hi first : Int) (p : Int × Mem α) :
    Res ((Int × Mem α) ⊕ Mem α) :=
  if p.1 ≥ 0 then do
    let s ← _heap_sift comp p.2 p.1 hi first
    pure (.inl (p.1 - 1, s))
  else pure (.inr p.2)

/-- Body of the extraction loop of `_heap_sort`: `for (i = hi - 1; i >= 0; i--)`. -/
def heapPopBody {α : Type} (comp : α → α → Bool) (lo first : Int) (p : Int × Mem α) :
    Res ((Int × Mem α) ⊕ Mem α) :=
  if p.1 ≥ 0 then do
    let s ← swap p.2 first (first + p.1)
    let s ← _heap_sift comp s lo p.1 first
    pure (.inl (p.1 - 1, s))
  else pure (.inr p.2)

/-- Source `_heap_sort(arr, a, b, comp)`. -/
def _heap_sort {α : Type} (comp : α → α → Bool) (s : Mem α) (a b : Int) : Res (Mem α) :=
  let first := a
  let lo := 0
  let hi := b - a
  do
    let s ← iter (heapBuildBody comp hi first) (hi.toNat + 2) (cdiv (hi - 1) 2, s)
    iter (heapPopBody comp lo first) (hi.toNat + 2) (hi - 1, s)

/-- Source `_median_of_3(arr, m1, m0, m2, comp)`. -/
def _median_of_3 {α : Type} (comp : α → α → Bool) (s : Mem α) (m1 m0 m2 : Int) : Res (Mem α) := do
  let r ← less comp s m1 m0
  let s ← (if r.1 then swap r.2 m1 m0 else pure r.2)
  let r ← less comp s m2 m1
  if r.1 then do
    let s ← swap r.2 m2 m1
    let r ← less comp s m1 m0
    if r.1 then swap r.2 m1 m0 else pure r.2
  else pure r.2

/-- Body of the loop of `swap_range`: `for (i = 0; i < n; i++) std::swap(arr[a+i], arr[b+i]);` -/
def swapRangeBody {α : Type} (a b n : Int) (p : Int × Mem α) : Res ((Int × Mem α) ⊕ Mem α) :=
  if p.1 < n then do
    let s ← swap p.2 (a + p.1) (b + p.1)
    pure (.inl (p.1 + 1, s))
  else pure (.inr p.2)

/-- Source `swap_range(arr, a, b, n)`. -/
def swap_range {α : Type} (s : Mem α) (a b n : Int) : Res (Mem α) :=
  iter (swapRangeBody a b n) (n.toNat + 1) (0, s)

/-- Body of the scans of `_do_pivot` that move an index up:
`for (; x < bound && comp(arr[x], arr[pivot]); x++);` (lines 125, 128 and 171). -/
def scanUpBody {α : Type} (comp : α → α → Bool) (pivot bound : Int) (p : Int × Mem α) :
    Res ((Int × Mem α) ⊕ (Int × Mem α)) :=
  if p.1 < bound then do
    let r ← less comp p.2 p.1 pivot
    if r.1 then pure (.inl (p.1 + 1, r.2)) else pure (.inr (p.1, r.2))
  else pure (.inr p)

/-- The upward scan started at `x`. -/
def scanUp {α : Type} (comp : α → α → Bool) (s : Mem α) (pivot bound x : Int) :
    Res (Int × Mem α) :=
  iter (scanUpBody comp pivot bound) ((bound - x).toNat + 1) (x, s)

/-- Body of the scans of `_do_pivot` that move an index down:
`for (; low < x && comp(arr[pivot], arr[x - 1]); x--);` (lines 129 and 170). -/
def scanDownBody {α : Type} (comp : α → α → Bool) (pivot low : Int) (p : Int × Mem α) :
    Res ((Int × Mem α) ⊕ (Int × Mem α)) :=
  if low < p.1 then do
    let r ← less comp p.2 pivot (p.1 - 1)
    if r.1 then pure (.inl (p.1 - 1, r.2)) else pure (.inr (p.1, r.2))
  else pure (.inr p)

/-- The downward scan started at `x`. -/
def scanDown {α : Type} (comp : α → α → Bool) (s : Mem α) (pivot low x : Int) :
    Res (Int × Mem α) :=
  iter (scanDownBody comp pivot low) ((x - low).toNat + 1) (x, s)

/-- Body of the main partition loop of `_do_pivot` (lines 127-135), loop state `(b, c, arr)`. -/
def pivotMainBody {α : Type} (comp : α → α → Bool) (pivot : Int) (p : Int × Int × Mem α) :
    Res ((Int × Int × Mem α) ⊕ (Int × Int × Mem α)) := do
  let rb ← scanUp comp p.2.2 pivot p.2.1 p.1
  let rc ← scanDown comp rb.2 pivot rb.1 p.2.1
  if rb.1 ≥ rc.1 then pure (.inr (rb.1, rc.1, rc.2))
  else do
    let s ← swap rc.2 rb.1 (rc.1 - 1)
    pure (.inl (rb.1 + 1, rc.1 - 1, s))

/-- Body of the protected loop of `_do_pivot` (lines 169-177), loop state `(a, b, arr)`. -/
def pivotProtectBody {α : Type} (comp : α → α → Bool) (pivot : Int) (p : Int × Int × Mem α) :
    Res ((Int × Int × Mem α) ⊕ (Int × Int × Mem α)) := do
  let rb ← scanDown comp p.2.2 pivot p.1 p.2.1
  let ra ← scanUp comp rb.2 pivot rb.1 p.1
  if ra.1 ≥ rb.1 then pure (.inr (ra.1, rb.1, ra.2))
  else do
    let s ← swap ra.2 ra.1 (rb.1 - 1)
    pure (.inl (ra.1 + 1, rb.1 - 1, s))

/-- The three pivot-equality tests of `_do_pivot` (lines 141-161); yields `(b, c, dups, arr)`. -/
def pivotDups {α : Type} (comp : α → α → Bool) (s : Mem α) (pivot m hi b c : Int) :
    Res (Int × Int × Nat × Mem α) := do
  let r ← less comp s (hi - 1) pivot
  let t1 ← (if r.1 then do
      let s ← swap r.2 c (hi - 1)
      pure (c + 1, 1, s)
    else pure (c, 0, r.2) : Res (Int × Nat × Mem α))
  let r ← less comp t1.2.2 pivot (b - 1)
  let t2 : Int × Nat × Mem α := if r.1 then (b - 1, t1.2.1 + 1, r.2) else (b, t1.2.1, r.2)
  let r ← less comp t2.2.2 pivot m
  if r.1 then do
    let s ← swap r.2 m (t2.1 - 1)
    pure (t2.1 - 1, t1.1, t2.2.1 + 1, s)
  else pure (t2.1, t1.1, t2.2.1, r.2)

/-- Source `_do_pivot(arr, lo, hi, comp)`; yields `(arr, midlo, midhi)`. -/
def _do_pivot {α : Type} (comp : α → α → Bool) (s : Mem α) (lo hi : Int) :
    Res (Mem α × Int × Int) := do
  let m := (lo + hi) >>> (1 : Nat)
  let s ← (if hi - lo > 40 then do
      let t := cdiv (hi - lo) 8
      let s ← _median_of_3 comp s lo (lo + t) (lo + 2 * t)
      let s ← _median_of_3 comp s m (m - t) (m + t)
      _median_of_3 comp s (hi - 1) (hi - 1 - t) (hi - 1 - 2 * t)
    else pure s)
  let s ← _median_of_3 comp s lo m (hi - 1)
  let pivot := lo
  let ra ← scanUp comp s pivot (hi - 1) (lo + 1)
  let a := ra.1
  let rm ← iter (pivotMainBody comp pivot) ((hi - lo).toNat + 1) (a, hi - 1, ra.2)
  let b := rm.1
  let c := rm.2.1
  let s := rm.2.2
  let protect := decide (hi - c < 5)
  let rq ← (if !protect && decide (hi - c < cdiv (hi - lo) 4) then do
      let t ← pivotDups comp s pivot m hi b c
      pure (t.1, t.2.1, decide (t.2.2.1 > 1), t.2.2.2)
    else pure (b, c, protect, s) : Res (Int × Int × Bool × Mem α))
  let b := rq.1
  let c := rq.2.1
  let rp ← (if rq.2.2.1 then do
      let t ← iter (pivotProtectBody comp pivot) ((hi - lo).toNat + 1) (a, b, rq.2.2.2)
      pure (t.2.1, t.2.2)
    else pure (b, rq.2.2.2) : Res (Int × Mem α))
  let b := rp.1
  let s ← swap rp.2 pivot (b - 1)
  pure (s, b - 1, c)

/-- Body of the loop of `_shell_sort`: `for (i = a + 6; i < b; i++)`. -/
def shellBody {α : Type} (comp : α → α → Bool) (b : Int) (p : Int × Mem α) :
    Res ((Int × Mem α) ⊕ Mem α) :=
  if p.1 < b then do
    let r ← less comp p.2 p.1 (p.1 - 6)
    let s ← (if r.1 then swap r.2 p.1 (p.1 - 6) else pure r.2)
    pure (.inl (p.1 + 1, s))
  else pure (.inr p.2)

/-- Source `_shell_sort(arr, a, b, comp)`. -/
def _shell_sort {α : Type} (comp : α → α → Bool) (s : Mem α) (a b : Int) : Res (Mem α) :=
  iter (shellBody comp b) ((b - a).toNat + 1) (a + 6, s)

/-- The loop and the recursion of `_quick_sort_loop`; the first argument bounds the number of
nested partition steps.  The iteration `a = mhi` (resp. `b = mlo`) that follows the recursive
call is the second call. -/
def quickSortLoopAux {α : Type} (comp : α → α → Bool) :
    Nat → Mem α → Int → Int → Int → Res (Mem α)
  | 0, _, _, _, _ => .timeout
  | f + 1, s, a, b, maxDepth =>
    if b - a > 12 then
      if maxDepth = 0 then _heap_sort comp s a b
      else do
        let maxDepth := maxDepth - 1
        let r ← _do_pivot comp s a b
        let mlo := r.2.1
        let mhi := r.2.2
        if mlo - a < b - mhi then do
          let s ← quickSortLoopAux comp f r.1 a mlo maxDepth
          quickSortLoopAux comp f s mhi b maxDepth
        else do
          let s ← quickSortLoopAux comp f r.1 mhi b maxDepth
          quickSortLoopAux comp f s a mlo maxDepth
    else if b - a > 1 then do
      let s ← _shell_sort comp s a b
      _insertion_sort comp s a b
    else pure s

/-- Source `_quick_sort_loop(arr, a, b, maxDepth, comp)`. -/
def _quick_sort_loop {α : Type} (comp : α → α → Bool) (s : Mem α) (a b maxDepth : Int) :
    Res (Mem α) :=
  quickSortLoopAux comp ((b - a).toNat + 1) s a b maxDepth

/-- Body of the loop of `_max_depth`: `for (i = n; i > 0; i >>= 1) depth++;` -/
def maxDepthBody (p : Int × Int) : Res ((Int × Int) ⊕ Int) :=
  if p.1 > 0 then pure (.inl (p.1 >>> (1 : Nat), p.2 + 1)) else pure (.inr p.2)

/-- Source `_max_depth(n)`. -/
def _max_depth (n : Int) : Res Int := do
  let depth ← iter maxDepthBody (n.toNat + 1) (n, 0)
  pure (depth * 2)

/-- Source `sort_unstable(first, last, comp)` on the sequence `l`. -/
def sort_unstable {α : Type} (comp : α → α → Bool) (l : List α) : Res (Mem α) := do
  let sz : Int := l.length
  let d ← _max_depth sz
  _quick_sort_loop comp (Mem.init l) 0 sz d

/-- Body of the loop of `rotate`, loop state `(i, j, arr)`. -/
def rotateBody {α : Type} (m : Int) (p : Int × Int × Mem α) :
    Res ((Int × Int × Mem α) ⊕ (Int × Mem α)) :=
  if p.1 ≠ p.2.1 then
    if p.1 > p.2.1 then do
      let s ← swap_range p.2.2 (m - p.1) m p.2.1
      pure (.inl (p.1 - p.2.1, p.2.1, s))
    else do
      let s ← swap_range p.2.2 (m - p.1) (m + p.2.1 - p.1) p.1
      pure (.inl (p.1, p.2.1 - p.1, s))
  else pure (.inr (p.1, p.2.2))

/-- Source `rotate(arr, a, m, b)`. -/
def rotate {α : Type} (s : Mem α) (a m b : Int) : Res (Mem α) := do
  let r ← iter (rotateBody m) ((b - a).toNat + 1) (m - a, b - m, s)
  swap_range r.2 (m - r.1) m r.1

/-- Body of the two binary searches of the base cases of `_sym_merge`:
`while (i < j) { h = (i + j) / 2; if (comp(arr[h], arr[x])) i = h + 1; else j = h; }` -/
def lowerBoundBody {α : Type} (comp : α → α → Bool) (x : Int) (p : Int × Int × Mem α) :
    Res ((Int × Int × Mem α) ⊕ (Int × Mem α)) :=
  if p.1 < p.2.1 then do
    let h := cdiv (p.1 + p.2.1) 2
    let r ← less comp p.2.2 h x
    if r.1 then pure (.inl (h + 1, p.2.1, r.2)) else pure (.inl (p.1, h, r.2))
  else pure (.inr (p.1, p.2.2))

/-- Body of `for (k = a; k < e; k++) std::swap(arr[k], arr[k + 1]);` -/
def bubbleUpBody {α : Type} (e : Int) (p : Int × Mem α) : Res ((Int × Mem α) ⊕ Mem α) :=
  if p.1 < e then do
    let s ← swap p.2 p.1 (p.1 + 1)
    pure (.inl (p.1 + 1, s))
  else pure (.inr p.2)

/-- Body of `for (k = m; k > i; k--) std::swap(arr[k], arr[k - 1]);` -/
def bubbleDownBody {α : Type} (i : Int) (p : Int × Mem α) : Res ((Int × Mem α) ⊕ Mem α) :=
  if p.1 > i then do
    let s ← swap p.2 p.1 (p.1 - 1)
    pure (.inl (p.1 - 1, s))
  else pure (.inr p.2)

/-- Body of the search of the general case of `_sym_merge`:
`while (start < r) { c = (start + r) >> 1; if (comp(arr[c], arr[p - c])) start = c + 1; else r = c; }` -/
def symSearchBody {α : Type} (comp : α → α → Bool) (pp : Int) (p : Int × Int × Mem α) :
    Res ((Int × Int × Mem α) ⊕ (Int × Mem α)) :=
  if p.1 < p.2.1 then do
    let c := (p.1 + p.2.1) >>> (1 : Nat)
    let r ← less comp p.2.2 c (pp - c)
    if r.1 then pure (.inl (c + 1, p.2.1, r.2)) else pure (.inl (p.1, c, r.2))
  else pure (.inr (p.1, p.2.2))

/-- The recursion of `_sym_merge`; the first argument bounds the recursion depth. -/
def symMergeAux {α : Type} (comp : α → α → Bool) :
    Nat → Mem α → Int → Int → Int → Res (Mem α)
  | 0, _, _, _, _ => .timeout
  | f + 1, s, a, m, b =>
    if m - a = 1 then do
      let r ← iter (lowerBoundBody comp a) ((b - m).toNat + 1) (m, b, s)
      iter (bubbleUpBody (r.1 - 1)) ((b - a).toNat + 1) (a, r.2)
    else if b - m = 1 then do
      let r ← iter (lowerBoundBody comp m) ((m - a).toNat + 1) (a, m, s)
      iter (bubbleDownBody r.1) ((b - a).toNat + 1) (m, r.2)
    else do
      let mid := cdiv (a + b) 2
      let n := mid + m
      let sr : Int × Int := if m > mid then (n - b, mid) else (a, m)
      let p := n - 1
      let r ← iter (symSearchBody comp p) ((b - a).toNat + 1) (sr.1, sr.2, s)
      let start := r.1
      let e := n - start
      let s ← (if start < m ∧ m < e then rotate r.2 start m e else pure r.2)
      let s ← (if a < start ∧ start < mid then symMergeAux comp f s a start mid else pure s)
      if mid < e ∧ e < b then symMergeAux comp f s mid e b else pure s

/-- Source `_sym_merge(arr, a, m, b, comp)`. -/
def _sym_merge {α : Type} (comp : α → α → Bool) (s : Mem α) (a m b : Int) : Res (Mem α) :=
  symMergeAux comp ((b - a).toNat + 1) s a m b

/-- Body of the first loop of `_stable` (lines 389-393), loop state `(a, b, arr)`. -/
def stableBlocksBody {α : Type} (comp : α → α → Bool) (n blockSize : Int)
    (p : Int × Int × Mem α) : Res ((Int × Int × Mem α) ⊕ (Int × Mem α)) :=
  if p.2.1 ≤ n then do
    let s ← _insertion_sort comp p.2.2 p.1 p.2.1
    pure (.inl (p.2.1, p.2.1 + 2 * blockSize, s))
  else pure (.inr (p.1, p.2.2))

/-- Body of the inner loop of a merge pass of `_stable` (lines 399-403). -/
def stablePassBody {α : Type} (comp : α → α → Bool) (n blockSize : Int)
    (p : Int × Int × Mem α) : Res ((Int × Int × Mem α) ⊕ (Int × Mem α)) :=
  if p.2.1 ≤ n then do
    let s ← _sym_merge comp p.2.2 p.1 (p.1 + blockSize) p.2.1
    pure (.inl (p.2.1, p.2.1 + 2 * blockSize, s))
  else pure (.inr (p.1, p.2.2))

/-- Body of the outer loop of `_stable` (lines 396-407), loop state `(blockSize, arr)`. -/
def stableMergeBody {α : Type} (comp : α → α → Bool) (n : Int) (p : Int × Mem α) :
    Res ((Int × Mem α) ⊕ Mem α) :=
  let blockSize := p.1
  if blockSize < n then do
    let r ← iter (stablePassBody comp n blockSize) (n.toNat + 1) (0, 2 * blockSize, p.2)
    let a := r.1
    let m := a + blockSize
    let s ← (if m < n then _sym_merge comp r.2 a m n else pure r.2)
    pure (.inl (blockSize * 2, s))
  else pure (.inr p.2)

/-- Source `_stable(arr, n, comp)`. -/
def _stable {α : Type} (comp : α → α → Bool) (s : Mem α) (n : Int) : Res (Mem α) := do
  let blockSize : Int := 20
  let r ← iter (stableBlocksBody comp n blockSize) (n.toNat + 1) (0, blockSize, s)
  let s ← _insertion_sort comp r.2 r.1 n
  iter (stableMergeBody comp n) (n.toNat + 1) (blockSize, s)

/-- Source `sort_stable(first, last, comp)` on the sequence `l`. -/
def sort_stable {α : Type} (comp : α → α → Bool) (l : List α) : Res (Mem α) :=
  _stable comp (Mem.init l) (l.length : Int)


/-! ## Specification vocabulary -/

/-- A strict weak order: irreflexive, asymmetric, transitive, with a transitive
incomparability relation. -/
structure StrictWeak {α : Type} (comp : α → α → Bool) : Prop where
  irrefl : ∀ x, comp x x = false
  asymm : ∀ x y, comp x y = true → comp y x = false
  trans : ∀ x y z, comp x y = true → comp y z = true → comp x z = true
  incomp_trans : ∀ x y z, comp x y = false → comp y x = false →
    comp y z = false → comp z y = false → comp x z = false ∧ comp z x = false

/-- The range `[a, b)` of `l` is in non-decreasing order: no later element is less than an
earlier one. -/
def SortedOn {α : Type} (comp : α → α → Bool) (l : List α) (a b : Int) : Prop :=
  ∀ i j x y, a ≤ i → i < j → j < b → rd l i = some x → rd l j = some y → comp y x = false

/-- The sequence `l'` is obtained from `l` by finitely many exchanges of two positions of
`[a, b)`. -/
inductive Shuffle {α : Type} (a b : Int) : List α → List α → Prop where
  | refl (l : List α) : Shuffle a b l l
  | step (l l' : List α) (i j : Int) (x y : α) : a ≤ i → i < b → a ≤ j → j < b →
      rd l i = some x → rd l j = some y → Shuffle a b (swapL l i j x y) l' → Shuffle a b l l'

/-- The natural order of the naturals as a comparator (`std::less`). -/
def natLess (x y : Nat) : Bool := decide (x < y)

/-- Comparison of tagged keys by key only. -/
def keyLess (x y : Nat × Nat) : Bool := decide (x.1 < y.1)

/-- Where `swap_range(arr, a, b, n)` takes the element of position `k` from, for two
blocks `[a, a+n)` and `[b, b+n)` that do not overlap. -/
def swapIdx (a b n k : Int) : Int :=
  if a ≤ k ∧ k < a + n then k - a + b else if b ≤ k ∧ k < b + n then k - b + a else k

/-- Where `rotate(arr, a, m, b)` takes the element of position `k` from: `x u v y` becomes
`x v u y`. -/
def rotIdx (a m b k : Int) : Int :=
  if a ≤ k ∧ k < a + (b - m) then k + (m - a) else if a + (b - m) ≤ k ∧ k < b then k - (b - m)
  else k

/-- Where the loop `for (k = a; k < e; k++) swap(arr[k], arr[k+1])` takes the element of
position `k` from: the element of `a` travels to `e`, those in between move down by one. -/
def bubUpIdx (a e k : Int) : Int :=
  if a ≤ k ∧ k < e then k + 1 else if k = e ∧ a ≤ e then a else k

/-- Where the loop `for (k = m; k > i; k--) swap(arr[k], arr[k-1])` takes the element of
position `k` from: the element of `m` travels to `i`, those in between move up by one. -/
def bubDownIdx (i m k : Int) : Int :=
  if i < k ∧ k ≤ m then k - 1 else if k = i ∧ i ≤ m then m else k

/-- The tests made so far place `x` at or below the pivot value `p`: either `x < p` was
observed, or `p < x` was refuted. -/
def LeP {α : Type} (comp : α → α → Bool) (p x : α) : Prop :=
  comp x p = true ∨ comp p x = false

/-- The tests made so far place `x` at or above the pivot value `p`. -/
def GeP {α : Type} (comp : α → α → Bool) (p x : α) : Prop :=
  comp p x = true ∨ comp x p = false

/-- Every element of the range `[a, b)` of `l` satisfies `P`. -/
def AllOn {α : Type} (P : α → Prop) (l : List α) (a b : Int) : Prop :=
  ∀ k x, a ≤ k → k < b → rd l k = some x → P x

/-- In the heap stored at offset `first` with `hi` nodes, node `i` is not less than its
children `2i+1` and `2i+2` (those that exist). -/
def GoodParent {α : Type} (comp : α → α → Bool) (l : List α) (first hi i : Int) : Prop :=
  ∀ c x y, (c = 2 * i + 1 ∨ c = 2 * i + 2) → c < hi → rd l (first + i) = some x →
    rd l (first + c) = some y → comp x y = false

/-- A block-sorted input of length 41 with tagged keys: `[0, 20)` and `[20, 40)` each hold
the keys `0 .. 19` in order, the last block is the single key `5`; the tag is the input
position. -/
def blockSorted41 : List (Nat × Nat) :=
  (List.range 41).map (fun i => (if i < 20 then i else if i < 40 then i - 20 else 5, i))

/-- A sorted input of length 21 with tagged keys `0, 1, .., 19, 19`; the tag is the input
position. -/
def dupTail21 : List (Nat × Nat) :=
  (List.range 20).map (fun i => (i, i)) ++ [(19, 20)]

/-- The range `[a, b)` of a sequence, as a list. -/
def slice {α : Type} (l : List α) (a b : Int) : List α :=
  (l.take b.toNat).drop a.toNat

/-- One read `arr[i]` of an element into a local variable. -/
def load {α : Type} (s : Mem α) (i : Int) : Res α :=
  match rd s.arr i with
  | some x => .ok x
  | none => .oob

/-- One assignment `arr[i] = x`. -/
def store {α : Type} (s : Mem α) (i : Int) (x : α) : Res (Mem α) :=
  match rd s.arr i with
  | some _ => .ok { s with arr := s.arr.set i.toNat x }
  | none => .oob

/-- One comparator call on two values held in local variables. -/
def call {α : Type} (comp : α → α → Bool) (s : Mem α) (x y : α) : Bool × Mem α :=
  (comp x y, { s with comps := s.comps + 1 })

end gosort

/-! # `src/mayanimpl.hpp` : gnome sort, ternary heap sort, dual-pivot quicksort -/

namespace _impl
open gosort

/-- Body of the loop of `_inner_gnomeSort`, loop state `(i, a)`:
`while (i < n) { if (i == 0 || comp(a[i-1], a[i])) i++; else { swap(a[i], a[i-1]); i--; } }` -/
def gnomeBody {α : Type} (comp : α → α → Bool) (n : Int) (p : Int × Mem α) :
    Res ((Int × Mem α) ⊕ Mem α) :=
  if p.1 < n then
    if p.1 = 0 then pure (.inl (p.1 + 1, p.2))
    else do
      let r ← less comp p.2 (p.1 - 1) p.1
      if r.1 then pure (.inl (p.1 + 1, r.2))
      else do
        let s ← swap r.2 p.1 (p.1 - 1)
        pure (.inl (p.1 - 1, s))
  else pure (.inr p.2)

/-- Source `_inner_gnomeSort(a, n, comp)`.  The loop has no measure that decreases on every
input, so the number of iterations allowed is the first argument. -/
def _inner_gnomeSort {α : Type} (budget : Nat) (comp : α → α → Bool) (s : Mem α) (n : Int) :
    Res (Mem α) :=
  iter (gnomeBody comp n) budget (0, s)

/-- Source `gnome_sort(first, last, comp)` on the sequence `l`, run for at most `budget`
iterations of its loop. -/
def gnome_sort {α : Type} (budget : Nat) (comp : α → α → Bool) (l : List α) : Res (Mem α) :=
  _inner_gnomeSort budget comp (Mem.init l) (l.length : Int)

namespace _ternarysort

/-- One of the three tests of `_ternary_heapify`:
`if (c < n && comp(arr[largest], arr[c])) largest = c;` -/
def ternaryPick {α : Type} (comp : α → α → Bool) (s : Mem α) (n largest c : Int) :
    Res (Int × Mem α) :=
  if c < n then do
    let r ← less comp s largest c
    pure (if r.1 then c else largest, r.2)
  else pure (largest, s)

/-- The recursion of `_ternary_heapify`; the first argument bounds its depth. -/
def ternaryHeapifyAux {α : Type} (comp : α → α → Bool) : Nat → Mem α → Int → Int → Res (Mem α)
  | 0, _, _, _ => .timeout
  | f + 1, s, n, i => do
    let l := 3 * i + 1
    let m := 3 * i + 2
    let r := 3 * i + 3
    let q ← ternaryPick comp s n i l
    let q ← ternaryPick comp q.2 n q.1 m
    let q ← ternaryPick comp q.2 n q.1 r
    if q.1 ≠ i then do
      let s ← swap q.2 i q.1
      ternaryHeapifyAux comp f s n q.1
    else pure q.2

/-- Source `_ternary_heapify(arr, n, i, comp)`. -/
def _ternary_heapify {α : Type} (comp : α → α → Bool) (s : Mem α) (n i : Int) : Res (Mem α) :=
  ternaryHeapifyAux comp (n.toNat + 1) s n i

/-- Body of the heap construction loop of `_ternary_heapsort`:
`for (i = n / 3 - 1; i >= 0; i--) _ternary_heapify(arr, n, i, comp);` -/
def ternaryBuildBody {α : Type} (comp : α → α → Bool) (n : Int) (p : Int × Mem α) :
    Res ((Int × Mem α) ⊕ Mem α) :=
  if p.1 ≥ 0 then do
    let s ← _ternary_heapify comp p.2 n p.1
    pure (.inl (p.1 - 1, s))
  else pure (.inr p.2)

/-- Body of the extraction loop of `_ternary_heapsort`: `for (i = n - 1; i >= 0; i--)`. -/
def ternaryPopBody {α : Type} (comp : α → α → Bool) (p : Int × Mem α) :
    Res ((Int × Mem α) ⊕ Mem α) :=
  if p.1 ≥ 0 then do
    let s ← swap p.2 0 p.1
    let s ← _ternary_heapify comp s p.1 0
    pure (.inl (p.1 - 1, s))
  else pure (.inr p.2)

/-- Source `_ternary_heapsort(arr, n, comp)`. -/
def _ternary_heapsort {α : Type} (comp : α → α → Bool) (s : Mem α) (n : Int) : Res (Mem α) := do
  let s ← iter (ternaryBuildBody comp n) (n.toNat + 2) (cdiv n 3 - 1, s)
  iter (ternaryPopBody comp) (n.toNat + 2) (n - 1, s)

/-- Source `ternary_heap_sort(first, last, comp)` on the sequence `l`. -/
def ternary_heap_sort {α : Type} (comp : α → α → Bool) (l : List α) : Res (Mem α) :=
  _ternary_heapsort comp (Mem.init l) (l.length : Int)

end _ternarysort

namespace _dualsort

/-- Body of the inner loop of `_dual_partition`: `while (arr[g] > q && k < g) g--;`
(`gt` is `operator>` of the element type), loop state `(g, arr)`. -/
def dualSkipBody {α : Type} (gt : α → α → Bool) (q : α) (k : Int) (p : Int × Mem α) :
    Res ((Int × Mem α) ⊕ (Int × Mem α)) := do
  let x ← load p.2 p.1
  if gt x q && decide (k < p.1) then pure (.inl (p.1 - 1, p.2)) else pure (.inr p)

/-- Body of the main loop of `_dual_partition`, `while (k <= g)`, loop state
`(j, g, k, arr)`. -/
def dualMainBody {α : Type} (comp gt : α → α → Bool) (p q : α)
    (st : Int × Int × Int × Mem α) :
    Res ((Int × Int × Int × Mem α) ⊕ (Int × Int × Mem α)) :=
  let j := st.1
  let g := st.2.1
  let k := st.2.2.1
  let s := st.2.2.2
  if k ≤ g then do
    let x ← load s k
    let c := call comp s x p
    if c.1 then do
      let s ← swap c.2 k j
      pure (.inl (j + 1, g, k + 1, s))
    else do
      let y ← load c.2 k
      let c2 := call comp c.2 q y
      if c2.1 then do
        let r ← iter (dualSkipBody gt q k) ((g - k).toNat + 1) (g, c2.2)
        let s ← swap r.2 k r.1
        let g := r.1 - 1
        let z ← load s k
        let c3 := call comp s z p
        if c3.1 then do
          let s ← swap c3.2 k j
          pure (.inl (j + 1, g, k + 1, s))
        else pure (.inl (j, g, k + 1, c3.2))
      else pure (.inl (j, g, k + 1, c2.2))
  else pure (.inr (j, g, s))

/-- Source `_dual_partition(arr, low, high, &lp, comp)`; yields `(arr, lp, rp)`, `rp` being
the returned value. -/
def _dual_partition {α : Type} (comp gt : α → α → Bool) (s : Mem α) (low high : Int) :
    Res (Mem α × Int × Int) := do
  let x ← load s low
  let y ← load s high
  let s ← (if gt x y then swap s low high else pure s)
  let p ← load s low
  let q ← load s high
  let r ← iter (dualMainBody comp gt p q) ((high - low).toNat + 1)
    (low + 1, high - 1, low + 1, s)
  let j := r.1 - 1
  let g := r.2.1 + 1
  let s ← swap r.2.2 low j
  let s ← swap s high g
  pure (s, j, g)

/-- The recursion of `_dual_sort`; the first argument bounds its depth. -/
def dualSortAux {α : Type} (comp gt : α → α → Bool) : Nat → Mem α → Int → Int → Res (Mem α)
  | 0, _, _, _ => .timeout
  | f + 1, s, low, high =>
    if low < high then do
      let r ← _dual_partition comp gt s low high
      let lp := r.2.1
      let rp := r.2.2
      let s ← dualSortAux comp gt f r.1 low (lp - 1)
      let s ← dualSortAux comp gt f s (lp + 1) (rp - 1)
      dualSortAux comp gt f s (rp + 1) high
    else pure s

/-- Source `_dual_sort(arr, low, high, comp)`; `high` is an inclusive bound. -/
def _dual_sort {α : Type} (comp gt : α → α → Bool) (s : Mem α) (low high : Int) :
    Res (Mem α) :=
  dualSortAux comp gt ((high - low).toNat + 1) s low high

/-- Source `dqsort(first, last, comp)` on the sequence `l`: it calls
`_dual_sort(first, 0, std::distance(first, last), comp)`. -/
def dqsort {α : Type} (comp gt : α → α → Bool) (l : List α) : Res (Mem α) :=
  _dual_sort comp gt (Mem.init l) 0 (l.length : Int)

end _dualsort
end _impl

/-! # `src/aroot.hpp` : ARoot sort -/

namespace ksb
open gosort

/-- Body of the loop of `_array_reverse`:
`for (iterator = start; iterator < middle; ++iterator) swap(array[iterator], array[temp - iterator]);` -/
def arrayReverseBody {α : Type} (temp middle : Int) (p : Int × Mem α) :
    Res ((Int × Mem α) ⊕ Mem α) :=
  if p.1 < middle then do
    let s ← swap p.2 p.1 (temp - p.1)
    pure (.inl (p.1 + 1, s))
  else pure (.inr p.2)

/-- Source `_array_reverse(array, start, end)`. -/
def _array_reverse {α : Type} (s : Mem α) (start end_ : Int) : Res (Mem α) :=
  let middle := start + cdiv (end_ - start) 2
  let temp := start + end_ - 1
  iter (arrayReverseBody temp middle) ((end_ - start).toNat + 1) (start, s)

/-- Body of the copy loop of `_merge`: `temp_array[iterator] = array[start + iterator]`;
the buffer is filled front to back, loop state `(iterator, temp_array)`. -/
def mergeCopyBody {α : Type} (s : Mem α) (start size : Int) (p : Int × List α) :
    Res ((Int × List α) ⊕ List α) :=
  if p.1 < size then do
    let x ← load s (start + p.1)
    pure (.inl (p.1 + 1, p.2 ++ [x]))
  else pure (.inr p.2)

/-- One read `temp_array[i]` of the buffer of `_merge`. -/
def loadTemp {α : Type} (temp : List α) (i : Int) : Res α :=
  match rd temp i with
  | some x => .ok x
  | none => .oob

/-- Body of the main loop of `_merge`, loop state
`(temp_array_iterator, second_array_iterator, array_iterator, array)`. -/
def mergeMainBody {α : Type} (comp : α → α → Bool) (temp : List α) (size end_ : Int)
    (p : Int × Int × Int × Mem α) :
    Res ((Int × Int × Int × Mem α) ⊕ (Int × Int × Int × Mem α)) :=
  let t := p.1
  let u := p.2.1
  let a := p.2.2.1
  let s := p.2.2.2
  if t < size ∧ u < end_ then do
    let x ← loadTemp temp t
    let y ← load s u
    let c := call comp s x y
    if c.1 then do
      let s ← store c.2 a x
      pure (.inl (t + 1, u, a + 1, s))
    else do
      let s ← store c.2 a y
      pure (.inl (t, u + 1, a + 1, s))
  else pure (.inr p)

/-- Body of the final loop of `_merge`, `while (temp_array_iterator < first_array_size)`,
loop state `(temp_array_iterator, array_iterator, array)`. -/
def mergeDrainBody {α : Type} (temp : List α) (size : Int) (p : Int × Int × Mem α) :
    Res ((Int × Int × Mem α) ⊕ Mem α) :=
  if p.1 < size then do
    let x ← loadTemp temp p.1
    let s ← store p.2.2 p.2.1 x
    pure (.inl (p.1 + 1, p.2.1 + 1, s))
  else pure (.inr p.2.2)

/-- Source `_merge(array, start, middle, end, comp)`. -/
def _merge {α : Type} (comp : α → α → Bool) (s : Mem α) (start middle end_ : Int) :
    Res (Mem α) := do
  let first_array_size := middle - start
  let temp ← iter (mergeCopyBody s start first_array_size) (first_array_size.toNat + 1) (0, [])
  let r ← iter (mergeMainBody comp temp first_array_size end_) ((end_ - start).toNat + 1)
    (0, middle, start, s)
  iter (mergeDrainBody temp first_array_size) (first_array_size.toNat + 1)
    (r.1, r.2.2.1, r.2.2.2)

/-- Body of the run scans of `_merge_mostly_sorted` and `_merge_less_started`:
`while ((x < end) && !comp(array[x], array[x - 1])) x++;` -/
def runScanBody {α : Type} (comp : α → α → Bool) (end_ : Int) (p : Int × Mem α) :
    Res ((Int × Mem α) ⊕ (Int × Mem α)) :=
  if p.1 < end_ then do
    let r ← less comp p.2 p.1 (p.1 - 1)
    if !r.1 then pure (.inl (p.1 + 1, r.2)) else pure (.inr (p.1, r.2))
  else pure (.inr p)

/-- Body of the `while (true)` loop of `_merge_mostly_sorted`, loop state
`(merge_iterator_start, merge_iterator_middle, merge_iterator_end, isMerge,
number_of_sorted_subarray, array)`. -/
def mostlySortedBody {α : Type} (comp : α → α → Bool) (start end_ : Int)
    (p : Int × Int × Int × Bool × Int × Mem α) :
    Res ((Int × Int × Int × Bool × Int × Mem α) ⊕ Mem α) := do
  let ms := p.1
  let mm := p.2.1
  let me := p.2.2.1
  let isMerge := p.2.2.2.1
  let cnt := p.2.2.2.2.1
  let r ← iter (runScanBody comp end_) ((end_ - me).toNat + 1) (me, p.2.2.2.2.2)
  let me := r.1
  if isMerge then do
    let s ← _merge comp r.2 ms mm me
    pure (.inl (me, mm, me + 1, false, cnt, s))
  else
    let mm := me
    let cnt := cnt + 1
    if mm ≥ end_ then
      if cnt < 2 then pure (.inr r.2)
      else pure (.inl (start, start, start + 1, false, 0, r.2))
    else pure (.inl (ms, mm, me + 1, true, cnt, r.2))

/-- Source `_merge_mostly_sorted(array, start, end, comp)`. -/
def _merge_mostly_sorted {α : Type} (comp : α → α → Bool) (s : Mem α) (start end_ : Int) :
    Res (Mem α) :=
  iter (mostlySortedBody comp start end_)
    (((end_ - start).toNat + 2) * ((end_ - start).toNat + 2))
    (start, start, start + 1, false, 0, s)

/-- Body of the `for` loop of `_merge_less_started` that records the end points of the
sorted runs, loop state `(iterator, sorted_subarray_end_points, array)`. -/
def endPointsBody {α : Type} (comp : α → α → Bool) (end_ : Int) (p : Int × List Int × Mem α) :
    Res ((Int × List Int × Mem α) ⊕ (List Int × Mem α)) :=
  if p.1 < end_ then do
    let r ← iter (runScanBody comp end_) ((end_ - p.1).toNat + 1) (p.1, p.2.2)
    pure (.inl (r.1 + 1, p.2.1 ++ [r.1], r.2))
  else pure (.inr (p.2.1, p.2.2))

/-- One read `sorted_subarray_end_points[i]`. -/
def loadPoint (pts : List Int) (i : Int) : Res Int :=
  match rd pts i with
  | some x => .ok x
  | none => .oob

/-- Body of the inner loop of `_merge_less_started`,
`while (merge_iterator_middle < number_of_sorted_subarray)`, loop state
`(merge_iterator_start, merge_iterator_middle, merge_iterator_end, array)`. -/
def lessStartedPassBody {α : Type} (comp : α → α → Bool) (pts : List Int) (step number : Int)
    (p : Int × Int × Int × Mem α) : Res ((Int × Int × Int × Mem α) ⊕ Mem α) :=
  if p.2.1 < number then do
    let a ← loadPoint pts p.1
    let b ← loadPoint pts p.2.1
    let c ← loadPoint pts p.2.2.1
    let s ← _merge comp p.2.2.2 a b c
    let ms := p.2.2.1
    let mm := ms + step
    pure (.inl (ms, mm, min (mm + step) number, s))
  else pure (.inr p.2.2.2)

/-- Body of the `while (true)` loop of `_merge_less_started`, loop state
`(step_counter, array)`. -/
def lessStartedBody {α : Type} (comp : α → α → Bool) (pts : List Int) (number : Int)
    (p : Int × Mem α) : Res ((Int × Mem α) ⊕ Mem α) :=
  let step := p.1
  let ms : Int := 0
  let mm := ms + step
  let me := min (mm + step) number
  if mm ≥ number then pure (.inr p.2)
  else do
    let s ← iter (lessStartedPassBody comp pts step number) (number.toNat + 1) (ms, mm, me, p.2)
    pure (.inl (step * 2, s))

/-- Source `_merge_less_started(array, start, end, comp)`. -/
def _merge_less_started {α : Type} (comp : α → α → Bool) (s : Mem α) (start end_ : Int) :
    Res (Mem α) := do
  let r ← iter (endPointsBody comp end_) ((end_ - start).toNat + 1) (start + 1, [0], s)
  let last ← loadPoint r.1 ((r.1.length : Int) - 1)
  let pts := if last ≠ end_ then r.1 ++ [end_] else r.1
  let number : Int := (pts.length : Int) - 1
  iter (lessStartedBody comp pts number) (number.toNat + 2) (1, r.2)

/-- Body of the `for` loop of `_aroot_sort_loop` that reverses the non-increasing runs, loop
state `(iterator, array_iterator_1, array_iterator_2, number_of_decreasing_subarray, array)`. -/
def descScanBody {α : Type} (comp : α → α → Bool) (end_ : Int) (p : Int × Mem α) :
    Res ((Int × Mem α) ⊕ (Int × Mem α)) :=
  if p.1 < end_ then do
    let r ← less comp p.2 (p.1 - 1) p.1
    if !r.1 then pure (.inl (p.1 + 1, r.2)) else pure (.inr (p.1, r.2))
  else pure (.inr p)

/-- Body of the `for` loop of `_aroot_sort_loop`, loop state `(iterator, array_iterator_1,
array_iterator_2, number_of_decreasing_subarray, array)`. -/
def reverseRunsBody {α : Type} (comp : α → α → Bool) (end_ : Int)
    (p : Int × Int × Int × Int × Mem α) :
    Res ((Int × Int × Int × Int × Mem α) ⊕ (Int × Mem α)) :=
  let it := p.1
  let i1 := p.2.1
  let i2 := p.2.2.1
  let cnt := p.2.2.2.1
  if it < end_ then do
    let r ← iter (descScanBody comp end_) ((end_ - i2).toNat + 1) (i2, p.2.2.2.2)
    let i2 := r.1
    if i2 - i1 > 1 then do
      let s ← _array_reverse r.2 i1 i2
      pure (.inl (it + 1, i2, i2, cnt + 1, s))
    else pure (.inl (it + 1, i2, i2, cnt, r.2))
  else pure (.inr (cnt, p.2.2.2.2))

/-- The run-reversing `for` loop of `_aroot_sort_loop`; yields
`(number_of_decreasing_subarray, array)`. -/
def reverseRuns {α : Type} (comp : α → α → Bool) (s : Mem α) (start end_ : Int) :
    Res (Int × Mem α) :=
  iter (reverseRunsBody comp end_) ((end_ - start).toNat + 1) (start + 1, 0, start + 1, 0, s)

/-- Source `_aroot_sort_loop(array, start, end, comp)`.  The value
`optimal_near_sorted_parameter = (Size)(std::log(end - start) / std::log(2))` is computed in
floating point by the source; here it is the argument `par`. -/
def _aroot_sort_loop {α : Type} (par : Int) (comp : α → α → Bool) (s : Mem α)
    (start end_ : Int) : Res (Mem α) := do
  let r ← reverseRuns comp s start end_
  if r.1 ≤ par then _merge_mostly_sorted comp r.2 start end_
  else _merge_less_started comp r.2 start end_

/-- Source `aroot_sort(first, last, comp)` on the sequence `l`. -/
def aroot_sort {α : Type} (par : Int) (comp : α → α → Bool) (l : List α) : Res (Mem α) :=
  _aroot_sort_loop par comp (Mem.init l) 0 (l.length : Int)

end ksb

namespace gosort



/-- Equivalence with `p` under the comparator: neither is less than the other. -/
def eqv {α : Type} (comp : α → α → Bool) (p x : α) : Bool :=
  !comp x p && !comp p x



/-- Lines 106-112 of `_do_pivot`: Tukey's ninther, for ranges of more than 40 elements. -/
def pivotNinther {α : Type} (comp : α → α → Bool) (s : Mem α) (lo hi : Int) : Res (Mem α) :=
  let m := (lo + hi) >>> (1 : Nat)
  if hi - lo > 40 then do
    let t := cdiv (hi - lo) 8
    let s ← _median_of_3 comp s lo (lo + t) (lo + 2 * t)
    let s ← _median_of_3 comp s m (m - t) (m + t)
    _median_of_3 comp s (hi - 1) (hi - 1 - t) (hi - 1 - 2 * t)
  else pure s

/-- Lines 105-114 of `_do_pivot`: the pivot selection, which ends with
`_median_of_3(arr, lo, m, hi - 1, comp)`. -/
def pivotSelect {α : Type} (comp : α → α → Bool) (s : Mem α) (lo hi : Int) : Res (Mem α) := do
  let s ← pivotNinther comp s lo hi
  _median_of_3 comp s lo ((lo + hi) >>> (1 : Nat)) (hi - 1)

/-- Lines 105-135 of `_do_pivot`, up to the exit of the main partition loop; yields
`(a, b, c, arr)`. -/
def pivotPartition {α : Type} (comp : α → α → Bool) (s : Mem α) (lo hi : Int) :
    Res (Int × Int × Int × Mem α) := do
  let s ← pivotSelect comp s lo hi
  let ra ← scanUp comp s lo (hi - 1) (lo + 1)
  let rm ← iter (pivotMainBody comp lo) ((hi - lo).toNat + 1) (ra.1, hi - 1, ra.2)
  pure (ra.1, rm.1, rm.2.1, rm.2.2)

/-- Lines 137-162 of `_do_pivot`: the decision to run the protected pass, from the state
`(b, c, arr)` at the exit of the main loop; yields `(b, c, protect, arr)`. -/
def pivotSample {α : Type} (comp : α → α → Bool) (s : Mem α) (lo hi b c : Int) :
    Res (Int × Int × Bool × Mem α) :=
  let m := (lo + hi) >>> (1 : Nat)
  let protect := decide (hi - c < 5)
  if !protect && decide (hi - c < cdiv (hi - lo) 4) then do
    let t ← pivotDups comp s lo m hi b c
    pure (t.1, t.2.1, decide (t.2.2.1 > 1), t.2.2.2)
  else pure (b, c, protect, s)

/-- Lines 164-185 of `_do_pivot`: the protected pass, if `protect` is set, and the exchange
that puts the pivot in the middle; yields `(arr, midlo, midhi)`. -/
def pivotFinish {α : Type} (comp : α → α → Bool) (s : Mem α) (lo hi a b c : Int)
    ( protect : Bool) : Res (Mem α × Int × Int) := do
  let rp ← (if protect then do
      let t ← iter (pivotProtectBody comp lo) ((hi - lo).toNat + 1) (a, b, s)
      pure (t.2.1, t.2.2)
    else pure (b, s) : Res (Int × Mem α))
  let s ← swap rp.2 lo (rp.1 - 1)
  pure (s, rp.1 - 1, c)





/-- The loop and the recursion of `_quick_sort_loop` (as `quickSortLoopAux`) with three
ghost values that the source does not compute; yields `(arr, steps, depth, halved)`:
`steps` is the largest number of `_do_pivot` applications along a chain of nested and
iterated partition steps, `depth` the largest nesting of recursive calls, and `halved` tells
that every recursive call was on a sub-range of at most half the length of the active range
it was made on. -/
def quickSortLoopTrace {α : Type} (comp : α → α → Bool) :
    Nat → Mem α → Int → Int → Int → Res (Mem α × Nat × Nat × Bool)
  | 0, _, _, _, _ => .timeout
  | f + 1, s, a, b, maxDepth =>
    if b - a > 12 then
      if maxDepth = 0 then do
        let s ← _heap_sort comp s a b
        pure (s, 0, 0, true)
      else do
        let maxDepth := maxDepth - 1
        let r ← _do_pivot comp s a b
        let mlo := r.2.1
        let mhi := r.2.2
        if mlo - a < b - mhi then do
          let t ← quickSortLoopTrace comp f r.1 a mlo maxDepth
          let u ← quickSortLoopTrace comp f t.1 mhi b maxDepth
          pure (u.1, 1 + max t.2.1 u.2.1, max (1 + t.2.2.1) u.2.2.1,
            decide (2 * (mlo - a) ≤ b - a) && t.2.2.2 && u.2.2.2)
        else do
          let t ← quickSortLoopTrace comp f r.1 mhi b maxDepth
          let u ← quickSortLoopTrace comp f t.1 a mlo maxDepth
          pure (u.1, 1 + max t.2.1 u.2.1, max (1 + t.2.2.1) u.2.2.1,
            decide (2 * (b - mhi) ≤ b - a) && t.2.2.2 && u.2.2.2)
    else if b - a > 1 then do
      let s ← _shell_sort comp s a b
      let s ← _insertion_sort comp s a b
      pure (s, 0, 0, true)
    else pure (s, 0, 0, true)



/-- Lines 386-394 of `_stable`: the insertion phase. -/
def stableBlocks {α : Type} (comp : α → α → Bool) (s : Mem α) (n : Int) : Res (Mem α) := do
  let blockSize : Int := 20
  let r ← iter (stableBlocksBody comp n blockSize) (n.toNat + 1) (0, blockSize, s)
  _insertion_sort comp r.2 r.1 n

/-- An input of length 41 for the insertion phase: `1, 2, .., 40, 0`. -/
def lastSmallest41 : List Nat := (List.range 40).map (fun i => i + 1) ++ [0]

/-- Lines 359-379 of `_sym_merge`: the general case up to and including the rotation; yields
`(mid, start, end, arr)`. -/
def symMergeSplit {α : Type} (comp : α → α → Bool) (s : Mem α) (a m b : Int) :
    Res (Int × Int × Int × Mem α) := do
  let mid := cdiv (a + b) 2
  let n := mid + m
  let sr : Int × Int := if m > mid then (n - b, mid) else (a, m)
  let p := n - 1
  let r ← iter (symSearchBody comp p) ((b - a).toNat + 1) (sr.1, sr.2, s)
  let start := r.1
  let e := n - start
  let s ← (if start < m ∧ m < e then rotate r.2 start m e else pure r.2)
  pure (mid, start, e, s)

/-- The recursion of `_sym_merge` (as `symMergeAux`, its general case through
`symMergeSplit`) with two ghost values that the source does not compute; yields
`(arr, depth, nondeg)`: `depth` is the largest number of nested calls of `_sym_merge`, this
one included, and `nondeg` tells that this call, every recursive call below it and every call
of `rotate` they make (made exactly when `start < m && m < end`) had arguments
`0 ≤ a < m < b ≤ n`, `n` the length of the sequence. -/
def symMergeTrace {α : Type} (comp : α → α → Bool) :
    Nat → Mem α → Int → Int → Int → Res (Mem α × Nat × Bool)
  | 0, _, _, _, _ => .timeout
  | f + 1, s, a, m, b =>
    let here := decide (0 ≤ a ∧ a < m ∧ m < b ∧ b ≤ s.arr.length)
    if m - a = 1 then do
      let r ← iter (lowerBoundBody comp a) ((b - m).toNat + 1) (m, b, s)
      let s ← iter (bubbleUpBody (r.1 - 1)) ((b - a).toNat + 1) (a, r.2)
      pure (s, 1, here)
    else if b - m = 1 then do
      let r ← iter (lowerBoundBody comp m) ((m - a).toNat + 1) (a, m, s)
      let s ← iter (bubbleDownBody r.1) ((b - a).toNat + 1) (m, r.2)
      pure (s, 1, here)
    else do
      let q ← symMergeSplit comp s a m b
      let mid := q.1
      let start := q.2.1
      let e := q.2.2.1
      let rot := decide (start < m ∧ m < e → 0 ≤ start ∧ e ≤ s.arr.length)
      let t ← (if a < start ∧ start < mid then symMergeTrace comp f q.2.2.2 a start mid
        else pure (q.2.2.2, 0, true))
      let u ← (if mid < e ∧ e < b then symMergeTrace comp f t.1 mid e b
        else pure (t.1, 0, true))
      pure (u.1, 1 + max t.2.1 u.2.1, here && rot && t.2.2 && u.2.2)

/-- The inner loop of a merge pass of `_stable` (as `stablePassBody`) with the ghost flag of
`symMergeTrace`, loop state `(a, b, arr, nondeg)`. -/
def stablePassTraceBody {α : Type} (comp : α → α → Bool) (n blockSize : Int)
    (p : Int × Int × Mem α × Bool) :
    Res ((Int × Int × Mem α × Bool) ⊕ (Int × Mem α × Bool)) :=
  if p.2.1 ≤ n then do
    let t ← symMergeTrace comp ((p.2.1 - p.1).toNat + 1) p.2.2.1 p.1 (p.1 + blockSize) p.2.1
    pure (.inl (p.2.1, p.2.1 + 2 * blockSize, t.1, p.2.2.2 && t.2.2))
  else pure (.inr (p.1, p.2.2.1, p.2.2.2))

/-- The outer loop of `_stable` (as `stableMergeBody`) with the ghost flag, loop state
`(blockSize, arr, nondeg)`. -/
def stableMergeTraceBody {α : Type} (comp : α → α → Bool) (n : Int) (p : Int × Mem α × Bool) :
    Res ((Int × Mem α × Bool) ⊕ (Mem α × Bool)) :=
  let blockSize := p.1
  if blockSize < n then do
    let r ← iter (stablePassTraceBody comp n blockSize) (n.toNat + 1)
      (0, 2 * blockSize, p.2.1, p.2.2)
    let a := r.1
    let m := a + blockSize
    let t ← (if m < n then do
        let t ← symMergeTrace comp ((n - a).toNat + 1) r.2.1 a m n
        pure (t.1, r.2.2 && t.2.2)
      else pure (r.2.1, r.2.2) : Res (Mem α × Bool))
    pure (.inl (blockSize * 2, t.1, t.2))
  else pure (.inr (p.2.1, p.2.2))

/-- The function `_stable` with the ghost flag: `true` when every call of `_sym_merge` it
makes, every recursive call of `_sym_merge` and every call of `rotate` had non-degenerate
arguments inside the sequence. -/
def stableTrace {α : Type} (comp : α → α → Bool) (s : Mem α) (n : Int) : Res (Mem α × Bool) := do
  let t ← stableBlocks comp s n
  iter (stableMergeTraceBody comp n) (n.toNat + 1) (20, t, true)

/-! ### The unstable engine with ghost counters of self-swaps

The definitions below repeat the routines of the unstable engine on a state
`(arr, extract, other)` that carries two ghost counters the source does not compute:
`extract` counts the calls `std::swap(arr[i], arr[j])` with `i = j` made by the extraction
loop of `_heap_sort`, `other` those made by `_insertion_sort`, `_shell_sort`, `_median_of_3`
and `_heap_sift`.  The swaps that `_do_pivot` makes itself (partition loops, duplicate tests,
final exchange) are not counted. -/

/-- One call `std::swap(arr[i], arr[j])` outside the extraction loop, counted in `other`
when `i = j`. -/
def swapOther {α : Type} (p : Mem α × Nat × Nat) (i j : Int) : Res (Mem α × Nat × Nat) := do
  let s ← swap p.1 i j
  pure (s, p.2.1, p.2.2 + (if i = j then 1 else 0))

/-- One call `std::swap(arr[i], arr[j])` of the extraction loop of `_heap_sort`, counted in
`extract` when `i = j`. -/
def swapExtract {α : Type} (p : Mem α × Nat × Nat) (i j : Int) : Res (Mem α × Nat × Nat) := do
  let s ← swap p.1 i j
  pure (s, p.2.1 + (if i = j then 1 else 0), p.2.2)

/-- As `insInnerBody`, with the ghost counters. -/
def insInnerSelfBody {α : Type} (comp : α → α → Bool) (a : Int)
    (p : Int × Mem α × Nat × Nat) :
    Res ((Int × Mem α × Nat × Nat) ⊕ (Mem α × Nat × Nat)) :=
  if p.1 > a then do
    let r ← less comp p.2.1 p.1 (p.1 - 1)
    if r.1 then do
      let s ← swapOther (r.2, p.2.2) p.1 (p.1 - 1)
      pure (.inl (p.1 - 1, s))
    else pure (.inr (r.2, p.2.2))
  else pure (.inr p.2)

/-- As `insInner`, with the ghost counters. -/
def insInnerSelf {α : Type} (comp : α → α → Bool) (a : Int) (i : Int)
    (p : Mem α × Nat × Nat) : Res (Mem α × Nat × Nat) :=
  iter (insInnerSelfBody comp a) ((i - a).toNat + 1) (i, p)

/-- As `insOuterBody`, with the ghost counters. -/
def insOuterSelfBody {α : Type} (comp : α → α → Bool) (a b : Int)
    (p : Int × Mem α × Nat × Nat) :
    Res ((Int × Mem α × Nat × Nat) ⊕ (Mem α × Nat × Nat)) :=
  if p.1 < b then do
    let s ← insInnerSelf comp a p.1 p.2
    pure (.inl (p.1 + 1, s))
  else pure (.inr p.2)

/-- As `_insertion_sort`, with the ghost counters. -/
def insertionSortSelf {α : Type} (comp : α → α → Bool) (p : Mem α × Nat × Nat) (a b : Int) :
    Res (Mem α × Nat × Nat) :=
  iter (insOuterSelfBody comp a b) ((b - a).toNat + 1) (a + 1, p)

/-- As `heapSiftBody`, with the ghost counters. -/
def heapSiftSelfBody {α : Type} (comp : α → α → Bool) (hi first : Int)
    (p : Int × Mem α × Nat × Nat) :
    Res ((Int × Mem α × Nat × Nat) ⊕ (Mem α × Nat × Nat)) :=
  let child := 2 * p.1 + 1
  if child ≥ hi then pure (.inr p.2)
  else do
    let q ← (if child + 1 < hi then do
        let r ← less comp p.2.1 (first + child) (first + child + 1)
        pure (if r.1 then child + 1 else child, r.2)
      else pure (child, p.2.1))
    let r ← less comp q.2 (first + q.1) (first + p.1)
    if r.1 then pure (.inr (r.2, p.2.2))
    else do
      let s ← swapOther (r.2, p.2.2) (first + p.1) (first + q.1)
      pure (.inl (q.1, s))

/-- As `_heap_sift`, with the ghost counters. -/
def heapSiftSelf {α : Type} (comp : α → α → Bool) (p : Mem α × Nat × Nat)
    (lo hi first : Int) : Res (Mem α × Nat × Nat) :=
  iter (heapSiftSelfBody comp hi first) ((hi - lo).toNat + 1) (lo, p)

/-- As `heapBuildBody`, with the ghost counters. -/
def heapBuildSelfBody {α : Type} (comp : α → α → Bool) (hi first : Int)
    (p : Int × Mem α × Nat × Nat) :
    Res ((Int × Mem α × Nat × Nat) ⊕ (Mem α × Nat × Nat)) :=
  if p.1 ≥ 0 then do
    let s ← heapSiftSelf comp p.2 p.1 hi first
    pure (.inl (p.1 - 1, s))
  else pure (.inr p.2)

/-- As `heapPopBody`, with the ghost counters: the swap of the extraction loop is counted
in `extract`. -/
def heapPopSelfBody {α : Type} (comp : α → α → Bool) (lo first : Int)
    (p : Int × Mem α × Nat × Nat) :
    Res ((Int × Mem α × Nat × Nat) ⊕ (Mem α × Nat × Nat)) :=
  if p.1 ≥ 0 then do
    let s ← swapExtract p.2 first (first + p.1)
    let s ← heapSiftSelf comp s lo p.1 first
    pure (.inl (p.1 - 1, s))
  else pure (.inr p.2)

/-- As `_heap_sort`, with the ghost counters. -/
def heapSortSelf {α : Type} (comp : α → α → Bool) (p : Mem α × Nat × Nat) (a b : Int) :
    Res (Mem α × Nat × Nat) :=
  let first := a
  let lo := 0
  let hi := b - a
  do
    let s ← iter (heapBuildSelfBody comp hi first) (hi.toNat + 2) (cdiv (hi - 1) 2, p)
    iter (heapPopSelfBody comp lo first) (hi.toNat + 2) (hi - 1, s)

/-- As `_median_of_3`, with the ghost counters. -/
def medianOf3Self {α : Type} (comp : α → α → Bool) (p : Mem α × Nat × Nat) (m1 m0 m2 : Int) :
    Res (Mem α × Nat × Nat) := do
  let r ← less comp p.1 m1 m0
  let p ← (if r.1 then swapOther (r.2, p.2) m1 m0 else pure (r.2, p.2))
  let r ← less comp p.1 m2 m1
  if r.1 then do
    let p ← swapOther (r.2, p.2) m2 m1
    let r ← less comp p.1 m1 m0
    if r.1 then swapOther (r.2, p.2) m1 m0 else pure (r.2, p.2)
  else pure (r.2, p.2)

/-- As `pivotSelect`, with the ghost counters. -/
def pivotSelectSelf {α : Type} (comp : α → α → Bool) (p : Mem α × Nat × Nat) (lo hi : Int) :
    Res (Mem α × Nat × Nat) := do
  let m := (lo + hi) >>> (1 : Nat)
  let p ← (if hi - lo > 40 then do
      let t := cdiv (hi - lo) 8
      let p ← medianOf3Self comp p lo (lo + t) (lo + 2 * t)
      let p ← medianOf3Self comp p m (m - t) (m + t)
      medianOf3Self comp p (hi - 1) (hi - 1 - t) (hi - 1 - 2 * t)
    else pure p)
  medianOf3Self comp p lo m (hi - 1)

/-- As `_do_pivot`, with the ghost counters; only the swaps of its calls of `_median_of_3`
are counted, the rest is the code of `_do_pivot` after the pivot selection. -/
def doPivotSelf {α : Type} (comp : α → α → Bool) (p : Mem α × Nat × Nat) (lo hi : Int) :
    Res ((Mem α × Nat × Nat) × Int × Int) := do
  let p1 ← pivotSelectSelf comp p lo hi
  let ra ← scanUp comp p1.1 lo (hi - 1) (lo + 1)
  let rm ← iter (pivotMainBody comp lo) ((hi - lo).toNat + 1) (ra.1, hi - 1, ra.2)
  let q ← pivotSample comp rm.2.2 lo hi rm.1 rm.2.1
  let r ← pivotFinish comp q.2.2.2 lo hi ra.1 q.1 q.2.1 q.2.2.1
  pure ((r.1, p1.2), r.2.1, r.2.2)

/-- As `shellBody`, with the ghost counters. -/
def shellSelfBody {α : Type} (comp : α → α → Bool) (b : Int) (p : Int × Mem α × Nat × Nat) :
    Res ((Int × Mem α × Nat × Nat) ⊕ (Mem α × Nat × Nat)) :=
  if p.1 < b then do
    let r ← less comp p.2.1 p.1 (p.1 - 6)
    let s ← (if r.1 then swapOther (r.2, p.2.2) p.1 (p.1 - 6) else pure (r.2, p.2.2))
    pure (.inl (p.1 + 1, s))
  else pure (.inr p.2)

/-- As `_shell_sort`, with the ghost counters. -/
def shellSortSelf {α : Type} (comp : α → α → Bool) (p : Mem α × Nat × Nat) (a b : Int) :
    Res (Mem α × Nat × Nat) :=
  iter (shellSelfBody comp b) ((b - a).toNat + 1) (a + 6, p)

/-- As `quickSortLoopAux`, with the ghost counters. -/
def quickSortLoopSelf {α : Type} (comp : α → α → Bool) :
    Nat → Mem α × Nat × Nat → Int → Int → Int → Res (Mem α × Nat × Nat)
  | 0, _, _, _, _ => .timeout
  | f + 1, p, a, b, maxDepth =>
    if b - a > 12 then
      if maxDepth = 0 then heapSortSelf comp p a b
      else do
        let maxDepth := maxDepth - 1
        let r ← doPivotSelf comp p a b
        let mlo := r.2.1
        let mhi := r.2.2
        if mlo - a < b - mhi then do
          let p ← quickSortLoopSelf comp f r.1 a mlo maxDepth
          quickSortLoopSelf comp f p mhi b maxDepth
        else do
          let p ← quickSortLoopSelf comp f r.1 mhi b maxDepth
          quickSortLoopSelf comp f p a mlo maxDepth
    else if b - a > 1 then do
      let p ← shellSortSelf comp p a b
      insertionSortSelf comp p a b
    else pure p

/-- As `sort_unstable`, with the ghost counters started at `0`; yields
`(arr, extract, other)`. -/
def sortUnstableSelf {α : Type} (comp : α → α → Bool) (l : List α) :
    Res (Mem α × Nat × Nat) := do
  let sz : Int := l.length
  let d ← _max_depth sz
  quickSortLoopSelf comp ((sz - 0).toNat + 1) (Mem.init l, 0, 0) 0 sz d

/-- An input of 37 distinct values on which `sort_unstable` uses up its depth budget. -/
def budgetEater37 : List Nat :=
  [0, 18, 2, 33, 4, 20, 6, 32, 8, 22, 10, 31, 12, 36, 14, 34, 16, 35, 1, 3, 5, 7, 9, 11, 13,
    15, 17, 19, 21, 23, 30, 29, 28, 27, 26, 25, 24]

/-! ## Outcomes and loops -/

set_option linter.unnecessarySeqFocus false
set_option linter.unusedTactic false
set_option linter.unreachableTactic false
set_option linter.unusedVariables false

@[simp] theorem Res.ok_bind {β γ : Type} (x : β) (f : β → Res γ) : (Res.ok x >>= f) = f x := rfl

@[simp] theorem Res.oob_bind {β γ : Type} (f : β → Res γ) : ((Res.oob : Res β) >>= f) = .oob := rfl

@[simp] theorem Res.timeout_bind {β γ : Type} (f : β → Res γ) :
    ((Res.timeout : Res β) >>= f) = .timeout := rfl

@[simp] theorem Res.pure_eq {β : Type} (x : β) : (pure x : Res β) = .ok x := rfl

theorem Res.bind_assoc {β γ δ : Type} (x : Res β) (f : β → Res γ) (g : γ → Res δ) :
    ((x >>= f) >>= g) = (x >>= fun a => f a >>= g) := by
  cases x <;> rfl

theorem Res.bind_eq_ok {β γ : Type} (x : Res β) (f : β → Res γ) (y : γ) :
    (x >>= f) = .ok y ↔ ∃ a, x = .ok a ∧ f a = .ok y := by
  cases x with
  | ok v => simp
  | oob => simp
  | timeout => simp

/-- Total correctness of a loop: an invariant kept by the body while a measure below the
budget decreases gives a result that satisfies the postcondition. -/
theorem iter_total {σ β : Type} (body : σ → Res (σ ⊕ β)) (Inv : σ → Prop) (μ : σ → Nat)
    (Post : β → Prop)
    (hbody : ∀ s, Inv s → (∃ s', body s = .ok (.inl s') ∧ Inv s' ∧ μ s' < μ s) ∨
      (∃ r, body s = .ok (.inr r) ∧ Post r)) :
    ∀ (f : Nat) (s : σ), Inv s → μ s < f → ∃ r, iter body f s = .ok r ∧ Post r := by
  intro f
  induction f with
  | zero => intro s _ h; omega
  | succ f ih =>
    intro s hs hμ
    rcases hbody s hs with ⟨s', h1, h2, h3⟩ | ⟨r, h1, h2⟩
    · have := ih s' h2 (by omega)
      simpa [iter, h1] using this
    · exact ⟨r, by simp [iter, h1], h2⟩

/-- Partial correctness of a loop: an invariant kept by the body holds of whatever the loop
returns. -/
theorem iter_inv {σ β : Type} (body : σ → Res (σ ⊕ β)) (Inv : σ → Prop) (Post : β → Prop)
    (hbody : ∀ s, Inv s → (∀ s', body s = .ok (.inl s') → Inv s') ∧
      (∀ r, body s = .ok (.inr r) → Post r)) :
    ∀ (f : Nat) (s : σ) (r : β), Inv s → iter body f s = .ok r → Post r := by
  intro f
  induction f with
  | zero => intro s r _ h; simp [iter] at h
  | succ f ih =>
    intro s r hs h
    rw [iter] at h
    cases hb : body s with
    | ok v =>
      cases v with
      | inl s' =>
        rw [hb] at h
        exact ih s' r ((hbody s hs).1 s' hb) h
      | inr r' =>
        rw [hb] at h
        have : r' = r := by simpa using h
        exact this ▸ (hbody s hs).2 r' hb
    | oob => rw [hb] at h; simp at h
    | timeout => rw [hb] at h; simp at h

/-! ## Element access -/

theorem rd_some {α : Type} {l : List α} {i : Int} {x : α} (h : rd l i = some x) :
    0 ≤ i ∧ i < l.length := by
  unfold rd at h
  split at h
  · have := (List.getElem?_eq_some_iff.mp h).1
    omega
  · simp at h

theorem rd_inb {α : Type} (l : List α) (i : Int) (h0 : 0 ≤ i) (h1 : i < l.length) :
    ∃ x, rd l i = some x := by
  have h2 : i.toNat < l.length := by omega
  exact ⟨l[i.toNat], by simp [rd, h0, List.getElem?_eq_getElem h2]⟩

theorem rd_natCast {α : Type} (l : List α) (i : Nat) : rd l (i : Int) = l[i]? := by
  simp [rd]

theorem rd_ext {α : Type} {l l' : List α} (h : ∀ i, rd l i = rd l' i) : l = l' := by
  apply List.ext_getElem?
  intro n
  have := h n
  simpa [rd_natCast] using this

@[simp] theorem length_swapL {α : Type} (l : List α) (i j : Int) (x y : α) :
    (swapL l i j x y).length = l.length := by
  simp [swapL]

theorem rd_swapL {α : Type} {l : List α} {i j : Int} {x y : α}
    (hi : rd l i = some x) (hj : rd l j = some y) (k : Int) :
    rd (swapL l i j x y) k = if k = j then some x else if k = i then some y else rd l k := by
  have bi := rd_some hi
  have bj := rd_some hj
  unfold rd swapL
  by_cases hk : 0 ≤ k
  · simp only [hk, if_true]
    rw [List.getElem?_set, List.getElem?_set]
    by_cases h1 : k = j
    · subst h1
      have : k.toNat < l.length := by omega
      simp [this]
    · have h1' : ¬ j.toNat = k.toNat := by omega
      simp only [h1', h1, if_false]
      by_cases h2 : k = i
      · subst h2
        have : k.toNat < l.length := by omega
        simp [this]
      · have h2' : ¬ i.toNat = k.toNat := by omega
        simp [h2', h2]
  · have h1 : ¬ k = j := by omega
    have h2 : ¬ k = i := by omega
    simp [hk, h1, h2]

theorem cons_set_perm {α : Type} (x y : α) : ∀ (t : List α) (j : Nat), t[j]? = some y →
    (y :: t.set j x).Perm (x :: t) := by
  intro t
  induction t with
  | nil => intro j h; simp at h
  | cons z t ih =>
    intro j h
    cases j with
    | zero =>
      simp at h
      subst h
      simpa using List.Perm.swap x z t
    | succ j =>
      simp at h
      have h1 := ih j h
      simp only [List.set_cons_succ]
      exact ((List.Perm.swap z y _).trans (h1.cons z)).trans (List.Perm.swap x z t)

theorem set_set_perm {α : Type} (x y : α) : ∀ (l : List α) (i j : Nat), l[i]? = some x →
    l[j]? = some y → ((l.set i y).set j x).Perm l := by
  intro l
  induction l with
  | nil => intro i j h; simp at h
  | cons z t ih =>
    intro i j hi hj
    cases i with
    | zero =>
      simp at hi
      subst hi
      cases j with
      | zero =>
        simp at hj
        subst hj
        simp
      | succ j =>
        simp at hj
        simpa using cons_set_perm z y t j hj
    | succ i =>
      simp at hi
      cases j with
      | zero =>
        simp at hj
        subst hj
        simpa using cons_set_perm z x t i hi
      | succ j =>
        simp at hj
        simpa using ih i j hi hj

theorem swapL_perm {α : Type} {l : List α} {i j : Int} {x y : α}
    (hi : rd l i = some x) (hj : rd l j = some y) : (swapL l i j x y).Perm l := by
  have bi := rd_some hi
  have bj := rd_some hj
  unfold rd at hi hj
  simp only [bi.1, bj.1, if_true] at hi hj
  exact set_set_perm x y l _ _ hi hj

theorem Shuffle.trans {α : Type} {a b : Int} {l1 l2 l3 : List α}
    (h1 : Shuffle a b l1 l2) (h2 : Shuffle a b l2 l3) : Shuffle a b l1 l3 := by
  induction h1 with
  | refl l => exact h2
  | step l l' i j x y ha hb hc hd hi hj _ ih =>
    exact Shuffle.step l _ i j x y ha hb hc hd hi hj (ih h2)

theorem Shuffle.one {α : Type} {a b : Int} {l : List α} {i j : Int} {x y : α}
    (ha : a ≤ i) (hb : i < b) (hc : a ≤ j) (hd : j < b)
    (hi : rd l i = some x) (hj : rd l j = some y) : Shuffle a b l (swapL l i j x y) :=
  Shuffle.step l _ i j x y ha hb hc hd hi hj (Shuffle.refl _)

theorem Shuffle.widen {α : Type} {a b a' b' : Int} {l l' : List α}
    (h : Shuffle a b l l') (ha : a' ≤ a) (hb : b ≤ b') : Shuffle a' b' l l' := by
  induction h with
  | refl l => exact Shuffle.refl l
  | step l l' i j x y h1 h2 h3 h4 hi hj _ ih =>
    exact Shuffle.step l _ i j x y (by omega) (by omega) (by omega) (by omega) hi hj ih

theorem Shuffle.length_eq {α : Type} {a b : Int} {l l' : List α}
    (h : Shuffle a b l l') : l'.length = l.length := by
  induction h with
  | refl l => rfl
  | step l l' i j x y _ _ _ _ _ _ _ ih => simpa using ih

theorem Shuffle.perm {α : Type} {a b : Int} {l l' : List α}
    (h : Shuffle a b l l') : l'.Perm l := by
  induction h with
  | refl l => exact List.Perm.refl l
  | step l l' i j x y _ _ _ _ hi hj _ ih => exact ih.trans (swapL_perm hi hj)

/-- Positions outside the range are untouched. -/
theorem Shuffle.outside {α : Type} {a b : Int} {l l' : List α}
    (h : Shuffle a b l l') (k : Int) (hk : k < a ∨ b ≤ k) : rd l' k = rd l k := by
  induction h with
  | refl l => rfl
  | step l l' i j x y h1 h2 h3 h4 hi hj _ ih =>
    rw [ih, rd_swapL hi hj]
    have e1 : ¬ k = j := by omega
    have e2 : ¬ k = i := by omega
    simp [e1, e2]

/-- Every element found in the range afterwards was in the range before. -/
theorem Shuffle.inside {α : Type} {a b : Int} {l l' : List α}
    (h : Shuffle a b l l') (k : Int) (x : α) (h1 : a ≤ k) (h2 : k < b) (hx : rd l' k = some x) :
    ∃ k', a ≤ k' ∧ k' < b ∧ rd l k' = some x := by
  induction h with
  | refl l => exact ⟨k, h1, h2, hx⟩
  | step l l' i j u v g1 g2 g3 g4 hi hj _ ih =>
    obtain ⟨k', e1, e2, e3⟩ := ih hx
    rw [rd_swapL hi hj] at e3
    by_cases c1 : k' = j
    · simp only [c1, if_true] at e3
      exact ⟨i, g1, g2, by rw [hi, e3]⟩
    · by_cases c2 : k' = i
      · subst c2
        simp only [c1, if_true, if_false] at e3
        exact ⟨j, g3, g4, by rw [hj, ← e3]⟩
      · simp only [c1, c2, if_false] at e3
        exact ⟨k', e1, e2, e3⟩

theorem less_inb {α : Type} (comp : α → α → Bool) (s : Mem α) (i j : Int)
    (hi : 0 ≤ i ∧ i < s.arr.length) (hj : 0 ≤ j ∧ j < s.arr.length) :
    ∃ x y, rd s.arr i = some x ∧ rd s.arr j = some y ∧
      less comp s i j = .ok (comp x y, { s with comps := s.comps + 1 }) := by
  obtain ⟨x, hx⟩ := rd_inb s.arr i hi.1 hi.2
  obtain ⟨y, hy⟩ := rd_inb s.arr j hj.1 hj.2
  exact ⟨x, y, hx, hy, by simp [less, hx, hy]⟩

theorem less_ok {α : Type} {comp : α → α → Bool} {s : Mem α} {i j : Int} {r : Bool × Mem α}
    (h : less comp s i j = .ok r) :
    ∃ x y, rd s.arr i = some x ∧ rd s.arr j = some y ∧
      r = (comp x y, { s with comps := s.comps + 1 }) := by
  unfold less at h
  split at h
  · rename_i x y hx hy
    exact ⟨x, y, hx, hy, by simpa using h.symm⟩
  · simp at h

theorem swap_inb {α : Type} (s : Mem α) (i j : Int)
    (hi : 0 ≤ i ∧ i < s.arr.length) (hj : 0 ≤ j ∧ j < s.arr.length) :
    ∃ x y, rd s.arr i = some x ∧ rd s.arr j = some y ∧
      swap s i j = .ok { s with arr := swapL s.arr i j x y, swaps := s.swaps + 1 } := by
  obtain ⟨x, hx⟩ := rd_inb s.arr i hi.1 hi.2
  obtain ⟨y, hy⟩ := rd_inb s.arr j hj.1 hj.2
  exact ⟨x, y, hx, hy, by simp [swap, hx, hy]⟩

theorem swap_ok {α : Type} {s s' : Mem α} {i j : Int} (h : swap s i j = .ok s') :
    ∃ x y, rd s.arr i = some x ∧ rd s.arr j = some y ∧
      s' = { s with arr := swapL s.arr i j x y, swaps := s.swaps + 1 } := by
  unfold swap at h
  split at h
  · rename_i x y hx hy
    exact ⟨x, y, hx, hy, by simpa using h.symm⟩
  · simp at h

/-! ## Order facts -/

theorem StrictWeak.le_trans {α : Type} {comp : α → α → Bool} (h : StrictWeak comp) {x y z : α}
    (h1 : comp y x = false) (h2 : comp z y = false) : comp z x = false := by
  by_contra hzx
  have hzx' : comp z x = true := by simpa using hzx
  have e1 : comp x y = false := by
    by_contra c
    have c' : comp x y = true := by simpa using c
    have := h.trans z x y hzx' c'
    simp [this] at h2
  have e2 : comp y z = false := by
    by_contra c
    have c' : comp y z = true := by simpa using c
    have := h.trans y z x c' hzx'
    simp [this] at h1
  have := (h.incomp_trans x y z e1 h1 e2 h2).2
  simp [this] at hzx'

theorem StrictWeak.lt_of_lt_of_le {α : Type} {comp : α → α → Bool} (h : StrictWeak comp)
    {x y z : α} (h1 : comp x y = true) (h2 : comp z y = false) : comp x z = true := by
  by_contra c
  have c' : comp x z = false := by simpa using c
  have := h.le_trans h2 c'
  simp [this] at h1

theorem StrictWeak.lt_of_le_of_lt {α : Type} {comp : α → α → Bool} (h : StrictWeak comp)
    {x y z : α} (h1 : comp y x = false) (h2 : comp y z = true) : comp x z = true := by
  by_contra c
  have c' : comp x z = false := by simpa using c
  have := h.le_trans c' h1
  simp [this] at h2

theorem SortedOn.narrow {α : Type} {comp : α → α → Bool} {l : List α} {a b a' b' : Int}
    (h : SortedOn comp l a b) (ha : a ≤ a') (hb : b' ≤ b) : SortedOn comp l a' b' :=
  fun i j x y h1 h2 h3 => h i j x y (by omega) h2 (by omega)

theorem natLess_strictWeak : StrictWeak natLess := by
  constructor <;> simp only [natLess, decide_eq_true_eq, decide_eq_false_iff_not] <;> omega

theorem keyLess_strictWeak : StrictWeak keyLess := by
  constructor <;> simp only [keyLess, decide_eq_true_eq, decide_eq_false_iff_not] <;> omega

/-! ## Insertion sort -/

theorem less_inb' {α : Type} (comp : α → α → Bool) (s : Mem α) (i j : Int)
    (hi : 0 ≤ i ∧ i < s.arr.length) (hj : 0 ≤ j ∧ j < s.arr.length) :
    ∃ x y s', rd s.arr i = some x ∧ rd s.arr j = some y ∧
      less comp s i j = .ok (comp x y, s') ∧ s'.arr = s.arr := by
  obtain ⟨x, y, hx, hy, h⟩ := less_inb comp s i j hi hj
  exact ⟨x, y, _, hx, hy, h, rfl⟩

theorem less_ok' {α : Type} {comp : α → α → Bool} {s : Mem α} {i j : Int} {r : Bool × Mem α}
    (h : less comp s i j = .ok r) :
    ∃ x y, rd s.arr i = some x ∧ rd s.arr j = some y ∧ r.1 = comp x y ∧ r.2.arr = s.arr := by
  obtain ⟨x, y, hx, hy, h⟩ := less_ok h
  exact ⟨x, y, hx, hy, by rw [h], by rw [h]⟩

theorem swap_inb' {α : Type} (s : Mem α) (i j : Int)
    (hi : 0 ≤ i ∧ i < s.arr.length) (hj : 0 ≤ j ∧ j < s.arr.length) :
    ∃ x y s', rd s.arr i = some x ∧ rd s.arr j = some y ∧
      swap s i j = .ok s' ∧ s'.arr = swapL s.arr i j x y := by
  obtain ⟨x, y, hx, hy, h⟩ := swap_inb s i j hi hj
  exact ⟨x, y, _, hx, hy, h, rfl⟩

theorem swap_ok' {α : Type} {s s' : Mem α} {i j : Int} (h : swap s i j = .ok s') :
    ∃ x y, rd s.arr i = some x ∧ rd s.arr j = some y ∧ s'.arr = swapL s.arr i j x y := by
  obtain ⟨x, y, hx, hy, h⟩ := swap_ok h
  exact ⟨x, y, hx, hy, by rw [h]⟩

theorem insInner_safe {α : Type} (comp : α → α → Bool) (s : Mem α) (a i : Int)
    (ha : 0 ≤ a) (hai : a ≤ i) (hi : i < s.arr.length) :
    ∃ s', insInner comp a i s = .ok s' ∧ Shuffle a (i + 1) s.arr s'.arr := by
  unfold insInner
  apply iter_total (insInnerBody comp a)
    (fun p => a ≤ p.1 ∧ p.1 ≤ i ∧ Shuffle a (i + 1) s.arr p.2.arr)
    (fun p => (p.1 - a).toNat) (fun s' => Shuffle a (i + 1) s.arr s'.arr)
  · rintro ⟨j, t⟩ ⟨h1, h2, h3⟩
    have hl := h3.length_eq
    simp only at h1 h2 h3 hl
    by_cases hc : j > a
    · obtain ⟨x, y, t1, hx, hy, hless, e1⟩ := less_inb' comp t j (j - 1) ⟨by omega, by omega⟩
        ⟨by omega, by omega⟩
      cases hcmp : comp x y
      · have hb : insInnerBody comp a (j, t) = .ok (.inr t1) := by
          simp [insInnerBody, hc, hless, hcmp]
        exact Or.inr ⟨_, hb, e1 ▸ h3⟩
      · obtain ⟨x', y', t2, hx', hy', hswap, e2⟩ := swap_inb' t1 j (j - 1)
          ⟨by omega, by rw [e1]; omega⟩ ⟨by omega, by rw [e1]; omega⟩
        have hb : insInnerBody comp a (j, t) = .ok (.inl (j - 1, t2)) := by
          simp [insInnerBody, hc, hless, hcmp, hswap]
        refine Or.inl ⟨_, hb, ⟨by simp; omega, by simp; omega, ?_⟩, by simp; omega⟩
        rw [e1] at hx' hy' e2
        simp only [e2]
        exact h3.trans (Shuffle.one (by omega) (by omega) (by omega) (by omega) hx' hy')
    · have hb : insInnerBody comp a (j, t) = .ok (.inr t) := by
        simp [insInnerBody, hc]
      exact Or.inr ⟨_, hb, h3⟩
  · exact ⟨hai, le_refl _, Shuffle.refl _⟩
  · simp

theorem insertion_sort_safe {α : Type} (comp : α → α → Bool) (s : Mem α) (a b : Int)
    (ha : 0 ≤ a) (hb : b ≤ s.arr.length) :
    ∃ s', _insertion_sort comp s a b = .ok s' ∧ Shuffle a b s.arr s'.arr := by
  unfold _insertion_sort
  apply iter_total (insOuterBody comp a b)
    (fun p => a + 1 ≤ p.1 ∧ Shuffle a b s.arr p.2.arr)
    (fun p => (b - p.1 + 1).toNat) (fun s' => Shuffle a b s.arr s'.arr)
  · rintro ⟨i, t⟩ ⟨h1, h3⟩
    have hl := h3.length_eq
    simp only at h1 h3 hl
    by_cases hc : i < b
    · obtain ⟨t', ht', hs'⟩ := insInner_safe comp t a i ha (by omega) (by omega)
      have hb : insOuterBody comp a b (i, t) = .ok (.inl (i + 1, t')) := by
        simp [insOuterBody, hc, ht']
      refine Or.inl ⟨_, hb, ⟨by simp; omega, ?_⟩, by simp; omega⟩
      exact h3.trans (hs'.widen (le_refl _) (by omega))
    · have hb : insOuterBody comp a b (i, t) = .ok (.inr t) := by
        simp [insOuterBody, hc]
      exact Or.inr ⟨_, hb, h3⟩
  · exact ⟨le_refl _, Shuffle.refl _⟩
  · simp; omega


theorem insInner_sorted {α : Type} {comp : α → α → Bool} (hc : StrictWeak comp) (s s' : Mem α)
    (a i : Int) (hs : SortedOn comp s.arr a i) (h : insInner comp a i s = .ok s') :
    SortedOn comp s'.arr a (i + 1) := by
  unfold insInner at h
  refine iter_inv (insInnerBody comp a)
    (fun p => ∀ u v x y, a ≤ u → u < v → v ≤ i → v ≠ p.1 → rd p.2.arr u = some x →
      rd p.2.arr v = some y → comp y x = false)
    (fun s' => SortedOn comp s'.arr a (i + 1)) ?_ _ _ _ ?_ h
  · rintro ⟨j, t⟩ hinv
    simp only at hinv
    constructor
    · intro p' hb
      unfold insInnerBody at hb
      simp only at hb
      split at hb
      · rename_i hja
        obtain ⟨r, hr, hb⟩ := (Res.bind_eq_ok _ _ _).mp hb
        obtain ⟨x, y, hx, hy, e1, e2⟩ := less_ok' hr
        split at hb
        · rename_i hr1
          obtain ⟨t2, ht2, hb⟩ := (Res.bind_eq_ok _ _ _).mp hb
          obtain ⟨x', y', hx', hy', e3⟩ := swap_ok' ht2
          simp only [Res.pure_eq, Res.ok.injEq, Sum.inl.injEq] at hb
          subst hb
          simp only
          rw [e2] at hx' hy' e3
          rw [hx] at hx'
          rw [hy] at hy'
          cases hx'
          cases hy'
          rw [e1] at hr1
          intro u v p q h1 h2 h3 h4 hp hq
          rw [e3, rd_swapL hx hy] at hp hq
          by_cases c1 : v = j
          · subst c1
            simp only [show ¬ v = v - 1 by omega, if_true, if_false] at hq
            cases hq
            by_cases c2 : u = v - 1
            · subst c2
              simp only [if_true] at hp
              cases hp
              exact hc.asymm _ _ hr1
            · simp only [c2, show ¬ u = v by omega, if_false] at hp
              exact hinv u (v - 1) _ _ h1 (by omega) (by omega) (by omega) hp hy
          · simp only [show ¬ v = j - 1 by omega, c1, if_false] at hq
            by_cases c2 : u = j - 1
            · subst c2
              simp only [if_true] at hp
              cases hp
              exact hinv j v _ _ (by omega) (by omega) h3 c1 hx hq
            · by_cases c3 : u = j
              · subst c3
                simp only [c2, if_true, if_false] at hp
                cases hp
                exact hinv (u - 1) v _ _ (by omega) (by omega) h3 c1 hy hq
              · simp only [c2, c3, if_false] at hp
                exact hinv u v _ _ h1 h2 h3 c1 hp hq
        · simp at hb
      · simp at hb
    · intro r hb
      unfold insInnerBody at hb
      simp only at hb
      split at hb
      · rename_i hja
        obtain ⟨r', hr, hb⟩ := (Res.bind_eq_ok _ _ _).mp hb
        obtain ⟨x, y, hx, hy, e1, e2⟩ := less_ok' hr
        split at hb
        · obtain ⟨t2, ht2, hb⟩ := (Res.bind_eq_ok _ _ _).mp hb
          simp at hb
        · rename_i hr1
          simp only [Res.pure_eq, Res.ok.injEq, Sum.inr.injEq] at hb
          subst hb
          rw [e1] at hr1
          have hyx : comp x y = false := by simpa using hr1
          intro u v p q h1 h2 h3 hp hq
          rw [e2] at hp hq
          by_cases c1 : v = j
          · subst c1
            rw [hx] at hq
            cases hq
            by_cases c2 : u = v - 1
            · subst c2
              rw [hy] at hp
              cases hp
              exact hyx
            · exact hc.le_trans (hinv u (v - 1) _ _ h1 (by omega) (by omega) (by omega) hp hy) hyx
          · exact hinv u v _ _ h1 h2 (by omega) c1 hp hq
      · rename_i hja
        simp only [Res.pure_eq, Res.ok.injEq, Sum.inr.injEq] at hb
        subst hb
        intro u v p q h1 h2 h3 hp hq
        exact hinv u v _ _ h1 h2 (by omega) (by omega) hp hq
  · intro u v x y h1 h2 h3 h4 hx hy
    exact hs u v x y h1 h2 (by simp only at h4; omega) hx hy

theorem insertion_sort_sorted {α : Type} {comp : α → α → Bool} (hc : StrictWeak comp)
    (s s' : Mem α) (a b : Int) (h : _insertion_sort comp s a b = .ok s') :
    SortedOn comp s'.arr a b := by
  unfold _insertion_sort at h
  refine iter_inv (insOuterBody comp a b)
    (fun p => SortedOn comp p.2.arr a p.1)
    (fun s' => SortedOn comp s'.arr a b) ?_ _ _ _ ?_ h
  · rintro ⟨i, t⟩ hinv
    simp only at hinv
    constructor
    · intro p' hb
      unfold insOuterBody at hb
      simp only at hb
      split at hb
      · obtain ⟨t', ht', hb⟩ := (Res.bind_eq_ok _ _ _).mp hb
        simp only [Res.pure_eq, Res.ok.injEq, Sum.inl.injEq] at hb
        subst hb
        exact insInner_sorted hc t t' a i hinv ht'
      · simp at hb
    · intro r hb
      unfold insOuterBody at hb
      simp only at hb
      split at hb
      · obtain ⟨t', ht', hb⟩ := (Res.bind_eq_ok _ _ _).mp hb
        simp at hb
      · rename_i hib
        simp only [Res.pure_eq, Res.ok.injEq, Sum.inr.injEq] at hb
        subst hb
        exact hinv.narrow (le_refl _) (by omega)
  · intro u v x y h1 h2 h3
    simp only at h3
    omega

/-! ## Block exchange and rotation -/

theorem cdiv_eq {x y : Int} (hx : 0 ≤ x) (hy : 0 ≤ y) : cdiv x y = x / y :=
  Int.tdiv_eq_ediv hx hy

theorem shr1_eq (x : Int) : x >>> (1 : Nat) = x / 2 := by
  have := Int.shiftRight_eq_div_pow x 1
  simpa using this

theorem swap_range_spec {α : Type} (s : Mem α) (a b n : Int)
    (ha : 0 ≤ a) (hn : 0 ≤ n) (hab : a + n ≤ b) (hb : b + n ≤ s.arr.length) :
    ∃ s', swap_range s a b n = .ok s' ∧ Shuffle a (b + n) s.arr s'.arr ∧
      (∀ k, rd s'.arr k = rd s.arr (swapIdx a b n k)) ∧ s'.comps = s.comps ∧
      s'.swaps = s.swaps + n.toNat := by
  unfold swap_range
  apply iter_total (swapRangeBody a b n)
    (fun p => 0 ≤ p.1 ∧ p.1 ≤ n ∧ Shuffle a (b + n) s.arr p.2.arr ∧
      (∀ k, rd p.2.arr k = rd s.arr (swapIdx a b p.1 k)) ∧ p.2.comps = s.comps ∧
      p.2.swaps = s.swaps + p.1.toNat)
    (fun p => (n - p.1).toNat)
    (fun s' => Shuffle a (b + n) s.arr s'.arr ∧
      (∀ k, rd s'.arr k = rd s.arr (swapIdx a b n k)) ∧ s'.comps = s.comps ∧
      s'.swaps = s.swaps + n.toNat)
  · rintro ⟨i, t⟩ ⟨h1, h2, h3, h4, h5, h6⟩
    have hl := h3.length_eq
    simp only at h1 h2 h3 h4 h5 h6 hl
    by_cases hc : i < n
    · obtain ⟨x, y, hx, hy, hswap⟩ := swap_inb t (a + i) (b + i)
        ⟨by omega, by omega⟩ ⟨by omega, by omega⟩
      have hbd : swapRangeBody a b n (i, t) = .ok (.inl (i + 1,
          { t with arr := swapL t.arr (a + i) (b + i) x y, swaps := t.swaps + 1 })) := by
        simp [swapRangeBody, hc, hswap]
      refine Or.inl ⟨_, hbd, ⟨by simp; omega, by simp; omega, ?_, ?_, by simpa using h5,
        by simp [h6]; omega⟩, by simp; omega⟩
      · exact h3.trans (Shuffle.one (by omega) (by omega) (by omega) (by omega) hx hy)
      · intro k
        simp only
        rw [rd_swapL hx hy]
        rw [h4] at hx hy
        have e1 : swapIdx a b i (a + i) = a + i := by
          unfold swapIdx; split_ifs <;> omega
        have e2 : swapIdx a b i (b + i) = b + i := by
          unfold swapIdx; split_ifs <;> omega
        rw [e1] at hx
        rw [e2] at hy
        by_cases c1 : k = b + i
        · have : swapIdx a b (i + 1) k = a + i := by
            unfold swapIdx; split_ifs <;> omega
          rw [this, hx, if_pos c1]
        · by_cases c2 : k = a + i
          · have : swapIdx a b (i + 1) k = b + i := by
              unfold swapIdx; split_ifs <;> omega
            rw [this, hy, if_neg c1, if_pos c2]
          · have : swapIdx a b (i + 1) k = swapIdx a b i k := by
              unfold swapIdx; split_ifs <;> omega
            rw [this, if_neg c1, if_neg c2, h4]
    · have hbd : swapRangeBody a b n (i, t) = .ok (.inr t) := by
        simp [swapRangeBody, hc]
      have : i = n := by omega
      subst this
      exact Or.inr ⟨_, hbd, h3, h4, h5, h6⟩
  · refine ⟨le_refl _, hn, Shuffle.refl _, ?_, rfl, by simp⟩
    intro k
    have : swapIdx a b 0 k = k := by
      unfold swapIdx; split_ifs <;> omega
    simp [this]
  · simp


theorem rotate_spec {α : Type} (s : Mem α) (a m b : Int)
    (ha : 0 ≤ a) (ham : a < m) (hmb : m < b) (hb : b ≤ s.arr.length) :
    ∃ s', rotate s a m b = .ok s' ∧ Shuffle a b s.arr s'.arr ∧
      (∀ k, rd s'.arr k = rd s.arr (rotIdx a m b k)) ∧ s'.comps = s.comps ∧
      s'.swaps ≤ s.swaps + (b - a).toNat := by
  have hloop : ∃ r, iter (rotateBody m) ((b - a).toNat + 1) (m - a, b - m, s) = .ok r ∧
      (0 < r.1 ∧ a ≤ m - r.1 ∧ m + r.1 ≤ b ∧ Shuffle a b s.arr r.2.arr ∧
      (∀ k, rd s.arr (rotIdx a m b k) = rd r.2.arr (rotIdx (m - r.1) m (m + r.1) k)) ∧
      r.2.comps = s.comps ∧ r.2.swaps + (r.1 + r.1).toNat = s.swaps + (b - a).toNat) := by
    apply iter_total (rotateBody m)
      (fun p => 0 < p.1 ∧ 0 < p.2.1 ∧ a ≤ m - p.1 ∧ m + p.2.1 ≤ b ∧
        Shuffle a b s.arr p.2.2.arr ∧
        (∀ k, rd s.arr (rotIdx a m b k) = rd p.2.2.arr (rotIdx (m - p.1) m (m + p.2.1) k)) ∧
        p.2.2.comps = s.comps ∧ p.2.2.swaps + (p.1 + p.2.1).toNat = s.swaps + (b - a).toNat)
      (fun p => (p.1 + p.2.1).toNat)
    · rintro ⟨i, j, t⟩ ⟨h1, h2, h3, h4, h5, h6, h7, h8⟩
      have hl := h5.length_eq
      simp only at h1 h2 h3 h4 h5 h6 h7 h8 hl
      by_cases hc : i ≠ j
      · by_cases hc2 : i > j
        · obtain ⟨t', ht', g1, g2, g3, g4⟩ := swap_range_spec t (m - i) m j
            (by omega) (by omega) (by omega) (by omega)
          have hbd : rotateBody m (i, j, t) = .ok (.inl (i - j, j, t')) := by
            simp [rotateBody, hc, hc2, ht']
          refine Or.inl ⟨_, hbd, ⟨by simp <;> omega, by simp <;> omega, by simp <;> omega,
            by simp <;> omega, ?_, ?_, by simp [g3, h7], by simp <;> omega⟩, by simp <;> omega⟩
          · exact h5.trans (g1.widen (by omega) (by omega))
          · intro k
            simp only
            rw [h6, g2]
            congr 1
            unfold rotIdx swapIdx
            split_ifs <;> omega
        · obtain ⟨t', ht', g1, g2, g3, g4⟩ := swap_range_spec t (m - i) (m + j - i) i
            (by omega) (by omega) (by omega) (by omega)
          have hbd : rotateBody m (i, j, t) = .ok (.inl (i, j - i, t')) := by
            simp [rotateBody, hc, hc2, ht']
          refine Or.inl ⟨_, hbd, ⟨by simp <;> omega, by simp <;> omega, by simp <;> omega,
            by simp <;> omega, ?_, ?_, by simp [g3, h7], by simp <;> omega⟩, by simp <;> omega⟩
          · exact h5.trans (g1.widen (by omega) (by omega))
          · intro k
            simp only
            rw [h6, g2]
            congr 1
            unfold rotIdx swapIdx
            split_ifs <;> omega
      · have hij : i = j := by omega
        subst hij
        have hbd : rotateBody m (i, i, t) = .ok (.inr (i, t)) := by
          simp [rotateBody]
        exact Or.inr ⟨_, hbd, h1, h3, h4, h5, h6, h7, h8⟩
    · refine ⟨by simp <;> omega, by simp <;> omega, by simp, by simp, Shuffle.refl _, ?_, rfl,
        by simp⟩
      intro k
      simp
    · simp <;> omega
  obtain ⟨⟨i, t⟩, hr, h1, h3, h4, h5, h6, h7, h8⟩ := hloop
  simp only at h1 h3 h4 h5 h6 h7 h8
  have hl := h5.length_eq
  obtain ⟨t', ht', g1, g2, g3, g4⟩ := swap_range_spec t (m - i) m i
    (by omega) (by omega) (by omega) (by omega)
  refine ⟨t', by simp [rotate, hr, ht'], ?_, ?_, by rw [g3, h7], by omega⟩
  · exact h5.trans (g1.widen (by omega) (by omega))
  · intro k
    rw [h6, g2]
    congr 1
    unfold rotIdx swapIdx
    split_ifs <;> omega

/-! ## The searches and insertions of the symmetric merge -/

theorem lowerBound_spec {α : Type} (comp : α → α → Bool) (s : Mem α) (x i0 j0 : Int) (f : Nat)
    (hx : 0 ≤ x ∧ x < s.arr.length) (hi : 0 ≤ i0) (hij : i0 ≤ j0) (hj : j0 ≤ s.arr.length)
    (hf : (j0 - i0).toNat < f) :
    ∃ r, iter (lowerBoundBody comp x) f (i0, j0, s) = .ok r ∧ r.2.arr = s.arr ∧
      r.2.swaps = s.swaps ∧ i0 ≤ r.1 ∧ r.1 ≤ j0 ∧
      (r.1 = i0 ∨ ∃ u v, rd s.arr (r.1 - 1) = some u ∧ rd s.arr x = some v ∧ comp u v = true) ∧
      (r.1 = j0 ∨ ∃ u v, rd s.arr r.1 = some u ∧ rd s.arr x = some v ∧ comp u v = false) := by
  apply iter_total (lowerBoundBody comp x)
    (fun p => i0 ≤ p.1 ∧ p.1 ≤ p.2.1 ∧ p.2.1 ≤ j0 ∧ p.2.2.arr = s.arr ∧ p.2.2.swaps = s.swaps ∧
      (p.1 = i0 ∨ ∃ u v, rd s.arr (p.1 - 1) = some u ∧ rd s.arr x = some v ∧ comp u v = true) ∧
      (p.2.1 = j0 ∨ ∃ u v, rd s.arr p.2.1 = some u ∧ rd s.arr x = some v ∧ comp u v = false))
    (fun p => (p.2.1 - p.1).toNat)
  · rintro ⟨i, j, t⟩ ⟨h1, h2, h3, h4, h5, h6, h7⟩
    simp only at h1 h2 h3 h4 h5 h6 h7
    by_cases hc : i < j
    · have hh : cdiv (i + j) 2 = (i + j) / 2 := cdiv_eq (by omega) (by omega)
      obtain ⟨u, v, hu, hv, hless⟩ := less_inb comp t ((i + j) / 2) x
        ⟨by omega, by rw [h4]; omega⟩ (by rw [h4]; exact hx)
      rw [h4] at hu hv
      cases hcmp : comp u v
      · have hbd : lowerBoundBody comp x (i, j, t) = .ok (.inl (i, (i + j) / 2,
            { t with comps := t.comps + 1 })) := by
          simp [lowerBoundBody, hc, hh, hless, hcmp]
        exact Or.inl ⟨_, hbd, ⟨h1, by simp <;> omega, by simp <;> omega, h4, h5, h6,
          Or.inr ⟨u, v, hu, hv, hcmp⟩⟩, by simp <;> omega⟩
      · have hbd : lowerBoundBody comp x (i, j, t) = .ok (.inl ((i + j) / 2 + 1, j,
            { t with comps := t.comps + 1 })) := by
          simp [lowerBoundBody, hc, hh, hless, hcmp]
        exact Or.inl ⟨_, hbd, ⟨by simp <;> omega, by simp <;> omega, h3, h4, h5,
          Or.inr ⟨u, v, by simpa using hu, hv, hcmp⟩, h7⟩, by simp <;> omega⟩
    · have hbd : lowerBoundBody comp x (i, j, t) = .ok (.inr (i, t)) := by
        simp [lowerBoundBody, hc]
      have hij' : i = j := by omega
      subst hij'
      exact Or.inr ⟨_, hbd, h4, h5, h1, h3, h6, h7⟩
  · exact ⟨le_refl _, hij, le_refl _, rfl, rfl, Or.inl rfl, Or.inl rfl⟩
  · simpa using hf

theorem symSearch_spec {α : Type} (comp : α → α → Bool) (s : Mem α) (pp i0 j0 : Int) (f : Nat)
    (hi : 0 ≤ i0) (hij : i0 ≤ j0) (hj : j0 ≤ s.arr.length) (hp : j0 ≤ pp + 1)
    (hp' : pp - i0 < s.arr.length) (hf : (j0 - i0).toNat < f) :
    ∃ r, iter (symSearchBody comp pp) f (i0, j0, s) = .ok r ∧ r.2.arr = s.arr ∧
      r.2.swaps = s.swaps ∧ i0 ≤ r.1 ∧ r.1 ≤ j0 ∧
      (r.1 = i0 ∨ ∃ u v, rd s.arr (r.1 - 1) = some u ∧ rd s.arr (pp - (r.1 - 1)) = some v ∧
        comp u v = true) ∧
      (r.1 = j0 ∨ ∃ u v, rd s.arr r.1 = some u ∧ rd s.arr (pp - r.1) = some v ∧
        comp u v = false) := by
  apply iter_total (symSearchBody comp pp)
    (fun p => i0 ≤ p.1 ∧ p.1 ≤ p.2.1 ∧ p.2.1 ≤ j0 ∧ p.2.2.arr = s.arr ∧ p.2.2.swaps = s.swaps ∧
      (p.1 = i0 ∨ ∃ u v, rd s.arr (p.1 - 1) = some u ∧ rd s.arr (pp - (p.1 - 1)) = some v ∧
        comp u v = true) ∧
      (p.2.1 = j0 ∨ ∃ u v, rd s.arr p.2.1 = some u ∧ rd s.arr (pp - p.2.1) = some v ∧
        comp u v = false))
    (fun p => (p.2.1 - p.1).toNat)
  · rintro ⟨i, j, t⟩ ⟨h1, h2, h3, h4, h5, h6, h7⟩
    simp only at h1 h2 h3 h4 h5 h6 h7
    by_cases hc : i < j
    · have hh : (i + j) >>> (1 : Nat) = (i + j) / 2 := shr1_eq _
      obtain ⟨u, v, hu, hv, hless⟩ := less_inb comp t ((i + j) / 2) (pp - (i + j) / 2)
        ⟨by omega, by rw [h4]; omega⟩ ⟨by omega, by rw [h4]; omega⟩
      rw [h4] at hu hv
      cases hcmp : comp u v
      · have hbd : symSearchBody comp pp (i, j, t) = .ok (.inl (i, (i + j) / 2,
            { t with comps := t.comps + 1 })) := by
          simp [symSearchBody, hc, hh, hless, hcmp]
        exact Or.inl ⟨_, hbd, ⟨h1, by simp <;> omega, by simp <;> omega, h4, h5, h6,
          Or.inr ⟨u, v, hu, hv, hcmp⟩⟩, by simp <;> omega⟩
      · have hbd : symSearchBody comp pp (i, j, t) = .ok (.inl ((i + j) / 2 + 1, j,
            { t with comps := t.comps + 1 })) := by
          simp [symSearchBody, hc, hh, hless, hcmp]
        exact Or.inl ⟨_, hbd, ⟨by simp <;> omega, by simp <;> omega, h3, h4, h5,
          Or.inr ⟨u, v, by simpa using hu, by simpa using hv, hcmp⟩, h7⟩, by simp <;> omega⟩
    · have hbd : symSearchBody comp pp (i, j, t) = .ok (.inr (i, t)) := by
        simp [symSearchBody, hc]
      have hij' : i = j := by omega
      subst hij'
      exact Or.inr ⟨_, hbd, h4, h5, h1, h3, h6, h7⟩
  · exact ⟨le_refl _, hij, le_refl _, rfl, rfl, Or.inl rfl, Or.inl rfl⟩
  · simpa using hf

theorem bubbleUp_spec {α : Type} (s : Mem α) (a e : Int) (f : Nat)
    (ha : 0 ≤ a) (hae : a ≤ e) (he : e < s.arr.length) (hf : (e - a).toNat < f) :
    ∃ s', iter (bubbleUpBody e) f (a, s) = .ok s' ∧ Shuffle a (e + 1) s.arr s'.arr ∧
      (∀ k, rd s'.arr k = rd s.arr (bubUpIdx a e k)) ∧ s'.comps = s.comps := by
  apply iter_total (bubbleUpBody e)
    (fun p => a ≤ p.1 ∧ p.1 ≤ e ∧ Shuffle a (e + 1) s.arr p.2.arr ∧
      (∀ k, rd p.2.arr k = rd s.arr (bubUpIdx a p.1 k)) ∧ p.2.comps = s.comps)
    (fun p => (e - p.1).toNat)
  · rintro ⟨i, t⟩ ⟨h1, h2, h3, h4, h5⟩
    have hl := h3.length_eq
    simp only at h1 h2 h3 h4 h5 hl
    by_cases hc : i < e
    · obtain ⟨x, y, hx, hy, hswap⟩ := swap_inb t i (i + 1)
        ⟨by omega, by omega⟩ ⟨by omega, by omega⟩
      have hbd : bubbleUpBody e (i, t) = .ok (.inl (i + 1,
          { t with arr := swapL t.arr i (i + 1) x y, swaps := t.swaps + 1 })) := by
        simp [bubbleUpBody, hc, hswap]
      refine Or.inl ⟨_, hbd, ⟨by simp <;> omega, by simp <;> omega, ?_, ?_, by simpa using h5⟩,
        by simp <;> omega⟩
      · exact h3.trans (Shuffle.one (by omega) (by omega) (by omega) (by omega) hx hy)
      · intro k
        simp only
        rw [rd_swapL hx hy]
        rw [h4] at hx hy
        have e1 : bubUpIdx a i i = a := by
          unfold bubUpIdx; split_ifs <;> omega
        have e2 : bubUpIdx a i (i + 1) = i + 1 := by
          unfold bubUpIdx; split_ifs <;> omega
        rw [e1] at hx
        rw [e2] at hy
        by_cases c1 : k = i + 1
        · have : bubUpIdx a (i + 1) k = a := by
            unfold bubUpIdx; split_ifs <;> omega
          rw [this, hx, if_pos c1]
        · by_cases c2 : k = i
          · have : bubUpIdx a (i + 1) k = i + 1 := by
              unfold bubUpIdx; split_ifs <;> omega
            rw [this, hy, if_neg c1, if_pos c2]
          · have : bubUpIdx a (i + 1) k = bubUpIdx a i k := by
              unfold bubUpIdx; split_ifs <;> omega
            rw [this, if_neg c1, if_neg c2, h4]
    · have hbd : bubbleUpBody e (i, t) = .ok (.inr t) := by
        simp [bubbleUpBody, hc]
      have : i = e := by omega
      subst this
      exact Or.inr ⟨_, hbd, h3, h4, h5⟩
  · refine ⟨le_refl _, hae, Shuffle.refl _, ?_, rfl⟩
    intro k
    have : bubUpIdx a a k = k := by
      unfold bubUpIdx; split_ifs <;> omega
    simp [this]
  · simpa using hf

theorem bubbleDown_spec {α : Type} (s : Mem α) (i m : Int) (f : Nat)
    (hi : 0 ≤ i) (him : i ≤ m) (hm : m < s.arr.length) (hf : (m - i).toNat < f) :
    ∃ s', iter (bubbleDownBody i) f (m, s) = .ok s' ∧ Shuffle i (m + 1) s.arr s'.arr ∧
      (∀ k, rd s'.arr k = rd s.arr (bubDownIdx i m k)) ∧ s'.comps = s.comps := by
  apply iter_total (bubbleDownBody i)
    (fun p => i ≤ p.1 ∧ p.1 ≤ m ∧ Shuffle i (m + 1) s.arr p.2.arr ∧
      (∀ k, rd p.2.arr k = rd s.arr (bubDownIdx p.1 m k)) ∧ p.2.comps = s.comps)
    (fun p => (p.1 - i).toNat)
  · rintro ⟨j, t⟩ ⟨h1, h2, h3, h4, h5⟩
    have hl := h3.length_eq
    simp only at h1 h2 h3 h4 h5 hl
    by_cases hc : j > i
    · obtain ⟨x, y, hx, hy, hswap⟩ := swap_inb t j (j - 1)
        ⟨by omega, by omega⟩ ⟨by omega, by omega⟩
      have hbd : bubbleDownBody i (j, t) = .ok (.inl (j - 1,
          { t with arr := swapL t.arr j (j - 1) x y, swaps := t.swaps + 1 })) := by
        simp [bubbleDownBody, hc, hswap]
      refine Or.inl ⟨_, hbd, ⟨by simp <;> omega, by simp <;> omega, ?_, ?_, by simpa using h5⟩,
        by simp <;> omega⟩
      · exact h3.trans (Shuffle.one (by omega) (by omega) (by omega) (by omega) hx hy)
      · intro k
        simp only
        rw [rd_swapL hx hy]
        rw [h4] at hx hy
        have e1 : bubDownIdx j m j = m := by
          unfold bubDownIdx; split_ifs <;> omega
        have e2 : bubDownIdx j m (j - 1) = j - 1 := by
          unfold bubDownIdx; split_ifs <;> omega
        rw [e1] at hx
        rw [e2] at hy
        by_cases c1 : k = j - 1
        · have : bubDownIdx (j - 1) m k = m := by
            unfold bubDownIdx; split_ifs <;> omega
          rw [this, hx, if_pos c1]
        · by_cases c2 : k = j
          · have : bubDownIdx (j - 1) m k = j - 1 := by
              unfold bubDownIdx; split_ifs <;> omega
            rw [this, hy, if_neg c1, if_pos c2]
          · have : bubDownIdx (j - 1) m k = bubDownIdx j m k := by
              unfold bubDownIdx; split_ifs <;> omega
            rw [this, if_neg c1, if_neg c2, h4]
    · have hbd : bubbleDownBody i (j, t) = .ok (.inr t) := by
        simp [bubbleDownBody, hc]
      have : j = i := by omega
      subst this
      exact Or.inr ⟨_, hbd, h3, h4, h5⟩
  · refine ⟨him, le_refl _, Shuffle.refl _, ?_, rfl⟩
    intro k
    have : bubDownIdx m m k = k := by
      unfold bubDownIdx; split_ifs <;> omega
    simp [this]
  · simpa using hf

/-! ## The symmetric merge: no fault, a rearrangement of its range -/

theorem symMergeAux_safe {α : Type} (comp : α → α → Bool) : ∀ (f : Nat) (s : Mem α)
    (a m b : Int), 0 ≤ a → a < m → m < b → b ≤ s.arr.length → (b - a).toNat < f →
    ∃ s', symMergeAux comp f s a m b = .ok s' ∧ Shuffle a b s.arr s'.arr := by
  intro f
  induction f with
  | zero => intro s a m b _ _ _ _ h; omega
  | succ f ih =>
    intro s a m b ha ham hmb hb hf
    rw [symMergeAux]
    by_cases c1 : m - a = 1
    · obtain ⟨⟨i, t⟩, hr, g1, g2, g3, g4, -, -⟩ := lowerBound_spec comp s a m b
        ((b - m).toNat + 1) ⟨by omega, by omega⟩ (by omega) (by omega) hb (by omega)
      simp only at g1 g2 g3 g4
      obtain ⟨s', hs', k1, -, -⟩ := bubbleUp_spec t a (i - 1) ((b - a).toNat + 1)
        ha (by omega) (by rw [g1]; omega) (by omega)
      refine ⟨s', by simp [c1, hr, hs'], ?_⟩
      rw [g1] at k1
      exact k1.widen (le_refl _) (by omega)
    · by_cases c2 : b - m = 1
      · obtain ⟨⟨i, t⟩, hr, g1, g2, g3, g4, -, -⟩ := lowerBound_spec comp s m a m
          ((m - a).toNat + 1) ⟨by omega, by omega⟩ (by omega) (by omega) (by omega) (by omega)
        simp only at g1 g2 g3 g4
        obtain ⟨s', hs', k1, -, -⟩ := bubbleDown_spec t i m ((b - a).toNat + 1)
          (by omega) (by omega) (by rw [g1]; omega) (by omega)
        refine ⟨s', by simp [c1, c2, hr, hs'], ?_⟩
        rw [g1] at k1
        exact k1.widen (by omega) (by omega)
      · have hmid : cdiv (a + b) 2 = (a + b) / 2 := cdiv_eq (by omega) (by omega)
        simp only [c1, c2, if_false, hmid]
        generalize hmd : (a + b) / 2 = mid
        have hmid1 : a < mid := by omega
        have hmid2 : mid < b := by omega
        have hmid3 : mid - a ≤ b - mid := by omega
        have hmid4 : b - mid ≤ mid - a + 1 := by omega
        have hsearch : ∃ r, iter (symSearchBody comp (mid + m - 1)) ((b - a).toNat + 1)
            ((if m > mid then (mid + m - b, mid) else (a, m) : Int × Int).1,
             (if m > mid then (mid + m - b, mid) else (a, m) : Int × Int).2, s) = .ok r ∧
            r.2.arr = s.arr ∧ a ≤ r.1 ∧ r.1 ≤ m ∧ r.1 ≤ mid ∧ mid + m - r.1 ≤ b ∧
            m ≤ mid + m - r.1 := by
          by_cases c3 : m > mid
          · simp only [c3, if_true]
            obtain ⟨r, hr, g1, g2, g3, g4, -, -⟩ := symSearch_spec comp s (mid + m - 1)
              (mid + m - b) mid ((b - a).toNat + 1) (by omega) (by omega) (by omega) (by omega)
              (by omega) (by omega)
            exact ⟨r, hr, g1, by omega, by omega, by omega, by omega, by omega⟩
          · simp only [c3, if_false]
            obtain ⟨r, hr, g1, g2, g3, g4, -, -⟩ := symSearch_spec comp s (mid + m - 1)
              a m ((b - a).toNat + 1) (by omega) (by omega) (by omega) (by omega)
              (by omega) (by omega)
            exact ⟨r, hr, g1, by omega, by omega, by omega, by omega, by omega⟩
        obtain ⟨⟨start, s1⟩, hr, g1, g2, g3, g4, g5, g6⟩ := hsearch
        simp only at g1 g2 g3 g4 g5 g6
        have hrot : ∃ s2, (if start < m ∧ m < mid + m - start then
            rotate s1 start m (mid + m - start) else pure s1) = .ok s2 ∧
            Shuffle a b s.arr s2.arr := by
          by_cases c4 : start < m ∧ m < mid + m - start
          · obtain ⟨s2, hs2, k1, -⟩ := rotate_spec s1 start m (mid + m - start) (by omega)
              c4.1 c4.2 (by rw [g1]; omega)
            rw [g1] at k1
            exact ⟨s2, by simp [c4, hs2], k1.widen (by omega) (by omega)⟩
          · exact ⟨s1, by simp [c4], by rw [g1]; exact Shuffle.refl _⟩
        obtain ⟨s2, hs2, k2⟩ := hrot
        have hl2 := k2.length_eq
        have hrec1 : ∃ s3, (if a < start ∧ start < mid then
            symMergeAux comp f s2 a start mid else pure s2) = .ok s3 ∧
            Shuffle a b s.arr s3.arr := by
          by_cases c5 : a < start ∧ start < mid
          · obtain ⟨s3, hs3, k3⟩ := ih s2 a start mid ha c5.1 c5.2 (by omega) (by omega)
            exact ⟨s3, by simp [c5, hs3], k2.trans (k3.widen (le_refl _) (by omega))⟩
          · exact ⟨s2, by simp [c5], k2⟩
        obtain ⟨s3, hs3, k3⟩ := hrec1
        have hl3 := k3.length_eq
        have hrec2 : ∃ s4, (if mid < mid + m - start ∧ mid + m - start < b then
            symMergeAux comp f s3 mid (mid + m - start) b else pure s3) = .ok s4 ∧
            Shuffle a b s.arr s4.arr := by
          by_cases c6 : mid < mid + m - start ∧ mid + m - start < b
          · obtain ⟨s4, hs4, k4⟩ := ih s3 mid (mid + m - start) b (by omega) c6.1 c6.2
              (by omega) (by omega)
            exact ⟨s4, by simp [c6, hs4], k3.trans (k4.widen (by omega) (le_refl _))⟩
          · exact ⟨s3, by simp [c6], k3⟩
        obtain ⟨s4, hs4, k4⟩ := hrec2
        refine ⟨s4, ?_, k4⟩
        simp only [hr, Res.ok_bind, hs2, hs3, hs4]

theorem sym_merge_safe {α : Type} (comp : α → α → Bool) (s : Mem α) (a m b : Int)
    (ha : 0 ≤ a) (ham : a < m) (hmb : m < b) (hb : b ≤ s.arr.length) :
    ∃ s', _sym_merge comp s a m b = .ok s' ∧ Shuffle a b s.arr s'.arr :=
  symMergeAux_safe comp _ s a m b ha ham hmb hb (by omega)

/-! ## The symmetric merge: sortedness -/

theorem SortedOn.le {α : Type} {comp : α → α → Bool} {l : List α} {a b : Int}
    (h : SortedOn comp l a b) (hc : StrictWeak comp) {i j : Int} {x y : α}
    (h1 : a ≤ i) (h2 : i ≤ j) (h3 : j < b) (hx : rd l i = some x) (hy : rd l j = some y) :
    comp y x = false := by
  by_cases e : i = j
  · subst e
    rw [hx] at hy
    cases hy
    exact hc.irrefl _
  · exact h i j x y h1 (by omega) h3 hx hy

theorem SortedOn.glue {α : Type} {comp : α → α → Bool} {l : List α} {a mid b : Int}
    (h1 : SortedOn comp l a mid) (h2 : SortedOn comp l mid b)
    (h3 : ∀ u v x y, a ≤ u → u < mid → mid ≤ v → v < b → rd l u = some x → rd l v = some y →
      comp y x = false) : SortedOn comp l a b := by
  intro i j x y g1 g2 g3 hx hy
  by_cases c1 : j < mid
  · exact h1 i j x y g1 g2 c1 hx hy
  · by_cases c2 : mid ≤ i
    · exact h2 i j x y c2 g2 g3 hx hy
    · exact h3 i j x y g1 (by omega) (by omega) g3 hx hy

theorem SortedOn.congr_rd {α : Type} {comp : α → α → Bool} {l l' : List α} {a b : Int}
    (h : SortedOn comp l a b) (he : ∀ k, a ≤ k → k < b → rd l' k = rd l k) :
    SortedOn comp l' a b := by
  intro i j x y g1 g2 g3 hx hy
  rw [he i g1 (by omega)] at hx
  rw [he j (by omega) g3] at hy
  exact h i j x y g1 g2 g3 hx hy

theorem symMerge_base_left {α : Type} {comp : α → α → Bool} (hc : StrictWeak comp)
    (l l' : List α) (a b i : Int) (hs : SortedOn comp l (a + 1) b)
    (hi1 : a + 1 ≤ i) (hi2 : i ≤ b)
    (P1 : i = a + 1 ∨ ∃ u v, rd l (i - 1) = some u ∧ rd l a = some v ∧ comp u v = true)
    (P2 : i = b ∨ ∃ u v, rd l i = some u ∧ rd l a = some v ∧ comp u v = false)
    (hmap : ∀ k, rd l' k = rd l (bubUpIdx a (i - 1) k)) : SortedOn comp l' a b := by
  intro u v x y g1 g2 g3 hx hy
  rw [hmap] at hx hy
  by_cases c1 : v < i - 1
  · have e1 : bubUpIdx a (i - 1) u = u + 1 := by unfold bubUpIdx; split_ifs <;> omega
    have e2 : bubUpIdx a (i - 1) v = v + 1 := by unfold bubUpIdx; split_ifs <;> omega
    rw [e1] at hx
    rw [e2] at hy
    exact hs _ _ x y (by omega) (by omega) (by omega) hx hy
  · by_cases c2 : v = i - 1
    · have e1 : bubUpIdx a (i - 1) u = u + 1 := by unfold bubUpIdx; split_ifs <;> omega
      have e2 : bubUpIdx a (i - 1) v = a := by unfold bubUpIdx; split_ifs <;> omega
      rw [e1] at hx
      rw [e2] at hy
      rcases P1 with h | ⟨p, q, hp, hq, hpq⟩
      · omega
      · rw [hy] at hq
        cases hq
        have := hs.le hc (i := u + 1) (j := i - 1) (by omega) (by omega) (by omega) hx hp
        exact hc.asymm _ _ (hc.lt_of_le_of_lt this hpq)
    · have e2 : bubUpIdx a (i - 1) v = v := by unfold bubUpIdx; split_ifs <;> omega
      rw [e2] at hy
      by_cases c3 : u < i - 1
      · have e1 : bubUpIdx a (i - 1) u = u + 1 := by unfold bubUpIdx; split_ifs <;> omega
        rw [e1] at hx
        exact hs _ _ x y (by omega) (by omega) (by omega) hx hy
      · by_cases c4 : u = i - 1
        · have e1 : bubUpIdx a (i - 1) u = a := by unfold bubUpIdx; split_ifs <;> omega
          rw [e1] at hx
          rcases P2 with h | ⟨p, q, hp, hq, hpq⟩
          · omega
          · rw [hx] at hq
            cases hq
            have := hs.le hc (i := i) (j := v) (by omega) (by omega) (by omega) hp hy
            exact hc.le_trans hpq this
        · have e1 : bubUpIdx a (i - 1) u = u := by unfold bubUpIdx; split_ifs <;> omega
          rw [e1] at hx
          exact hs _ _ x y (by omega) (by omega) (by omega) hx hy

theorem symMerge_base_right {α : Type} {comp : α → α → Bool} (hc : StrictWeak comp)
    (l l' : List α) (a m i : Int) (hs : SortedOn comp l a m)
    (hi1 : a ≤ i) (hi2 : i ≤ m)
    (P1 : i = a ∨ ∃ u v, rd l (i - 1) = some u ∧ rd l m = some v ∧ comp u v = true)
    (P2 : i = m ∨ ∃ u v, rd l i = some u ∧ rd l m = some v ∧ comp u v = false)
    (hmap : ∀ k, rd l' k = rd l (bubDownIdx i m k)) : SortedOn comp l' a (m + 1) := by
  intro u v x y g1 g2 g3 hx hy
  rw [hmap] at hx hy
  by_cases c1 : v < i
  · have e1 : bubDownIdx i m u = u := by unfold bubDownIdx; split_ifs <;> omega
    have e2 : bubDownIdx i m v = v := by unfold bubDownIdx; split_ifs <;> omega
    rw [e1] at hx
    rw [e2] at hy
    exact hs _ _ x y (by omega) (by omega) (by omega) hx hy
  · by_cases c2 : v = i
    · have e1 : bubDownIdx i m u = u := by unfold bubDownIdx; split_ifs <;> omega
      have e2 : bubDownIdx i m v = m := by unfold bubDownIdx; split_ifs <;> omega
      rw [e1] at hx
      rw [e2] at hy
      rcases P1 with h | ⟨p, q, hp, hq, hpq⟩
      · omega
      · rw [hy] at hq
        cases hq
        have := hs.le hc (i := u) (j := i - 1) (by omega) (by omega) (by omega) hx hp
        exact hc.asymm _ _ (hc.lt_of_le_of_lt this hpq)
    · have e2 : bubDownIdx i m v = v - 1 := by unfold bubDownIdx; split_ifs <;> omega
      rw [e2] at hy
      by_cases c3 : u < i
      · have e1 : bubDownIdx i m u = u := by unfold bubDownIdx; split_ifs <;> omega
        rw [e1] at hx
        exact hs.le hc (by omega) (by omega) (by omega) hx hy
      · by_cases c4 : u = i
        · have e1 : bubDownIdx i m u = m := by unfold bubDownIdx; split_ifs <;> omega
          rw [e1] at hx
          rcases P2 with h | ⟨p, q, hp, hq, hpq⟩
          · omega
          · rw [hx] at hq
            cases hq
            have := hs.le hc (i := i) (j := v - 1) (by omega) (by omega) (by omega) hp hy
            exact hc.le_trans hpq this
        · have e1 : bubDownIdx i m u = u - 1 := by unfold bubDownIdx; split_ifs <;> omega
          rw [e1] at hx
          exact hs _ _ x y (by omega) (by omega) (by omega) hx hy

theorem symMerge_cross {α : Type} {comp : α → α → Bool} (hc : StrictWeak comp)
    (l0 l1 : List α) (a m b mid start : Int)
    (hs1 : SortedOn comp l0 a m) (hs2 : SortedOn comp l0 m b)
    (h1 : a ≤ start) (h2 : start ≤ m) (h3 : start ≤ mid) (h4 : mid + m - start ≤ b)
    (h5 : m ≤ mid + m - start)
    (hrot : ∀ k, rd l1 k = rd l0 (rotIdx start m (mid + m - start) k))
    (P1 : (start = a ∨ mid + m - start = b) ∨ ∃ u v, rd l0 (start - 1) = some u ∧
      rd l0 (mid + m - start) = some v ∧ comp u v = true)
    (P2 : (start = m ∨ start = mid) ∨ ∃ u v, rd l0 start = some u ∧
      rd l0 (mid + m - start - 1) = some v ∧ comp u v = false) :
    ∀ u v x y, a ≤ u → u < mid → mid ≤ v → v < b → rd l1 u = some x → rd l1 v = some y →
      comp y x = false := by
  intro u v x y g1 g2 g3 g4 hx hy
  rw [hrot] at hx hy
  by_cases c1 : u < start
  · have e1 : rotIdx start m (mid + m - start) u = u := by
      unfold rotIdx; split_ifs <;> omega
    rw [e1] at hx
    by_cases c2 : v < mid + m - start
    · have e2 : rotIdx start m (mid + m - start) v = v - (mid - start) := by
        unfold rotIdx; split_ifs <;> omega
      rw [e2] at hy
      exact hs1 _ _ x y g1 (by omega) (by omega) hx hy
    · have e2 : rotIdx start m (mid + m - start) v = v := by
        unfold rotIdx; split_ifs <;> omega
      rw [e2] at hy
      rcases P1 with h | ⟨p, q, hp, hq, hpq⟩
      · omega
      · have k1 := hs1.le hc (i := u) (j := start - 1) g1 (by omega) (by omega) hx hp
        have k2 := hs2.le hc (i := mid + m - start) (j := v) (by omega) (by omega) g4 hq hy
        exact hc.asymm _ _ (hc.lt_of_lt_of_le (hc.lt_of_le_of_lt k1 hpq) k2)
  · have e1 : rotIdx start m (mid + m - start) u = u + (m - start) := by
      unfold rotIdx; split_ifs <;> omega
    rw [e1] at hx
    by_cases c2 : v < mid + m - start
    · have e2 : rotIdx start m (mid + m - start) v = v - (mid - start) := by
        unfold rotIdx; split_ifs <;> omega
      rw [e2] at hy
      rcases P2 with h | ⟨p, q, hp, hq, hpq⟩
      · omega
      · have k1 := hs2.le hc (i := u + (m - start)) (j := mid + m - start - 1) (by omega)
          (by omega) (by omega) hx hq
        have k2 := hs1.le hc (i := start) (j := v - (mid - start)) (by omega) (by omega)
          (by omega) hp hy
        exact hc.le_trans (hc.le_trans k1 hpq) k2
    · have e2 : rotIdx start m (mid + m - start) v = v := by
        unfold rotIdx; split_ifs <;> omega
      rw [e2] at hy
      exact hs2 _ _ x y (by omega) (by omega) g4 hx hy


theorem rotIdx_id_of_degenerate (start m e k : Int) (h : ¬ (start < m ∧ m < e))
    (h1 : start ≤ m) (h2 : m ≤ e) : rotIdx start m e k = k := by
  unfold rotIdx; split_ifs <;> omega

/-! ## The general case of the symmetric merge -/

/-- In its general case `_sym_merge` is `symMergeSplit` followed by the two guarded
recursive calls. -/
theorem symMergeAux_general {α : Type} (comp : α → α → Bool) (f : Nat) (s : Mem α)
    (a m b : Int) (c1 : ¬ m - a = 1) (c2 : ¬ b - m = 1) :
    symMergeAux comp (f + 1) s a m b = (do
      let q ← symMergeSplit comp s a m b
      let t ← (if a < q.2.1 ∧ q.2.1 < q.1 then symMergeAux comp f q.2.2.2 a q.2.1 q.1
        else pure q.2.2.2)
      if q.1 < q.2.2.1 ∧ q.2.2.1 < b then symMergeAux comp f t q.1 q.2.2.1 b else pure t) := by
  rw [symMergeAux]
  simp only [c1, c2, if_false, symMergeSplit, Res.bind_assoc, Res.pure_eq, Res.ok_bind]

/-- The split of the general case: `start` and `end = mid + m - start` cut the two ranges so
that `(start - a) + (end - m) = mid - a`; the rotation exchanges `[start, m)` and `[m, end)`;
for sorted ranges under a strict weak order the four pieces are sorted and nothing of
`[mid, b)` is less than anything of `[a, mid)`. -/
theorem symMergeSplit_spec {α : Type} (comp : α → α → Bool) (s : Mem α) (a m b : Int)
    (ha : 0 ≤ a) (ham : 2 ≤ m - a) (hmb : 2 ≤ b - m) (hb : b ≤ s.arr.length) :
    ∃ start s2, symMergeSplit comp s a m b
        = .ok ((a + b) / 2, start, (a + b) / 2 + m - start, s2) ∧
      a ≤ start ∧ start ≤ m ∧ start ≤ (a + b) / 2 ∧ (a + b) / 2 + m - start ≤ b ∧
      m ≤ (a + b) / 2 + m - start ∧ Shuffle a b s.arr s2.arr ∧
      (∀ k, rd s2.arr k = rd s.arr (rotIdx start m ((a + b) / 2 + m - start) k)) ∧
      (StrictWeak comp → SortedOn comp s.arr a m → SortedOn comp s.arr m b →
        SortedOn comp s2.arr a start ∧ SortedOn comp s2.arr start ((a + b) / 2) ∧
        SortedOn comp s2.arr ((a + b) / 2) ((a + b) / 2 + m - start) ∧
        SortedOn comp s2.arr ((a + b) / 2 + m - start) b ∧
        ∀ u v x y, a ≤ u → u < (a + b) / 2 → (a + b) / 2 ≤ v → v < b → rd s2.arr u = some x →
          rd s2.arr v = some y → comp y x = false) := by
  have hmid : cdiv (a + b) 2 = (a + b) / 2 := cdiv_eq (by omega) (by omega)
  simp only [symMergeSplit, hmid]
  generalize hmd : (a + b) / 2 = mid
  have hmid1 : a < mid := by omega
  have hmid2 : mid < b := by omega
  have hmid3 : mid - a ≤ b - mid := by omega
  have hmid4 : b - mid ≤ mid - a + 1 := by omega
  have hsearch : ∃ r, iter (symSearchBody comp (mid + m - 1)) ((b - a).toNat + 1)
      ((if m > mid then (mid + m - b, mid) else (a, m) : Int × Int).1,
       (if m > mid then (mid + m - b, mid) else (a, m) : Int × Int).2, s) = .ok r ∧
      r.2.arr = s.arr ∧ a ≤ r.1 ∧ r.1 ≤ m ∧ r.1 ≤ mid ∧ mid + m - r.1 ≤ b ∧
      m ≤ mid + m - r.1 ∧
      ((r.1 = a ∨ mid + m - r.1 = b) ∨ ∃ u v, rd s.arr (r.1 - 1) = some u ∧
        rd s.arr (mid + m - r.1) = some v ∧ comp u v = true) ∧
      ((r.1 = m ∨ r.1 = mid) ∨ ∃ u v, rd s.arr r.1 = some u ∧
        rd s.arr (mid + m - r.1 - 1) = some v ∧ comp u v = false) := by
    by_cases c3 : m > mid
    · simp only [c3, if_true]
      obtain ⟨r, hr, g1, g2, g3, g4, P1, P2⟩ := symSearch_spec comp s (mid + m - 1)
        (mid + m - b) mid ((b - a).toNat + 1) (by omega) (by omega) (by omega) (by omega)
        (by omega) (by omega)
      refine ⟨r, hr, g1, by omega, by omega, by omega, by omega, by omega, ?_, ?_⟩
      · rcases P1 with h | ⟨u, v, hu, hv, huv⟩
        · exact Or.inl (Or.inr (by omega))
        · have e : mid + m - 1 - (r.1 - 1) = mid + m - r.1 := by omega
          rw [e] at hv
          exact Or.inr ⟨u, v, hu, hv, huv⟩
      · rcases P2 with h | ⟨u, v, hu, hv, huv⟩
        · exact Or.inl (Or.inr h)
        · have e : mid + m - 1 - r.1 = mid + m - r.1 - 1 := by omega
          rw [e] at hv
          exact Or.inr ⟨u, v, hu, hv, huv⟩
    · simp only [c3, if_false]
      obtain ⟨r, hr, g1, g2, g3, g4, P1, P2⟩ := symSearch_spec comp s (mid + m - 1)
        a m ((b - a).toNat + 1) (by omega) (by omega) (by omega) (by omega)
        (by omega) (by omega)
      refine ⟨r, hr, g1, by omega, by omega, by omega, by omega, by omega, ?_, ?_⟩
      · rcases P1 with h | ⟨u, v, hu, hv, huv⟩
        · exact Or.inl (Or.inl h)
        · have e : mid + m - 1 - (r.1 - 1) = mid + m - r.1 := by omega
          rw [e] at hv
          exact Or.inr ⟨u, v, hu, hv, huv⟩
      · rcases P2 with h | ⟨u, v, hu, hv, huv⟩
        · exact Or.inl (Or.inl h)
        · have e : mid + m - 1 - r.1 = mid + m - r.1 - 1 := by omega
          rw [e] at hv
          exact Or.inr ⟨u, v, hu, hv, huv⟩
  obtain ⟨⟨start, s1⟩, hr, g1, g2, g3, g4, g5, g6, P1, P2⟩ := hsearch
  simp only at g1 g2 g3 g4 g5 g6 P1 P2
  have hrot : ∃ s2, (if start < m ∧ m < mid + m - start then
      rotate s1 start m (mid + m - start) else pure s1) = .ok s2 ∧
      Shuffle a b s.arr s2.arr ∧
      (∀ k, rd s2.arr k = rd s.arr (rotIdx start m (mid + m - start) k)) := by
    by_cases c4 : start < m ∧ m < mid + m - start
    · obtain ⟨s2, hs2, k1, k2, -⟩ := rotate_spec s1 start m (mid + m - start) (by omega)
        c4.1 c4.2 (by rw [g1]; omega)
      rw [g1] at k1 k2
      exact ⟨s2, by simp [c4, hs2], k1.widen (by omega) (by omega), k2⟩
    · refine ⟨s1, by simp [c4], by rw [g1]; exact Shuffle.refl _, ?_⟩
      intro k
      rw [rotIdx_id_of_degenerate _ _ _ _ c4 g3 g6, g1]
  obtain ⟨s2, hs2, k2, hmap⟩ := hrot
  refine ⟨start, s2, ?_, g2, g3, g4, g5, g6, k2, hmap, ?_⟩
  · simp only [hr, Res.ok_bind, hs2]
    rfl
  · intro hc hL hR
    refine ⟨?_, ?_, ?_, ?_, symMerge_cross hc s.arr s2.arr a m b mid start hL hR g2 g3 g4 g5 g6
      hmap P1 P2⟩
    · intro u v x y q1 q2 q3 hx hy
      rw [hmap] at hx hy
      have e1 : rotIdx start m (mid + m - start) u = u := by
        unfold rotIdx; split_ifs <;> omega
      have e2 : rotIdx start m (mid + m - start) v = v := by
        unfold rotIdx; split_ifs <;> omega
      rw [e1] at hx
      rw [e2] at hy
      exact hL _ _ x y q1 q2 (by omega) hx hy
    · intro u v x y q1 q2 q3 hx hy
      rw [hmap] at hx hy
      have e1 : rotIdx start m (mid + m - start) u = u + (m - start) := by
        unfold rotIdx; split_ifs <;> omega
      have e2 : rotIdx start m (mid + m - start) v = v + (m - start) := by
        unfold rotIdx; split_ifs <;> omega
      rw [e1] at hx
      rw [e2] at hy
      exact hR _ _ x y (by omega) (by omega) (by omega) hx hy
    · intro u v x y q1 q2 q3 hx hy
      rw [hmap] at hx hy
      have e1 : rotIdx start m (mid + m - start) u = u - (mid - start) := by
        unfold rotIdx; split_ifs <;> omega
      have e2 : rotIdx start m (mid + m - start) v = v - (mid - start) := by
        unfold rotIdx; split_ifs <;> omega
      rw [e1] at hx
      rw [e2] at hy
      exact hL _ _ x y (by omega) (by omega) (by omega) hx hy
    · intro u v x y q1 q2 q3 hx hy
      rw [hmap] at hx hy
      have e1 : rotIdx start m (mid + m - start) u = u := by
        unfold rotIdx; split_ifs <;> omega
      have e2 : rotIdx start m (mid + m - start) v = v := by
        unfold rotIdx; split_ifs <;> omega
      rw [e1] at hx
      rw [e2] at hy
      exact hR _ _ x y (by omega) (by omega) (by omega) hx hy

theorem symMergeAux_sorted {α : Type} {comp : α → α → Bool} (hc : StrictWeak comp) :
    ∀ (f : Nat) (s : Mem α) (a m b : Int), 0 ≤ a → a < m → m < b → b ≤ s.arr.length →
    (b - a).toNat < f → SortedOn comp s.arr a m → SortedOn comp s.arr m b →
    ∃ s', symMergeAux comp f s a m b = .ok s' ∧ Shuffle a b s.arr s'.arr ∧
      SortedOn comp s'.arr a b := by
  intro f
  induction f with
  | zero => intro s a m b _ _ _ _ h; omega
  | succ f ih =>
    intro s a m b ha ham hmb hb hf hL hR
    by_cases c1 : m - a = 1
    · rw [symMergeAux]
      have hm : m = a + 1 := by omega
      subst hm
      obtain ⟨⟨i, t⟩, hr, g1, g2, g3, g4, P1, P2⟩ := lowerBound_spec comp s a (a + 1) b
        ((b - (a + 1)).toNat + 1) ⟨by omega, by omega⟩ (by omega) (by omega) hb (by omega)
      simp only at g1 g2 g3 g4 P1 P2
      obtain ⟨s', hs', k1, k2, -⟩ := bubbleUp_spec t a (i - 1) ((b - a).toNat + 1)
        ha (by omega) (by rw [g1]; omega) (by omega)
      rw [g1] at k1 k2
      exact ⟨s', by simp [hr, hs'], k1.widen (le_refl _) (by omega),
        symMerge_base_left hc s.arr s'.arr a b i hR g3 g4 P1 P2 k2⟩
    · by_cases c2 : b - m = 1
      · rw [symMergeAux]
        have hbm : b = m + 1 := by omega
        subst hbm
        obtain ⟨⟨i, t⟩, hr, g1, g2, g3, g4, P1, P2⟩ := lowerBound_spec comp s m a m
          ((m - a).toNat + 1) ⟨by omega, by omega⟩ (by omega) (by omega) (by omega) (by omega)
        simp only at g1 g2 g3 g4 P1 P2
        obtain ⟨s', hs', k1, k2, -⟩ := bubbleDown_spec t i m ((m + 1 - a).toNat + 1)
          (by omega) (by omega) (by rw [g1]; omega) (by omega)
        rw [g1] at k1 k2
        exact ⟨s', by simp [c1, hr, hs'], k1.widen (by omega) (by omega),
          symMerge_base_right hc s.arr s'.arr a m i hL g3 g4 P1 P2 k2⟩
      · rw [symMergeAux_general comp f s a m b c1 c2]
        obtain ⟨start, s2, hq, g2, g3, g4, g5, g6, k2, -, hsrt⟩ :=
          symMergeSplit_spec comp s a m b ha (by omega) (by omega) hb
        obtain ⟨hA, hB, hC, hD, hcross⟩ := hsrt hc hL hR
        simp only [hq, Res.ok_bind]
        have hmid1 : a < (a + b) / 2 := by omega
        have hmid2 : (a + b) / 2 < b := by omega
        generalize (a + b) / 2 = mid at *
        have hl2 := k2.length_eq
        have hrec1 : ∃ s3, (if a < start ∧ start < mid then
            symMergeAux comp f s2 a start mid else pure s2) = .ok s3 ∧
            Shuffle a mid s2.arr s3.arr ∧ SortedOn comp s3.arr a mid := by
          by_cases c5 : a < start ∧ start < mid
          · obtain ⟨s3, hs3, k3, k3'⟩ := ih s2 a start mid ha c5.1 c5.2 (by omega) (by omega)
              hA hB
            exact ⟨s3, by simp [c5, hs3], k3, k3'⟩
          · refine ⟨s2, by simp [c5], Shuffle.refl _, ?_⟩
            by_cases c5' : start = a
            · exact hB.narrow (by omega) (le_refl _)
            · exact hA.narrow (le_refl _) (by omega)
        obtain ⟨s3, hs3, k3, hS3⟩ := hrec1
        have hl3 := k3.length_eq
        have hrec2 : ∃ s4, (if mid < mid + m - start ∧ mid + m - start < b then
            symMergeAux comp f s3 mid (mid + m - start) b else pure s3) = .ok s4 ∧
            Shuffle mid b s3.arr s4.arr ∧ SortedOn comp s4.arr mid b := by
          have hC3 : SortedOn comp s3.arr mid (mid + m - start) :=
            hC.congr_rd (fun k q1 q2 => k3.outside k (Or.inr q1))
          have hD3 : SortedOn comp s3.arr (mid + m - start) b :=
            hD.congr_rd (fun k q1 q2 => k3.outside k (Or.inr (by omega)))
          by_cases c6 : mid < mid + m - start ∧ mid + m - start < b
          · obtain ⟨s4, hs4, k4, k4'⟩ := ih s3 mid (mid + m - start) b (by omega) c6.1 c6.2
              (by omega) (by omega) hC3 hD3
            exact ⟨s4, by simp [c6, hs4], k4, k4'⟩
          · refine ⟨s3, by simp [c6], Shuffle.refl _, ?_⟩
            by_cases c6' : mid + m - start = b
            · exact hC3.narrow (le_refl _) (by omega)
            · exact hD3.narrow (by omega) (le_refl _)
        obtain ⟨s4, hs4, k4, hS4⟩ := hrec2
        refine ⟨s4, ?_, ?_, ?_⟩
        · simp only [hs3, Res.ok_bind, hs4]
        · exact k2.trans ((k3.widen (le_refl _) (by omega)).trans (k4.widen (by omega) (le_refl _)))
        · refine @SortedOn.glue α comp s4.arr a mid b ?_ ?_ ?_
          · exact hS3.congr_rd (fun k q1 q2 => k4.outside k (Or.inl q2))
          · exact hS4
          · intro u v x y q1 q2 q3 q4 hx hy
            rw [k4.outside u (Or.inl q2)] at hx
            obtain ⟨u', r1, r2, hx'⟩ := k3.inside u x q1 q2 hx
            obtain ⟨v', r3, r4, hy'⟩ := k4.inside v y q3 q4 hy
            rw [k3.outside v' (Or.inr r3)] at hy'
            exact hcross u' v' x y r1 r2 r3 r4 hx' hy'

theorem sym_merge_sorted {α : Type} {comp : α → α → Bool} (hc : StrictWeak comp) (s : Mem α)
    (a m b : Int) (ha : 0 ≤ a) (ham : a < m) (hmb : m < b) (hb : b ≤ s.arr.length)
    (hs1 : SortedOn comp s.arr a m) (hs2 : SortedOn comp s.arr m b) :
    ∃ s', _sym_merge comp s a m b = .ok s' ∧ Shuffle a b s.arr s'.arr ∧
      SortedOn comp s'.arr a b :=
  symMergeAux_sorted hc _ s a m b ha ham hmb hb (by omega) hs1 hs2

/-! ## The stable engine: no fault, a rearrangement -/

theorem stable_safe {α : Type} (comp : α → α → Bool) (s : Mem α) (n : Int)
    (hn0 : 0 ≤ n) (hn : n ≤ s.arr.length) :
    ∃ s', _stable comp s n = .ok s' ∧ Shuffle 0 n s.arr s'.arr := by
  have hblocks : ∃ r, iter (stableBlocksBody comp n 20) (n.toNat + 1) (0, 20, s) = .ok r ∧
      (0 ≤ r.1 ∧ r.1 ≤ n ∧ Shuffle 0 n s.arr r.2.arr) := by
    apply iter_total (stableBlocksBody comp n 20)
      (fun p => 0 ≤ p.1 ∧ p.1 ≤ n ∧ p.1 < p.2.1 ∧ Shuffle 0 n s.arr p.2.2.arr)
      (fun p => (n - p.1).toNat)
    · rintro ⟨a, b, t⟩ ⟨h1, h2, h3, h4⟩
      have hl := h4.length_eq
      simp only at h1 h2 h3 h4 hl
      by_cases hc : b ≤ n
      · obtain ⟨t', ht', k⟩ := insertion_sort_safe comp t a b h1 (by omega)
        have hbd : stableBlocksBody comp n 20 (a, b, t) = .ok (.inl (b, b + 2 * 20, t')) := by
          simp [stableBlocksBody, hc, ht']
        exact Or.inl ⟨_, hbd, ⟨by simp <;> omega, by simp <;> omega, by simp <;> omega,
          h4.trans (k.widen h1 hc)⟩, by simp <;> omega⟩
      · have hbd : stableBlocksBody comp n 20 (a, b, t) = .ok (.inr (a, t)) := by
          simp [stableBlocksBody, hc]
        exact Or.inr ⟨_, hbd, h1, h2, h4⟩
    · exact ⟨le_refl _, hn0, by simp, Shuffle.refl _⟩
    · simp
  obtain ⟨⟨a, t⟩, hr, h1, h2, h3⟩ := hblocks
  simp only at h1 h2 h3
  have hl := h3.length_eq
  obtain ⟨t1, ht1, k1⟩ := insertion_sort_safe comp t a n h1 (by omega)
  have k1' := h3.trans (k1.widen h1 (le_refl _))
  have hmerge : ∃ s', iter (stableMergeBody comp n) (n.toNat + 1) (20, t1) = .ok s' ∧
      Shuffle 0 n s.arr s'.arr := by
    apply iter_total (stableMergeBody comp n)
      (fun p => 0 < p.1 ∧ Shuffle 0 n s.arr p.2.arr)
      (fun p => (n - p.1).toNat)
    · rintro ⟨bs, u⟩ ⟨g1, g2⟩
      have hlu := g2.length_eq
      simp only at g1 g2 hlu
      by_cases hc : bs < n
      · have hpass : ∃ r, iter (stablePassBody comp n bs) (n.toNat + 1) (0, 2 * bs, u) = .ok r ∧
            (0 ≤ r.1 ∧ r.1 ≤ n ∧ Shuffle 0 n s.arr r.2.arr) := by
          apply iter_total (stablePassBody comp n bs)
            (fun p => 0 ≤ p.1 ∧ p.1 ≤ n ∧ p.2.1 = p.1 + 2 * bs ∧ Shuffle 0 n s.arr p.2.2.arr)
            (fun p => (n - p.1).toNat)
          · rintro ⟨a', b', v⟩ ⟨q1, q2, q3, q4⟩
            have hlv := q4.length_eq
            simp only at q1 q2 q3 q4 hlv
            by_cases hc' : b' ≤ n
            · obtain ⟨v', hv', kv⟩ := sym_merge_safe comp v a' (a' + bs) b' q1 (by omega)
                (by omega) (by omega)
              have hbd : stablePassBody comp n bs (a', b', v) =
                  .ok (.inl (b', b' + 2 * bs, v')) := by
                simp [stablePassBody, hc', hv']
              exact Or.inl ⟨_, hbd, ⟨by simp <;> omega, by simp <;> omega, by simp,
                q4.trans (kv.widen q1 hc')⟩, by simp <;> omega⟩
            · have hbd : stablePassBody comp n bs (a', b', v) = .ok (.inr (a', v)) := by
                simp [stablePassBody, hc']
              exact Or.inr ⟨_, hbd, q1, q2, q4⟩
          · exact ⟨le_refl _, hn0, by simp, g2⟩
          · simp
        obtain ⟨⟨a', v⟩, hv, q1, q2, q4⟩ := hpass
        simp only at q1 q2 q4
        have hlv := q4.length_eq
        have hlast : ∃ w, (if a' + bs < n then _sym_merge comp v a' (a' + bs) n else pure v) =
            .ok w ∧ Shuffle 0 n s.arr w.arr := by
          by_cases c : a' + bs < n
          · obtain ⟨w, hw, kw⟩ := sym_merge_safe comp v a' (a' + bs) n q1 (by omega) c
              (by omega)
            exact ⟨w, by simp [c, hw], q4.trans (kw.widen q1 (le_refl _))⟩
          · exact ⟨v, by simp [c], q4⟩
        obtain ⟨w, hw, kw⟩ := hlast
        have hbd : stableMergeBody comp n (bs, u) = .ok (.inl (bs * 2, w)) := by
          simp only [stableMergeBody, hc, if_true, hv, Res.ok_bind, hw]
          rfl
        exact Or.inl ⟨_, hbd, ⟨by simp <;> omega, kw⟩, by simp <;> omega⟩
      · have hbd : stableMergeBody comp n (bs, u) = .ok (.inr u) := by
          simp [stableMergeBody, hc]
        exact Or.inr ⟨_, hbd, g2⟩
    · exact ⟨by simp, k1'⟩
    · simp <;> omega
  obtain ⟨s', hs', ks'⟩ := hmerge
  exact ⟨s', by simp [_stable, hr, ht1, hs'], ks'⟩

theorem sort_stable_safe {α : Type} (comp : α → α → Bool) (l : List α) :
    ∃ s', sort_stable comp l = .ok s' ∧ s'.arr.Perm l := by
  obtain ⟨s', h1, h2⟩ := stable_safe comp (Mem.init l) (l.length : Int) (by simp)
    (by simp [Mem.init])
  exact ⟨s', h1, h2.perm⟩

/-! ## The stable engine: sortedness -/

theorem aligned_step {d x a : Int} (hd : 0 < d) (hx : d ∣ x) (ha : d ∣ a) (h : x < a) :
    x + d ≤ a := by
  have h1 : d ∣ a - x := Dvd.dvd.sub ha hx
  have h2 : d ≤ a - x := Int.le_of_dvd (by omega) h1
  omega

theorem stable_blocks_sorted {α : Type} {comp : α → α → Bool} (hc : StrictWeak comp)
    (s : Mem α) (n : Int) (hn0 : 0 ≤ n) (hn : n ≤ s.arr.length) :
    ∃ r t1, iter (stableBlocksBody comp n 20) (n.toNat + 1) (0, 20, s) = .ok r ∧
      _insertion_sort comp r.2 r.1 n = .ok t1 ∧ Shuffle 0 n s.arr t1.arr ∧
      (∀ x, (20 : Int) ∣ x → 0 ≤ x → x < n → SortedOn comp t1.arr x (min (x + 20) n)) := by
  have hblocks : ∃ r, iter (stableBlocksBody comp n 20) (n.toNat + 1) (0, 20, s) = .ok r ∧
      (0 ≤ r.1 ∧ r.1 ≤ n ∧ (20 : Int) ∣ r.1 ∧ n < r.1 + 40 ∧ Shuffle 0 n s.arr r.2.arr ∧
        ∀ x, (20 : Int) ∣ x → 0 ≤ x → x < r.1 → SortedOn comp r.2.arr x (x + 20)) := by
    apply iter_total (stableBlocksBody comp n 20)
      (fun p => 0 ≤ p.1 ∧ p.1 ≤ n ∧ p.1 < p.2.1 ∧ p.2.1 ≤ p.1 + 40 ∧ (20 : Int) ∣ p.1 ∧
        (20 : Int) ∣ p.2.1 ∧ Shuffle 0 n s.arr p.2.2.arr ∧
        ∀ x, (20 : Int) ∣ x → 0 ≤ x → x < p.1 → SortedOn comp p.2.2.arr x (x + 20))
      (fun p => (n - p.1).toNat)
    · rintro ⟨a, b, t⟩ ⟨h1, h2, h3, h3', d1, d2, h4, h5⟩
      have hl := h4.length_eq
      simp only at h1 h2 h3 h3' d1 d2 h4 h5 hl
      by_cases hcb : b ≤ n
      · obtain ⟨t', ht', k⟩ := insertion_sort_safe comp t a b h1 (by omega)
        have hsrt := insertion_sort_sorted hc t t' a b ht'
        have hbd : stableBlocksBody comp n 20 (a, b, t) = .ok (.inl (b, b + 2 * 20, t')) := by
          simp [stableBlocksBody, hcb, ht']
        refine Or.inl ⟨_, hbd, ⟨by simp <;> omega, by simp <;> omega, by simp <;> omega,
          by simp <;> omega, d2, by simp <;> omega, h4.trans (k.widen h1 hcb), ?_⟩,
          by simp <;> omega⟩
        intro x dx x0 xb
        simp only at xb ⊢
        by_cases cx : x < a
        · exact (h5 x dx x0 cx).congr_rd (fun j q1 q2 => k.outside j (Or.inl (by omega)))
        · exact hsrt.narrow (by omega) (by omega)
      · have hbd : stableBlocksBody comp n 20 (a, b, t) = .ok (.inr (a, t)) := by
          simp [stableBlocksBody, hcb]
        exact Or.inr ⟨_, hbd, h1, h2, d1, by simp <;> omega, h4, h5⟩
    · exact ⟨le_refl _, hn0, by simp, by simp, by simp, by simp, Shuffle.refl _,
        fun x _ x0 xa => by simp only at xa; omega⟩
    · simp
  obtain ⟨⟨a, t⟩, hr, h1, h2, d1, h3, h4, h5⟩ := hblocks
  simp only at h1 h2 d1 h3 h4 h5
  have hl := h4.length_eq
  obtain ⟨t1, ht1, k1⟩ := insertion_sort_safe comp t a n h1 (by omega)
  have hsrt := insertion_sort_sorted hc t t1 a n ht1
  refine ⟨(a, t), t1, hr, ht1, h4.trans (k1.widen h1 (le_refl _)), ?_⟩
  intro x dx x0 xn
  by_cases cx : x < a
  · have : min (x + 20) n = x + 20 := by omega
    rw [this]
    exact (h5 x dx x0 cx).congr_rd (fun j q1 q2 => k1.outside j (Or.inl (by omega)))
  · exact hsrt.narrow (by omega) (by omega)

theorem stable_pass_sorted {α : Type} {comp : α → α → Bool} (hc : StrictWeak comp)
    (u : Mem α) (n bs : Int) (hn : n ≤ u.arr.length) (hbs : 0 < bs) (hbn : bs < n)
    (hu : ∀ x, bs ∣ x → 0 ≤ x → x < n → SortedOn comp u.arr x (min (x + bs) n)) :
    ∃ w, stableMergeBody comp n (bs, u) = .ok (.inl (bs * 2, w)) ∧ Shuffle 0 n u.arr w.arr ∧
      ∀ x, (bs * 2) ∣ x → 0 ≤ x → x < n → SortedOn comp w.arr x (min (x + bs * 2) n) := by
  have hpass : ∃ r, iter (stablePassBody comp n bs) (n.toNat + 1) (0, 2 * bs, u) = .ok r ∧
      (0 ≤ r.1 ∧ r.1 ≤ n ∧ n < r.1 + 2 * bs ∧ (2 * bs) ∣ r.1 ∧ Shuffle 0 n u.arr r.2.arr ∧
      (∀ x, (2 * bs) ∣ x → 0 ≤ x → x < r.1 → SortedOn comp r.2.arr x (x + 2 * bs)) ∧
      (∀ x, bs ∣ x → r.1 ≤ x → x < n → SortedOn comp r.2.arr x (min (x + bs) n))) := by
    apply iter_total (stablePassBody comp n bs)
      (fun p => 0 ≤ p.1 ∧ p.1 ≤ n ∧ p.2.1 = p.1 + 2 * bs ∧ (2 * bs) ∣ p.1 ∧
        Shuffle 0 n u.arr p.2.2.arr ∧
        (∀ x, (2 * bs) ∣ x → 0 ≤ x → x < p.1 → SortedOn comp p.2.2.arr x (x + 2 * bs)) ∧
        (∀ x, bs ∣ x → p.1 ≤ x → x < n → SortedOn comp p.2.2.arr x (min (x + bs) n)))
      (fun p => (n - p.1).toNat)
    · rintro ⟨a, b, v⟩ ⟨q1, q2, q3, d1, q4, q5, q6⟩
      have hlv := q4.length_eq
      simp only at q1 q2 q3 d1 q4 q5 q6 hlv
      by_cases hcb : b ≤ n
      · have d1' : bs ∣ a := dvd_of_mul_left_dvd d1
        have sL : SortedOn comp v.arr a (a + bs) := by
          have := q6 a d1' (le_refl _) (by omega)
          have e : min (a + bs) n = a + bs := by omega
          rwa [e] at this
        have sR : SortedOn comp v.arr (a + bs) b := by
          have := q6 (a + bs) (Dvd.dvd.add d1' (dvd_refl _)) (by omega) (by omega)
          have e : min (a + bs + bs) n = b := by omega
          rwa [e] at this
        obtain ⟨v', hv', kv, sv⟩ := sym_merge_sorted hc v a (a + bs) b q1 (by omega)
          (by omega) (by omega) sL sR
        have hbd : stablePassBody comp n bs (a, b, v) =
            .ok (.inl (b, b + 2 * bs, v')) := by
          simp [stablePassBody, hcb, hv']
        refine Or.inl ⟨_, hbd, ⟨by simp <;> omega, by simp <;> omega, by simp,
          by simp only; rw [q3]; exact Dvd.dvd.add d1 (dvd_refl _),
          q4.trans (kv.widen q1 hcb), ?_, ?_⟩, by simp <;> omega⟩
        · intro x dx x0 xb
          simp only at xb ⊢
          by_cases cx : x < a
          · have := aligned_step (by omega) dx d1 cx
            exact (q5 x dx x0 cx).congr_rd (fun j r1 r2 => kv.outside j (Or.inl (by omega)))
          · have : x = a := by
              by_contra hne
              have := aligned_step (by omega) d1 dx (by omega)
              omega
            subst this
            rw [← q3]
            exact sv
        · intro x dx xb xn
          simp only at xb ⊢
          exact (q6 x dx (by omega) xn).congr_rd (fun j r1 r2 => kv.outside j (Or.inr (by omega)))
      · have hbd : stablePassBody comp n bs (a, b, v) = .ok (.inr (a, v)) := by
          simp [stablePassBody, hcb]
        exact Or.inr ⟨_, hbd, q1, q2, by simp <;> omega, d1, q4, q5, q6⟩
    · exact ⟨le_refl _, by omega, by simp, dvd_zero _, Shuffle.refl _,
        fun x _ x0 xa => by simp only at xa; omega, fun x dx x0 xn => hu x dx x0 xn⟩
    · simp
  obtain ⟨⟨a, v⟩, hv, q1, q2, q3, d1, q4, q5, q6⟩ := hpass
  simp only at q1 q2 q3 d1 q4 q5 q6
  have hlv := q4.length_eq
  have d1' : bs ∣ a := dvd_of_mul_left_dvd d1
  have hlast : ∃ w, (if a + bs < n then _sym_merge comp v a (a + bs) n else pure v) =
      .ok w ∧ Shuffle a n v.arr w.arr ∧ SortedOn comp w.arr a n := by
    by_cases c : a + bs < n
    · have sL : SortedOn comp v.arr a (a + bs) := by
        have := q6 a d1' (le_refl _) (by omega)
        have e : min (a + bs) n = a + bs := by omega
        rwa [e] at this
      have sR : SortedOn comp v.arr (a + bs) n := by
        have := q6 (a + bs) (Dvd.dvd.add d1' (dvd_refl _)) (by omega) (by omega)
        have e : min (a + bs + bs) n = n := by omega
        rwa [e] at this
      obtain ⟨w, hw, kw, sw⟩ := sym_merge_sorted hc v a (a + bs) n q1 (by omega) c
        (by omega) sL sR
      exact ⟨w, by simp [c, hw], kw, sw⟩
    · refine ⟨v, by simp [c], Shuffle.refl _, ?_⟩
      by_cases c' : a < n
      · have := q6 a d1' (le_refl _) c'
        have e : min (a + bs) n = n := by omega
        rwa [e] at this
      · intro i j x y r1 r2 r3
        omega
  obtain ⟨w, hw, kw, sw⟩ := hlast
  refine ⟨w, ?_, q4.trans (kw.widen q1 (le_refl _)), ?_⟩
  · simp only [stableMergeBody, hbn, if_true, hv, Res.ok_bind, hw]
    rfl
  · intro x dx x0 xn
    have dx' : (2 * bs) ∣ x := by rwa [mul_comm] at dx
    by_cases cx : x < a
    · have := aligned_step (by omega) dx' d1 cx
      have e : min (x + bs * 2) n = x + 2 * bs := by omega
      rw [e]
      exact (q5 x dx' x0 cx).congr_rd (fun j r1 r2 => kw.outside j (Or.inl (by omega)))
    · have : x = a := by
        by_contra hne
        have := aligned_step (by omega) d1 dx' (by omega)
        omega
      subst this
      exact sw.narrow (le_refl _) (by omega)

theorem stable_sorted {α : Type} {comp : α → α → Bool} (hc : StrictWeak comp)
    (s : Mem α) (n : Int) (hn0 : 0 ≤ n) (hn : n ≤ s.arr.length) :
    ∃ s', _stable comp s n = .ok s' ∧ Shuffle 0 n s.arr s'.arr ∧ SortedOn comp s'.arr 0 n := by
  obtain ⟨r, t1, hr, ht1, k1, hP⟩ := stable_blocks_sorted hc s n hn0 hn
  have hl1 := k1.length_eq
  have hmerge : ∃ s', iter (stableMergeBody comp n) (n.toNat + 1) (20, t1) = .ok s' ∧
      (Shuffle 0 n s.arr s'.arr ∧ SortedOn comp s'.arr 0 n) := by
    apply iter_total (stableMergeBody comp n)
      (fun p => 0 < p.1 ∧ Shuffle 0 n s.arr p.2.arr ∧
        ∀ x, p.1 ∣ x → 0 ≤ x → x < n → SortedOn comp p.2.arr x (min (x + p.1) n))
      (fun p => (n - p.1).toNat)
    · rintro ⟨bs, u⟩ ⟨g1, g2, g3⟩
      have hlu := g2.length_eq
      simp only at g1 g2 g3 hlu
      by_cases hcn : bs < n
      · obtain ⟨w, hw, kw, sw⟩ := stable_pass_sorted hc u n bs (by omega) g1 hcn g3
        exact Or.inl ⟨_, hw, ⟨by simp <;> omega, g2.trans kw, sw⟩, by simp <;> omega⟩
      · have hbd : stableMergeBody comp n (bs, u) = .ok (.inr u) := by
          simp [stableMergeBody, hcn]
        refine Or.inr ⟨_, hbd, g2, ?_⟩
        by_cases c0 : 0 < n
        · have := g3 0 (dvd_zero _) (le_refl _) c0
          have e : min (0 + bs) n = n := by omega
          rwa [e] at this
        · intro i j x y r1 r2 r3
          omega
    · exact ⟨by simp, k1, hP⟩
    · simp <;> omega
  obtain ⟨s', hs', ks', ss'⟩ := hmerge
  exact ⟨s', by simp [_stable, hr, ht1, hs'], ks', ss'⟩

/-! ## Heapsort: no fault, a rearrangement of its range -/

theorem heap_sift_safe {α : Type} (comp : α → α → Bool) (s : Mem α) (lo hi first : Int)
    (hlo : 0 ≤ lo) (hf : 0 ≤ first) (hhi : first + hi ≤ s.arr.length) :
    ∃ s', _heap_sift comp s lo hi first = .ok s' ∧ Shuffle first (first + hi) s.arr s'.arr := by
  unfold _heap_sift
  apply iter_total (heapSiftBody comp hi first)
    (fun p => lo ≤ p.1 ∧ Shuffle first (first + hi) s.arr p.2.arr)
    (fun p => (hi - p.1).toNat) (fun s' => Shuffle first (first + hi) s.arr s'.arr)
  · rintro ⟨root, t⟩ ⟨h1, h2⟩
    have hl := h2.length_eq
    simp only at h1 h2 hl
    by_cases hc : 2 * root + 1 ≥ hi
    · have hbd : heapSiftBody comp hi first (root, t) = .ok (.inr t) := by
        simp [heapSiftBody, hc]
      exact Or.inr ⟨_, hbd, h2⟩
    · have hpick : ∃ q : Int × Mem α, (if 2 * root + 1 + 1 < hi then do
            let r ← less comp t (first + (2 * root + 1)) (first + (2 * root + 1) + 1)
            pure (if r.1 then 2 * root + 1 + 1 else 2 * root + 1, r.2)
          else pure (2 * root + 1, t)) = .ok q ∧ q.2.arr = t.arr ∧ root < q.1 ∧ q.1 < hi := by
        by_cases hc2 : 2 * root + 1 + 1 < hi
        · obtain ⟨x, y, t1, hx, hy, hless, e1⟩ := less_inb' comp t (first + (2 * root + 1))
            (first + (2 * root + 1) + 1) ⟨by omega, by omega⟩ ⟨by omega, by omega⟩
          refine ⟨(if comp x y then 2 * root + 1 + 1 else 2 * root + 1, t1),
            by simp [hc2, hless], e1, ?_, ?_⟩
          · simp only; split_ifs <;> omega
          · simp only; split_ifs <;> omega
        · exact ⟨(2 * root + 1, t), by simp [hc2], rfl, by simp <;> omega, by simp <;> omega⟩
      obtain ⟨⟨child, t1⟩, hq, e1, c1, c2⟩ := hpick
      simp only at e1 c1 c2
      obtain ⟨x, y, t2, hx, hy, hless, e2⟩ := less_inb' comp t1 (first + child) (first + root)
        ⟨by omega, by rw [e1]; omega⟩ ⟨by omega, by rw [e1]; omega⟩
      cases hcmp : comp x y
      · obtain ⟨x', y', t3, hx', hy', hswap, e3⟩ := swap_inb' t2 (first + root) (first + child)
          ⟨by omega, by rw [e2, e1]; omega⟩ ⟨by omega, by rw [e2, e1]; omega⟩
        have hbd : heapSiftBody comp hi first (root, t) = .ok (.inl (child, t3)) := by
          simp only [heapSiftBody, hc, if_false, hq, Res.ok_bind, hless, hcmp, hswap]
          rfl
        refine Or.inl ⟨_, hbd, ⟨by simp <;> omega, ?_⟩, by simp <;> omega⟩
        rw [e2, e1] at hx' hy' e3
        simp only [e3]
        exact h2.trans (Shuffle.one (by omega) (by omega) (by omega) (by omega) hx' hy')
      · have hbd : heapSiftBody comp hi first (root, t) = .ok (.inr t2) := by
          simp only [heapSiftBody, hc, if_false, hq, Res.ok_bind, hless, hcmp]
          rfl
        exact Or.inr ⟨_, hbd, by rw [e2, e1]; exact h2⟩
  · exact ⟨le_refl _, Shuffle.refl _⟩
  · simp

theorem cdiv_half_le (hi : Int) (h : 0 ≤ hi) : cdiv (hi - 1) 2 ≤ hi ∧ -1 ≤ cdiv (hi - 1) 2 := by
  by_cases h0 : hi = 0
  · subst h0
    decide
  · rw [cdiv_eq (by omega) (by omega)]
    omega

theorem heap_sort_safe {α : Type} (comp : α → α → Bool) (s : Mem α) (a b : Int)
    (ha : 0 ≤ a) (hab : a ≤ b) (hb : b ≤ s.arr.length) :
    ∃ s', _heap_sort comp s a b = .ok s' ∧ Shuffle a b s.arr s'.arr := by
  have hbuild : ∃ s1, iter (heapBuildBody comp (b - a) a) ((b - a).toNat + 2)
      (cdiv (b - a - 1) 2, s) = .ok s1 ∧ Shuffle a b s.arr s1.arr := by
    apply iter_total (heapBuildBody comp (b - a) a)
      (fun p => p.1 ≤ b - a ∧ Shuffle a b s.arr p.2.arr)
      (fun p => (p.1 + 1).toNat)
    · rintro ⟨i, t⟩ ⟨h1, h2⟩
      have hl := h2.length_eq
      simp only at h1 h2 hl
      by_cases hc : i ≥ 0
      · obtain ⟨t', ht', k⟩ := heap_sift_safe comp t i (b - a) a hc ha (by omega)
        have hbd : heapBuildBody comp (b - a) a (i, t) = .ok (.inl (i - 1, t')) := by
          simp [heapBuildBody, hc, ht']
        have e : a + (b - a) = b := by omega
        rw [e] at k
        exact Or.inl ⟨_, hbd, ⟨by simp <;> omega, h2.trans k⟩, by simp <;> omega⟩
      · have hbd : heapBuildBody comp (b - a) a (i, t) = .ok (.inr t) := by
          simp [heapBuildBody, hc]
        exact Or.inr ⟨_, hbd, h2⟩
    · exact ⟨(cdiv_half_le (b - a) (by omega)).1, Shuffle.refl _⟩
    · have := cdiv_half_le (b - a) (by omega)
      simp only
      omega
  obtain ⟨s1, hs1, k1⟩ := hbuild
  have hpop : ∃ s2, iter (heapPopBody comp 0 a) ((b - a).toNat + 2) (b - a - 1, s1) = .ok s2 ∧
      Shuffle a b s.arr s2.arr := by
    apply iter_total (heapPopBody comp 0 a)
      (fun p => p.1 < b - a ∧ Shuffle a b s.arr p.2.arr)
      (fun p => (p.1 + 1).toNat)
    · rintro ⟨i, t⟩ ⟨h1, h2⟩
      have hl := h2.length_eq
      simp only at h1 h2 hl
      by_cases hc : i ≥ 0
      · obtain ⟨x, y, t1, hx, hy, hswap, e1⟩ := swap_inb' t a (a + i)
          ⟨by omega, by omega⟩ ⟨by omega, by omega⟩
        obtain ⟨t', ht', k⟩ := heap_sift_safe comp t1 0 i a (le_refl _) ha
          (by rw [e1]; simp; omega)
        have hbd : heapPopBody comp 0 a (i, t) = .ok (.inl (i - 1, t')) := by
          simp [heapPopBody, hc, hswap, ht']
        rw [e1] at k
        exact Or.inl ⟨_, hbd, ⟨by simp <;> omega,
          (h2.trans (Shuffle.one (by omega) (by omega) (by omega) (by omega) hx hy)).trans
            (k.widen (le_refl _) (by omega))⟩, by simp <;> omega⟩
      · have hbd : heapPopBody comp 0 a (i, t) = .ok (.inr t) := by
          simp [heapPopBody, hc]
        exact Or.inr ⟨_, hbd, h2⟩
    · exact ⟨by simp, k1⟩
    · simp only
      omega
  obtain ⟨s2, hs2, k2⟩ := hpop
  exact ⟨s2, by simp [_heap_sort, hs1, hs2], k2⟩

/-! ## Pivot selection and partition: no fault, a rearrangement of the range -/

theorem cond_swap_safe {α : Type} (c : Bool) (s : Mem α) (lo hi i j : Int)
    (hi' : lo ≤ i ∧ i < hi) (hj : lo ≤ j ∧ j < hi) (h0 : 0 ≤ lo) (hl : hi ≤ s.arr.length) :
    ∃ s', (if c = true then swap s i j else pure s) = .ok s' ∧ Shuffle lo hi s.arr s'.arr := by
  cases c
  · exact ⟨s, by simp, Shuffle.refl _⟩
  · obtain ⟨x, y, t, hx, hy, hswap, e⟩ := swap_inb' s i j ⟨by omega, by omega⟩
      ⟨by omega, by omega⟩
    exact ⟨t, by simp [hswap], e ▸ Shuffle.one hi'.1 hi'.2 hj.1 hj.2 hx hy⟩

theorem scanUp_spec {α : Type} (comp : α → α → Bool) (s : Mem α) (pivot bound x : Int)
    (hp : 0 ≤ pivot ∧ pivot < s.arr.length) (hx : 0 ≤ x) (hb : bound ≤ s.arr.length) :
    ∃ r, scanUp comp s pivot bound x = .ok r ∧ r.2.arr = s.arr ∧ r.2.swaps = s.swaps ∧
      x ≤ r.1 ∧ (r.1 ≤ bound ∨ r.1 = x) ∧
      (∀ k, x ≤ k → k < r.1 → ∃ u v, rd s.arr k = some u ∧ rd s.arr pivot = some v ∧
        comp u v = true) ∧
      (bound ≤ r.1 ∨ ∃ u v, rd s.arr r.1 = some u ∧ rd s.arr pivot = some v ∧
        comp u v = false) := by
  unfold scanUp
  apply iter_total (scanUpBody comp pivot bound)
    (fun p => p.2.arr = s.arr ∧ p.2.swaps = s.swaps ∧ x ≤ p.1 ∧ (p.1 ≤ bound ∨ p.1 = x) ∧
      (∀ k, x ≤ k → k < p.1 → ∃ u v, rd s.arr k = some u ∧ rd s.arr pivot = some v ∧
        comp u v = true))
    (fun p => (bound - p.1).toNat)
  · rintro ⟨i, t⟩ ⟨h1, h2, h3, h4, h5⟩
    simp only at h1 h2 h3 h4 h5
    by_cases hc : i < bound
    · obtain ⟨u, v, hu, hv, hless⟩ := less_inb comp t i pivot ⟨by omega, by rw [h1]; omega⟩
        (by rw [h1]; exact hp)
      rw [h1] at hu hv
      cases hcmp : comp u v
      · have hbd : scanUpBody comp pivot bound (i, t) = .ok (.inr (i,
            { t with comps := t.comps + 1 })) := by
          simp [scanUpBody, hc, hless, hcmp]
        exact Or.inr ⟨_, hbd, h1, h2, h3, h4, h5, Or.inr ⟨u, v, hu, hv, hcmp⟩⟩
      · have hbd : scanUpBody comp pivot bound (i, t) = .ok (.inl (i + 1,
            { t with comps := t.comps + 1 })) := by
          simp [scanUpBody, hc, hless, hcmp]
        refine Or.inl ⟨_, hbd, ⟨h1, h2, by simp <;> omega, by simp <;> omega, ?_⟩,
          by simp <;> omega⟩
        intro k k1 k2
        simp only at k2
        by_cases ck : k = i
        · subst ck
          exact ⟨u, v, hu, hv, hcmp⟩
        · exact h5 k k1 (by omega)
    · have hbd : scanUpBody comp pivot bound (i, t) = .ok (.inr (i, t)) := by
        simp [scanUpBody, hc]
      exact Or.inr ⟨_, hbd, h1, h2, h3, h4, h5, Or.inl (by omega)⟩
  · exact ⟨rfl, rfl, le_refl _, Or.inr rfl, fun k k1 k2 => by simp only at k2; omega⟩
  · simp

theorem scanDown_spec {α : Type} (comp : α → α → Bool) (s : Mem α) (pivot low x : Int)
    (hp : 0 ≤ pivot ∧ pivot < s.arr.length) (hlow : 0 ≤ low) (hx : x ≤ s.arr.length) :
    ∃ r, scanDown comp s pivot low x = .ok r ∧ r.2.arr = s.arr ∧ r.2.swaps = s.swaps ∧
      r.1 ≤ x ∧ (low ≤ r.1 ∨ r.1 = x) ∧
      (∀ k, r.1 ≤ k → k < x → ∃ u v, rd s.arr pivot = some u ∧ rd s.arr k = some v ∧
        comp u v = true) ∧
      (r.1 ≤ low ∨ ∃ u v, rd s.arr pivot = some u ∧ rd s.arr (r.1 - 1) = some v ∧
        comp u v = false) := by
  unfold scanDown
  apply iter_total (scanDownBody comp pivot low)
    (fun p => p.2.arr = s.arr ∧ p.2.swaps = s.swaps ∧ p.1 ≤ x ∧ (low ≤ p.1 ∨ p.1 = x) ∧
      (∀ k, p.1 ≤ k → k < x → ∃ u v, rd s.arr pivot = some u ∧ rd s.arr k = some v ∧
        comp u v = true))
    (fun p => (p.1 - low).toNat)
  · rintro ⟨i, t⟩ ⟨h1, h2, h3, h4, h5⟩
    simp only at h1 h2 h3 h4 h5
    by_cases hc : low < i
    · obtain ⟨u, v, hu, hv, hless⟩ := less_inb comp t pivot (i - 1) (by rw [h1]; exact hp)
        ⟨by omega, by rw [h1]; omega⟩
      rw [h1] at hu hv
      cases hcmp : comp u v
      · have hbd : scanDownBody comp pivot low (i, t) = .ok (.inr (i,
            { t with comps := t.comps + 1 })) := by
          simp [scanDownBody, hc, hless, hcmp]
        exact Or.inr ⟨_, hbd, h1, h2, h3, h4, h5, Or.inr ⟨u, v, hu, hv, hcmp⟩⟩
      · have hbd : scanDownBody comp pivot low (i, t) = .ok (.inl (i - 1,
            { t with comps := t.comps + 1 })) := by
          simp [scanDownBody, hc, hless, hcmp]
        refine Or.inl ⟨_, hbd, ⟨h1, h2, by simp <;> omega, by simp <;> omega, ?_⟩,
          by simp <;> omega⟩
        intro k k1 k2
        simp only at k1
        by_cases ck : k = i - 1
        · subst ck
          exact ⟨u, v, hu, hv, hcmp⟩
        · exact h5 k (by omega) k2
    · have hbd : scanDownBody comp pivot low (i, t) = .ok (.inr (i, t)) := by
        simp [scanDownBody, hc]
      exact Or.inr ⟨_, hbd, h1, h2, h3, h4, h5, Or.inl (by omega)⟩
  · exact ⟨rfl, rfl, le_refl _, Or.inr rfl, fun k k1 k2 => by simp only at k1; omega⟩
  · simp

theorem AllOn.shuffle {α : Type} {P : α → Prop} {l l' : List α} {a b : Int}
    (h : AllOn P l a b) (hs : Shuffle a b l l') : AllOn P l' a b := by
  intro k x k1 k2 hx
  obtain ⟨k', q1, q2, q3⟩ := hs.inside k x k1 k2 hx
  exact h k' x q1 q2 q3

theorem AllOn.transport {α : Type} {P : α → Prop} {l l' : List α} {a b : Int}
    (h : AllOn P l a b) (he : ∀ k, a ≤ k → k < b → rd l' k = rd l k) : AllOn P l' a b := by
  intro k x k1 k2 hx
  rw [he k k1 k2] at hx
  exact h k x k1 k2 hx

theorem AllOn.restrict {α : Type} {P : α → Prop} {l : List α} {a b a' b' : Int}
    (h : AllOn P l a b) (ha : a ≤ a') (hb : b' ≤ b) : AllOn P l a' b' :=
  fun k x k1 k2 hx => h k x (by omega) (by omega) hx

theorem pivotMain_spec {α : Type} (comp : α → α → Bool) (s : Mem α) (lo hi a : Int) (p : α)
    (f : Nat) (hlo : 0 ≤ lo) (hhi : hi ≤ s.arr.length) (ha1 : lo + 1 ≤ a) (ha2 : a ≤ hi - 1)
    (hp : rd s.arr lo = some p) (hle : AllOn (LeP comp p) s.arr (lo + 1) a)
    (hf : (hi - lo).toNat ≤ f) :
    ∃ r, iter (pivotMainBody comp lo) f (a, hi - 1, s) = .ok r ∧
      (Shuffle (lo + 1) (hi - 1) s.arr r.2.2.arr ∧ a ≤ r.1 ∧ a ≤ r.2.1 ∧ r.2.1 ≤ hi - 1 ∧
      r.1 ≤ hi - 1 ∧ r.2.1 ≤ r.1 ∧ r.1 ≤ r.2.1 + 1 ∧
      AllOn (LeP comp p) r.2.2.arr (lo + 1) r.1 ∧ AllOn (GeP comp p) r.2.2.arr r.2.1 (hi - 1)) := by
  apply iter_total (pivotMainBody comp lo)
    (fun q => Shuffle (lo + 1) (hi - 1) s.arr q.2.2.arr ∧ a ≤ q.1 ∧ a ≤ q.2.1 ∧
      q.2.1 ≤ hi - 1 ∧ q.1 ≤ hi - 1 ∧ q.1 ≤ q.2.1 + 1 ∧
      AllOn (LeP comp p) q.2.2.arr (lo + 1) q.1 ∧ AllOn (GeP comp p) q.2.2.arr q.2.1 (hi - 1))
    (fun q => (q.2.1 - q.1 + 1).toNat)
  · rintro ⟨b, c, t⟩ ⟨h1, h2, h3, h4, h5, h6, h7, h8⟩
    have hl := h1.length_eq
    have hpt : rd t.arr lo = some p := by rw [h1.outside lo (Or.inl (by omega))]; exact hp
    simp only at h1 h2 h3 h4 h5 h6 h7 h8 hl
    obtain ⟨⟨b', t1⟩, hs1, e1, -, g1, g2, g3, g4⟩ := scanUp_spec comp t lo c b
      ⟨hlo, by omega⟩ (by omega) (by omega)
    simp only at e1 g1 g2 g3 g4
    obtain ⟨⟨c', t2⟩, hs2, e2, -, k1, k2, k3, k4⟩ := scanDown_spec comp t1 lo b' c
      ⟨hlo, by rw [e1]; omega⟩ (by omega) (by rw [e1]; omega)
    simp only at e2 k1 k2 k3 k4
    rw [e1] at e2 k3 k4
    have hle' : AllOn (LeP comp p) t.arr (lo + 1) b' := by
      intro k x q1 q2 hx
      by_cases ck : k < b
      · exact h7 k x q1 ck hx
      · obtain ⟨u, v, hu, hv, huv⟩ := g3 k (by omega) q2
        rw [hx] at hu
        rw [hpt] at hv
        cases hu
        cases hv
        exact Or.inl huv
    have hge' : AllOn (GeP comp p) t.arr c' (hi - 1) := by
      intro k x q1 q2 hx
      by_cases ck : c ≤ k
      · exact h8 k x ck q2 hx
      · obtain ⟨u, v, hu, hv, huv⟩ := k3 k q1 (by omega)
        rw [hx] at hv
        rw [hpt] at hu
        cases hu
        cases hv
        exact Or.inl huv
    by_cases hc : b' ≥ c'
    · have hbd : pivotMainBody comp lo (b, c, t) = .ok (.inr (b', c', t2)) := by
        simp [pivotMainBody, hs1, hs2, hc]
      refine Or.inr ⟨_, hbd, by rw [e2]; exact h1, by simp <;> omega, by simp <;> omega,
        by simp <;> omega, by simp <;> omega, by simp <;> omega, by simp <;> omega, ?_, ?_⟩
      · simp only [e2]; exact hle'
      · simp only [e2]; exact hge'
    · obtain ⟨x, y, t3, hx, hy, hswap, e3⟩ := swap_inb' t2 b' (c' - 1)
        ⟨by omega, by rw [e2]; omega⟩ ⟨by omega, by rw [e2]; omega⟩
      rw [e2] at hx hy e3
      have hbd : pivotMainBody comp lo (b, c, t) = .ok (.inl (b' + 1, c' - 1, t3)) := by
        simp [pivotMainBody, hs1, hs2, hc, hswap]
      have hxge : GeP comp p x := by
        rcases g4 with h | ⟨u, v, hu, hv, huv⟩
        · omega
        · rw [hx] at hu
          rw [hpt] at hv
          cases hu
          cases hv
          exact Or.inr huv
      have hyle : LeP comp p y := by
        rcases k4 with h | ⟨u, v, hu, hv, huv⟩
        · omega
        · rw [hy] at hv
          rw [hpt] at hu
          cases hu
          cases hv
          exact Or.inr huv
      refine Or.inl ⟨_, hbd, ⟨?_, by simp <;> omega, by simp <;> omega, by simp <;> omega,
        by simp <;> omega, by simp <;> omega, ?_, ?_⟩, by simp <;> omega⟩
      · simp only [e3]
        exact h1.trans (Shuffle.one (by omega) (by omega) (by omega) (by omega) hx hy)
      · intro k z q1 q2 hz
        simp only [e3] at hz q2
        rw [rd_swapL hx hy] at hz
        by_cases ck1 : k = c' - 1
        · subst ck1
          simp only [if_true] at hz
          cases hz
          have eb : b' = c' - 1 := by omega
          rw [eb, hy] at hx
          cases hx
          exact hyle
        · by_cases ck2 : k = b'
          · subst ck2
            simp only [ck1, if_true, if_false] at hz
            cases hz
            exact hyle
          · simp only [ck1, ck2, if_false] at hz
            exact hle' k z q1 (by omega) hz
      · intro k z q1 q2 hz
        simp only [e3] at hz q1
        rw [rd_swapL hx hy] at hz
        by_cases ck1 : k = c' - 1
        · subst ck1
          simp only [if_true] at hz
          cases hz
          exact hxge
        · by_cases ck2 : k = b'
          · omega
          · simp only [ck1, ck2, if_false] at hz
            exact hge' k z (by omega) q2 hz
  · exact ⟨Shuffle.refl _, le_refl _, ha2, le_refl _, ha2, by simp <;> omega, hle,
      fun k x q1 q2 => by simp only at q1; omega⟩
  · simp only
    omega

theorem pivotProtect_spec {α : Type} (comp : α → α → Bool) (s : Mem α) (lo hi a0 b0 : Int)
    (p : α) (f : Nat) (hlo : 0 ≤ lo) (hhi : hi ≤ s.arr.length) (ha1 : lo + 1 ≤ a0)
    (g : Int) (hb1 : lo + 1 ≤ b0) (hb2 : b0 ≤ hi - 1) (hp : rd s.arr lo = some p)
    (hg : AllOn (GeP comp p) s.arr g b0) (hf : (hi - lo).toNat ≤ f) :
    ∃ r, iter (pivotProtectBody comp lo) f (a0, b0, s) = .ok r ∧
      (Shuffle (lo + 1) b0 s.arr r.2.2.arr ∧ lo + 1 ≤ r.2.1 ∧ r.2.1 ≤ b0 ∧
      AllOn (GeP comp p) r.2.2.arr (min r.2.1 g) b0) := by
  apply iter_total (pivotProtectBody comp lo)
    (fun q => Shuffle (lo + 1) b0 s.arr q.2.2.arr ∧ a0 ≤ q.1 ∧ lo + 1 ≤ q.2.1 ∧ q.2.1 ≤ b0 ∧
      AllOn (GeP comp p) q.2.2.arr (min q.2.1 g) b0)
    (fun q => (q.2.1 - a0 + 1).toNat)
  · rintro ⟨a, b, t⟩ ⟨h1, h2, h3, h4, h8⟩
    have hl := h1.length_eq
    have hpt : rd t.arr lo = some p := by rw [h1.outside lo (Or.inl (by omega))]; exact hp
    simp only at h1 h2 h3 h4 h8 hl
    obtain ⟨⟨b', t1⟩, hs1, e1, -, k1, k2, k3, k4⟩ := scanDown_spec comp t lo a b
      ⟨hlo, by omega⟩ (by omega) (by omega)
    simp only at e1 k1 k2 k3 k4
    obtain ⟨⟨a', t2⟩, hs2, e2, -, g1, g2, g3, g4⟩ := scanUp_spec comp t1 lo b' a
      ⟨hlo, by rw [e1]; omega⟩ (by omega) (by rw [e1]; omega)
    simp only at e2 g1 g2 g3 g4
    rw [e1] at e2 g3 g4
    have hge' : AllOn (GeP comp p) t.arr (min b' g) b0 := by
      intro k x q1 q2 hx
      by_cases ck : min b g ≤ k
      · exact h8 k x ck q2 hx
      · obtain ⟨u, v, hu, hv, huv⟩ := k3 k (by omega) (by omega)
        rw [hx] at hv
        rw [hpt] at hu
        cases hu
        cases hv
        exact Or.inl huv
    by_cases hc : a' ≥ b'
    · have hbd : pivotProtectBody comp lo (a, b, t) = .ok (.inr (a', b', t2)) := by
        simp [pivotProtectBody, hs1, hs2, hc]
      refine Or.inr ⟨_, hbd, by rw [e2]; exact h1, by simp <;> omega, by simp <;> omega, ?_⟩
      simp only [e2]; exact hge'
    · obtain ⟨x, y, t3, hx, hy, hswap, e3⟩ := swap_inb' t2 a' (b' - 1)
        ⟨by omega, by rw [e2]; omega⟩ ⟨by omega, by rw [e2]; omega⟩
      rw [e2] at hx hy e3
      have hbd : pivotProtectBody comp lo (a, b, t) = .ok (.inl (a' + 1, b' - 1, t3)) := by
        simp [pivotProtectBody, hs1, hs2, hc, hswap]
      have hxge : GeP comp p x := by
        rcases g4 with h | ⟨u, v, hu, hv, huv⟩
        · omega
        · rw [hx] at hu
          rw [hpt] at hv
          cases hu
          cases hv
          exact Or.inr huv
      refine Or.inl ⟨_, hbd, ⟨?_, by simp <;> omega, by simp <;> omega, by simp <;> omega, ?_⟩,
        by simp <;> omega⟩
      · simp only [e3]
        exact h1.trans (Shuffle.one (by omega) (by omega) (by omega) (by omega) hx hy)
      · intro k z q1 q2 hz
        simp only [e3] at hz q1
        rw [rd_swapL hx hy] at hz
        by_cases ck1 : k = b' - 1
        · subst ck1
          simp only [if_true] at hz
          cases hz
          exact hxge
        · by_cases ck2 : k = a'
          · subst ck2
            simp only [ck1, if_true, if_false] at hz
            cases hz
            exact hge' (b' - 1) _ (by omega) (by omega) hy
          · simp only [ck1, ck2, if_false] at hz
            exact hge' k z (by omega) q2 hz
  · exact ⟨Shuffle.refl _, le_refl _, hb1, le_refl _, fun k x q1 q2 hx => hg k x (by simp only at q1; omega) q2 hx⟩
  · simp only
    omega


theorem median_of_3_spec {α : Type} (comp : α → α → Bool) (s : Mem α) (lo hi m1 m0 m2 : Int)
    (h1 : lo ≤ m1 ∧ m1 < hi) (h0 : lo ≤ m0 ∧ m0 < hi) (h2 : lo ≤ m2 ∧ m2 < hi)
    (hlo : 0 ≤ lo) (hl : hi ≤ s.arr.length) :
    ∃ s', _median_of_3 comp s m1 m0 m2 = .ok s' ∧ Shuffle lo hi s.arr s'.arr ∧
      (∀ k, k ≠ m0 → k ≠ m1 → k ≠ m2 → rd s'.arr k = rd s.arr k) ∧
      (StrictWeak comp → m1 ≠ m0 → m2 ≠ m0 → m2 ≠ m1 → ∀ x0 x1 x2, rd s'.arr m0 = some x0 →
        rd s'.arr m1 = some x1 → rd s'.arr m2 = some x2 →
        comp x1 x0 = false ∧ comp x2 x1 = false) := by
  obtain ⟨x, y, t1, hx, hy, hless1, e1⟩ := less_inb' comp s m1 m0 ⟨by omega, by omega⟩
    ⟨by omega, by omega⟩
  -- first conditional exchange
  have st1 : ∃ t2, (if comp x y = true then swap t1 m1 m0 else pure t1) = .ok t2 ∧
      Shuffle lo hi s.arr t2.arr ∧
      (∀ k, k ≠ m0 → k ≠ m1 → rd t2.arr k = rd s.arr k) ∧
      (StrictWeak comp → m1 ≠ m0 → ∀ x0 x1, rd t2.arr m0 = some x0 → rd t2.arr m1 = some x1 →
        comp x1 x0 = false) := by
    cases hcmp : comp x y
    · refine ⟨t1, by simp, by rw [e1]; exact Shuffle.refl _, fun k _ _ => by rw [e1], ?_⟩
      intro _ _ x0 x1 q0 q1
      rw [e1, hy] at q0
      rw [e1, hx] at q1
      cases q0
      cases q1
      exact hcmp
    · obtain ⟨p, q, t2, hp, hq, hswap, e2⟩ := swap_inb' t1 m1 m0 ⟨by omega, by rw [e1]; omega⟩
        ⟨by omega, by rw [e1]; omega⟩
      rw [e1] at hp hq e2
      rw [hx] at hp
      rw [hy] at hq
      cases hp
      cases hq
      refine ⟨t2, by simp [hswap], e2 ▸ Shuffle.one h1.1 h1.2 h0.1 h0.2 hx hy, ?_, ?_⟩
      · intro k k0 k1
        rw [e2, rd_swapL hx hy, if_neg k0, if_neg k1]
      · intro hsw hne x0 x1 q0 q1
        rw [e2, rd_swapL hx hy] at q0 q1
        simp only [if_true] at q0
        simp only [hne, if_true, if_false] at q1
        cases q0
        cases q1
        exact hsw.asymm _ _ hcmp
  obtain ⟨t2, ht2, k2, f2, o2⟩ := st1
  have l2 := k2.length_eq
  obtain ⟨x', y', t3, hx', hy', hless2, e3⟩ := less_inb' comp t2 m2 m1 ⟨by omega, by omega⟩
    ⟨by omega, by omega⟩
  cases hcmp : comp x' y'
  · refine ⟨t3, ?_, by rw [e3]; exact k2, ?_, ?_⟩
    · simp only [_median_of_3, hless1, Res.ok_bind, ht2, hless2, hcmp]
      rfl
    · intro k k0 k1 _
      rw [e3]
      exact f2 k k0 k1
    · intro hsw n1 n2 n3 x0 x1 x2 q0 q1 q2
      rw [e3] at q0 q1 q2
      rw [hx'] at q2
      rw [hy'] at q1
      cases q1
      cases q2
      exact ⟨o2 hsw n1 x0 _ q0 hy', hcmp⟩
  · obtain ⟨p, q, t4, hp, hq, hswap, e4⟩ := swap_inb' t3 m2 m1 ⟨by omega, by rw [e3]; omega⟩
      ⟨by omega, by rw [e3]; omega⟩
    rw [e3] at hp hq e4
    rw [hx'] at hp
    rw [hy'] at hq
    cases hp
    cases hq
    have k4 : Shuffle lo hi s.arr t4.arr :=
      e4 ▸ k2.trans (Shuffle.one h2.1 h2.2 h1.1 h1.2 hx' hy')
    have l4 := k4.length_eq
    obtain ⟨x'', y'', t5, hx'', hy'', hless3, e5⟩ := less_inb' comp t4 m1 m0
      ⟨by omega, by omega⟩ ⟨by omega, by omega⟩
    have st3 : ∃ t6, (if comp x'' y'' = true then swap t5 m1 m0 else pure t5) = .ok t6 ∧
        Shuffle lo hi s.arr t6.arr ∧
        (∀ k, k ≠ m0 → k ≠ m1 → rd t6.arr k = rd t4.arr k) ∧
        (StrictWeak comp → m1 ≠ m0 → ∀ x0 x1, rd t6.arr m0 = some x0 → rd t6.arr m1 = some x1 →
          comp x1 x0 = false ∧ (x1 = x'' ∨ x1 = y'')) := by
      cases hcmp3 : comp x'' y''
      · refine ⟨t5, by simp, by rw [e5]; exact k4, fun k _ _ => by rw [e5], ?_⟩
        intro _ _ x0 x1 q0 q1
        rw [e5, hy''] at q0
        rw [e5, hx''] at q1
        cases q0
        cases q1
        exact ⟨hcmp3, Or.inl rfl⟩
      · obtain ⟨p, q, t6, hp, hq, hswap6, e6⟩ := swap_inb' t5 m1 m0
          ⟨by omega, by rw [e5]; omega⟩ ⟨by omega, by rw [e5]; omega⟩
        rw [e5] at hp hq e6
        rw [hx''] at hp
        rw [hy''] at hq
        cases hp
        cases hq
        refine ⟨t6, by simp [hswap6], e6 ▸ k4.trans (Shuffle.one h1.1 h1.2 h0.1 h0.2 hx'' hy''),
          ?_, ?_⟩
        · intro k k0 k1
          rw [e6, rd_swapL hx'' hy'', if_neg k0, if_neg k1]
        · intro hsw hne x0 x1 q0 q1
          rw [e6, rd_swapL hx'' hy''] at q0 q1
          simp only [if_true] at q0
          simp only [hne, if_true, if_false] at q1
          cases q0
          cases q1
          exact ⟨hsw.asymm _ _ hcmp3, Or.inr rfl⟩
    obtain ⟨t6, ht6, k6, f6, o6⟩ := st3
    refine ⟨t6, ?_, k6, ?_, ?_⟩
    · simp only [_median_of_3, hless1, Res.ok_bind, ht2, hless2, hcmp, hswap, hless3, if_true,
        ht6]
    · intro k k0 k1 k2'
      rw [f6 k k0 k1, e4, rd_swapL hx' hy', if_neg k1, if_neg k2']
      exact f2 k k0 k1
    · intro hsw n1 n2 n3 x0 x1 x2 q0 q1 q2
      obtain ⟨r1, r2⟩ := o6 hsw n1 x0 x1 q0 q1
      refine ⟨r1, ?_⟩
      rw [f6 m2 n2 n3, e4, rd_swapL hx' hy'] at q2
      simp only [n3, if_true, if_false] at q2
      cases q2
      -- the element now at `m2` is the old `y'`; `x''` is the old `x'`, `y''` the old `m0`
      rw [e4, rd_swapL hx' hy'] at hx'' hy''
      simp only [if_true] at hx''
      simp only [n1.symm, n2.symm, Ne.symm n2, if_false] at hy''
      cases hx''
      rcases r2 with r2 | r2
      · subst r2
        exact hsw.asymm _ _ hcmp
      · subst r2
        have hy0 : rd t2.arr m0 = some x1 := by
          by_cases c : m0 = m2
          · exact absurd c.symm n2
          · by_cases c' : m0 = m1
            · exact absurd c'.symm n1
            · simpa [c, c'] using hy''
        exact o2 hsw n1 x1 _ hy0 hy'

theorem pivotDups_spec {α : Type} (comp : α → α → Bool) (s : Mem α) (lo hi m b c : Int)
    (hlo : 0 ≤ lo) (hhi : hi ≤ s.arr.length) (hm : lo ≤ m ∧ m < hi)
    (hb1 : lo + 2 ≤ b) (hb2 : b ≤ hi) (hc1 : lo ≤ c) (hc2 : c < hi - 1) :
    ∃ r, pivotDups comp s lo m hi b c = .ok r ∧ Shuffle lo hi s.arr r.2.2.2.arr ∧
      b - 2 ≤ r.1 ∧ r.1 ≤ b ∧ c ≤ r.2.1 ∧ r.2.1 ≤ c + 1 ∧
      ((∀ x p, rd s.arr (hi - 1) = some x → rd s.arr lo = some p → comp x p = false) →
       (∀ p y, rd s.arr lo = some p → rd s.arr (b - 1) = some y → comp p y = false) →
       (∀ p z, rd s.arr lo = some p → rd s.arr m = some z → comp p z = false) →
       r.1 = b ∧ r.2.1 = c ∧ r.2.2.1 = 0 ∧ r.2.2.2.arr = s.arr) := by
  obtain ⟨x, p, u1, hx, hp, hless1, e1⟩ := less_inb' comp s (hi - 1) lo ⟨by omega, by omega⟩
    ⟨by omega, by omega⟩
  have st1 : ∃ t1 : Int × Nat × Mem α, (if comp x p = true then do
        let s ← swap u1 c (hi - 1)
        pure (c + 1, 1, s)
      else pure (c, 0, u1) : Res (Int × Nat × Mem α)) = .ok t1 ∧ Shuffle lo hi s.arr t1.2.2.arr ∧
      c ≤ t1.1 ∧ t1.1 ≤ c + 1 ∧
      (comp x p = false → t1.1 = c ∧ t1.2.1 = 0 ∧ t1.2.2.arr = s.arr) := by
    cases hcmp : comp x p
    · exact ⟨(c, 0, u1), by simp, by simp only [e1]; exact Shuffle.refl _, by simp, by simp,
        fun _ => ⟨rfl, rfl, e1⟩⟩
    · obtain ⟨p', q', u2, hp', hq', hswap, e2⟩ := swap_inb' u1 c (hi - 1)
        ⟨by omega, by rw [e1]; omega⟩ ⟨by omega, by rw [e1]; omega⟩
      rw [e1] at hp' hq' e2
      exact ⟨(c + 1, 1, u2), by simp [hswap],
        by simp only [e2]; exact Shuffle.one (by omega) (by omega) (by omega) (by omega) hp' hq',
        by simp, by simp, fun h => by simp at h⟩
  obtain ⟨⟨c1, d1, w1⟩, ht1, k1, g1, g2, g3⟩ := st1
  simp only at k1 g1 g2 g3
  have l1 := k1.length_eq
  obtain ⟨p2, y, u3, hp2, hy, hless2, e3⟩ := less_inb' comp w1 lo (b - 1) ⟨by omega, by omega⟩
    ⟨by omega, by omega⟩
  obtain ⟨p3, z, u4, hp3, hz, hless3, e4⟩ := less_inb' comp u3 lo m
    ⟨by omega, by rw [e3]; omega⟩ ⟨by omega, by rw [e3]; omega⟩
  rw [e3] at hp3 hz
  have st3 : ∃ r : Int × Int × Nat × Mem α, (if comp p3 z = true then do
        let s ← swap u4 m ((if comp p2 y = true then (b - 1, d1 + 1, u3)
          else (b, d1, u3) : Int × Nat × Mem α).1 - 1)
        pure ((if comp p2 y = true then (b - 1, d1 + 1, u3)
          else (b, d1, u3) : Int × Nat × Mem α).1 - 1, c1,
          (if comp p2 y = true then (b - 1, d1 + 1, u3)
          else (b, d1, u3) : Int × Nat × Mem α).2.1 + 1, s)
      else pure ((if comp p2 y = true then (b - 1, d1 + 1, u3)
          else (b, d1, u3) : Int × Nat × Mem α).1, c1,
          (if comp p2 y = true then (b - 1, d1 + 1, u3)
          else (b, d1, u3) : Int × Nat × Mem α).2.1, u4) : Res (Int × Int × Nat × Mem α)) = .ok r ∧
      Shuffle lo hi s.arr r.2.2.2.arr ∧ b - 2 ≤ r.1 ∧ r.1 ≤ b ∧ r.2.1 = c1 ∧
      (comp p2 y = false → comp p3 z = false → r.1 = b ∧ r.2.2.1 = d1 ∧
        r.2.2.2.arr = w1.arr) := by
    cases hcmp3 : comp p3 z
    · cases hcmp2 : comp p2 y
      · exact ⟨(b, c1, d1, u4), by simp, by simp only [e4, e3]; exact k1, by simp <;> omega, by simp <;> omega, rfl,
          fun _ _ => ⟨rfl, rfl, by simp only [e4, e3]⟩⟩
      · exact ⟨(b - 1, c1, d1 + 1, u4), by simp, by simp only [e4, e3]; exact k1, by simp <;> omega,
          by simp <;> omega, rfl, fun h => by simp at h⟩
    · cases hcmp2 : comp p2 y
      · obtain ⟨p', q', u5, hp', hq', hswap, e5⟩ := swap_inb' u4 m (b - 1)
          ⟨by omega, by rw [e4, e3]; omega⟩ ⟨by omega, by rw [e4, e3]; omega⟩
        rw [e4, e3] at hp' hq' e5
        exact ⟨(b - 1, c1, d1 + 1, u5), by simp [hswap],
          by simp only [e5]; exact k1.trans (Shuffle.one (by omega) (by omega) (by omega)
            (by omega) hp' hq'), by simp <;> omega, by simp <;> omega, rfl, fun _ h => by simp at h⟩
      · obtain ⟨p', q', u5, hp', hq', hswap, e5⟩ := swap_inb' u4 m (b - 1 - 1)
          ⟨by omega, by rw [e4, e3]; omega⟩ ⟨by omega, by rw [e4, e3]; omega⟩
        rw [e4, e3] at hp' hq' e5
        exact ⟨(b - 1 - 1, c1, d1 + 1 + 1, u5), by simp [hswap],
          by simp only [e5]; exact k1.trans (Shuffle.one (by omega) (by omega) (by omega)
            (by omega) hp' hq'), by simp <;> omega, by simp <;> omega, rfl,
            fun h => by simp at h⟩
  obtain ⟨r, hr, k3, q1, q2, q3, q4⟩ := st3
  refine ⟨r, ?_, k3, q1, q2, by omega, by omega, ?_⟩
  · have e : (if comp p2 y = true then (b - 1, d1 + 1, u3)
        else (b, d1, u3) : Int × Nat × Mem α).2.2 = u3 := by split <;> rfl
    simp only [pivotDups, hless1, Res.ok_bind, ht1, hless2]
    rw [e, hless3]
    exact hr
  · intro T1 T2 T3
    have c1' := T1 x p hx hp
    obtain ⟨r1, r2, r3⟩ := g3 c1'
    rw [r3] at hp2 hy hp3 hz
    have c2' := T2 p2 y hp2 hy
    have c3' := T3 p3 z hp3 hz
    obtain ⟨r4, r5, r6⟩ := q4 c2' c3'
    exact ⟨r4, by omega, by omega, by rw [r6, r3]⟩

theorem StrictWeak.of_leP {α : Type} {comp : α → α → Bool} (h : StrictWeak comp) {p x : α}
    (hx : LeP comp p x) : comp p x = false := by
  rcases hx with hx | hx
  · exact h.asymm _ _ hx
  · exact hx

theorem StrictWeak.of_geP {α : Type} {comp : α → α → Bool} (h : StrictWeak comp) {p x : α}
    (hx : GeP comp p x) : comp x p = false := by
  rcases hx with hx | hx
  · exact h.asymm _ _ hx
  · exact hx

theorem ninther_safe {α : Type} (comp : α → α → Bool) (s : Mem α) (lo hi : Int)
    (hlo : 0 ≤ lo) (hhi : hi ≤ s.arr.length) (hsz : hi - lo > 12) :
    ∃ s0, (if hi - lo > 40 then do
        let s ← _median_of_3 comp s lo (lo + cdiv (hi - lo) 8) (lo + 2 * cdiv (hi - lo) 8)
        let s ← _median_of_3 comp s ((lo + hi) / 2) ((lo + hi) / 2 - cdiv (hi - lo) 8)
          ((lo + hi) / 2 + cdiv (hi - lo) 8)
        _median_of_3 comp s (hi - 1) (hi - 1 - cdiv (hi - lo) 8)
          (hi - 1 - 2 * cdiv (hi - lo) 8)
      else pure s) = .ok s0 ∧ Shuffle lo hi s.arr s0.arr := by
  by_cases hc : hi - lo > 40
  · have e : cdiv (hi - lo) 8 = (hi - lo) / 8 := cdiv_eq (by omega) (by omega)
    simp only [hc, if_true, e]
    obtain ⟨t1, ht1, k1, -⟩ := median_of_3_spec comp s lo hi lo (lo + (hi - lo) / 8)
      (lo + 2 * ((hi - lo) / 8)) (by omega) (by omega) (by omega) hlo hhi
    have l1 := k1.length_eq
    obtain ⟨t2, ht2, k2, -⟩ := median_of_3_spec comp t1 lo hi ((lo + hi) / 2)
      ((lo + hi) / 2 - (hi - lo) / 8) ((lo + hi) / 2 + (hi - lo) / 8) (by omega) (by omega)
      (by omega) hlo (by omega)
    have l2 := k2.length_eq
    obtain ⟨t3, ht3, k3, -⟩ := median_of_3_spec comp t2 lo hi (hi - 1)
      (hi - 1 - (hi - lo) / 8) (hi - 1 - 2 * ((hi - lo) / 8)) (by omega) (by omega)
      (by omega) hlo (by omega)
    exact ⟨t3, by simp only [ht1, Res.ok_bind, ht2, ht3], (k1.trans k2).trans k3⟩
  · exact ⟨s, by simp [hc], Shuffle.refl _⟩


/-! ## The stages of `_do_pivot` -/

/-- The function `_do_pivot` is the sequence of its stages. -/
theorem do_pivot_stages {α : Type} (comp : α → α → Bool) (s : Mem α) (lo hi : Int) :
    _do_pivot comp s lo hi = (do
      let r ← pivotPartition comp s lo hi
      let q ← pivotSample comp r.2.2.2 lo hi r.2.1 r.2.2.1
      pivotFinish comp q.2.2.2 lo hi r.1 q.1 q.2.1 q.2.2.1) := by
  simp only [_do_pivot, pivotPartition, pivotSelect, pivotNinther, pivotSample, pivotFinish,
    Res.bind_assoc, Res.pure_eq, Res.ok_bind]

theorem pivotSelect_spec {α : Type} (comp : α → α → Bool) (s : Mem α) (lo hi : Int)
    (hlo : 0 ≤ lo) (hhi : hi ≤ s.arr.length) (hsz : hi - lo > 12) :
    ∃ s0 s1, pivotNinther comp s lo hi = .ok s0 ∧ Shuffle lo hi s.arr s0.arr ∧
      _median_of_3 comp s0 lo ((lo + hi) / 2) (hi - 1) = .ok s1 ∧
      pivotSelect comp s lo hi = .ok s1 ∧ Shuffle lo hi s0.arr s1.arr ∧
      (∀ k, k ≠ (lo + hi) / 2 → k ≠ lo → k ≠ hi - 1 → rd s1.arr k = rd s0.arr k) ∧
      (StrictWeak comp → ∀ xm p xh, rd s1.arr ((lo + hi) / 2) = some xm →
        rd s1.arr lo = some p → rd s1.arr (hi - 1) = some xh →
        comp p xm = false ∧ comp xh p = false) := by
  obtain ⟨s0, hs0, k0⟩ := ninther_safe comp s lo hi hlo hhi hsz
  have l0 := k0.length_eq
  obtain ⟨s1, hs1, k1, u1, o1⟩ := median_of_3_spec comp s0 lo hi lo ((lo + hi) / 2) (hi - 1)
    (by omega) (by omega) (by omega) hlo (by omega)
  have e0 : pivotNinther comp s lo hi = .ok s0 := by
    simp only [pivotNinther, shr1_eq]
    exact hs0
  refine ⟨s0, s1, e0, k0, hs1, ?_, k1, u1, ?_⟩
  · simp only [pivotSelect, e0, shr1_eq, Res.ok_bind, hs1]
  · intro hsw xm p xh h1 h2 h3
    exact o1 hsw (by omega) (by omega) (by omega) xm p xh h1 h2 h3

/-- The state at the exit of the main partition loop of `_do_pivot`: with `p` the pivot at
`lo`, the elements of `[lo+1, b)` were found at or below `p`, those of `[c, hi-1)` at or
above `p`, and `arr[hi-1]` is not less than `p`. -/
theorem pivotPartition_spec {α : Type} (comp : α → α → Bool) (s : Mem α) (lo hi : Int)
    (hlo : 0 ≤ lo) (hhi : hi ≤ s.arr.length) (hsz : hi - lo > 12) :
    ∃ r, pivotPartition comp s lo hi = .ok r ∧ Shuffle lo hi s.arr r.2.2.2.arr ∧
      lo + 1 ≤ r.1 ∧ r.1 ≤ r.2.1 ∧ r.1 ≤ r.2.2.1 ∧ r.2.2.1 ≤ hi - 1 ∧ r.2.1 ≤ hi - 1 ∧
      r.2.2.1 ≤ r.2.1 ∧ r.2.1 ≤ r.2.2.1 + 1 ∧
      ∃ p, rd r.2.2.2.arr lo = some p ∧
        AllOn (LeP comp p) r.2.2.2.arr (lo + 1) r.2.1 ∧
        AllOn (GeP comp p) r.2.2.2.arr r.2.2.1 (hi - 1) ∧
        (StrictWeak comp → ∀ xh, rd r.2.2.2.arr (hi - 1) = some xh → comp xh p = false) := by
  obtain ⟨s0, s1, -, k0, -, hs1, k1, -, o1⟩ := pivotSelect_spec comp s lo hi hlo hhi hsz
  have l0 := k0.length_eq
  have l1 := k1.length_eq
  obtain ⟨p, hp⟩ := rd_inb s1.arr lo hlo (by omega)
  obtain ⟨xm, hxm⟩ := rd_inb s1.arr ((lo + hi) / 2) (by omega) (by omega)
  obtain ⟨xh, hxh⟩ := rd_inb s1.arr (hi - 1) (by omega) (by omega)
  obtain ⟨⟨a, s2⟩, hs2, e2, -, a1, a2, a3, -⟩ := scanUp_spec comp s1 lo (hi - 1) (lo + 1)
    ⟨hlo, by omega⟩ (by omega) (by omega)
  simp only at e2 a1 a2 a3
  have hle2 : AllOn (LeP comp p) s2.arr (lo + 1) a := by
    intro k x q1 q2 hx
    obtain ⟨u, v, hu, hv, huv⟩ := a3 k q1 q2
    rw [e2, hu] at hx
    rw [hp] at hv
    cases hx
    cases hv
    exact Or.inl huv
  obtain ⟨⟨b, c, s3⟩, hs3, k3, n1, n2, n3, n4, n5, n6, hle3, hge3⟩ := pivotMain_spec comp s2 lo
    hi a p ((hi - lo).toNat + 1) hlo (by rw [e2]; omega) a1 (by omega) (by rw [e2]; exact hp)
    hle2 (by omega)
  simp only at k3 n1 n2 n3 n4 n5 n6 hle3 hge3
  rw [e2] at k3
  have l3 := k3.length_eq
  have hp3 : rd s3.arr lo = some p := by rw [k3.outside lo (Or.inl (by omega))]; exact hp
  have hxh3 : rd s3.arr (hi - 1) = some xh := by
    rw [k3.outside (hi - 1) (Or.inr (by omega))]; exact hxh
  refine ⟨(a, b, c, s3), ?_, (k0.trans k1).trans (k3.widen (by omega) (by omega)), a1, n1, n2,
    n3, n4, n5, n6, p, hp3, hle3, hge3, ?_⟩
  · simp only [pivotPartition, hs1, Res.ok_bind, hs2, hs3]
    rfl
  · intro hsw x hx
    simp only at hx
    rw [hxh3] at hx
    cases hx
    exact (o1 hsw xm p _ hxm hp hxh).2

/-- Under a strict weak order the three pivot-equality tests of `_do_pivot` are all false in
the state left by the main loop, so `pivotDups` changes nothing and counts no duplicate. -/
theorem pivotDups_none {α : Type} {comp : α → α → Bool} (hsw : StrictWeak comp) (s : Mem α)
    (lo hi b c : Int) (p : α) (hlo : 0 ≤ lo) (hhi : hi ≤ s.arr.length) (hsz : hi - lo > 12)
    (hcb : c ≤ b) (hb : b ≤ hi - 1) (h5 : 5 ≤ hi - c) (h4 : hi - c < (hi - lo) / 4)
    (hp : rd s.arr lo = some p) (hle : AllOn (LeP comp p) s.arr (lo + 1) b)
    (hh : ∀ xh, rd s.arr (hi - 1) = some xh → comp xh p = false) :
    (∀ xh y z, rd s.arr (hi - 1) = some xh → rd s.arr (b - 1) = some y →
      rd s.arr ((lo + hi) / 2) = some z →
      comp xh p = false ∧ comp p y = false ∧ comp p z = false) ∧
    ∃ t, pivotDups comp s lo ((lo + hi) / 2) hi b c = .ok t ∧ t.1 = b ∧ t.2.1 = c ∧
      t.2.2.1 = 0 ∧ t.2.2.2.arr = s.arr := by
  have T : ∀ xh y z, rd s.arr (hi - 1) = some xh → rd s.arr (b - 1) = some y →
      rd s.arr ((lo + hi) / 2) = some z →
      comp xh p = false ∧ comp p y = false ∧ comp p z = false := by
    intro xh y z h1 h2 h3
    exact ⟨hh xh h1, hsw.of_leP (hle (b - 1) y (by omega) (by omega) h2),
      hsw.of_leP (hle ((lo + hi) / 2) z (by omega) (by omega) h3)⟩
  refine ⟨T, ?_⟩
  obtain ⟨t, ht, -, -, -, -, -, t5⟩ := pivotDups_spec comp s lo hi ((lo + hi) / 2) b c
    hlo hhi (by omega) (by omega) (by omega) (by omega) (by omega)
  refine ⟨t, ht, t5 ?_ ?_ ?_⟩
  · intro x q hx hq
    rw [hp] at hq
    cases hq
    exact hh x hx
  · intro q y hq hy
    rw [hp] at hq
    cases hq
    exact hsw.of_leP (hle (b - 1) y (by omega) (by omega) hy)
  · intro q z hq hz
    rw [hp] at hq
    cases hq
    exact hsw.of_leP (hle ((lo + hi) / 2) z (by omega) (by omega) hz)

theorem pivotSample_spec {α : Type} (comp : α → α → Bool) (s : Mem α) (lo hi b c : Int) (p : α)
    (hlo : 0 ≤ lo) (hhi : hi ≤ s.arr.length) (hsz : hi - lo > 12)
    (hc1 : lo + 1 ≤ c) (hcb : c ≤ b) (hb : b ≤ hi - 1)
    (hp : rd s.arr lo = some p) (hle : AllOn (LeP comp p) s.arr (lo + 1) b)
    (hh : StrictWeak comp → ∀ xh, rd s.arr (hi - 1) = some xh → comp xh p = false) :
    ∃ rq, pivotSample comp s lo hi b c = .ok rq ∧
      Shuffle lo hi s.arr rq.2.2.2.arr ∧ lo + 1 ≤ rq.1 ∧ rq.1 ≤ b ∧ c ≤ rq.2.1 ∧
      rq.2.1 ≤ hi - 1 ∧
      (StrictWeak comp → rq.1 = b ∧ rq.2.1 = c ∧ rq.2.2.1 = decide (hi - c < 5) ∧
        rq.2.2.2.arr = s.arr) := by
  unfold pivotSample
  simp only [shr1_eq]
  by_cases hc : (!decide (hi - c < 5) && decide (hi - c < cdiv (hi - lo) 4)) = true
  · have e : cdiv (hi - lo) 4 = (hi - lo) / 4 := cdiv_eq (by omega) (by omega)
    have hc' := hc
    simp only [Bool.and_eq_true, Bool.not_eq_true', decide_eq_false_iff_not,
      decide_eq_true_eq, e] at hc'
    obtain ⟨t, ht, kt, t1, t2, t3, t4, -⟩ := pivotDups_spec comp s lo hi ((lo + hi) / 2) b c
      hlo hhi (by omega) (by omega) (by omega) (by omega) (by omega)
    refine ⟨(t.1, t.2.1, decide (t.2.2.1 > 1), t.2.2.2), by simp only [hc, if_true, ht]; rfl,
      kt, by simp <;> omega, by simp <;> omega, by simp <;> omega, by simp <;> omega, ?_⟩
    intro hsw
    obtain ⟨-, t', ht', r1, r2, r3, r4⟩ := pivotDups_none hsw s lo hi b c p hlo hhi hsz hcb hb
      (by omega) hc'.2 hp hle (hh hsw)
    have : t' = t := by
      have := ht'.symm.trans ht
      simpa using this
    subst this
    refine ⟨r1, r2, ?_, r4⟩
    simp only [r3]
    have : ¬ hi - c < 5 := hc'.1
    simp [this]
  · exact ⟨(b, c, decide (hi - c < 5), s), by simp only [hc]; rfl, Shuffle.refl _,
      by simp <;> omega, by simp, by simp, by simp <;> omega, fun _ => ⟨rfl, rfl, rfl, rfl⟩⟩

theorem pivotFinish_spec {α : Type} (comp : α → α → Bool) (s : Mem α) (lo hi a b c : Int)
    (pr : Bool) (p : α) (hlo : 0 ≤ lo) (hhi : hi ≤ s.arr.length) (hsz : hi - lo > 12)
    (ha1 : lo + 1 ≤ a) (hb1 : lo + 1 ≤ b) (hb2 : b ≤ hi - 1) (hp : rd s.arr lo = some p) :
    ∃ r, pivotFinish comp s lo hi a b c pr = .ok r ∧ Shuffle lo hi s.arr r.1.arr ∧
      lo ≤ r.2.1 ∧ r.2.1 ≤ b - 1 ∧ r.2.2 = c ∧ rd r.1.arr r.2.1 = some p ∧
      (StrictWeak comp → lo + 1 ≤ c → c ≤ b → AllOn (LeP comp p) s.arr (lo + 1) b →
        AllOn (GeP comp p) s.arr c (hi - 1) →
        (∀ xh, rd s.arr (hi - 1) = some xh → comp xh p = false) →
        AllOn (fun x => comp p x = false) r.1.arr lo r.2.1 ∧
        AllOn (fun x => comp p x = false ∧ comp x p = false) r.1.arr r.2.1 r.2.2 ∧
        AllOn (fun x => comp x p = false) r.1.arr r.2.2 hi) := by
  have st5 : ∃ rp : Int × Mem α, (if pr = true then do
        let t ← iter (pivotProtectBody comp lo) ((hi - lo).toNat + 1) (a, b, s)
        pure (t.2.1, t.2.2)
      else pure (b, s)) = .ok rp ∧ Shuffle (lo + 1) b s.arr rp.2.arr ∧
      lo + 1 ≤ rp.1 ∧ rp.1 ≤ b ∧
      (∀ g, AllOn (GeP comp p) s.arr g b → AllOn (GeP comp p) rp.2.arr (min rp.1 g) b) := by
    cases pr
    · refine ⟨(b, s), by simp, Shuffle.refl _, hb1, le_refl _, ?_⟩
      intro g hg k x q1 q2 hx
      exact hg k x (by simp only at q1; omega) q2 hx
    · obtain ⟨t, ht, kt, t1, t2, -⟩ := pivotProtect_spec comp s lo hi a b p
        ((hi - lo).toNat + 1) hlo (by omega) ha1 b hb1 (by omega) hp
        (fun k x q1 q2 => by omega) (by omega)
      refine ⟨(t.2.1, t.2.2), by simp only [if_true, ht]; rfl, kt, t1, t2, ?_⟩
      intro g hg
      obtain ⟨t', ht', -, -, -, t3'⟩ := pivotProtect_spec comp s lo hi a b p
        ((hi - lo).toNat + 1) hlo (by omega) ha1 g hb1 (by omega) hp hg (by omega)
      have : t' = t := by
        have := ht'.symm.trans ht
        simpa using this
      subst this
      exact t3'
  obtain ⟨⟨b5, s5⟩, hs5, k5, f1, f2, f3⟩ := st5
  simp only at k5 f1 f2 f3
  have l5 := k5.length_eq
  obtain ⟨x6, y6, s6, hx6, hy6, hs6, e6⟩ := swap_inb' s5 lo (b5 - 1) ⟨hlo, by omega⟩
    ⟨by omega, by omega⟩
  have hx6' : rd s5.arr lo = some p := by
    rw [k5.outside lo (Or.inl (by omega))]; exact hp
  rw [hx6'] at hx6
  cases hx6
  refine ⟨(s6, b5 - 1, c), ?_, ?_, by simp <;> omega, by simp <;> omega, rfl, ?_, ?_⟩
  · unfold pivotFinish
    simp only [Bool.decide_eq_true] at hs5 ⊢
    rw [hs5]
    simp only [Res.ok_bind, hs6]
    rfl
  · simp only [e6]
    exact (k5.widen (by omega) (by omega)).trans
      (Shuffle.one (by omega) (by omega) (by omega) (by omega) hx6' hy6)
  · simp only [e6]
    rw [rd_swapL hx6' hy6, if_pos rfl]
  · intro hsw hc1 hcb hle3 hge3 hh
    have hle5 : AllOn (LeP comp p) s5.arr (lo + 1) b := hle3.shuffle k5
    have hge5 : AllOn (GeP comp p) s5.arr (min b5 c) b := f3 c (hge3.restrict (le_refl _) hb2)
    refine ⟨?_, ?_, ?_⟩
    · intro k x q1 q2 hx
      simp only at q2 hx
      rw [e6, rd_swapL hx6' hy6] at hx
      by_cases c1 : k = b5 - 1
      · omega
      · by_cases c2 : k = lo
        · rw [if_neg c1, if_pos c2] at hx
          cases hx
          exact hsw.of_leP (hle5 (b5 - 1) _ (by omega) (by omega) hy6)
        · simp only [c1, c2, if_false] at hx
          exact hsw.of_leP (hle5 k x (by omega) (by omega) hx)
    · intro k x q1 q2 hx
      simp only at q1 q2 hx
      rw [e6, rd_swapL hx6' hy6] at hx
      by_cases c1 : k = b5 - 1
      · simp only [c1, if_true] at hx
        cases hx
        exact ⟨hsw.irrefl _, hsw.irrefl _⟩
      · have c2 : ¬ k = lo := by omega
        simp only [c1, c2, if_false] at hx
        exact ⟨hsw.of_leP (hle5 k x (by omega) (by omega) hx),
          hsw.of_geP (hge5 k x (by omega) (by omega) hx)⟩
    · intro k x q1 q2 hx
      simp only at q1 hx
      rw [e6, rd_swapL hx6' hy6] at hx
      by_cases c1 : k = b5 - 1
      · simp only [c1, if_true] at hx
        cases hx
        exact hsw.irrefl _
      · have c2 : ¬ k = lo := by omega
        simp only [c1, c2, if_false] at hx
        by_cases c3 : k < b
        · exact hsw.of_geP (hge5 k x (by omega) c3 hx)
        · rw [k5.outside k (Or.inr (by omega))] at hx
          by_cases c4' : k = hi - 1
          · subst c4'
            exact hh x hx
          · exact hsw.of_geP (hge3 k x (by omega) (by omega) hx)

theorem do_pivot_spec {α : Type} (comp : α → α → Bool) (s : Mem α) (lo hi : Int)
    (hlo : 0 ≤ lo) (hhi : hi ≤ s.arr.length) (hsz : hi - lo > 12) :
    ∃ r, _do_pivot comp s lo hi = .ok r ∧ Shuffle lo hi s.arr r.1.arr ∧
      lo ≤ r.2.1 ∧ r.2.1 ≤ r.2.2 ∧ r.2.1 < hi ∧ lo < r.2.2 ∧ r.2.2 < hi ∧
      (StrictWeak comp → ∃ p, AllOn (fun x => comp p x = false) r.1.arr lo r.2.1 ∧
        AllOn (fun x => comp p x = false ∧ comp x p = false) r.1.arr r.2.1 r.2.2 ∧
        AllOn (fun x => comp x p = false) r.1.arr r.2.2 hi ∧ rd r.1.arr r.2.1 = some p) := by
  obtain ⟨⟨a, b, c, s3⟩, hs3, k3, a1, n1, n2, n3, n4, n5, n6, p, hp3, hle3, hge3, hh3⟩ :=
    pivotPartition_spec comp s lo hi hlo hhi hsz
  simp only at k3 a1 n1 n2 n3 n4 n5 n6 hp3 hle3 hge3 hh3
  have l3 := k3.length_eq
  obtain ⟨⟨b4, c4, pr, s4⟩, hs4, k4, d1, d2, d3, d4, d5⟩ := pivotSample_spec comp s3 lo hi b c p
    hlo (by omega) hsz (by omega) n5 n4 hp3 hle3 hh3
  simp only at k4 d1 d2 d3 d4 d5
  have l4 := k4.length_eq
  obtain ⟨p', hp'⟩ := rd_inb s4.arr lo hlo (by omega)
  obtain ⟨⟨s6, mlo, mhi⟩, hs6, k6, g1, g2, g3, g4, g5⟩ := pivotFinish_spec comp s4 lo hi a b4 c4
    pr p' hlo (by omega) hsz a1 d1 (by omega) hp'
  simp only at k6 g1 g2 g3 g4 g5
  refine ⟨(s6, mlo, mhi), ?_, (k3.trans k4).trans k6, by simp <;> omega, by simp <;> omega,
    by simp <;> omega, by simp <;> omega, by simp <;> omega, ?_⟩
  · rw [do_pivot_stages]
    simp only [hs3, Res.ok_bind, hs4, hs6]
  · intro hsw
    obtain ⟨r1, r2, -, r4⟩ := d5 hsw
    subst r1
    subst r2
    rw [r4] at hp'
    rw [hp3] at hp'
    cases hp'
    rw [r4] at g5
    obtain ⟨q1, q2, q3⟩ := g5 hsw (by omega) n5 hle3 hge3 (hh3 hsw)
    exact ⟨p, q1, q2, q3, g4⟩

/-! ## The unstable engine: no fault, a rearrangement -/

theorem shell_sort_safe {α : Type} (comp : α → α → Bool) (s : Mem α) (a b : Int)
    (ha : 0 ≤ a) (hb : b ≤ s.arr.length) :
    ∃ s', _shell_sort comp s a b = .ok s' ∧ Shuffle a b s.arr s'.arr := by
  unfold _shell_sort
  apply iter_total (shellBody comp b)
    (fun p => a + 6 ≤ p.1 ∧ Shuffle a b s.arr p.2.arr)
    (fun p => (b - p.1).toNat) (fun s' => Shuffle a b s.arr s'.arr)
  · rintro ⟨i, t⟩ ⟨h1, h2⟩
    have hl := h2.length_eq
    simp only at h1 h2 hl
    by_cases hc : i < b
    · obtain ⟨x, y, t1, hx, hy, hless, e1⟩ := less_inb' comp t i (i - 6) ⟨by omega, by omega⟩
        ⟨by omega, by omega⟩
      obtain ⟨t2, ht2, k2⟩ := cond_swap_safe (comp x y) t1 a b i (i - 6) ⟨by omega, hc⟩
        ⟨by omega, by omega⟩ ha (by rw [e1]; omega)
      rw [e1] at k2
      have hbd : shellBody comp b (i, t) = .ok (.inl (i + 1, t2)) := by
        simp only [shellBody, hc, if_true, hless, Res.ok_bind, ht2]
        rfl
      exact Or.inl ⟨_, hbd, ⟨by simp <;> omega, h2.trans k2⟩, by simp <;> omega⟩
    · have hbd : shellBody comp b (i, t) = .ok (.inr t) := by
        simp [shellBody, hc]
      exact Or.inr ⟨_, hbd, h2⟩
  · exact ⟨le_refl _, Shuffle.refl _⟩
  · simp only
    omega

theorem quickSortLoopAux_safe {α : Type} (comp : α → α → Bool) : ∀ (f : Nat) (s : Mem α)
    (a b d : Int), 0 ≤ a → b ≤ s.arr.length → (b - a).toNat < f →
    ∃ s', quickSortLoopAux comp f s a b d = .ok s' ∧ Shuffle a b s.arr s'.arr := by
  intro f
  induction f with
  | zero => intro s a b d _ _ h; omega
  | succ f ih =>
    intro s a b d ha hb hf
    rw [quickSortLoopAux]
    by_cases c1 : b - a > 12
    · by_cases c2 : d = 0
      · obtain ⟨s', hs', k⟩ := heap_sort_safe comp s a b ha (by omega) hb
        exact ⟨s', by simp [c1, c2, hs'], k⟩
      · obtain ⟨⟨s1, mlo, mhi⟩, hr, k1, g1, g2, g3, g4, g5, -⟩ := do_pivot_spec comp s a b ha hb c1
        simp only at k1 g1 g2 g3 g4 g5
        have l1 := k1.length_eq
        by_cases c3 : mlo - a < b - mhi
        · obtain ⟨s2, hs2, k2⟩ := ih s1 a mlo (d - 1) ha (by omega) (by omega)
          have l2 := k2.length_eq
          obtain ⟨s3, hs3, k3⟩ := ih s2 mhi b (d - 1) (by omega) (by omega) (by omega)
          exact ⟨s3, by simp [c1, c2, hr, c3, hs2, hs3],
            (k1.trans (k2.widen (le_refl _) (by omega))).trans (k3.widen (by omega) (le_refl _))⟩
        · obtain ⟨s2, hs2, k2⟩ := ih s1 mhi b (d - 1) (by omega) (by omega) (by omega)
          have l2 := k2.length_eq
          obtain ⟨s3, hs3, k3⟩ := ih s2 a mlo (d - 1) ha (by omega) (by omega)
          exact ⟨s3, by simp [c1, c2, hr, c3, hs2, hs3],
            (k1.trans (k2.widen (by omega) (le_refl _))).trans (k3.widen (le_refl _) (by omega))⟩
    · by_cases c2 : b - a > 1
      · obtain ⟨s1, hs1, k1⟩ := shell_sort_safe comp s a b ha hb
        have l1 := k1.length_eq
        obtain ⟨s2, hs2, k2⟩ := insertion_sort_safe comp s1 a b ha (by omega)
        exact ⟨s2, by simp [c1, c2, hs1, hs2], k1.trans k2⟩
      · exact ⟨s, by simp [c1, c2], Shuffle.refl _⟩

theorem max_depth_ok (n : Int) : ∃ d, _max_depth n = .ok d := by
  have h : ∃ d, iter maxDepthBody (n.toNat + 1) (n, 0) = .ok d ∧ True := by
    apply iter_total maxDepthBody (fun _ => True) (fun p => p.1.toNat)
    · rintro ⟨i, d⟩ -
      by_cases hc : i > 0
      · have hbd : maxDepthBody (i, d) = .ok (.inl (i / 2, d + 1)) := by
          simp [maxDepthBody, hc, shr1_eq]
        exact Or.inl ⟨_, hbd, trivial, by simp <;> omega⟩
      · have hbd : maxDepthBody (i, d) = .ok (.inr d) := by
          simp [maxDepthBody, hc]
        exact Or.inr ⟨_, hbd, trivial⟩
    · trivial
    · simp
  obtain ⟨d, hd, -⟩ := h
  exact ⟨d * 2, by simp [_max_depth, hd]⟩

theorem sort_unstable_safe {α : Type} (comp : α → α → Bool) (l : List α) :
    ∃ s', sort_unstable comp l = .ok s' ∧ s'.arr.Perm l := by
  obtain ⟨d, hd⟩ := max_depth_ok (l.length : Int)
  obtain ⟨s', hs', k⟩ := quickSortLoopAux_safe comp (((l.length : Int) - 0).toNat + 1)
    (Mem.init l) 0 l.length d (le_refl _) (by simp [Mem.init]) (by omega)
  exact ⟨s', by simp only [sort_unstable, hd, Res.ok_bind, _quick_sort_loop, hs'], k.perm⟩

/-! ## Heapsort: sortedness -/

theorem heap_sift_spec {α : Type} {comp : α → α → Bool} (hsw : StrictWeak comp) (s : Mem α)
    (lo hi first : Int) (hlo : 0 ≤ lo) (hf : 0 ≤ first) (hhi : first + hi ≤ s.arr.length)
    (hpre : ∀ i, lo < i → GoodParent comp s.arr first hi i) :
    ∃ s', _heap_sift comp s lo hi first = .ok s' ∧ Shuffle first (first + hi) s.arr s'.arr ∧
      ∀ i, lo ≤ i → GoodParent comp s'.arr first hi i := by
  unfold _heap_sift
  apply iter_total (heapSiftBody comp hi first)
    (fun p => lo ≤ p.1 ∧ (p.1 = lo ∨ 2 * lo + 1 ≤ p.1) ∧
      Shuffle first (first + hi) s.arr p.2.arr ∧
      (∀ i, lo ≤ i → i ≠ p.1 → GoodParent comp p.2.arr first hi i) ∧
      (p.1 ≠ lo → ∀ c x y, (c = 2 * p.1 + 1 ∨ c = 2 * p.1 + 2) → c < hi →
        rd p.2.arr (first + (p.1 - 1) / 2) = some x → rd p.2.arr (first + c) = some y →
        comp x y = false))
    (fun p => (hi - p.1).toNat)
    (fun s' => Shuffle first (first + hi) s.arr s'.arr ∧
      ∀ i, lo ≤ i → GoodParent comp s'.arr first hi i)
  · rintro ⟨root, t⟩ ⟨h1, h1', h2, h3, h4⟩
    have hl := h2.length_eq
    simp only at h1 h1' h2 h3 h4 hl
    by_cases hc : 2 * root + 1 ≥ hi
    · have hbd : heapSiftBody comp hi first (root, t) = .ok (.inr t) := by
        simp [heapSiftBody, hc]
      refine Or.inr ⟨_, hbd, h2, ?_⟩
      intro i hi'
      by_cases e : i = root
      · subst e
        intro c x y hcc hch
        omega
      · exact h3 i hi' e
    · -- choice of the larger child
      have hpick : ∃ q : Int × Mem α, (if 2 * root + 1 + 1 < hi then do
            let r ← less comp t (first + (2 * root + 1)) (first + (2 * root + 1) + 1)
            pure (if r.1 then 2 * root + 1 + 1 else 2 * root + 1, r.2)
          else pure (2 * root + 1, t)) = .ok q ∧ q.2.arr = t.arr ∧
          (q.1 = 2 * root + 1 ∨ q.1 = 2 * root + 2) ∧ q.1 < hi ∧
          (∀ c x y, (c = 2 * root + 1 ∨ c = 2 * root + 2) → c < hi →
            rd t.arr (first + q.1) = some x → rd t.arr (first + c) = some y →
            comp x y = false) := by
        by_cases hc2 : 2 * root + 1 + 1 < hi
        · obtain ⟨x, y, t1, hx, hy, hless, e1⟩ := less_inb' comp t (first + (2 * root + 1))
            (first + (2 * root + 1) + 1) ⟨by omega, by omega⟩ ⟨by omega, by omega⟩
          cases hcmp : comp x y
          · refine ⟨(2 * root + 1, t1), by simp [hc2, hless, hcmp], e1, Or.inl rfl,
              by simp <;> omega, ?_⟩
            intro c u v hcc hch hu hv
            simp only at hu
            rw [hx] at hu
            cases hu
            rcases hcc with rfl | rfl
            · rw [hx] at hv
              cases hv
              exact hsw.irrefl _
            · have e : first + (2 * root + 2) = first + (2 * root + 1) + 1 := by omega
              rw [e, hy] at hv
              cases hv
              exact hcmp
          · refine ⟨(2 * root + 1 + 1, t1), by simp [hc2, hless, hcmp], e1,
              Or.inr (by simp <;> omega), by simp <;> omega, ?_⟩
            intro c u v hcc hch hu hv
            simp only at hu
            have e : first + (2 * root + 1 + 1) = first + (2 * root + 1) + 1 := by omega
            rw [e, hy] at hu
            cases hu
            rcases hcc with rfl | rfl
            · rw [hx] at hv
              cases hv
              exact hsw.asymm _ _ hcmp
            · have e : first + (2 * root + 2) = first + (2 * root + 1) + 1 := by omega
              rw [e, hy] at hv
              cases hv
              exact hsw.irrefl _
        · refine ⟨(2 * root + 1, t), by simp [hc2], rfl, Or.inl rfl, by simp <;> omega, ?_⟩
          intro c u v hcc hch hu hv
          have : c = 2 * root + 1 := by omega
          subst this
          simp only at hu
          rw [hu] at hv
          cases hv
          exact hsw.irrefl _
      obtain ⟨⟨child, t1⟩, hq, e1, c1, c2, c3⟩ := hpick
      simp only at e1 c1 c2 c3
      obtain ⟨x, y, t2, hx, hy, hless, e2⟩ := less_inb' comp t1 (first + child) (first + root)
        ⟨by omega, by rw [e1]; omega⟩ ⟨by omega, by rw [e1]; omega⟩
      rw [e1] at hx hy
      cases hcmp : comp x y
      · obtain ⟨x', y', t3, hx', hy', hswap, e3⟩ := swap_inb' t2 (first + root) (first + child)
          ⟨by omega, by rw [e2, e1]; omega⟩ ⟨by omega, by rw [e2, e1]; omega⟩
        have hbd : heapSiftBody comp hi first (root, t) = .ok (.inl (child, t3)) := by
          simp only [heapSiftBody, hc, if_false, hq, Res.ok_bind, hless, hcmp, hswap]
          rfl
        rw [e2, e1] at hx' hy' e3
        rw [hy] at hx'
        rw [hx] at hy'
        cases hx'
        cases hy'
        have hrd : ∀ k, rd t3.arr (first + k) = if k = child then some y else
            if k = root then some x else rd t.arr (first + k) := by
          intro k
          rw [e3, rd_swapL hy hx]
          by_cases k1 : k = child
          · subst k1
            simp
          · by_cases k2 : k = root
            · subst k2
              have : ¬ first + k = first + child := by omega
              simp [this, k1]
            · have q1 : ¬ first + k = first + child := by omega
              have q2 : ¬ first + k = first + root := by omega
              simp [k1, k2, q1, q2]
        refine Or.inl ⟨_, hbd, ⟨by simp <;> omega, by simp <;> omega, ?_, ?_, ?_⟩,
          by simp <;> omega⟩
        · simp only [e3]
          exact h2.trans (Shuffle.one (by omega) (by omega) (by omega) (by omega) hy hx)
        · intro i hi' hne c u v hcc hch hu hv
          simp only at hne hu hv
          rw [hrd] at hu hv
          by_cases ir : i = root
          · subst ir
            have n1 : ¬ i = child := by omega
            rw [if_neg n1, if_pos rfl] at hu
            cases hu
            by_cases cc : c = child
            · rw [if_pos cc] at hv
              cases hv
              exact hcmp
            · have n2 : ¬ c = i := by omega
              rw [if_neg cc, if_neg n2] at hv
              exact c3 c _ _ hcc hch hx hv
          · rw [if_neg hne, if_neg ir] at hu
            have n1 : ¬ c = child := by omega
            rw [if_neg n1] at hv
            by_cases cr : c = root
            · rw [if_pos cr] at hv
              cases hv
              have hr : root ≠ lo := by omega
              have ei : (root - 1) / 2 = i := by omega
              exact h4 hr child u _ c1 c2 (by rw [ei]; exact hu) hx
            · rw [if_neg cr] at hv
              exact h3 i hi' ir c u v hcc hch hu hv
        · intro hne c u v hcc hch hu hv
          simp only at hne hu hv hcc
          have ep : (child - 1) / 2 = root := by omega
          rw [ep, hrd] at hu
          rw [hrd] at hv
          have n1 : ¬ root = child := by omega
          rw [if_neg n1, if_pos rfl] at hu
          cases hu
          have n2 : ¬ c = child := by omega
          have n3 : ¬ c = root := by omega
          rw [if_neg n2, if_neg n3] at hv
          exact h3 child (by omega) (by omega) c _ v hcc hch hx hv
      · have hbd : heapSiftBody comp hi first (root, t) = .ok (.inr t2) := by
          simp only [heapSiftBody, hc, if_false, hq, Res.ok_bind, hless, hcmp]
          rfl
        refine Or.inr ⟨_, hbd, by rw [e2, e1]; exact h2, ?_⟩
        rw [e2, e1]
        intro i hi'
        by_cases e : i = root
        · subst e
          intro c u v hcc hch hu hv
          rw [hy] at hu
          cases hu
          have := c3 c x v hcc hch hx hv
          exact hsw.asymm _ _ (hsw.lt_of_le_of_lt this hcmp)
        · exact h3 i hi' e
  · refine ⟨le_refl _, Or.inl rfl, Shuffle.refl _, ?_, fun h => absurd rfl h⟩
    intro i hi' hne
    exact hpre i (by simp only at hne; omega)
  · simp

theorem heap_root_max {α : Type} {comp : α → α → Bool} (hsw : StrictWeak comp) (l : List α)
    (first n : Int) (hf : 0 ≤ first) (hn : first + n ≤ l.length)
    (hheap : ∀ i, 0 ≤ i → GoodParent comp l first n i) :
    ∀ (k : Nat) (j : Int), j.toNat = k → 0 ≤ j → j < n → ∀ x y, rd l first = some x →
      rd l (first + j) = some y → comp x y = false := by
  intro k
  induction k using Nat.strong_induction_on with
  | _ k ih =>
    intro j hk j0 jn x y hx hy
    by_cases e : j = 0
    · subst e
      simp only [add_zero] at hy
      rw [hx] at hy
      cases hy
      exact hsw.irrefl _
    · obtain ⟨z, hz⟩ := rd_inb l (first + (j - 1) / 2) (by omega) (by omega)
      have h1 := ih ((j - 1) / 2).toNat (by omega) ((j - 1) / 2) rfl (by omega) (by omega)
        x z hx hz
      have h2 := hheap ((j - 1) / 2) (by omega) j z y (by omega) jn hz hy
      exact hsw.le_trans h2 h1

theorem heap_sort_sorted {α : Type} {comp : α → α → Bool} (hsw : StrictWeak comp) (s : Mem α)
    (a b : Int) (ha : 0 ≤ a) (hab : a ≤ b) (hb : b ≤ s.arr.length) :
    ∃ s', _heap_sort comp s a b = .ok s' ∧ Shuffle a b s.arr s'.arr ∧
      SortedOn comp s'.arr a b := by
  have hbuild : ∃ s1, iter (heapBuildBody comp (b - a) a) ((b - a).toNat + 2)
      (cdiv (b - a - 1) 2, s) = .ok s1 ∧ (Shuffle a b s.arr s1.arr ∧
      ∀ i, 0 ≤ i → GoodParent comp s1.arr a (b - a) i) := by
    apply iter_total (heapBuildBody comp (b - a) a)
      (fun p => -1 ≤ p.1 ∧ p.1 ≤ b - a ∧ Shuffle a b s.arr p.2.arr ∧
        ∀ i, p.1 < i → GoodParent comp p.2.arr a (b - a) i)
      (fun p => (p.1 + 1).toNat)
    · rintro ⟨i, t⟩ ⟨h0, h1, h2, h3⟩
      have hl := h2.length_eq
      simp only at h0 h1 h2 h3 hl
      by_cases hc : i ≥ 0
      · obtain ⟨t', ht', k, g⟩ := heap_sift_spec hsw t i (b - a) a hc ha (by omega) h3
        have hbd : heapBuildBody comp (b - a) a (i, t) = .ok (.inl (i - 1, t')) := by
          simp [heapBuildBody, hc, ht']
        have e : a + (b - a) = b := by omega
        rw [e] at k
        exact Or.inl ⟨_, hbd, ⟨by simp <;> omega, by simp <;> omega, h2.trans k,
          fun j hj => g j (by simp only at hj; omega)⟩, by simp <;> omega⟩
      · have hbd : heapBuildBody comp (b - a) a (i, t) = .ok (.inr t) := by
          simp [heapBuildBody, hc]
        exact Or.inr ⟨_, hbd, h2, fun j hj => h3 j (by omega)⟩
    · have hcd := cdiv_half_le (b - a) (by omega)
      refine ⟨hcd.2, hcd.1, Shuffle.refl _, ?_⟩
      intro i hi c x y hcc hch
      simp only at hi
      by_cases h0 : b - a = 0
      · omega
      · rw [cdiv_eq (by omega) (by omega)] at hi
        omega
    · have := cdiv_half_le (b - a) (by omega)
      simp only
      omega
  obtain ⟨s1, hs1, k1, heap1⟩ := hbuild
  have hpop : ∃ s2, iter (heapPopBody comp 0 a) ((b - a).toNat + 2) (b - a - 1, s1) = .ok s2 ∧
      (Shuffle a b s.arr s2.arr ∧ SortedOn comp s2.arr a b) := by
    apply iter_total (heapPopBody comp 0 a)
      (fun p => -1 ≤ p.1 ∧ p.1 < b - a ∧ Shuffle a b s.arr p.2.arr ∧
        (∀ i, 0 ≤ i → GoodParent comp p.2.arr a (p.1 + 1) i) ∧
        SortedOn comp p.2.arr (a + p.1 + 1) b ∧
        (∀ j k x y, a ≤ j → j < a + p.1 + 1 → a + p.1 + 1 ≤ k → k < b →
          rd p.2.arr j = some x → rd p.2.arr k = some y → comp y x = false))
      (fun p => (p.1 + 1).toNat)
    · rintro ⟨i, t⟩ ⟨h0, h1, h2, h3, h4, h5⟩
      have hl := h2.length_eq
      simp only at h0 h1 h2 h3 h4 h5 hl
      by_cases hc : i ≥ 0
      · obtain ⟨x, y, t1, hx, hy, hswap, e1⟩ := swap_inb' t a (a + i)
          ⟨by omega, by omega⟩ ⟨by omega, by omega⟩
        have hmax := heap_root_max hsw t.arr a (i + 1) ha (by omega) h3
        have hrd : ∀ k, rd t1.arr k = if k = a + i then some x else
            if k = a then some y else rd t.arr k := by
          intro k
          rw [e1, rd_swapL hx hy]
        have hpre : ∀ j, 0 < j → GoodParent comp t1.arr a i j := by
          intro j hj c u v hcc hch hu hv
          rw [hrd] at hu hv
          have n1 : ¬ a + j = a + i := by omega
          have n2 : ¬ a + j = a := by omega
          have n3 : ¬ a + c = a + i := by omega
          have n4 : ¬ a + c = a := by omega
          rw [if_neg n1, if_neg n2] at hu
          rw [if_neg n3, if_neg n4] at hv
          exact h3 j (by omega) c u v hcc (by omega) hu hv
        obtain ⟨t', ht', ksh, g⟩ := heap_sift_spec hsw t1 0 i a (le_refl _) ha
          (by rw [e1]; simp; omega) hpre
        have hbd : heapPopBody comp 0 a (i, t) = .ok (.inl (i - 1, t')) := by
          simp [heapPopBody, hc, hswap, ht']
        have k01 : Shuffle a b t.arr t1.arr :=
          e1 ▸ Shuffle.one (by omega) (by omega) (by omega) (by omega) hx hy
        have hcross1 : ∀ j k u v, a ≤ j → j < a + i → a + i ≤ k → k < b →
            rd t1.arr j = some u → rd t1.arr k = some v → comp v u = false := by
          intro j k u v q1 q2 q3 q4 hu hv
          rw [hrd] at hu hv
          have n1 : ¬ j = a + i := by omega
          rw [if_neg n1] at hu
          have hu' : ∃ j', a ≤ j' ∧ j' < a + i + 1 ∧ rd t.arr j' = some u := by
            by_cases c1 : j = a
            · rw [if_pos c1] at hu
              exact ⟨a + i, by omega, by omega, by rw [hy, hu]⟩
            · rw [if_neg c1] at hu
              exact ⟨j, q1, by omega, hu⟩
          obtain ⟨j', r1, r2, r3⟩ := hu'
          by_cases c2 : k = a + i
          · rw [if_pos c2] at hv
            cases hv
            have := hmax (j' - a).toNat (j' - a) rfl (by omega) (by omega) _ u hx
              (by rw [show a + (j' - a) = j' by omega]; exact r3)
            exact this
          · have n2 : ¬ k = a := by omega
            rw [if_neg c2, if_neg n2] at hv
            exact h5 j' k u v r1 r2 (by omega) q4 r3 hv
        refine Or.inl ⟨_, hbd, ⟨by simp <;> omega, by simp <;> omega, ?_, ?_, ?_, ?_⟩,
          by simp <;> omega⟩
        · exact (h2.trans k01).trans (ksh.widen (le_refl _) (by omega))
        · intro j hj
          have e : i - 1 + 1 = i := by omega
          simp only [e]
          exact g j hj
        · intro j k u v q1 q2 q3 hu hv
          simp only at q1 hu hv
          rw [ksh.outside j (Or.inr (by omega))] at hu
          rw [ksh.outside k (Or.inr (by omega))] at hv
          rw [hrd] at hu hv
          have n2 : ¬ k = a + i := by omega
          have n3 : ¬ k = a := by omega
          rw [if_neg n2, if_neg n3] at hv
          by_cases c1 : j = a + i
          · rw [if_pos c1] at hu
            cases hu
            exact h5 a k _ v (le_refl _) (by omega) (by omega) q3 hx hv
          · have n4 : ¬ j = a := by omega
            rw [if_neg c1, if_neg n4] at hu
            exact h4 j k u v (by omega) q2 q3 hu hv
        · intro j k u v q1 q2 q3 q4 hu hv
          simp only at q2 q3 hu hv
          obtain ⟨j', r1, r2, r3⟩ := ksh.inside j u q1 (by omega) hu
          rw [ksh.outside k (Or.inr (by omega))] at hv
          exact hcross1 j' k u v r1 r2 (by omega) q4 r3 hv
      · have hbd : heapPopBody comp 0 a (i, t) = .ok (.inr t) := by
          simp [heapPopBody, hc]
        refine Or.inr ⟨_, hbd, h2, ?_⟩
        have e : a + i + 1 = a := by omega
        rw [e] at h4
        exact h4
    · refine ⟨by simp <;> omega, by simp, k1, ?_, ?_, ?_⟩
      · intro i hi
        have e : b - a - 1 + 1 = b - a := by omega
        simp only [e]
        exact heap1 i hi
      · intro i j x y q1 q2 q3
        simp only at q1
        omega
      · intro j k x y q1 q2 q3 q4
        simp only at q3
        omega
    · simp only
      omega
  obtain ⟨s2, hs2, k2, srt⟩ := hpop
  exact ⟨s2, by simp [_heap_sort, hs1, hs2], k2, srt⟩

/-! ## The unstable engine: sortedness -/

theorem partition_glue {α : Type} {comp : α → α → Bool} (hsw : StrictWeak comp) (l : List α)
    (a mlo mhi b : Int) (p : α) (h1 : mlo ≤ mhi)
    (hL : AllOn (fun x => comp p x = false) l a mhi)
    (hR : AllOn (fun x => comp x p = false) l mlo b)
    (sL : SortedOn comp l a mlo) (sR : SortedOn comp l mhi b) : SortedOn comp l a b := by
  intro i j x y q1 q2 q3 hx hy
  by_cases c1 : j < mlo
  · exact sL i j x y q1 q2 c1 hx hy
  · by_cases c2 : mhi ≤ i
    · exact sR i j x y c2 q2 q3 hx hy
    · exact hsw.le_trans (hL i x q1 (by omega) hx) (hR j y (by omega) q3 hy)

theorem quickSortLoopAux_sorted {α : Type} {comp : α → α → Bool} (hsw : StrictWeak comp) :
    ∀ (f : Nat) (s : Mem α) (a b d : Int), 0 ≤ a → b ≤ s.arr.length → (b - a).toNat < f →
    ∃ s', quickSortLoopAux comp f s a b d = .ok s' ∧ Shuffle a b s.arr s'.arr ∧
      SortedOn comp s'.arr a b := by
  intro f
  induction f with
  | zero => intro s a b d _ _ h; omega
  | succ f ih =>
    intro s a b d ha hb hf
    rw [quickSortLoopAux]
    by_cases c1 : b - a > 12
    · by_cases c2 : d = 0
      · obtain ⟨s', hs', k, srt⟩ := heap_sort_sorted hsw s a b ha (by omega) hb
        exact ⟨s', by simp [c1, c2, hs'], k, srt⟩
      · obtain ⟨⟨s1, mlo, mhi⟩, hr, k1, g1, g2, g3, g4, g5, part⟩ :=
          do_pivot_spec comp s a b ha hb c1
        simp only at k1 g1 g2 g3 g4 g5 part
        obtain ⟨p, pL, pM, pR, -⟩ := part hsw
        have l1 := k1.length_eq
        have pL1 : AllOn (fun x => comp p x = false) s1.arr a mhi := by
          intro k x q1 q2 hx
          by_cases c : k < mlo
          · exact pL k x q1 c hx
          · exact (pM k x (by omega) q2 hx).1
        have pR1 : AllOn (fun x => comp x p = false) s1.arr mlo b := by
          intro k x q1 q2 hx
          by_cases c : k < mhi
          · exact (pM k x q1 c hx).2
          · exact pR k x (by omega) q2 hx
        by_cases c3 : mlo - a < b - mhi
        · obtain ⟨s2, hs2, k2, srt2⟩ := ih s1 a mlo (d - 1) ha (by omega) (by omega)
          have l2 := k2.length_eq
          obtain ⟨s3, hs3, k3, srt3⟩ := ih s2 mhi b (d - 1) (by omega) (by omega) (by omega)
          have k13 : Shuffle a b s1.arr s3.arr :=
            (k2.widen (le_refl _) (by omega)).trans (k3.widen (by omega) (le_refl _))
          refine ⟨s3, by simp [c1, c2, hr, c3, hs2, hs3], k1.trans k13, ?_⟩
          apply partition_glue hsw s3.arr a mlo mhi b p g2
          · exact ((pL1.shuffle (k2.widen (le_refl _) g2)).transport
              (fun k q1 q2 => k3.outside k (Or.inl q2)))
          · intro k x q1 q2 hx
            by_cases c : k < mhi
            · rw [k3.outside k (Or.inl c), k2.outside k (Or.inr q1)] at hx
              exact pR1 k x q1 q2 hx
            · obtain ⟨k', r1, r2, r3⟩ := k3.inside k x (by omega) q2 hx
              rw [k2.outside k' (Or.inr (by omega))] at r3
              exact pR1 k' x (by omega) r2 r3
          · exact srt2.congr_rd (fun k q1 q2 => k3.outside k (Or.inl (by omega)))
          · exact srt3
        · obtain ⟨s2, hs2, k2, srt2⟩ := ih s1 mhi b (d - 1) (by omega) (by omega) (by omega)
          have l2 := k2.length_eq
          obtain ⟨s3, hs3, k3, srt3⟩ := ih s2 a mlo (d - 1) ha (by omega) (by omega)
          have k13 : Shuffle a b s1.arr s3.arr :=
            (k2.widen (by omega) (le_refl _)).trans (k3.widen (le_refl _) (by omega))
          refine ⟨s3, by simp [c1, c2, hr, c3, hs2, hs3], k1.trans k13, ?_⟩
          apply partition_glue hsw s3.arr a mlo mhi b p g2
          · intro k x q1 q2 hx
            by_cases c : k < mlo
            · obtain ⟨k', r1, r2, r3⟩ := k3.inside k x q1 c hx
              rw [k2.outside k' (Or.inl (by omega))] at r3
              exact pL1 k' x r1 (by omega) r3
            · rw [k3.outside k (Or.inr (by omega)), k2.outside k (Or.inl q2)] at hx
              exact pL1 k x q1 q2 hx
          · exact ((pR1.shuffle (k2.widen g2 (le_refl _))).transport
              (fun k q1 q2 => k3.outside k (Or.inr q1)))
          · exact srt3
          · exact srt2.congr_rd (fun k q1 q2 => k3.outside k (Or.inr (by omega)))
    · by_cases c2 : b - a > 1
      · obtain ⟨s1, hs1, k1⟩ := shell_sort_safe comp s a b ha hb
        have l1 := k1.length_eq
        obtain ⟨s2, hs2, k2⟩ := insertion_sort_safe comp s1 a b ha (by omega)
        exact ⟨s2, by simp [c1, c2, hs1, hs2], k1.trans k2,
          insertion_sort_sorted hsw s1 s2 a b hs2⟩
      · refine ⟨s, by simp [c1, c2], Shuffle.refl _, ?_⟩
        intro i j x y q1 q2 q3
        omega

theorem SortedOn.adjacent {α : Type} {comp : α → α → Bool} {l : List α}
    (h : SortedOn comp l 0 (l.length : Int)) (i : Nat) (x y : α) (hx : l[i]? = some x)
    (hy : l[i + 1]? = some y) : comp y x = false := by
  have b := (List.getElem?_eq_some_iff.mp hy).1
  refine h (i : Int) ((i + 1 : Nat) : Int) x y (by omega) (by omega) (by omega) ?_ ?_
  · rw [rd_natCast]; exact hx
  · rw [rd_natCast]; exact hy

theorem sort_unstable_spec {α : Type} {comp : α → α → Bool} (hsw : StrictWeak comp)
    (l : List α) : ∃ s', sort_unstable comp l = .ok s' ∧ s'.arr.Perm l ∧
      SortedOn comp s'.arr 0 (s'.arr.length : Int) := by
  obtain ⟨d, hd⟩ := max_depth_ok (l.length : Int)
  obtain ⟨s', hs', k, srt⟩ := quickSortLoopAux_sorted hsw (((l.length : Int) - 0).toNat + 1)
    (Mem.init l) 0 l.length d (le_refl _) (by simp [Mem.init]) (by omega)
  have hl := k.length_eq
  simp only [Mem.init] at hl
  exact ⟨s', by simp only [sort_unstable, hd, Res.ok_bind, _quick_sort_loop, hs'], k.perm,
    by rw [hl]; exact srt⟩

theorem sort_stable_spec {α : Type} {comp : α → α → Bool} (hsw : StrictWeak comp)
    (l : List α) : ∃ s', sort_stable comp l = .ok s' ∧ s'.arr.Perm l ∧
      SortedOn comp s'.arr 0 (s'.arr.length : Int) := by
  obtain ⟨s', hs', k, srt⟩ := stable_sorted hsw (Mem.init l) (l.length : Int) (by simp)
    (by simp [Mem.init])
  have hl := k.length_eq
  simp only [Mem.init] at hl
  exact ⟨s', hs', k.perm, by rw [hl]; exact srt⟩

/-! ## The claims -/

theorem less_eq_oob_iff {α : Type} (comp : α → α → Bool) (s : Mem α) (i j : Int) :
    less comp s i j = .oob ↔ ¬ ((0 ≤ i ∧ i < s.arr.length) ∧ (0 ≤ j ∧ j < s.arr.length)) := by
  constructor
  · rintro h ⟨hi, hj⟩
    obtain ⟨x, y, -, -, e⟩ := less_inb comp s i j hi hj
    rw [e] at h
    cases h
  · intro h
    unfold less
    split
    · rename_i x y hx hy
      exact absurd ⟨rd_some hx, rd_some hy⟩ h
    · rfl

theorem swap_eq_oob_iff {α : Type} (s : Mem α) (i j : Int) :
    swap s i j = .oob ↔ ¬ ((0 ≤ i ∧ i < s.arr.length) ∧ (0 ≤ j ∧ j < s.arr.length)) := by
  constructor
  · rintro h ⟨hi, hj⟩
    obtain ⟨x, y, -, -, e⟩ := swap_inb s i j hi hj
    rw [e] at h
    cases h
  · intro h
    unfold swap
    split
    · rename_i x y hx hy
      exact absurd ⟨rd_some hx, rd_some hy⟩ h
    · rfl

/-- C1: for every finite input and every strict weak order, `sort_unstable` returns and
leaves the sequence in non-decreasing order: at every adjacent pair of positions `i`, `i+1`
the comparator applied to `(out[i+1], out[i])` is false. -/
theorem sort_unstable_sorted {α : Type} (comp : α → α → Bool) (hsw : StrictWeak comp)
    (l : List α) : ∃ s', sort_unstable comp l = .ok s' ∧
      ∀ (i : Nat) (x y : α), s'.arr[i]? = some x → s'.arr[i + 1]? = some y →
        comp y x = false := by
  obtain ⟨s', h1, -, h3⟩ := sort_unstable_spec hsw l
  exact ⟨s', h1, fun i x y hx hy => h3.adjacent i x y hx hy⟩

theorem sort_unstable_sorted_witness : StrictWeak natLess ∧
    ∃ s', sort_unstable natLess [5, 3, 3, 1, 2, 3, 9, 0, 4, 4, 8, 7, 6, 1] = .ok s' ∧
      ∀ (i : Nat) (x y : Nat), s'.arr[i]? = some x → s'.arr[i + 1]? = some y →
        natLess y x = false :=
  ⟨natLess_strictWeak, sort_unstable_sorted natLess natLess_strictWeak _⟩

/-- C2: for every finite input and every strict weak order, `sort_stable` returns and leaves
the sequence in non-decreasing order: at every adjacent pair of positions `i`, `i+1` the
comparator applied to `(out[i+1], out[i])` is false. -/
theorem sort_stable_sorted {α : Type} (comp : α → α → Bool) (hsw : StrictWeak comp)
    (l : List α) : ∃ s', sort_stable comp l = .ok s' ∧
      ∀ (i : Nat) (x y : α), s'.arr[i]? = some x → s'.arr[i + 1]? = some y →
        comp y x = false := by
  obtain ⟨s', h1, -, h3⟩ := sort_stable_spec hsw l
  exact ⟨s', h1, fun i x y hx hy => h3.adjacent i x y hx hy⟩

theorem sort_stable_sorted_witness : StrictWeak keyLess ∧
    ∃ s', sort_stable keyLess blockSorted41 = .ok s' ∧
      ∀ (i : Nat) (x y : Nat × Nat), s'.arr[i]? = some x → s'.arr[i + 1]? = some y →
        keyLess y x = false :=
  ⟨keyLess_strictWeak, sort_stable_sorted keyLess keyLess_strictWeak _⟩

set_option maxRecDepth 100000 in
/-- C3 (the code breaks it): on the block-sorted input `blockSorted41` the elements `(2, 2)`
and `(2, 22)` have equivalent keys and stand at input positions 2 and 22, yet `sort_stable`
puts `(2, 22)` at output position 4 and `(2, 2)` after it at position 5. -/
theorem sort_stable_reorders_ties :
    blockSorted41[2]? = some (2, 2) ∧ blockSorted41[22]? = some (2, 22) ∧
    keyLess (2, 2) (2, 22) = false ∧ keyLess (2, 22) (2, 2) = false ∧
    (sort_stable keyLess blockSorted41).bind (fun s => Res.ok (s.arr.take 6)) =
      .ok [(0, 0), (0, 20), (1, 1), (1, 21), (2, 22), (2, 2)] := by
  decide

/-- C4: for every finite input and every comparator whatsoever, `sort_unstable` returns a
sequence that is a permutation of the input. -/
theorem sort_unstable_perm {α : Type} (comp : α → α → Bool) (l : List α) :
    ∃ s', sort_unstable comp l = .ok s' ∧ s'.arr.Perm l :=
  sort_unstable_safe comp l

/-- C5: for every finite input and every comparator whatsoever, `sort_stable` returns a
sequence that is a permutation of the input. -/
theorem sort_stable_perm {α : Type} (comp : α → α → Bool) (l : List α) :
    ∃ s', sort_stable comp l = .ok s' ∧ s'.arr.Perm l :=
  sort_stable_safe comp l

set_option maxRecDepth 100000 in
/-- C6 (the code breaks it): the input `dupTail21` is already in non-decreasing order by
key, yet `sort_stable` does not reproduce it: the last two elements `(19, 19)`, `(19, 20)`
come out exchanged. -/
theorem sort_stable_changes_sorted_input :
    List.Pairwise (fun x y => keyLess y x = false) dupTail21 ∧
    dupTail21.drop 18 = [(18, 18), (19, 19), (19, 20)] ∧
    (sort_stable keyLess dupTail21).bind (fun s => Res.ok (s.arr.drop 18)) =
      .ok [(18, 18), (19, 20), (19, 19)] := by
  decide

/-- C7: for every input and every comparator whatsoever, neither engine ever uses an element
index outside `[0, n)`: no comparison and no swap of the run reports `Res.oob`. -/
theorem sort_indices_in_bounds {α : Type} (comp : α → α → Bool) (l : List α) :
    sort_unstable comp l ≠ .oob ∧ sort_stable comp l ≠ .oob := by
  obtain ⟨s1, h1, -⟩ := sort_unstable_safe comp l
  obtain ⟨s2, h2, -⟩ := sort_stable_safe comp l
  exact ⟨by rw [h1]; simp, by rw [h2]; simp⟩

/-- C8: for every finite input and every strict weak order, both engines terminate: every
loop and every recursion finishes within the budget given by its decreasing measure, so the
run returns a final sequence and never `Res.timeout`. -/
theorem sort_terminates {α : Type} (comp : α → α → Bool) (hsw : StrictWeak comp) (l : List α) :
    (∃ s', sort_unstable comp l = .ok s') ∧ (∃ s', sort_stable comp l = .ok s') ∧
    sort_unstable comp l ≠ .timeout ∧ sort_stable comp l ≠ .timeout := by
  obtain ⟨s1, h1, -⟩ := sort_unstable_safe comp l
  obtain ⟨s2, h2, -⟩ := sort_stable_safe comp l
  exact ⟨⟨s1, h1⟩, ⟨s2, h2⟩, by rw [h1]; simp, by rw [h2]; simp⟩

theorem sort_terminates_witness : StrictWeak natLess ∧
    ((∃ s', sort_unstable natLess (List.range 100) = .ok s') ∧
     (∃ s', sort_stable natLess (List.range 100) = .ok s') ∧
     sort_unstable natLess (List.range 100) ≠ .timeout ∧
     sort_stable natLess (List.range 100) ≠ .timeout) :=
  ⟨natLess_strictWeak, sort_terminates natLess natLess_strictWeak _⟩

/-- C9: on an input of length 0 or 1 both engines return the sequence unchanged, having
called the comparator zero times (and swapped nothing). -/
theorem sort_short_noop {α : Type} (comp : α → α → Bool) (l : List α) (h : l.length ≤ 1) :
    sort_unstable comp l = .ok ⟨l, 0, 0⟩ ∧ sort_stable comp l = .ok ⟨l, 0, 0⟩ := by
  match l, h with
  | [], _ =>
    constructor
    · simp [sort_unstable, _max_depth, _quick_sort_loop, quickSortLoopAux, Mem.init, iter,
        maxDepthBody, shr1_eq]
    · simp [sort_stable, _stable, Mem.init, iter, stableBlocksBody, _insertion_sort,
        insOuterBody, stableMergeBody]
  | [x], _ =>
    constructor
    · simp [sort_unstable, _max_depth, _quick_sort_loop, quickSortLoopAux, Mem.init, iter,
        maxDepthBody, shr1_eq]
    · simp [sort_stable, _stable, Mem.init, iter, stableBlocksBody, _insertion_sort,
        insOuterBody, stableMergeBody]
  | _ :: _ :: _, h => simp at h

theorem sort_short_noop_witness : ([7] : List Nat).length ≤ 1 ∧
    (sort_unstable natLess [7] = .ok ⟨[7], 0, 0⟩ ∧ sort_stable natLess [7] = .ok ⟨[7], 0, 0⟩) :=
  ⟨by decide, sort_short_noop natLess [7] (by decide)⟩

/-- C10: on `[5,3,3,1,2,3]` with the natural order both engines produce `[1,2,3,3,3,5]`,
and `sort_stable` on the same keys tagged with their input positions, compared by key only,
leaves the three `3`s in their input order (tags 1, 2, 5). -/
theorem sort_scenario_533123 :
    (sort_unstable natLess [5, 3, 3, 1, 2, 3]).bind (fun s => Res.ok s.arr) =
      .ok [1, 2, 3, 3, 3, 5] ∧
    (sort_stable natLess [5, 3, 3, 1, 2, 3]).bind (fun s => Res.ok s.arr) =
      .ok [1, 2, 3, 3, 3, 5] ∧
    (sort_stable keyLess [(5, 0), (3, 1), (3, 2), (1, 3), (2, 4), (3, 5)]).bind
      (fun s => Res.ok s.arr) = .ok [(1, 3), (2, 4), (3, 1), (3, 2), (3, 5), (5, 0)] := by
  decide

/-! ## The depth budget -/

theorem maxDepth_loop : ∀ (k : Nat) (i d : Int) (f : Nat), 0 ≤ i → i.toNat = k → k < f →
    iter maxDepthBody f (i, d) = .ok (d + (Nat.clog 2 (k + 1) : Int)) := by
  intro k
  induction k using Nat.strong_induction_on with
  | _ k ih =>
    intro i d f hi hk hf
    cases f with
    | zero => omega
    | succ f =>
      by_cases hc : i > 0
      · have hbd : maxDepthBody (i, d) = .ok (.inl (i / 2, d + 1)) := by
          simp [maxDepthBody, hc, shr1_eq]
        have h2 : (i / 2).toNat = k / 2 := by omega
        have := ih (k / 2) (by omega) (i / 2) (d + 1) f (by omega) h2 (by omega)
        rw [iter, hbd]
        simp only
        rw [this]
        have hcl : Nat.clog 2 (k + 1) = Nat.clog 2 (k / 2 + 1) + 1 := by
          rw [Nat.clog_of_two_le (by omega) (by omega)]
          congr 2
          omega
        rw [hcl]
        push_cast
        congr 1
        omega
      · have hbd : maxDepthBody (i, d) = .ok (.inr d) := by
          simp [maxDepthBody, hc]
        have hk0 : k = 0 := by omega
        subst hk0
        rw [iter, hbd]
        simp

theorem clog_succ_eq_size (n : Nat) : Nat.clog 2 (n + 1) = Nat.size n := by
  apply le_antisymm
  · rw [← Nat.le_pow_iff_clog_le (by omega)]
    have := Nat.lt_size_self n
    omega
  · rw [Nat.size_le]
    have := Nat.le_pow_clog (by omega : 1 < 2) (n + 1)
    omega


/-! ## Ranges as lists -/

theorem getElem?_slice {α : Type} (l : List α) (a b : Int) (ha : 0 ≤ a) (k : Nat)
    (hk : a + k < b) : (slice l a b)[k]? = rd l (a + k) := by
  unfold slice rd
  have h0 : 0 ≤ a + (k : Int) := by omega
  simp only [h0, if_true]
  rw [List.getElem?_drop, List.getElem?_take]
  have e : (a + (k : Int)).toNat = a.toNat + k := by omega
  rw [e]
  have : a.toNat + k < b.toNat := by omega
  simp [this]

theorem length_slice {α : Type} (l : List α) (a b : Int) (ha : 0 ≤ a) (hab : a ≤ b)
    (hb : b ≤ l.length) : (slice l a b).length = (b - a).toNat := by
  unfold slice
  simp only [List.length_drop, List.length_take]
  omega

theorem sortedOn_of_pairwise {α : Type} (comp : α → α → Bool) (l : List α) (a b : Int)
    (ha : 0 ≤ a) (hb : b ≤ l.length)
    (h : List.Pairwise (fun x y => comp y x = false) (slice l a b)) : SortedOn comp l a b := by
  intro i j x y h1 h2 h3 hx hy
  have hab : a ≤ b := by omega
  have hlen := length_slice l a b ha hab hb
  rw [List.pairwise_iff_getElem] at h
  have ei : a + ((i - a).toNat : Int) = i := by omega
  have ej : a + ((j - a).toNat : Int) = j := by omega
  have gi := getElem?_slice l a b ha (i - a).toNat (by omega)
  have gj := getElem?_slice l a b ha (j - a).toNat (by omega)
  rw [ei, hx] at gi
  rw [ej, hy] at gj
  obtain ⟨bi, vi⟩ := List.getElem?_eq_some_iff.mp gi
  obtain ⟨bj, vj⟩ := List.getElem?_eq_some_iff.mp gj
  have := h (i - a).toNat (j - a).toNat bi bj (by omega)
  rw [vi, vj] at this
  exact this

theorem Shuffle.slice_perm {α : Type} {a b : Int} {l l' : List α} (h : Shuffle a b l l')
    (ha : 0 ≤ a) (hab : a ≤ b) (hb : b ≤ l.length) : (slice l' a b).Perm (slice l a b) := by
  have hl := h.length_eq
  have hpre : l'.take a.toNat = l.take a.toNat := by
    apply List.ext_getElem?
    intro k
    rw [List.getElem?_take, List.getElem?_take]
    by_cases c : k < a.toNat
    · simp only [c, if_true]
      have := h.outside (k : Int) (Or.inl (by omega))
      simpa [rd_natCast] using this
    · simp [c]
  have hpost : l'.drop b.toNat = l.drop b.toNat := by
    apply List.ext_getElem?
    intro k
    rw [List.getElem?_drop, List.getElem?_drop]
    have := h.outside ((b.toNat + k : Nat) : Int) (Or.inr (by omega))
    rw [rd_natCast, rd_natCast] at this
    exact this
  have dec : ∀ (t : List α), b ≤ t.length →
      t = t.take a.toNat ++ (slice t a b ++ t.drop b.toNat) := by
    intro t ht
    unfold slice
    have e1 : (t.take b.toNat).drop a.toNat ++ t.drop b.toNat = t.drop a.toNat := by
      have e2 : t.drop a.toNat = (t.take b.toNat ++ t.drop b.toNat).drop a.toNat := by
        rw [List.take_append_drop]
      rw [e2, List.drop_append_of_le_length]
      simp only [List.length_take]
      omega
    rw [e1, List.take_append_drop]
  have p := h.perm
  rw [dec l hb, dec l' (by omega), hpre, hpost] at p
  exact (List.perm_append_right_iff _).mp ((List.perm_append_left_iff _).mp p)

/-! ## The claims on the depth budget, the rotation and the symmetric merge -/

/-- C11: for every `n ≥ 0`, `_max_depth(n)` returns `2 * ⌈log₂ (n + 1)⌉`, which is twice the
number of bits of `n` (`0` for `n = 0`), and `sort_unstable` runs the quicksort loop on the
whole range with that value as its depth budget. -/
theorem max_depth_budget {α : Type} (comp : α → α → Bool) (l : List α) (n : Nat) :
    _max_depth (n : Int) = .ok (2 * (Nat.clog 2 (n + 1) : Int)) ∧
    Nat.clog 2 (n + 1) = Nat.size n ∧ Nat.size 0 = 0 ∧
    sort_unstable comp l =
      _quick_sort_loop comp (Mem.init l) 0 (l.length : Int)
        (2 * (Nat.clog 2 (l.length + 1) : Int)) := by
  have hv : ∀ m : Nat, _max_depth (m : Int) = .ok (2 * (Nat.clog 2 (m + 1) : Int)) := by
    intro m
    have := maxDepth_loop m (m : Int) 0 ((m : Int).toNat + 1) (by omega) (by omega) (by omega)
    simp only [_max_depth, this, Res.ok_bind, Res.pure_eq]
    congr 1
    omega
  refine ⟨hv n, clog_succ_eq_size n, Nat.size_zero, ?_⟩
  simp only [sort_unstable, hv l.length, Res.ok_bind]

/-- C12: for indices `0 ≤ a < m < b ≤ n`, `rotate(arr, a, m, b)` returns, and afterwards
`arr[a .. a+(b-m))` holds the old `arr[m .. b)` in order, `arr[a+(b-m) .. b)` holds the old
`arr[a .. m)` in order, and every position outside `[a, b)` is unchanged. -/
theorem rotate_exchanges_blocks {α : Type} (s : Mem α) (a m b : Int) (ha : 0 ≤ a)
    (ham : a < m) (hmb : m < b) (hb : b ≤ s.arr.length) :
    ∃ s', rotate s a m b = .ok s' ∧
      (∀ k, a ≤ k → k < a + (b - m) → rd s'.arr k = rd s.arr (k + (m - a))) ∧
      (∀ k, a + (b - m) ≤ k → k < b → rd s'.arr k = rd s.arr (k - (b - m))) ∧
      (∀ k, k < a ∨ b ≤ k → rd s'.arr k = rd s.arr k) := by
  obtain ⟨s', h1, -, h3, -, -⟩ := rotate_spec s a m b ha ham hmb hb
  refine ⟨s', h1, ?_, ?_, ?_⟩
  · intro k k1 k2
    rw [h3]
    congr 1
    unfold rotIdx; split_ifs <;> omega
  · intro k k1 k2
    rw [h3]
    congr 1
    unfold rotIdx; split_ifs <;> omega
  · intro k hk
    rw [h3]
    congr 1
    unfold rotIdx; split_ifs <;> omega

theorem rotate_exchanges_blocks_witness :
    (0 : Int) ≤ 1 ∧ (1 : Int) < 3 ∧ (3 : Int) < 7 ∧
    (7 : Int) ≤ (Mem.init [0, 1, 2, 3, 4, 5, 6, 7]).arr.length ∧
    ∃ s', rotate (Mem.init [0, 1, 2, 3, 4, 5, 6, 7]) 1 3 7 = .ok s' ∧
      (∀ k, (1 : Int) ≤ k → k < 1 + (7 - 3) →
        rd s'.arr k = rd (Mem.init [0, 1, 2, 3, 4, 5, 6, 7]).arr (k + (3 - 1))) ∧
      (∀ k, (1 : Int) + (7 - 3) ≤ k → k < 7 →
        rd s'.arr k = rd (Mem.init [0, 1, 2, 3, 4, 5, 6, 7]).arr (k - (7 - 3))) ∧
      (∀ k, k < (1 : Int) ∨ (7 : Int) ≤ k →
        rd s'.arr k = rd (Mem.init [0, 1, 2, 3, 4, 5, 6, 7]).arr k) :=
  ⟨by decide, by decide, by decide, by decide,
    rotate_exchanges_blocks (Mem.init [0, 1, 2, 3, 4, 5, 6, 7]) 1 3 7 (by decide) (by decide)
      (by decide) (by decide)⟩

/-- C13: for indices `0 ≤ a < m < b ≤ n`, `rotate(arr, a, m, b)` performs at most `b - a`
calls of `std::swap` in total, and no comparison. -/
theorem rotate_swap_count {α : Type} (s : Mem α) (a m b : Int) (ha : 0 ≤ a)
    (ham : a < m) (hmb : m < b) (hb : b ≤ s.arr.length) :
    ∃ s', rotate s a m b = .ok s' ∧ (s'.swaps : Int) ≤ s.swaps + (b - a) ∧
      s'.comps = s.comps := by
  obtain ⟨s', h1, -, -, h4, h5⟩ := rotate_spec s a m b ha ham hmb hb
  exact ⟨s', h1, by omega, h4⟩

theorem rotate_swap_count_witness :
    (0 : Int) ≤ 1 ∧ (1 : Int) < 3 ∧ (3 : Int) < 7 ∧
    (7 : Int) ≤ (Mem.init [0, 1, 2, 3, 4, 5, 6, 7]).arr.length ∧
    ∃ s', rotate (Mem.init [0, 1, 2, 3, 4, 5, 6, 7]) 1 3 7 = .ok s' ∧
      (s'.swaps : Int) ≤ (Mem.init [0, 1, 2, 3, 4, 5, 6, 7]).swaps + (7 - 1) ∧
      s'.comps = (Mem.init [0, 1, 2, 3, 4, 5, 6, 7]).comps :=
  ⟨by decide, by decide, by decide, by decide,
    rotate_swap_count (Mem.init [0, 1, 2, 3, 4, 5, 6, 7]) 1 3 7 (by decide) (by decide)
      (by decide) (by decide)⟩

/-- C14: for a strict weak order and indices `0 ≤ a < m < b ≤ n` with `arr[a .. m)` and
`arr[m .. b)` each sorted, `_sym_merge(arr, a, m, b, comp)` returns, leaves `arr[a .. b)`
sorted and a permutation of its previous contents, and leaves every position outside
`[a, b)` unchanged. -/
theorem sym_merge_merges {α : Type} (comp : α → α → Bool) (hsw : StrictWeak comp) (s : Mem α)
    (a m b : Int) (ha : 0 ≤ a) (ham : a < m) (hmb : m < b) (hb : b ≤ s.arr.length)
    (hL : SortedOn comp s.arr a m) (hR : SortedOn comp s.arr m b) :
    ∃ s', _sym_merge comp s a m b = .ok s' ∧ SortedOn comp s'.arr a b ∧
      (slice s'.arr a b).Perm (slice s.arr a b) ∧
      (∀ k, k < a ∨ b ≤ k → rd s'.arr k = rd s.arr k) := by
  obtain ⟨s', h1, h2, h3⟩ := sym_merge_sorted hsw s a m b ha ham hmb hb hL hR
  exact ⟨s', h1, h3, h2.slice_perm ha (by omega) hb, fun k hk => h2.outside k hk⟩

theorem sym_merge_merges_witness :
    StrictWeak natLess ∧ (0 : Int) ≤ 1 ∧ (1 : Int) < 4 ∧ (4 : Int) < 7 ∧
    (7 : Int) ≤ (Mem.init [9, 1, 4, 7, 2, 3, 8, 0]).arr.length ∧
    SortedOn natLess (Mem.init [9, 1, 4, 7, 2, 3, 8, 0]).arr 1 4 ∧
    SortedOn natLess (Mem.init [9, 1, 4, 7, 2, 3, 8, 0]).arr 4 7 ∧
    ∃ s', _sym_merge natLess (Mem.init [9, 1, 4, 7, 2, 3, 8, 0]) 1 4 7 = .ok s' ∧
      SortedOn natLess s'.arr 1 7 ∧
      (slice s'.arr 1 7).Perm (slice (Mem.init [9, 1, 4, 7, 2, 3, 8, 0]).arr 1 7) ∧
      (∀ k, k < (1 : Int) ∨ (7 : Int) ≤ k →
        rd s'.arr k = rd (Mem.init [9, 1, 4, 7, 2, 3, 8, 0]).arr k) :=
  ⟨natLess_strictWeak, by decide, by decide, by decide, by decide,
    sortedOn_of_pairwise natLess _ 1 4 (by decide) (by decide) (by decide),
    sortedOn_of_pairwise natLess _ 4 7 (by decide) (by decide) (by decide),
    sym_merge_merges natLess natLess_strictWeak (Mem.init [9, 1, 4, 7, 2, 3, 8, 0]) 1 4 7
      (by decide) (by decide) (by decide) (by decide)
      (sortedOn_of_pairwise natLess _ 1 4 (by decide) (by decide) (by decide))
      (sortedOn_of_pairwise natLess _ 4 7 (by decide) (by decide) (by decide))⟩

/-- C15 (the code breaks it): the two ranges `[0, 2)` and `[2, 4)` of
`(1,0), (1,1), (1,2), (1,3)` are sorted by key and all four keys are equivalent, yet
`_sym_merge` puts the two elements of the right range before those of the left range; with a
single element in the right range, `(1,0), (1,1) | (1,2)`, that element is put first. -/
theorem sym_merge_reorders_ties :
    List.Pairwise (fun x y => keyLess y x = false) [((1 : Nat), (0 : Nat)), (1, 1)] ∧
    List.Pairwise (fun x y => keyLess y x = false) [((1 : Nat), (2 : Nat)), (1, 3)] ∧
    (_sym_merge keyLess (Mem.init [(1, 0), (1, 1), (1, 2), (1, 3)]) 0 2 4).bind
      (fun s => Res.ok s.arr) = .ok [(1, 2), (1, 3), (1, 0), (1, 1)] ∧
    (_sym_merge keyLess (Mem.init [(1, 0), (1, 1), (1, 2)]) 0 2 3).bind
      (fun s => Res.ok s.arr) = .ok [(1, 2), (1, 0), (1, 1)] := by
  decide

/-! ## Routines of `mayanimpl.hpp` and `aroot.hpp` -/

/-- With two equal elements the gnome loop alternates between positions 0 and 1 for ever:
from either position, no budget of iterations reaches the exit. -/
theorem gnome_cycle (f c w : Nat) :
    iter (_impl.gnomeBody natLess 2) f (0, ⟨[1, 1], c, w⟩) = .timeout ∧
    iter (_impl.gnomeBody natLess 2) f (1, ⟨[1, 1], c, w⟩) = .timeout := by
  induction f generalizing c w with
  | zero => exact ⟨rfl, rfl⟩
  | succ f ih =>
    refine ⟨?_, ?_⟩
    · have hb : _impl.gnomeBody natLess 2 (0, (⟨[1, 1], c, w⟩ : Mem Nat))
          = .ok (.inl (1, ⟨[1, 1], c, w⟩)) := by
        simp [_impl.gnomeBody]
      simp only [iter, hb, Res.ok_bind]
      exact (ih c w).2
    · have hb : _impl.gnomeBody natLess 2 (1, (⟨[1, 1], c, w⟩ : Mem Nat))
          = .ok (.inl (0, ⟨[1, 1], c + 1, w + 1⟩)) := by
        simp [_impl.gnomeBody, less, swap, rd, swapL, natLess]
      simp only [iter, hb, Res.ok_bind]
      exact (ih (c + 1) (w + 1)).1

/-- C17 (code defect): `gnome_sort` does not terminate on `[1, 1]` under `<`.  The test
`comp(a[i - 1], a[i])` is false on a tie, so the loop swaps the two equal elements and steps
back, and repeats: for every budget of loop iterations the run is still inside the loop. -/
theorem gnome_sort_diverges_on_ties (budget : Nat) :
    _impl.gnome_sort budget natLess [1, 1] = .timeout := by
  exact (gnome_cycle budget 0 0).1

/-- C18 (code defect): on `[1, 2]` under `<` the heap-construction loop of
`_ternary_heapsort` starts at `2 / 3 - 1 = -1` and does nothing, leaving parent `0` smaller
than its child `1`; the run ends with `[2, 1]`, which is not in non-decreasing order.  The
same happens on `[1, 2, 3, 4, 5]`, which ends as `[1, 2, 3, 5, 4]`. -/
theorem ternary_heap_sort_skips_last_parent :
    iter (_impl._ternarysort.ternaryBuildBody natLess 2) 4 (cdiv 2 3 - 1, Mem.init [1, 2])
      = .ok (Mem.init [1, 2]) ∧
    (_impl._ternarysort.ternary_heap_sort natLess [1, 2]).bind (fun s => Res.ok s.arr)
      = .ok [2, 1] ∧
    natLess 1 2 = true ∧
    (_impl._ternarysort.ternary_heap_sort natLess [1, 2, 3, 4, 5]).bind
      (fun s => Res.ok s.arr) = .ok [1, 2, 3, 5, 4] := by
  decide

/-- C19 (code defect): `dqsort` passes the length `n` as the inclusive upper bound, so on
every non-empty sequence `_dual_partition` reads `arr[high]` with `high = n`, one past the
last element, whatever the comparators are. -/
theorem dqsort_reads_past_the_end {α : Type} (comp gt : α → α → Bool) (x : α) (l : List α) :
    _impl._dualsort.dqsort comp gt (x :: l) = .oob := by
  have h0 : rd (x :: l) 0 = some x := by simp [rd]
  have hn : rd (x :: l) ((l.length : Int) + 1) = none := by
    have : ¬ ((l.length : Int) + 1 < 0) := by omega
    have h2 : ((l.length : Int) + 1).toNat = l.length + 1 := by omega
    simp [rd, this, h2]
  have hlt : (0 : Int) < (l.length : Int) + 1 := by omega
  simp [_impl._dualsort.dqsort, _impl._dualsort._dual_sort, _impl._dualsort.dualSortAux,
    _impl._dualsort._dual_partition, load, Mem.init, hlt, h0, hn]

set_option maxRecDepth 100000 in
/-- C20 (code defect): `aroot_sort` is not stable.  On `[(1,0), (1,1)]` compared by first
component the two elements are equivalent, the run scan `!comp(array[i2 - 1], array[i2])`
takes them as one non-increasing run and `_array_reverse` exchanges them; both merge phases
then leave `[(1,1), (1,0)]`, so the output is the same for every value of
`optimal_near_sorted_parameter`.  The buffered `_merge` alone also puts the right-hand
element of a tie first. -/
theorem aroot_sort_reorders_ties (par : Int) :
    (ksb.aroot_sort par keyLess [((1 : Nat), (0 : Nat)), (1, 1)]).bind (fun s => Res.ok s.arr)
      = .ok [(1, 1), (1, 0)] ∧
    (ksb._merge keyLess (Mem.init [((1 : Nat), (0 : Nat)), (1, 1)]) 0 1 2).bind
      (fun s => Res.ok s.arr) = .ok [(1, 1), (1, 0)] := by
  have hr : ksb.reverseRuns keyLess (Mem.init [((1 : Nat), (0 : Nat)), (1, 1)]) 0 2
      = .ok (1, ⟨[(1, 1), (1, 0)], 1, 1⟩) := by decide
  have h1 : (ksb._merge_mostly_sorted keyLess (⟨[((1 : Nat), (1 : Nat)), (1, 0)], 1, 1⟩) 0 2).bind
      (fun s => Res.ok s.arr) = .ok [(1, 1), (1, 0)] := by decide
  have h2 : (ksb._merge_less_started keyLess (⟨[((1 : Nat), (1 : Nat)), (1, 0)], 1, 1⟩) 0 2).bind
      (fun s => Res.ok s.arr) = .ok [(1, 1), (1, 0)] := by decide
  refine ⟨?_, by decide⟩
  have hl : (([((1 : Nat), (0 : Nat)), (1, 1)] : List (Nat × Nat)).length : Int) = 2 := rfl
  unfold ksb.aroot_sort ksb._aroot_sort_loop
  rw [hl]
  show ((ksb.reverseRuns keyLess (Mem.init [(1, 0), (1, 1)]) 0 2).bind _).bind _ = _
  rw [hr]
  show Res.bind (if (1 : Int) ≤ par then _ else _) _ = _
  by_cases hp : (1 : Int) ≤ par
  · rw [if_pos hp]; exact h1
  · rw [if_neg hp]; exact h2

/-! ## The claims on heapsort, the median of three and insertion sort -/

/-- C28: for `0 ≤ a ≤ b ≤ n` and a strict weak order, `_heap_sort(arr, a, b, comp)` returns,
leaves `arr[a .. b)` in non-decreasing order and a permutation of its previous contents, and
leaves every position outside `[a, b)` unchanged. -/
theorem heap_sort_sorts_range {α : Type} (comp : α → α → Bool) (hsw : StrictWeak comp)
    (s : Mem α) (a b : Int) (ha : 0 ≤ a) (hab : a ≤ b) (hb : b ≤ s.arr.length) :
    ∃ s', _heap_sort comp s a b = .ok s' ∧ SortedOn comp s'.arr a b ∧
      (slice s'.arr a b).Perm (slice s.arr a b) ∧
      (∀ k, k < a ∨ b ≤ k → rd s'.arr k = rd s.arr k) := by
  obtain ⟨s', h1, h2, h3⟩ := heap_sort_sorted hsw s a b ha hab hb
  exact ⟨s', h1, h3, h2.slice_perm ha hab hb, fun k hk => h2.outside k hk⟩

theorem heap_sort_sorts_range_witness :
    StrictWeak natLess ∧ (0 : Int) ≤ 1 ∧ (1 : Int) ≤ 7 ∧
    (7 : Int) ≤ (Mem.init [0, 9, 1, 4, 7, 2, 3, 8]).arr.length ∧
    ∃ s', _heap_sort natLess (Mem.init [0, 9, 1, 4, 7, 2, 3, 8]) 1 7 = .ok s' ∧
      SortedOn natLess s'.arr 1 7 ∧
      (slice s'.arr 1 7).Perm (slice (Mem.init [0, 9, 1, 4, 7, 2, 3, 8]).arr 1 7) ∧
      (∀ k, k < (1 : Int) ∨ (7 : Int) ≤ k →
        rd s'.arr k = rd (Mem.init [0, 9, 1, 4, 7, 2, 3, 8]).arr k) :=
  ⟨natLess_strictWeak, by decide, by decide, by decide,
    heap_sort_sorts_range natLess natLess_strictWeak (Mem.init [0, 9, 1, 4, 7, 2, 3, 8]) 1 7
      (by decide) (by decide) (by decide)⟩

/-! ## Insertion sort keeps the order of equivalent elements -/

/-- Exchanging two neighbours that are not both selected by `P` does not change the
sub-sequence selected by `P`. -/
theorem filter_swap_adjacent {α : Type} (P : α → Bool) : ∀ (l : List α) (k : Nat) (x y : α),
    l[k]? = some y → l[k + 1]? = some x → ¬ (P x = true ∧ P y = true) →
    ((l.set (k + 1) y).set k x).filter P = l.filter P := by
  intro l
  induction l with
  | nil => intro k x y h; simp at h
  | cons h t ih =>
    intro k x y hy hx hP
    cases k with
    | zero =>
      cases t with
      | nil => simp at hx
      | cons h2 t2 =>
        simp only [List.getElem?_cons_zero, Option.some.injEq] at hy
        simp only [zero_add, List.getElem?_cons_succ, List.getElem?_cons_zero,
          Option.some.injEq] at hx
        subst hy
        subst hx
        simp only [zero_add, List.set_cons_succ, List.set_cons_zero]
        cases hx : P h2 <;> cases hy : P h <;> simp [List.filter, hx, hy] at hP ⊢
    | succ k =>
      simp only [List.getElem?_cons_succ] at hy hx
      simp only [List.set_cons_succ, List.filter_cons]
      rw [ih k x y hy hx hP]

theorem filter_swapL_adjacent {α : Type} (P : α → Bool) (l : List α) (j : Int) (x y : α)
    (hx : rd l j = some x) (hy : rd l (j - 1) = some y) (hP : ¬ (P x = true ∧ P y = true)) :
    (swapL l j (j - 1) x y).filter P = l.filter P := by
  have b1 := rd_some hy
  have e : j.toNat = (j - 1).toNat + 1 := by omega
  unfold swapL
  rw [e]
  apply filter_swap_adjacent P l (j - 1).toNat x y
  · have : rd l (j - 1) = l[(j - 1).toNat]? := by simp [rd, b1.1]
    rw [← this]; exact hy
  · have : rd l j = l[(j - 1).toNat + 1]? := by
      rw [← e]; simp [rd, show 0 ≤ j by omega]
    rw [← this]; exact hx
  · exact hP

/-- Under a strict weak order an element strictly below another is not equivalent to the
same third element as the other one. -/
theorem StrictWeak.not_both_eqv {α : Type} {comp : α → α → Bool} (h : StrictWeak comp)
    {x y : α} (hxy : comp x y = true) (p : α) :
    ¬ (eqv comp p x = true ∧ eqv comp p y = true) := by
  rintro ⟨h1, h2⟩
  simp only [eqv, Bool.and_eq_true, Bool.not_eq_true'] at h1 h2
  have := (h.incomp_trans x p y h1.1 h1.2 h2.2 h2.1).1
  rw [hxy] at this
  exact Bool.noConfusion this

theorem insInner_stable {α : Type} {comp : α → α → Bool} (hc : StrictWeak comp) (s s' : Mem α)
    (a i : Int) (h : insInner comp a i s = .ok s') (p : α) :
    s'.arr.filter (eqv comp p) = s.arr.filter (eqv comp p) := by
  unfold insInner at h
  refine iter_inv (insInnerBody comp a)
    (fun q => q.2.arr.filter (eqv comp p) = s.arr.filter (eqv comp p))
    (fun s' => s'.arr.filter (eqv comp p) = s.arr.filter (eqv comp p)) ?_ _ _ _ ?_ h
  · rintro ⟨j, t⟩ hinv
    simp only at hinv
    constructor
    · intro p' hb
      unfold insInnerBody at hb
      simp only at hb
      split at hb
      · obtain ⟨r, hr, hb⟩ := (Res.bind_eq_ok _ _ _).mp hb
        obtain ⟨x, y, hx, hy, e1, e2⟩ := less_ok' hr
        split at hb
        · rename_i hr1
          obtain ⟨t2, ht2, hb⟩ := (Res.bind_eq_ok _ _ _).mp hb
          obtain ⟨x', y', hx', hy', e3⟩ := swap_ok' ht2
          simp only [Res.pure_eq, Res.ok.injEq, Sum.inl.injEq] at hb
          subst hb
          simp only
          rw [e2] at hx' hy' e3
          rw [hx] at hx'
          rw [hy] at hy'
          cases hx'
          cases hy'
          rw [e1] at hr1
          rw [e3, filter_swapL_adjacent _ _ _ _ _ hx hy (hc.not_both_eqv hr1 p)]
          exact hinv
        · simp at hb
      · simp at hb
    · intro r hb
      unfold insInnerBody at hb
      simp only at hb
      split at hb
      · obtain ⟨r', hr, hb⟩ := (Res.bind_eq_ok _ _ _).mp hb
        obtain ⟨x, y, hx, hy, e1, e2⟩ := less_ok' hr
        split at hb
        · obtain ⟨t2, ht2, hb⟩ := (Res.bind_eq_ok _ _ _).mp hb
          simp at hb
        · simp only [Res.pure_eq, Res.ok.injEq, Sum.inr.injEq] at hb
          subst hb
          rw [e2]
          exact hinv
      · simp only [Res.pure_eq, Res.ok.injEq, Sum.inr.injEq] at hb
        subst hb
        exact hinv
  · rfl

theorem insertion_sort_stable {α : Type} {comp : α → α → Bool} (hc : StrictWeak comp)
    (s s' : Mem α) (a b : Int) (h : _insertion_sort comp s a b = .ok s') (p : α) :
    s'.arr.filter (eqv comp p) = s.arr.filter (eqv comp p) := by
  unfold _insertion_sort at h
  refine iter_inv (insOuterBody comp a b)
    (fun q => q.2.arr.filter (eqv comp p) = s.arr.filter (eqv comp p))
    (fun s' => s'.arr.filter (eqv comp p) = s.arr.filter (eqv comp p)) ?_ _ _ _ ?_ h
  · rintro ⟨i, t⟩ hinv
    simp only at hinv
    constructor
    · intro p' hb
      unfold insOuterBody at hb
      simp only at hb
      split at hb
      · obtain ⟨t', ht', hb⟩ := (Res.bind_eq_ok _ _ _).mp hb
        simp only [Res.pure_eq, Res.ok.injEq, Sum.inl.injEq] at hb
        subst hb
        simp only
        rw [insInner_stable hc t t' a i ht' p]
        exact hinv
      · simp at hb
    · intro r hb
      unfold insOuterBody at hb
      simp only at hb
      split at hb
      · obtain ⟨t', ht', hb⟩ := (Res.bind_eq_ok _ _ _).mp hb
        simp at hb
      · simp only [Res.pure_eq, Res.ok.injEq, Sum.inr.injEq] at hb
        subst hb
        exact hinv
  · rfl

/-- A rearrangement of `[a, b)` leaves the sequence before `a` and from `b` on as it was. -/
theorem Shuffle.frame {α : Type} {a b : Int} {l l' : List α} (h : Shuffle a b l l')
    (ha : 0 ≤ a) (hab : a ≤ b) (hb : b ≤ l.length) :
    ∃ pre post, l = pre ++ (slice l a b ++ post) ∧ l' = pre ++ (slice l' a b ++ post) := by
  have hl := h.length_eq
  have hpre : l'.take a.toNat = l.take a.toNat := by
    apply List.ext_getElem?
    intro k
    rw [List.getElem?_take, List.getElem?_take]
    by_cases c : k < a.toNat
    · simp only [c, if_true]
      have := h.outside (k : Int) (Or.inl (by omega))
      simpa [rd_natCast] using this
    · simp [c]
  have hpost : l'.drop b.toNat = l.drop b.toNat := by
    apply List.ext_getElem?
    intro k
    rw [List.getElem?_drop, List.getElem?_drop]
    have := h.outside ((b.toNat + k : Nat) : Int) (Or.inr (by omega))
    rw [rd_natCast, rd_natCast] at this
    exact this
  have dec : ∀ (t : List α), b ≤ t.length →
      t = t.take a.toNat ++ (slice t a b ++ t.drop b.toNat) := by
    intro t ht
    unfold slice
    have e1 : (t.take b.toNat).drop a.toNat ++ t.drop b.toNat = t.drop a.toNat := by
      have e2 : t.drop a.toNat = (t.take b.toNat ++ t.drop b.toNat).drop a.toNat := by
        rw [List.take_append_drop]
      rw [e2, List.drop_append_of_le_length]
      simp only [List.length_take]
      omega
    rw [e1, List.take_append_drop]
  refine ⟨l.take a.toNat, l.drop b.toNat, dec l hb, ?_⟩
  have := dec l' (by omega)
  rw [hpre, hpost] at this
  exact this

theorem Shuffle.slice_filter {α : Type} {a b : Int} {l l' : List α} (h : Shuffle a b l l')
    (ha : 0 ≤ a) (hab : a ≤ b) (hb : b ≤ l.length) (P : α → Bool)
    (hf : l'.filter P = l.filter P) : (slice l' a b).filter P = (slice l a b).filter P := by
  obtain ⟨pre, post, e1, e2⟩ := h.frame ha hab hb
  rw [e1, e2] at hf
  simp only [List.filter_append] at hf
  exact List.append_cancel_right (List.append_cancel_left hf)

/-- C30: for `0 ≤ a ≤ b ≤ n` and a strict weak order, `_insertion_sort(arr, a, b, comp)`
returns, leaves `arr[a .. b)` sorted, keeps the relative order of equivalent elements (for
every `p`, the elements of the range equivalent to `p` appear in the same order as before),
and leaves every position outside `[a, b)` unchanged. -/
theorem insertion_sort_stable_sorts {α : Type} (comp : α → α → Bool) (hsw : StrictWeak comp)
    (s : Mem α) (a b : Int) (ha : 0 ≤ a) (hab : a ≤ b) (hb : b ≤ s.arr.length) :
    ∃ s', _insertion_sort comp s a b = .ok s' ∧ SortedOn comp s'.arr a b ∧
      (∀ p, (slice s'.arr a b).filter (eqv comp p) = (slice s.arr a b).filter (eqv comp p)) ∧
      (∀ k, k < a ∨ b ≤ k → rd s'.arr k = rd s.arr k) := by
  obtain ⟨s', h1, h2⟩ := insertion_sort_safe comp s a b ha hb
  exact ⟨s', h1, insertion_sort_sorted hsw s s' a b h1,
    fun p => h2.slice_filter ha hab hb _ (insertion_sort_stable hsw s s' a b h1 p),
    fun k hk => h2.outside k hk⟩

theorem insertion_sort_stable_sorts_witness :
    StrictWeak keyLess ∧ (0 : Int) ≤ 1 ∧ (1 : Int) ≤ 6 ∧
    (6 : Int) ≤ (Mem.init [(0, 0), (2, 1), (1, 2), (2, 3), (1, 4), (0, 5), (0, 6)]).arr.length ∧
    ∃ s', _insertion_sort keyLess
        (Mem.init [(0, 0), (2, 1), (1, 2), (2, 3), (1, 4), (0, 5), (0, 6)]) 1 6 = .ok s' ∧
      SortedOn keyLess s'.arr 1 6 ∧
      (∀ p, (slice s'.arr 1 6).filter (eqv keyLess p) =
        (slice (Mem.init [(0, 0), (2, 1), (1, 2), (2, 3), (1, 4), (0, 5), (0, 6)]).arr 1 6).filter
          (eqv keyLess p)) ∧
      (∀ k, k < (1 : Int) ∨ (6 : Int) ≤ k → rd s'.arr k =
        rd (Mem.init [(0, 0), (2, 1), (1, 2), (2, 3), (1, 4), (0, 5), (0, 6)]).arr k) :=
  ⟨keyLess_strictWeak, by decide, by decide, by decide,
    insertion_sort_stable_sorts keyLess keyLess_strictWeak
      (Mem.init [(0, 0), (2, 1), (1, 2), (2, 3), (1, 4), (0, 5), (0, 6)]) 1 6
      (by decide) (by decide) (by decide)⟩

/-! ## The claims on `_do_pivot` -/

/-- C21 (code defect): on `[5, 5, 0, .., 0, 5]` (13 elements, `<`), the main partition loop of
`_do_pivot` exits with `a = 1`, `b = c = 11` and the element at position `11`, which lies
in `[c, hi-1)`, equal to the pivot `5`: it is not strictly greater than the pivot, against
the invariant `data[c <= i < hi-1] > pivot` written above the loop.  The scan
`comp(arr[b], arr[pivot])` stops at an element equal to the pivot and the exchange moves it
to the upper region. -/
theorem pivot_main_loop_moves_equal_up :
    (pivotPartition natLess (Mem.init [5, 5, 0, 0, 0, 0, 0, 0, 0, 0, 0, 0, 5]) 0 13).bind
      (fun r => Res.ok (r.1, r.2.1, r.2.2.1, r.2.2.2.arr))
      = .ok (1, 11, 11, [5, 0, 0, 0, 0, 0, 0, 0, 0, 0, 0, 5, 5]) ∧
    rd [5, 0, 0, 0, 0, 0, 0, 0, 0, 0, 0, 5, 5] 0 = some 5 ∧
    rd [5, 0, 0, 0, 0, 0, 0, 0, 0, 0, 0, 5, 5] 11 = some 5 ∧
    natLess 5 5 = false := by
  decide

set_option maxRecDepth 100000 in
/-- C23 (code defect): on the 28 elements `5, 0 (20 times), 7, 5, 9, 9, 9, 9, 5` under `<`,
the main loop of `_do_pivot` exits with `b = c = 22`, so the upper region has `6` elements,
at least `5` and fewer than `28 / 4 = 7`; the pivot is `5` and the sampled elements
`data[hi-1]` and `data[b-1]` are both equal to it.  The tests `comp(arr[hi-1], arr[pivot])`
and `comp(arr[pivot], arr[b-1])` ask for "less", not for "equal", so no duplicate is counted
and `protect` stays `false`: the protected pass is not run. -/
theorem pivot_equal_samples_not_protected :
    (pivotPartition natLess
        (Mem.init (5 :: (List.replicate 20 0 ++ [7, 5, 9, 9, 9, 9, 5]))) 0 28).bind
      (fun r => (pivotSample natLess r.2.2.2 0 28 r.2.1 r.2.2.1).bind
        (fun q => Res.ok (r.2.1, r.2.2.1, r.2.2.2.arr, q.2.2.1)))
      = .ok (22, 22, 5 :: (List.replicate 20 0 ++ [5, 7, 9, 9, 9, 9, 5]), false) ∧
    ((5 : Int) ≤ 28 - 22 ∧ (28 : Int) - 22 < cdiv (28 - 0) 4) ∧
    rd (5 :: (List.replicate 20 0 ++ [5, 7, 9, 9, 9, 9, 5])) 0 = some 5 ∧
    rd (5 :: (List.replicate 20 0 ++ [5, 7, 9, 9, 9, 9, 5])) (28 - 1) = some 5 ∧
    rd (5 :: (List.replicate 20 0 ++ [5, 7, 9, 9, 9, 9, 5])) (22 - 1) = some 5 ∧
    eqv natLess 5 5 = true := by
  decide

/-- C25 (code defect): on `[5, 7, 0, 0, 0, 0, 0, 0, 0, 9, 5, 5, 5]` under `<` the main loop
of `_do_pivot` leaves `3 < 5` elements in the upper region, so the protected pass runs; the
function returns `midlo = 8`, `midhi = 10` and `[0, 5, 0, 0, 0, 0, 0, 0, 5, 5, 9, 7, 5]`.
The elements at positions `1` and `12` are equal to the pivot `5` and lie outside
`[midlo, midhi)`.  The scan `comp(arr[pivot], arr[b-1])` of the protected pass never moves
`b`, so the exchange can put an element equal to the pivot at `a`, and `arr[hi-1]` is never
examined. -/
theorem pivot_protected_pass_leaves_equal_outside :
    (pivotPartition natLess (Mem.init [5, 7, 0, 0, 0, 0, 0, 0, 0, 9, 5, 5, 5]) 0 13).bind
      (fun r => (pivotSample natLess r.2.2.2 0 13 r.2.1 r.2.2.1).bind
        (fun q => Res.ok (r.2.2.1, q.2.2.1))) = .ok (10, true) ∧
    (_do_pivot natLess (Mem.init [5, 7, 0, 0, 0, 0, 0, 0, 0, 9, 5, 5, 5]) 0 13).bind
      (fun r => Res.ok (r.1.arr, r.2.1, r.2.2))
      = .ok ([0, 5, 0, 0, 0, 0, 0, 0, 5, 5, 9, 7, 5], 8, 10) ∧
    rd [0, 5, 0, 0, 0, 0, 0, 0, 5, 5, 9, 7, 5] 8 = some 5 ∧
    rd [0, 5, 0, 0, 0, 0, 0, 0, 5, 5, 9, 7, 5] 1 = some 5 ∧
    rd [0, 5, 0, 0, 0, 0, 0, 0, 5, 5, 9, 7, 5] 12 = some 5 ∧
    eqv natLess 5 5 = true := by
  decide

/-- C22: for a range `[lo, hi)` of more than 12 elements inside the sequence and a strict
weak order, `_do_pivot` returns `(midlo, midhi)` with `lo ≤ midlo ≤ midhi < hi` and
`lo < midhi`; the pivot value `p` is the element left at `midlo`, no element of
`[lo, midlo)` is greater than `p`, every element of `[midlo, midhi)` is equivalent to `p`,
no element of `[midhi, hi)` is less than `p`; both `[lo, midlo)` and `[midhi, hi)` are
strictly shorter than `[lo, hi)`. -/
theorem do_pivot_partitions {α : Type} (comp : α → α → Bool) (hsw : StrictWeak comp)
    (s : Mem α) (lo hi : Int) (hlo : 0 ≤ lo) (hhi : hi ≤ s.arr.length) (hsz : hi - lo > 12) :
    ∃ s' midlo midhi p, _do_pivot comp s lo hi = .ok (s', midlo, midhi) ∧
      lo ≤ midlo ∧ midlo ≤ midhi ∧ midhi < hi ∧ lo < midhi ∧
      rd s'.arr midlo = some p ∧
      AllOn (fun x => comp p x = false) s'.arr lo midlo ∧
      AllOn (fun x => eqv comp p x = true) s'.arr midlo midhi ∧
      AllOn (fun x => comp x p = false) s'.arr midhi hi ∧
      midlo - lo < hi - lo ∧ hi - midhi < hi - lo := by
  obtain ⟨⟨s', midlo, midhi⟩, hr, -, g1, g2, g3, g4, g5, part⟩ :=
    do_pivot_spec comp s lo hi hlo hhi hsz
  simp only at g1 g2 g3 g4 g5 part
  obtain ⟨p, pL, pM, pR, hp⟩ := part hsw
  refine ⟨s', midlo, midhi, p, hr, g1, g2, g5, g4, hp, pL, ?_, pR, by omega, by omega⟩
  intro k x q1 q2 hx
  have := pM k x q1 q2 hx
  simp [eqv, this.1, this.2]

theorem do_pivot_partitions_witness :
    StrictWeak natLess ∧ (0 : Int) ≤ 0 ∧
    (13 : Int) ≤ (Mem.init [5, 7, 0, 3, 8, 1, 6, 2, 9, 4, 5, 5, 7]).arr.length ∧
    (13 : Int) - 0 > 12 ∧
    ∃ s' midlo midhi p,
      _do_pivot natLess (Mem.init [5, 7, 0, 3, 8, 1, 6, 2, 9, 4, 5, 5, 7]) 0 13
        = .ok (s', midlo, midhi) ∧
      0 ≤ midlo ∧ midlo ≤ midhi ∧ midhi < 13 ∧ 0 < midhi ∧
      rd s'.arr midlo = some p ∧
      AllOn (fun x => natLess p x = false) s'.arr 0 midlo ∧
      AllOn (fun x => eqv natLess p x = true) s'.arr midlo midhi ∧
      AllOn (fun x => natLess x p = false) s'.arr midhi 13 ∧
      midlo - 0 < 13 - 0 ∧ 13 - midhi < 13 - 0 :=
  ⟨natLess_strictWeak, by decide, by decide, by decide,
    do_pivot_partitions natLess natLess_strictWeak
      (Mem.init [5, 7, 0, 3, 8, 1, 6, 2, 9, 4, 5, 5, 7]) 0 13 (by decide) (by decide)
      (by decide)⟩

/-- C24: for a range `[lo, hi)` of more than 12 elements and a strict weak order, in the
state `(a, b, c, arr)` left by the main loop of `_do_pivot` with pivot `p = arr[lo]`:
whenever the three pivot-equality tests are run (`5 ≤ hi - c < (hi - lo) / 4`), each of
`comp(arr[hi-1], p)`, `comp(p, arr[b-1])`, `comp(p, arr[m])` is false and `pivotDups`
returns `b`, `c` and the array unchanged with `dups = 0`; so the sampling stage returns
`protect = (hi - c < 5)`, and `_do_pivot` finishes with that flag. -/
theorem pivot_dups_stays_zero {α : Type} (comp : α → α → Bool) (hsw : StrictWeak comp)
    (s : Mem α) (lo hi : Int) (hlo : 0 ≤ lo) (hhi : hi ≤ s.arr.length) (hsz : hi - lo > 12) :
    ∃ a b c s3 p, pivotPartition comp s lo hi = .ok (a, b, c, s3) ∧ rd s3.arr lo = some p ∧
      (5 ≤ hi - c → hi - c < cdiv (hi - lo) 4 →
        (∀ xh y z, rd s3.arr (hi - 1) = some xh → rd s3.arr (b - 1) = some y →
          rd s3.arr ((lo + hi) >>> (1 : Nat)) = some z →
          comp xh p = false ∧ comp p y = false ∧ comp p z = false) ∧
        ∃ t, pivotDups comp s3 lo ((lo + hi) >>> (1 : Nat)) hi b c = .ok t ∧ t.1 = b ∧
          t.2.1 = c ∧ t.2.2.1 = 0 ∧ t.2.2.2.arr = s3.arr) ∧
      ∃ s4, pivotSample comp s3 lo hi b c = .ok (b, c, decide (hi - c < 5), s4) ∧
        s4.arr = s3.arr ∧
        _do_pivot comp s lo hi = pivotFinish comp s4 lo hi a b c (decide (hi - c < 5)) := by
  obtain ⟨⟨a, b, c, s3⟩, hs3, k3, a1, n1, n2, n3, n4, n5, n6, p, hp3, hle3, hge3, hh3⟩ :=
    pivotPartition_spec comp s lo hi hlo hhi hsz
  simp only at k3 a1 n1 n2 n3 n4 n5 n6 hp3 hle3 hge3 hh3
  have l3 := k3.length_eq
  refine ⟨a, b, c, s3, p, hs3, hp3, ?_, ?_⟩
  · intro h5 h4
    have e : cdiv (hi - lo) 4 = (hi - lo) / 4 := cdiv_eq (by omega) (by omega)
    rw [e] at h4
    rw [shr1_eq]
    exact pivotDups_none hsw s3 lo hi b c p hlo (by omega) hsz n5 n4 h5 h4 hp3 hle3 (hh3 hsw)
  · obtain ⟨⟨b4, c4, pr, s4⟩, hs4, -, -, -, -, -, d5⟩ := pivotSample_spec comp s3 lo hi b c p
      hlo (by omega) hsz (by omega) n5 n4 hp3 hle3 hh3
    obtain ⟨r1, r2, r3, r4⟩ := d5 hsw
    simp only at r1 r2 r3 r4
    subst r1
    subst r2
    subst r3
    refine ⟨s4, hs4, r4, ?_⟩
    rw [do_pivot_stages]
    simp only [hs3, Res.ok_bind, hs4]

theorem pivot_dups_stays_zero_witness :
    StrictWeak natLess ∧ (0 : Int) ≤ 0 ∧
    (28 : Int) ≤ (Mem.init (5 :: (List.replicate 20 0 ++ [7, 5, 9, 9, 9, 9, 5]))).arr.length ∧
    (28 : Int) - 0 > 12 ∧
    ∃ a b c s3 p, pivotPartition natLess
        (Mem.init (5 :: (List.replicate 20 0 ++ [7, 5, 9, 9, 9, 9, 5]))) 0 28
        = .ok (a, b, c, s3) ∧ rd s3.arr 0 = some p ∧
      (5 ≤ 28 - c → 28 - c < cdiv (28 - 0) 4 →
        (∀ xh y z, rd s3.arr (28 - 1) = some xh → rd s3.arr (b - 1) = some y →
          rd s3.arr ((0 + 28) >>> (1 : Nat)) = some z →
          natLess xh p = false ∧ natLess p y = false ∧ natLess p z = false) ∧
        ∃ t, pivotDups natLess s3 0 ((0 + 28) >>> (1 : Nat)) 28 b c = .ok t ∧ t.1 = b ∧
          t.2.1 = c ∧ t.2.2.1 = 0 ∧ t.2.2.2.arr = s3.arr) ∧
      ∃ s4, pivotSample natLess s3 0 28 b c = .ok (b, c, decide (28 - c < 5), s4) ∧
        s4.arr = s3.arr ∧
        _do_pivot natLess (Mem.init (5 :: (List.replicate 20 0 ++ [7, 5, 9, 9, 9, 9, 5]))) 0 28
          = pivotFinish natLess s4 0 28 a b c (decide (28 - c < 5)) :=
  ⟨natLess_strictWeak, by decide, by decide, by decide,
    pivot_dups_stays_zero natLess natLess_strictWeak
      (Mem.init (5 :: (List.replicate 20 0 ++ [7, 5, 9, 9, 9, 9, 5]))) 0 28 (by decide)
      (by decide) (by decide)⟩

/-- C29: under a strict weak order, for pairwise distinct positions `m0`, `m1`, `m2` of the
sequence, `_median_of_3(arr, m1, m0, m2, comp)` returns a permutation of the sequence in
which every other position keeps its element, and afterwards neither `arr[m1] < arr[m0]` nor
`arr[m2] < arr[m1]`.  The pivot selection of `_do_pivot` on a range of more than 12 elements
ends with that call at `(lo, m, hi-1)`, whose positions are distinct: afterwards
`arr[m] ≤ arr[lo] ≤ arr[hi-1]`, so `arr[lo]` is a median of the three sampled values. -/
theorem median_of_3_orders {α : Type} (comp : α → α → Bool) (hsw : StrictWeak comp)
    (s : Mem α) :
    (∀ m1 m0 m2 : Int, 0 ≤ m1 ∧ m1 < s.arr.length → 0 ≤ m0 ∧ m0 < s.arr.length →
      0 ≤ m2 ∧ m2 < s.arr.length → m1 ≠ m0 → m2 ≠ m0 → m2 ≠ m1 →
      ∃ s' y0 y1 y2, _median_of_3 comp s m1 m0 m2 = .ok s' ∧ s'.arr.Perm s.arr ∧
        (∀ k, k ≠ m0 → k ≠ m1 → k ≠ m2 → rd s'.arr k = rd s.arr k) ∧
        rd s'.arr m0 = some y0 ∧ rd s'.arr m1 = some y1 ∧ rd s'.arr m2 = some y2 ∧
        comp y1 y0 = false ∧ comp y2 y1 = false) ∧
    (∀ lo hi : Int, 0 ≤ lo → hi ≤ s.arr.length → hi - lo > 12 →
      ∃ s0 s1 ym yl yh, pivotNinther comp s lo hi = .ok s0 ∧
        _median_of_3 comp s0 lo ((lo + hi) >>> (1 : Nat)) (hi - 1) = .ok s1 ∧
        pivotSelect comp s lo hi = .ok s1 ∧ s1.arr.Perm s0.arr ∧
        (∀ k, k ≠ (lo + hi) >>> (1 : Nat) → k ≠ lo → k ≠ hi - 1 → rd s1.arr k = rd s0.arr k) ∧
        rd s1.arr ((lo + hi) >>> (1 : Nat)) = some ym ∧ rd s1.arr lo = some yl ∧
        rd s1.arr (hi - 1) = some yh ∧ comp yl ym = false ∧ comp yh yl = false) := by
  constructor
  · intro m1 m0 m2 h1 h0 h2 n10 n20 n21
    obtain ⟨s', hs', k, u, o⟩ := median_of_3_spec comp s 0 s.arr.length m1 m0 m2 h1 h0 h2
      (le_refl _) (le_refl _)
    have l := k.length_eq
    obtain ⟨y0, hy0⟩ := rd_inb s'.arr m0 h0.1 (by omega)
    obtain ⟨y1, hy1⟩ := rd_inb s'.arr m1 h1.1 (by omega)
    obtain ⟨y2, hy2⟩ := rd_inb s'.arr m2 h2.1 (by omega)
    obtain ⟨o1, o2⟩ := o hsw n10 n20 n21 y0 y1 y2 hy0 hy1 hy2
    exact ⟨s', y0, y1, y2, hs', k.perm, u, hy0, hy1, hy2, o1, o2⟩
  · intro lo hi hlo hhi hsz
    obtain ⟨s0, s1, e0, k0, e1, e2, k1, u1, o1⟩ := pivotSelect_spec comp s lo hi hlo hhi hsz
    have l0 := k0.length_eq
    have l1 := k1.length_eq
    obtain ⟨ym, hym⟩ := rd_inb s1.arr ((lo + hi) / 2) (by omega) (by omega)
    obtain ⟨yl, hyl⟩ := rd_inb s1.arr lo hlo (by omega)
    obtain ⟨yh, hyh⟩ := rd_inb s1.arr (hi - 1) (by omega) (by omega)
    obtain ⟨o2, o3⟩ := o1 hsw ym yl yh hym hyl hyh
    simp only [shr1_eq]
    exact ⟨s0, s1, ym, yl, yh, e0, e1, e2, k1.perm, u1, hym, hyl, hyh, o2, o3⟩

theorem median_of_3_orders_witness :
    StrictWeak natLess ∧
    ∃ s' y0 y1 y2, _median_of_3 natLess (Mem.init [7, 3, 9, 1, 4]) 0 2 4 = .ok s' ∧
      s'.arr.Perm (Mem.init [7, 3, 9, 1, 4]).arr ∧
      (∀ k, k ≠ (2 : Int) → k ≠ 0 → k ≠ 4 →
        rd s'.arr k = rd (Mem.init [7, 3, 9, 1, 4]).arr k) ∧
      rd s'.arr 2 = some y0 ∧ rd s'.arr 0 = some y1 ∧ rd s'.arr 4 = some y2 ∧
      natLess y1 y0 = false ∧ natLess y2 y1 = false :=
  ⟨natLess_strictWeak,
    (median_of_3_orders natLess natLess_strictWeak (Mem.init [7, 3, 9, 1, 4])).1 0 2 4
      (by decide) (by decide) (by decide) (by decide) (by decide) (by decide)⟩

/-! ## The depth budget and the recursion depth of the quicksort loop -/

/-- Forgetting the ghost values of `quickSortLoopTrace` gives `quickSortLoopAux`. -/
theorem quickSortLoopTrace_erase {α : Type} (comp : α → α → Bool) : ∀ (f : Nat) (s : Mem α)
    (a b d : Int), quickSortLoopAux comp f s a b d
      = (quickSortLoopTrace comp f s a b d >>= fun r => Res.ok r.1) := by
  intro f
  induction f with
  | zero => intro s a b d; rfl
  | succ f ih =>
    intro s a b d
    rw [quickSortLoopAux, quickSortLoopTrace]
    by_cases c1 : b - a > 12
    · by_cases c2 : d = 0
      · simp only [c1, c2, if_true]
        cases _heap_sort comp s a b <;> rfl
      · simp only [c1, c2, if_true, if_false]
        cases hr : _do_pivot comp s a b with
        | ok r =>
          simp only [Res.ok_bind]
          by_cases c3 : r.2.1 - a < b - r.2.2
          · simp only [c3, if_true]
            rw [ih]
            cases h1 : quickSortLoopTrace comp f r.1 a r.2.1 (d - 1) with
            | ok t =>
              simp only [Res.ok_bind]
              rw [ih]
              cases h2 : quickSortLoopTrace comp f t.1 r.2.2 b (d - 1) <;> rfl
            | oob => rfl
            | timeout => rfl
          · simp only [c3, if_false]
            rw [ih]
            cases h1 : quickSortLoopTrace comp f r.1 r.2.2 b (d - 1) with
            | ok t =>
              simp only [Res.ok_bind]
              rw [ih]
              cases h2 : quickSortLoopTrace comp f t.1 a r.2.1 (d - 1) <;> rfl
            | oob => rfl
            | timeout => rfl
        | oob => rfl
        | timeout => rfl
    · by_cases c2 : b - a > 1
      · simp only [c1, c2, if_true, if_false]
        cases _shell_sort comp s a b with
        | ok s1 =>
          simp only [Res.ok_bind]
          cases _insertion_sort comp s1 a b <;> rfl
        | oob => rfl
        | timeout => rfl
      · simp only [c1, c2, if_false]
        rfl

theorem log_two_halved (n m : Nat) (h : 2 * n ≤ m) (hm : 2 ≤ m) :
    1 + Nat.log 2 n ≤ Nat.log 2 m := by
  by_cases hn : n = 0
  · subst hn
    have : 0 < Nat.log 2 m := Nat.log_pos (by omega) hm
    simp only [Nat.log_zero_right]
    omega
  · have e : Nat.log 2 (n * 2) = Nat.log 2 n + 1 := Nat.log_mul_base (by omega) hn
    have := Nat.log_mono_right (b := 2) (show n * 2 ≤ m by omega)
    omega

/-- The quicksort loop returns; along every chain of partition steps `_do_pivot` is applied
at most `maxDepth` times, the recursion is nested at most `⌊log₂ (b - a)⌋` deep, and every
recursive call is on at most half of the active range. -/
theorem quickSortLoopTrace_spec {α : Type} (comp : α → α → Bool) : ∀ (f : Nat) (s : Mem α)
    (a b d : Int), 0 ≤ a → b ≤ s.arr.length → 0 ≤ d → (b - a).toNat < f →
    ∃ r, quickSortLoopTrace comp f s a b d = .ok r ∧ Shuffle a b s.arr r.1.arr ∧
      (r.2.1 : Int) ≤ d ∧ r.2.2.1 ≤ Nat.log 2 (b - a).toNat ∧ r.2.2.2 = true := by
  intro f
  induction f with
  | zero => intro s a b d _ _ _ h; omega
  | succ f ih =>
    intro s a b d ha hb hd hf
    rw [quickSortLoopTrace]
    by_cases c1 : b - a > 12
    · by_cases c2 : d = 0
      · obtain ⟨s', hs', k⟩ := heap_sort_safe comp s a b ha (by omega) hb
        exact ⟨(s', 0, 0, true), by simp [c1, c2, hs'], k, by simp [c2], by simp, rfl⟩
      · obtain ⟨⟨s1, mlo, mhi⟩, hr, k1, g1, g2, g3, g4, g5, -⟩ := do_pivot_spec comp s a b ha hb c1
        simp only at k1 g1 g2 g3 g4 g5
        have l1 := k1.length_eq
        by_cases c3 : mlo - a < b - mhi
        · obtain ⟨t, ht, k2, t1, t2, t3⟩ := ih s1 a mlo (d - 1) ha (by omega) (by omega) (by omega)
          have l2 := k2.length_eq
          obtain ⟨u, hu, k3, u1, u2, u3⟩ := ih t.1 mhi b (d - 1) (by omega) (by omega) (by omega)
            (by omega)
          refine ⟨(u.1, 1 + max t.2.1 u.2.1, max (1 + t.2.2.1) u.2.2.1,
            decide (2 * (mlo - a) ≤ b - a) && t.2.2.2 && u.2.2.2), ?_, ?_, ?_, ?_, ?_⟩
          · simp only [c1, c2, if_true, if_false, hr, Res.ok_bind, c3, ht, hu]
            rfl
          · exact (k1.trans (k2.widen (le_refl _) (by omega))).trans
              (k3.widen (by omega) (le_refl _))
          · simp only
            have : max t.2.1 u.2.1 = t.2.1 ∨ max t.2.1 u.2.1 = u.2.1 := by omega
            push_cast
            omega
          · simp only
            have h1 := log_two_halved (mlo - a).toNat (b - a).toNat (by omega) (by omega)
            have h2 := Nat.log_mono_right (b := 2)
              (show (b - mhi).toNat ≤ (b - a).toNat by omega)
            omega
          · simp only [t3, u3, Bool.and_true, decide_eq_true_eq]
            omega
        · obtain ⟨t, ht, k2, t1, t2, t3⟩ := ih s1 mhi b (d - 1) (by omega) (by omega) (by omega)
            (by omega)
          have l2 := k2.length_eq
          obtain ⟨u, hu, k3, u1, u2, u3⟩ := ih t.1 a mlo (d - 1) ha (by omega) (by omega)
            (by omega)
          refine ⟨(u.1, 1 + max t.2.1 u.2.1, max (1 + t.2.2.1) u.2.2.1,
            decide (2 * (b - mhi) ≤ b - a) && t.2.2.2 && u.2.2.2), ?_, ?_, ?_, ?_, ?_⟩
          · simp only [c1, c2, if_true, if_false, hr, Res.ok_bind, c3, ht, hu]
            rfl
          · exact (k1.trans (k2.widen (by omega) (le_refl _))).trans
              (k3.widen (le_refl _) (by omega))
          · simp only
            have : max t.2.1 u.2.1 = t.2.1 ∨ max t.2.1 u.2.1 = u.2.1 := by omega
            push_cast
            omega
          · simp only
            have h1 := log_two_halved (b - mhi).toNat (b - a).toNat (by omega) (by omega)
            have h2 := Nat.log_mono_right (b := 2)
              (show (mlo - a).toNat ≤ (b - a).toNat by omega)
            omega
          · simp only [t3, u3, Bool.and_true, decide_eq_true_eq]
            omega
    · by_cases c2 : b - a > 1
      · obtain ⟨s1, hs1, k1⟩ := shell_sort_safe comp s a b ha hb
        have l1 := k1.length_eq
        obtain ⟨s2, hs2, k2⟩ := insertion_sort_safe comp s1 a b ha (by omega)
        exact ⟨(s2, 0, 0, true), by simp [c1, c2, hs1, hs2], k1.trans k2, by simp [hd],
          by simp, rfl⟩
      · exact ⟨(s, 0, 0, true), by simp [c1, c2], Shuffle.refl _, by simp [hd], by simp, rfl⟩

theorem max_depth_eq (m : Nat) : _max_depth (m : Int) = .ok (2 * (Nat.clog 2 (m + 1) : Int)) := by
  have := maxDepth_loop m (m : Int) 0 ((m : Int).toNat + 1) (by omega) (by omega) (by omega)
  simp only [_max_depth, this, Res.ok_bind, Res.pure_eq]
  congr 1
  omega

theorem sort_unstable_trace {α : Type} (comp : α → α → Bool) (l : List α) :
    ∃ r, quickSortLoopTrace comp (((l.length : Int) - 0).toNat + 1) (Mem.init l) 0 l.length
        (2 * (Nat.clog 2 (l.length + 1) : Int)) = .ok r ∧
      sort_unstable comp l = .ok r.1 ∧ r.2.1 ≤ 2 * Nat.clog 2 (l.length + 1) ∧
      r.2.2.1 ≤ Nat.log 2 l.length ∧ r.2.2.2 = true := by
  obtain ⟨r, hr, -, r1, r2, r3⟩ := quickSortLoopTrace_spec comp
    (((l.length : Int) - 0).toNat + 1) (Mem.init l) 0 l.length
    (2 * (Nat.clog 2 (l.length + 1) : Int)) (le_refl _) (by simp [Mem.init]) (by omega)
    (by omega)
  refine ⟨r, hr, ?_, by omega, by simpa using r2, r3⟩
  simp only [sort_unstable, max_depth_eq, Res.ok_bind, _quick_sort_loop,
    quickSortLoopTrace_erase, hr]

/-- C26: in the run of `sort_unstable` on `l`, `_max_depth(n)` is `2 * ⌈log₂ (n + 1)⌉` and
along every chain of nested and iterated partition steps of the quicksort loop `_do_pivot`
is applied at most that many times (`steps` is the largest such number); and a step of the
loop with budget `0` on an active range of more than 12 elements is exactly
`_heap_sort(arr, a, b, comp)`, with no partition step. -/
theorem quick_sort_depth_budget {α : Type} (comp : α → α → Bool) (l : List α) :
    (∃ s' steps depth halved,
      quickSortLoopTrace comp (((l.length : Int) - 0).toNat + 1) (Mem.init l) 0 l.length
        (2 * (Nat.clog 2 (l.length + 1) : Int)) = .ok (s', steps, depth, halved) ∧
      sort_unstable comp l = .ok s' ∧
      _max_depth (l.length : Int) = .ok (2 * (Nat.clog 2 (l.length + 1) : Int)) ∧
      steps ≤ 2 * Nat.clog 2 (l.length + 1)) ∧
    (∀ (f : Nat) (s : Mem α) (a b : Int), b - a > 12 →
      quickSortLoopAux comp (f + 1) s a b 0 = _heap_sort comp s a b ∧
      quickSortLoopTrace comp (f + 1) s a b 0
        = (_heap_sort comp s a b >>= fun s' => Res.ok (s', 0, 0, true))) := by
  constructor
  · obtain ⟨⟨s', steps, depth, halved⟩, hr, h1, h2, -, -⟩ := sort_unstable_trace comp l
    exact ⟨s', steps, depth, halved, hr, h1, max_depth_eq l.length, h2⟩
  · intro f s a b hab
    constructor
    · rw [quickSortLoopAux]
      simp only [hab, if_true]
    · rw [quickSortLoopTrace]
      simp only [hab, if_true]
      rfl

/-- C27: in the run of `sort_unstable` on `l`, every recursive call of the quicksort loop is
on a sub-range of at most half the length of the active range it is made on (`halved` is
`true`), and recursive calls are nested at most `⌊log₂ n⌋` deep; the sub-range chosen for the
recursive call after `_do_pivot` on `[a, b)`, `[a, mlo)` if `mlo - a < b - mhi` and
`[mhi, b)` otherwise, has at most `(b - a) / 2` elements. -/
theorem quick_sort_recursion_depth {α : Type} (comp : α → α → Bool) (l : List α) :
    (∃ s' steps depth,
      quickSortLoopTrace comp (((l.length : Int) - 0).toNat + 1) (Mem.init l) 0 l.length
        (2 * (Nat.clog 2 (l.length + 1) : Int)) = .ok (s', steps, depth, true) ∧
      sort_unstable comp l = .ok s' ∧ depth ≤ Nat.log 2 l.length) ∧
    (∀ (s : Mem α) (a b : Int), 0 ≤ a → b ≤ s.arr.length → b - a > 12 →
      ∃ s1 mlo mhi, _do_pivot comp s a b = .ok (s1, mlo, mhi) ∧
        (mlo - a < b - mhi → mlo - a ≤ (b - a) / 2) ∧
        (¬ mlo - a < b - mhi → b - mhi ≤ (b - a) / 2)) := by
  constructor
  · obtain ⟨⟨s', steps, depth, halved⟩, hr, h1, -, h3, h4⟩ := sort_unstable_trace comp l
    simp only at h4
    subst h4
    exact ⟨s', steps, depth, hr, h1, h3⟩
  · intro s a b ha hb hab
    obtain ⟨⟨s1, mlo, mhi⟩, hr, -, g1, g2, g3, g4, g5, -⟩ := do_pivot_spec comp s a b ha hb hab
    simp only at g1 g2 g3 g4 g5
    exact ⟨s1, mlo, mhi, hr, fun h => by omega, fun h => by omega⟩

/-! ## The phases of the stable engine -/

/-- The function `_stable` is its insertion phase followed by its merge passes. -/
theorem stable_phases {α : Type} (comp : α → α → Bool) (s : Mem α) (n : Int) :
    _stable comp s n = (do
      let t ← stableBlocks comp s n
      iter (stableMergeBody comp n) (n.toNat + 1) (20, t)) := by
  simp only [_stable, stableBlocks, Res.bind_assoc]

theorem insertion_sort_empty {α : Type} (comp : α → α → Bool) (s : Mem α) (a : Int) :
    _insertion_sort comp s a a = .ok s := by
  simp [_insertion_sort, iter, insOuterBody]

theorem stable_short {α : Type} (comp : α → α → Bool) (s : Mem α) (n : Int) (h0 : 0 ≤ n)
    (h : n ≤ 20) : _stable comp s n = _insertion_sort comp s 0 n ∧
      stableBlocks comp s n = _insertion_sort comp s 0 n ∧
      ∀ t : Mem α, stableMergeBody comp n (20, t) = .ok (.inr t) := by
  have hm : ∀ t : Mem α, stableMergeBody comp n (20, t) = .ok (.inr t) := by
    intro t
    simp [stableMergeBody, show ¬ (20 : Int) < n by omega]
  have hm' : ∀ t : Mem α, iter (stableMergeBody comp n) (n.toNat + 1) (20, t) = .ok t := by
    intro t
    rw [iter, hm]
  have hb : stableBlocks comp s n = _insertion_sort comp s 0 n := by
    by_cases c : n = 20
    · subst c
      have e : (20 : Int).toNat + 1 = 19 + 1 + 1 := rfl
      simp only [stableBlocks, e]
      cases hs : _insertion_sort comp s 0 20 with
      | ok s1 =>
        simp [iter, stableBlocksBody, hs, insertion_sort_empty]
      | oob => simp [iter, stableBlocksBody, hs]
      | timeout => simp [iter, stableBlocksBody, hs]
    · have c' : ¬ (20 : Int) ≤ n := by omega
      simp [stableBlocks, iter, stableBlocksBody, c']
  refine ⟨?_, hb, hm⟩
  rw [stable_phases, hb]
  cases hs : _insertion_sort comp s 0 n with
  | ok s1 => simp only [Res.ok_bind, hm']
  | oob => rfl
  | timeout => rfl

/-! ## The claims on the stable engine -/

/-- C31: for an input of length `n ≤ 20`, `sort_stable` is the single call
`_insertion_sort(arr, 0, n, comp)`: the merge loop of `_stable` leaves at once, without a
merge; the run returns, and under a strict weak order the elements equivalent to any `p`
appear in the output in their input order. -/
theorem sort_stable_short_is_insertion {α : Type} (comp : α → α → Bool) (l : List α)
    (h : l.length ≤ 20) :
    sort_stable comp l = _insertion_sort comp (Mem.init l) 0 (l.length : Int) ∧
    (∀ t : Mem α, stableMergeBody comp (l.length : Int) (20, t) = .ok (.inr t)) ∧
    ∃ s', sort_stable comp l = .ok s' ∧
      (StrictWeak comp → ∀ p, s'.arr.filter (eqv comp p) = l.filter (eqv comp p)) := by
  obtain ⟨e1, -, e3⟩ := stable_short comp (Mem.init l) (l.length : Int) (by omega) (by omega)
  have e : sort_stable comp l = _insertion_sort comp (Mem.init l) 0 (l.length : Int) := e1
  obtain ⟨s', hs', -⟩ := sort_stable_safe comp l
  refine ⟨e, e3, s', hs', ?_⟩
  intro hsw p
  rw [e] at hs'
  exact insertion_sort_stable hsw (Mem.init l) s' 0 (l.length : Int) hs' p

theorem sort_stable_short_is_insertion_witness :
    [((2 : Nat), (0 : Nat)), (1, 1), (2, 2), (1, 3), (0, 4)].length ≤ 20 ∧
    (sort_stable keyLess [(2, 0), (1, 1), (2, 2), (1, 3), (0, 4)]
      = _insertion_sort keyLess (Mem.init [(2, 0), (1, 1), (2, 2), (1, 3), (0, 4)]) 0
          ([((2 : Nat), (0 : Nat)), (1, 1), (2, 2), (1, 3), (0, 4)].length : Int) ∧
    (∀ t : Mem (Nat × Nat), stableMergeBody keyLess
      ([((2 : Nat), (0 : Nat)), (1, 1), (2, 2), (1, 3), (0, 4)].length : Int) (20, t)
        = .ok (.inr t)) ∧
    ∃ s', sort_stable keyLess [(2, 0), (1, 1), (2, 2), (1, 3), (0, 4)] = .ok s' ∧
      (StrictWeak keyLess → ∀ p, s'.arr.filter (eqv keyLess p)
        = [(2, 0), (1, 1), (2, 2), (1, 3), (0, 4)].filter (eqv keyLess p))) :=
  ⟨by decide, sort_stable_short_is_insertion keyLess [(2, 0), (1, 1), (2, 2), (1, 3), (0, 4)]
    (by decide)⟩

set_option maxRecDepth 100000 in
/-- C32 (code defect): on the 41 elements `1, 2, .., 40, 0` under `<` the insertion phase of
`_stable` returns `1, .., 20, 0, 21, .., 40`: the first loop advances `b` by `2 * blockSize`,
so after `[0, 20)` it sorts `[20, 41)` as one block, and the element `0` of block `[40, 41)`
ends in block `[20, 40)`, which no longer holds the elements it held in the input.  The
first loop leaves with `a = 20` after the single block `[0, 20)`. -/
theorem stable_insertion_phase_mixes_blocks :
    (stableBlocks natLess (Mem.init lastSmallest41) 41).bind (fun s => Res.ok s.arr)
      = .ok ((List.range 20).map (fun i => i + 1) ++ 0 :: (List.range 20).map (fun i => i + 21)) ∧
    0 ∈ slice ((List.range 20).map (fun i => i + 1) ++
      0 :: (List.range 20).map (fun i => i + 21)) 20 40 ∧
    0 ∉ slice lastSmallest41 20 40 ∧
    (iter (stableBlocksBody natLess 41 20) 42 (0, 20, Mem.init lastSmallest41)).bind
      (fun r => Res.ok (r.1, r.2.arr)) = .ok (20, lastSmallest41) := by
  decide

/-- C34 (code defect): on `(1,0), (2,1), (2,2), (3,3) | (2,4)` compared by key, with
`a = 0`, `m = 4`, `b = 5`, the binary search of the single-element right range returns
`i = 1`, the lowest index whose element is not less than `data[m]`, not the lowest index
whose element is greater (`3`); `data[m]` is moved to position `1`, before the two
left-range elements equivalent to it. -/
theorem sym_merge_right_single_goes_first :
    (iter (lowerBoundBody keyLess 4) 5
        (0, 4, Mem.init [((1 : Nat), (0 : Nat)), (2, 1), (2, 2), (3, 3), (2, 4)])).bind
      (fun r => Res.ok r.1) = .ok 1 ∧
    (_sym_merge keyLess (Mem.init [((1 : Nat), (0 : Nat)), (2, 1), (2, 2), (3, 3), (2, 4)])
        0 4 5).bind (fun s => Res.ok s.arr)
      = .ok [(1, 0), (2, 4), (2, 1), (2, 2), (3, 3)] ∧
    eqv keyLess ((2 : Nat), (4 : Nat)) (2, 1) = true ∧
    eqv keyLess ((2 : Nat), (4 : Nat)) (2, 2) = true ∧
    keyLess ((2 : Nat), (4 : Nat)) (3, 3) = true := by
  decide

/-- C33: for a strict weak order and `0 ≤ n` elements: after the insertion phase of `_stable`
every aligned block `[20k, min(20k + 20, n))` is sorted; a merge pass started with block size
`bs < n` and every aligned block `[k bs, min((k+1) bs, n))` sorted ends with block size
`2 bs` and every aligned block `[2k bs, min((2k+2) bs, n))` sorted (the trailing blocks
included); with `bs ≥ n` the loop stops and `[0, n)` is sorted; and `_stable` returns with
`[0, n)` sorted. -/
theorem stable_merge_pass_invariant {α : Type} (comp : α → α → Bool) (hsw : StrictWeak comp)
    (s : Mem α) (n : Int) (hn0 : 0 ≤ n) (hn : n ≤ s.arr.length) :
    (∃ t1, stableBlocks comp s n = .ok t1 ∧ t1.arr.length = s.arr.length ∧
      ∀ x, (20 : Int) ∣ x → 0 ≤ x → x < n → SortedOn comp t1.arr x (min (x + 20) n)) ∧
    (∀ (u : Mem α) (bs : Int), n ≤ u.arr.length → 0 < bs → bs < n →
      (∀ x, bs ∣ x → 0 ≤ x → x < n → SortedOn comp u.arr x (min (x + bs) n)) →
      ∃ w, stableMergeBody comp n (bs, u) = .ok (.inl (bs * 2, w)) ∧
        w.arr.length = u.arr.length ∧
        ∀ x, (bs * 2) ∣ x → 0 ≤ x → x < n → SortedOn comp w.arr x (min (x + bs * 2) n)) ∧
    (∀ (u : Mem α) (bs : Int), n ≤ bs →
      stableMergeBody comp n (bs, u) = .ok (.inr u) ∧
      ((∀ x, bs ∣ x → 0 ≤ x → x < n → SortedOn comp u.arr x (min (x + bs) n)) →
        SortedOn comp u.arr 0 n)) ∧
    (∃ s', _stable comp s n = .ok s' ∧ SortedOn comp s'.arr 0 n) := by
  refine ⟨?_, ?_, ?_, ?_⟩
  · obtain ⟨r, t1, hr, ht1, k, hs⟩ := stable_blocks_sorted hsw s n hn0 hn
    refine ⟨t1, ?_, k.length_eq, hs⟩
    simp only [stableBlocks, hr, Res.ok_bind, ht1]
  · intro u bs hu hbs hbn hblk
    obtain ⟨w, hw, k, hs⟩ := stable_pass_sorted hsw u n bs hu hbs hbn hblk
    exact ⟨w, hw, k.length_eq, hs⟩
  · intro u bs hbs
    refine ⟨by simp [stableMergeBody, show ¬ bs < n by omega], ?_⟩
    intro hblk
    by_cases c : 0 < n
    · have := hblk 0 (dvd_zero _) (le_refl _) c
      have e : min (0 + bs) n = n := by omega
      rw [e] at this
      exact this
    · intro i j x y h1 h2 h3
      omega
  · obtain ⟨s', hs', -, hsrt⟩ := stable_sorted hsw s n hn0 hn
    exact ⟨s', hs', hsrt⟩

theorem stable_merge_pass_invariant_witness :
    StrictWeak natLess ∧ (0 : Int) ≤ 5 ∧ (5 : Int) ≤ (Mem.init [4, 2, 5, 1, 3]).arr.length ∧
    ((∃ t1, stableBlocks natLess (Mem.init [4, 2, 5, 1, 3]) 5 = .ok t1 ∧
      t1.arr.length = (Mem.init [4, 2, 5, 1, 3]).arr.length ∧
      ∀ x, (20 : Int) ∣ x → 0 ≤ x → x < 5 → SortedOn natLess t1.arr x (min (x + 20) 5)) ∧
    (∀ (u : Mem Nat) (bs : Int), (5 : Int) ≤ u.arr.length → 0 < bs → bs < 5 →
      (∀ x, bs ∣ x → 0 ≤ x → x < 5 → SortedOn natLess u.arr x (min (x + bs) 5)) →
      ∃ w, stableMergeBody natLess 5 (bs, u) = .ok (.inl (bs * 2, w)) ∧
        w.arr.length = u.arr.length ∧
        ∀ x, (bs * 2) ∣ x → 0 ≤ x → x < 5 → SortedOn natLess w.arr x (min (x + bs * 2) 5)) ∧
    (∀ (u : Mem Nat) (bs : Int), 5 ≤ bs →
      stableMergeBody natLess 5 (bs, u) = .ok (.inr u) ∧
      ((∀ x, bs ∣ x → 0 ≤ x → x < 5 → SortedOn natLess u.arr x (min (x + bs) 5)) →
        SortedOn natLess u.arr 0 5)) ∧
    (∃ s', _stable natLess (Mem.init [4, 2, 5, 1, 3]) 5 = .ok s' ∧
      SortedOn natLess s'.arr 0 5)) :=
  ⟨natLess_strictWeak, by decide, by decide,
    stable_merge_pass_invariant natLess natLess_strictWeak (Mem.init [4, 2, 5, 1, 3]) 5
      (by decide) (by decide)⟩

/-- C35: for a strict weak order, a single-element left range `[a, a+1)` and a sorted right
range `[a+1, b)`, `_sym_merge(arr, a, a+1, b, comp)` returns; its binary search returns the
lowest `i` in `[a+1, b]` whose element is not less than `data[a]` (every element of
`[a+1, i)` is less than `data[a]`, none of `[i, b)` is), `data[a]` is moved to position
`i - 1`, the elements of `[a+1, i)` move down by one position in order, and every other
position is unchanged; so `data[a]` comes before every right-range element equivalent to
it. -/
theorem sym_merge_left_single {α : Type} (comp : α → α → Bool) (hsw : StrictWeak comp)
    (s : Mem α) (a b : Int) (ha : 0 ≤ a) (hab : a + 1 < b) (hb : b ≤ s.arr.length)
    (hR : SortedOn comp s.arr (a + 1) b) :
    ∃ s' i x, _sym_merge comp s a (a + 1) b = .ok s' ∧ rd s.arr a = some x ∧
      (iter (lowerBoundBody comp a) ((b - (a + 1)).toNat + 1) (a + 1, b, s)).bind
        (fun r => Res.ok r.1) = .ok i ∧
      a + 1 ≤ i ∧ i ≤ b ∧
      (∀ k y, a + 1 ≤ k → k < i → rd s.arr k = some y → comp y x = true) ∧
      (∀ k y, i ≤ k → k < b → rd s.arr k = some y → comp y x = false) ∧
      rd s'.arr (i - 1) = some x ∧
      (∀ k, a ≤ k → k < i - 1 → rd s'.arr k = rd s.arr (k + 1)) ∧
      (∀ k, k < a ∨ i ≤ k → rd s'.arr k = rd s.arr k) := by
  obtain ⟨x, hx⟩ := rd_inb s.arr a ha (by omega)
  obtain ⟨⟨i, t⟩, hr, g1, g2, g3, g4, P1, P2⟩ := lowerBound_spec comp s a (a + 1) b
    ((b - (a + 1)).toNat + 1) ⟨by omega, by omega⟩ (by omega) (by omega) hb (by omega)
  simp only at g1 g2 g3 g4 P1 P2
  obtain ⟨s', hs', k1, k2, -⟩ := bubbleUp_spec t a (i - 1) ((b - a).toNat + 1)
    ha (by omega) (by rw [g1]; omega) (by omega)
  rw [g1] at k2
  refine ⟨s', i, x, ?_, hx, by rw [hr]; rfl, g3, g4, ?_, ?_, ?_, ?_, ?_⟩
  · rw [_sym_merge, symMergeAux]
    simp [hr, hs']
  · intro k y q1 q2 hy
    rcases P1 with h | ⟨u, v, hu, hv, huv⟩
    · omega
    · rw [hx] at hv
      cases hv
      have := hR.le hsw q1 (show k ≤ i - 1 by omega) (by omega) hy hu
      exact hsw.lt_of_le_of_lt this huv
  · intro k y q1 q2 hy
    rcases P2 with h | ⟨u, v, hu, hv, huv⟩
    · omega
    · rw [hx] at hv
      cases hv
      have := hR.le hsw (show a + 1 ≤ i by omega) q1 q2 hu hy
      exact hsw.le_trans huv this
  · rw [k2]
    have e : bubUpIdx a (i - 1) (i - 1) = a := by
      unfold bubUpIdx; split_ifs <;> omega
    rw [e]
    exact hx
  · intro k q1 q2
    rw [k2]
    have e : bubUpIdx a (i - 1) k = k + 1 := by
      unfold bubUpIdx; split_ifs <;> omega
    rw [e]
  · intro k q
    rw [k2]
    have e : bubUpIdx a (i - 1) k = k := by
      unfold bubUpIdx; split_ifs <;> omega
    rw [e]

theorem sym_merge_left_single_witness :
    StrictWeak keyLess ∧ (0 : Int) ≤ 1 ∧ (1 : Int) + 1 < 6 ∧
    (6 : Int) ≤ (Mem.init [((0 : Nat), (0 : Nat)), (2, 1), (1, 2), (2, 3), (2, 4), (3, 5)]).arr.length ∧
    SortedOn keyLess (Mem.init [((0 : Nat), (0 : Nat)), (2, 1), (1, 2), (2, 3), (2, 4), (3, 5)]).arr
      (1 + 1) 6 ∧
    ∃ s' i x, _sym_merge keyLess
        (Mem.init [((0 : Nat), (0 : Nat)), (2, 1), (1, 2), (2, 3), (2, 4), (3, 5)]) 1 (1 + 1) 6
        = .ok s' ∧
      rd (Mem.init [((0 : Nat), (0 : Nat)), (2, 1), (1, 2), (2, 3), (2, 4), (3, 5)]).arr 1
        = some x ∧
      (iter (lowerBoundBody keyLess 1) (((6 : Int) - (1 + 1)).toNat + 1) (1 + 1, 6,
        Mem.init [((0 : Nat), (0 : Nat)), (2, 1), (1, 2), (2, 3), (2, 4), (3, 5)])).bind
        (fun r => Res.ok r.1) = .ok i ∧
      1 + 1 ≤ i ∧ i ≤ 6 ∧
      (∀ k y, 1 + 1 ≤ k → k < i →
        rd (Mem.init [((0 : Nat), (0 : Nat)), (2, 1), (1, 2), (2, 3), (2, 4), (3, 5)]).arr k
          = some y → keyLess y x = true) ∧
      (∀ k y, i ≤ k → k < 6 →
        rd (Mem.init [((0 : Nat), (0 : Nat)), (2, 1), (1, 2), (2, 3), (2, 4), (3, 5)]).arr k
          = some y → keyLess y x = false) ∧
      rd s'.arr (i - 1) = some x ∧
      (∀ k, 1 ≤ k → k < i - 1 → rd s'.arr k =
        rd (Mem.init [((0 : Nat), (0 : Nat)), (2, 1), (1, 2), (2, 3), (2, 4), (3, 5)]).arr
          (k + 1)) ∧
      (∀ k, k < 1 ∨ i ≤ k → rd s'.arr k =
        rd (Mem.init [((0 : Nat), (0 : Nat)), (2, 1), (1, 2), (2, 3), (2, 4), (3, 5)]).arr k) :=
  ⟨keyLess_strictWeak, by decide, by decide, by decide,
    sortedOn_of_pairwise keyLess _ (1 + 1) 6 (by decide) (by decide) (by decide),
    sym_merge_left_single keyLess keyLess_strictWeak
      (Mem.init [((0 : Nat), (0 : Nat)), (2, 1), (1, 2), (2, 3), (2, 4), (3, 5)]) 1 6
      (by decide) (by decide) (by decide)
      (sortedOn_of_pairwise keyLess _ (1 + 1) 6 (by decide) (by decide) (by decide))⟩

/-- C36: for a strict weak order and two sorted ranges `[a, m)`, `[m, b)` of at least two
elements each, the general case of `_sym_merge` computes `mid = (a + b) / 2`, `start` and
`end = mid + m - start` with `a ≤ start ≤ m ≤ end ≤ b` and
`(start - a) + (end - m) = mid - a`; after the rotation the ranges `[a, start)`,
`[start, mid)`, `[mid, end)`, `[end, b)` are each sorted and no element of `[mid, b)` is less
than an element of `[a, mid)`; the function then only makes the two guarded recursive calls
on `(a, start, mid)` and `(mid, end, b)`. -/
theorem sym_merge_split_invariant {α : Type} (comp : α → α → Bool) (hsw : StrictWeak comp)
    (s : Mem α) (a m b : Int) (ha : 0 ≤ a) (ham : 2 ≤ m - a) (hmb : 2 ≤ b - m)
    (hb : b ≤ s.arr.length) (hL : SortedOn comp s.arr a m) (hR : SortedOn comp s.arr m b) :
    ∃ mid start e s2, symMergeSplit comp s a m b = .ok (mid, start, e, s2) ∧
      mid = cdiv (a + b) 2 ∧ mid = (a + b) / 2 ∧ e = mid + m - start ∧
      a ≤ start ∧ start ≤ m ∧ m ≤ e ∧ e ≤ b ∧ (start - a) + (e - m) = mid - a ∧
      SortedOn comp s2.arr a start ∧ SortedOn comp s2.arr start mid ∧
      SortedOn comp s2.arr mid e ∧ SortedOn comp s2.arr e b ∧
      (∀ u v x y, a ≤ u → u < mid → mid ≤ v → v < b → rd s2.arr u = some x →
        rd s2.arr v = some y → comp y x = false) ∧
      (∀ f, symMergeAux comp (f + 1) s a m b = (do
        let t ← (if a < start ∧ start < mid then symMergeAux comp f s2 a start mid
          else pure s2)
        if mid < e ∧ e < b then symMergeAux comp f t mid e b else pure t)) := by
  obtain ⟨start, s2, hq, g2, g3, g4, g5, g6, k2, -, hsrt⟩ :=
    symMergeSplit_spec comp s a m b ha ham hmb hb
  obtain ⟨hA, hB, hC, hD, hcross⟩ := hsrt hsw hL hR
  refine ⟨(a + b) / 2, start, (a + b) / 2 + m - start, s2, hq,
    (cdiv_eq (by omega) (by omega)).symm, rfl, rfl, g2, g3, g6, g5, by omega, hA, hB, hC, hD,
    hcross, ?_⟩
  intro f
  rw [symMergeAux_general comp f s a m b (by omega) (by omega), hq]
  rfl

theorem sym_merge_split_invariant_witness :
    StrictWeak natLess ∧ (0 : Int) ≤ 0 ∧ (2 : Int) ≤ 3 - 0 ∧ (2 : Int) ≤ 7 - 3 ∧
    (7 : Int) ≤ (Mem.init [2, 5, 8, 1, 3, 4, 9]).arr.length ∧
    SortedOn natLess (Mem.init [2, 5, 8, 1, 3, 4, 9]).arr 0 3 ∧
    SortedOn natLess (Mem.init [2, 5, 8, 1, 3, 4, 9]).arr 3 7 ∧
    ∃ mid start e s2, symMergeSplit natLess (Mem.init [2, 5, 8, 1, 3, 4, 9]) 0 3 7
        = .ok (mid, start, e, s2) ∧
      mid = cdiv (0 + 7) 2 ∧ mid = (0 + 7) / 2 ∧ e = mid + 3 - start ∧
      0 ≤ start ∧ start ≤ 3 ∧ 3 ≤ e ∧ e ≤ 7 ∧ (start - 0) + (e - 3) = mid - 0 ∧
      SortedOn natLess s2.arr 0 start ∧ SortedOn natLess s2.arr start mid ∧
      SortedOn natLess s2.arr mid e ∧ SortedOn natLess s2.arr e 7 ∧
      (∀ u v x y, 0 ≤ u → u < mid → mid ≤ v → v < 7 → rd s2.arr u = some x →
        rd s2.arr v = some y → natLess y x = false) ∧
      (∀ f, symMergeAux natLess (f + 1) (Mem.init [2, 5, 8, 1, 3, 4, 9]) 0 3 7 = (do
        let t ← (if 0 < start ∧ start < mid then symMergeAux natLess f s2 0 start mid
          else pure s2)
        if mid < e ∧ e < 7 then symMergeAux natLess f t mid e 7 else pure t)) :=
  ⟨natLess_strictWeak, by decide, by decide, by decide, by decide,
    sortedOn_of_pairwise natLess _ 0 3 (by decide) (by decide) (by decide),
    sortedOn_of_pairwise natLess _ 3 7 (by decide) (by decide) (by decide),
    sym_merge_split_invariant natLess natLess_strictWeak (Mem.init [2, 5, 8, 1, 3, 4, 9]) 0 3 7
      (by decide) (by decide) (by decide) (by decide)
      (sortedOn_of_pairwise natLess _ 0 3 (by decide) (by decide) (by decide))
      (sortedOn_of_pairwise natLess _ 3 7 (by decide) (by decide) (by decide))⟩

/-! ## Ghost values of the stable engine: non-degenerate arguments and recursion depth -/

/-- A loop and a copy of it that carries ghost values return the same result. -/
theorem iter_erase {σ σ' β β' : Type} (body : σ → Res (σ ⊕ β)) (body' : σ' → Res (σ' ⊕ β'))
    (π : σ' → σ) (ρ : β' → β)
    (h : ∀ s', body (π s') = (body' s' >>= fun r => Res.ok (Sum.map π ρ r))) :
    ∀ (f : Nat) (s' : σ'), iter body f (π s') = (iter body' f s' >>= fun r => Res.ok (ρ r)) := by
  intro f
  induction f with
  | zero => intro s'; rfl
  | succ f ih =>
    intro s'
    rw [iter, iter, h]
    cases hb : body' s' with
    | ok v =>
      cases v with
      | inl s'' => simp only [Res.ok_bind, Sum.map_inl]; exact ih s''
      | inr r => simp only [Res.ok_bind, Sum.map_inr]
    | oob => rfl
    | timeout => rfl

/-- Forgetting the ghost values of `symMergeTrace` gives `symMergeAux`. -/
theorem symMergeTrace_erase {α : Type} (comp : α → α → Bool) : ∀ (f : Nat) (s : Mem α)
    (a m b : Int), symMergeAux comp f s a m b
      = (symMergeTrace comp f s a m b >>= fun r => Res.ok r.1) := by
  intro f
  induction f with
  | zero => intro s a m b; rfl
  | succ f ih =>
    intro s a m b
    by_cases c1 : m - a = 1
    · rw [symMergeAux, symMergeTrace]
      simp only [c1, if_true, Res.bind_assoc, Res.pure_eq, Res.ok_bind]
      cases iter (lowerBoundBody comp a) ((b - m).toNat + 1) (m, b, s) with
      | ok r =>
        simp only [Res.ok_bind]
        cases iter (bubbleUpBody (r.1 - 1)) ((b - a).toNat + 1) (a, r.2) <;> rfl
      | oob => rfl
      | timeout => rfl
    · by_cases c2 : b - m = 1
      · rw [symMergeAux, symMergeTrace]
        simp only [c1, c2, if_true, if_false, Res.bind_assoc, Res.pure_eq, Res.ok_bind]
        cases iter (lowerBoundBody comp m) ((m - a).toNat + 1) (a, m, s) with
        | ok r =>
          simp only [Res.ok_bind]
          cases iter (bubbleDownBody r.1) ((b - a).toNat + 1) (m, r.2) <;> rfl
        | oob => rfl
        | timeout => rfl
      · rw [symMergeAux_general comp f s a m b c1 c2, symMergeTrace]
        simp only [c1, c2, if_false]
        cases symMergeSplit comp s a m b with
        | ok q =>
          simp only [Res.ok_bind]
          by_cases c5 : a < q.2.1 ∧ q.2.1 < q.1
          · simp only [c5, and_self, if_true]
            rw [ih]
            cases symMergeTrace comp f q.2.2.2 a q.2.1 q.1 with
            | ok t =>
              simp only [Res.ok_bind]
              by_cases c6 : q.1 < q.2.2.1 ∧ q.2.2.1 < b
              · simp only [c6, and_self, if_true]
                rw [ih]
                cases symMergeTrace comp f t.1 q.1 q.2.2.1 b <;> rfl
              · simp only [c6, if_false]
                rfl
            | oob => rfl
            | timeout => rfl
          · simp only [c5, if_false, Res.pure_eq, Res.ok_bind]
            by_cases c6 : q.1 < q.2.2.1 ∧ q.2.2.1 < b
            · simp only [c6, and_self, if_true]
              rw [ih]
              cases symMergeTrace comp f q.2.2.2 q.1 q.2.2.1 b <;> rfl
            · simp only [c6, if_false]
              rfl
        | oob => rfl
        | timeout => rfl

theorem clog_two_halved (x n : Nat) (hn : 2 ≤ n) (hx : x ≤ (n + 1) / 2) :
    1 + Nat.clog 2 x ≤ Nat.clog 2 n := by
  have e : Nat.clog 2 n = Nat.clog 2 ((n + 2 - 1) / 2) + 1 := Nat.clog_of_two_le (by omega) hn
  have h := Nat.clog_mono_right 2 (show x ≤ (n + 2 - 1) / 2 by omega)
  omega

/-- The symmetric merge returns; its calls are nested at most `⌈log₂ (b - a)⌉` deep, and
all calls of `_sym_merge` and `rotate` it makes have non-degenerate arguments within the
sequence. -/
theorem symMergeTrace_spec {α : Type} (comp : α → α → Bool) : ∀ (f : Nat) (s : Mem α)
    (a m b : Int), 0 ≤ a → a < m → m < b → b ≤ s.arr.length → (b - a).toNat < f →
    ∃ r, symMergeTrace comp f s a m b = .ok r ∧ Shuffle a b s.arr r.1.arr ∧
      r.2.1 ≤ Nat.clog 2 (b - a).toNat ∧ r.2.2 = true := by
  intro f
  induction f with
  | zero => intro s a m b _ _ _ _ h; omega
  | succ f ih =>
    intro s a m b ha ham hmb hb hf
    have hhere : decide (0 ≤ a ∧ a < m ∧ m < b ∧ b ≤ (s.arr.length : Int)) = true := by
      simp only [decide_eq_true_eq]
      exact ⟨ha, ham, hmb, hb⟩
    have hpos : 1 ≤ Nat.clog 2 (b - a).toNat := Nat.clog_pos (by omega) (by omega)
    rw [symMergeTrace]
    by_cases c1 : m - a = 1
    · obtain ⟨⟨i, t⟩, hr, g1, g2, g3, g4, -, -⟩ := lowerBound_spec comp s a m b
        ((b - m).toNat + 1) ⟨by omega, by omega⟩ (by omega) (by omega) hb (by omega)
      simp only at g1 g2 g3 g4
      obtain ⟨s', hs', k1, -, -⟩ := bubbleUp_spec t a (i - 1) ((b - a).toNat + 1)
        ha (by omega) (by rw [g1]; omega) (by omega)
      refine ⟨(s', 1, true), by simp [c1, hr, hs', hhere], ?_, hpos, rfl⟩
      rw [g1] at k1
      exact k1.widen (le_refl _) (by omega)
    · by_cases c2 : b - m = 1
      · obtain ⟨⟨i, t⟩, hr, g1, g2, g3, g4, -, -⟩ := lowerBound_spec comp s m a m
          ((m - a).toNat + 1) ⟨by omega, by omega⟩ (by omega) (by omega) (by omega) (by omega)
        simp only at g1 g2 g3 g4
        obtain ⟨s', hs', k1, -, -⟩ := bubbleDown_spec t i m ((b - a).toNat + 1)
          (by omega) (by omega) (by rw [g1]; omega) (by omega)
        refine ⟨(s', 1, true), by simp [c1, c2, hr, hs', hhere], ?_, hpos, rfl⟩
        rw [g1] at k1
        exact k1.widen (by omega) (by omega)
      · obtain ⟨start, s2, hq, g2, g3, g4, g5, g6, k2, -, -⟩ :=
          symMergeSplit_spec comp s a m b ha (by omega) (by omega) hb
        have hmid1 : a < (a + b) / 2 := by omega
        have hmid2 : (a + b) / 2 < b := by omega
        have hh1 : ((a + b) / 2 - a).toNat ≤ ((b - a).toNat + 1) / 2 := by omega
        have hh2 : (b - (a + b) / 2).toNat ≤ ((b - a).toNat + 1) / 2 := by omega
        generalize (a + b) / 2 = mid at *
        have hl2 := k2.length_eq
        have hrot : decide (start < m ∧ m < mid + m - start →
            0 ≤ start ∧ mid + m - start ≤ (s.arr.length : Int)) = true := by
          simp only [decide_eq_true_eq]
          intro _
          omega
        have hrec1 : ∃ t, (if a < start ∧ start < mid then symMergeTrace comp f s2 a start mid
            else pure (s2, 0, true)) = .ok t ∧ Shuffle a b s.arr t.1.arr ∧
            1 + t.2.1 ≤ Nat.clog 2 (b - a).toNat ∧ t.2.2 = true := by
          by_cases c5 : a < start ∧ start < mid
          · obtain ⟨t, ht, k3, d3, n3⟩ := ih s2 a start mid ha c5.1 c5.2 (by omega) (by omega)
            refine ⟨t, by simp [c5, ht], k2.trans (k3.widen (le_refl _) (by omega)), ?_, n3⟩
            have := clog_two_halved (mid - a).toNat (b - a).toNat (by omega) hh1
            omega
          · exact ⟨(s2, 0, true), by simp [c5], k2, by simp; omega, rfl⟩
        obtain ⟨t, ht, k3, d3, n3⟩ := hrec1
        have hl3 := k3.length_eq
        have hrec2 : ∃ u, (if mid < mid + m - start ∧ mid + m - start < b then
            symMergeTrace comp f t.1 mid (mid + m - start) b else pure (t.1, 0, true)) = .ok u ∧
            Shuffle a b s.arr u.1.arr ∧ 1 + u.2.1 ≤ Nat.clog 2 (b - a).toNat ∧
            u.2.2 = true := by
          by_cases c6 : mid < mid + m - start ∧ mid + m - start < b
          · obtain ⟨u, hu, k4, d4, n4⟩ := ih t.1 mid (mid + m - start) b (by omega) c6.1 c6.2
              (by omega) (by omega)
            refine ⟨u, by simp [c6, hu], k3.trans (k4.widen (by omega) (le_refl _)), ?_, n4⟩
            have := clog_two_halved (b - mid).toNat (b - a).toNat (by omega) hh2
            omega
          · exact ⟨(t.1, 0, true), by simp [c6], k3, by simp; omega, rfl⟩
        obtain ⟨u, hu, k4, d4, n4⟩ := hrec2
        refine ⟨(u.1, 1 + max t.2.1 u.2.1, true), ?_, k4, ?_, rfl⟩
        · simp only [c1, c2, if_false, hq, Res.ok_bind, ht, hu, hhere, hrot, n3, n4]
          rfl
        · simp only
          omega

/-- Forgetting the ghost flag of `stableTrace` gives `_stable`. -/
theorem stableTrace_erase {α : Type} (comp : α → α → Bool) (s : Mem α) (n : Int) :
    _stable comp s n = (stableTrace comp s n >>= fun r => Res.ok r.1) := by
  have hpass : ∀ (bs : Int) (f : Nat) (p : Int × Int × Mem α × Bool),
      iter (stablePassBody comp n bs) f (p.1, p.2.1, p.2.2.1) =
        (iter (stablePassTraceBody comp n bs) f p >>= fun r => Res.ok (r.1, r.2.1)) := by
    intro bs
    apply iter_erase (stablePassBody comp n bs) (stablePassTraceBody comp n bs)
      (fun p => (p.1, p.2.1, p.2.2.1)) (fun r => (r.1, r.2.1))
    rintro ⟨a, b, v, g⟩
    simp only [stablePassBody, stablePassTraceBody]
    by_cases c : b ≤ n
    · simp only [c, if_true, _sym_merge, symMergeTrace_erase]
      cases symMergeTrace comp ((b - a).toNat + 1) v a (a + bs) b <;> rfl
    · simp only [c, if_false]
      rfl
  have hbody : ∀ p : Int × Mem α × Bool, stableMergeBody comp n (p.1, p.2.1) =
      (stableMergeTraceBody comp n p >>= fun r =>
        Res.ok (Sum.map (fun q : Int × Mem α × Bool => (q.1, q.2.1))
          (fun q : Mem α × Bool => q.1) r)) := by
    rintro ⟨bs, u, g⟩
    simp only [stableMergeBody, stableMergeTraceBody]
    by_cases c : bs < n
    · simp only [c, if_true]
      rw [hpass bs (n.toNat + 1) (0, 2 * bs, u, g)]
      cases iter (stablePassTraceBody comp n bs) (n.toNat + 1) (0, 2 * bs, u, g) with
      | ok r =>
        simp only [Res.ok_bind]
        by_cases c' : r.1 + bs < n
        · simp only [c', if_true, _sym_merge, symMergeTrace_erase]
          cases symMergeTrace comp ((n - r.1).toNat + 1) r.2.1 r.1 (r.1 + bs) n <;> rfl
        · simp only [c', if_false]
          rfl
      | oob => rfl
      | timeout => rfl
    · simp only [c, if_false]
      rfl
  rw [stable_phases, stableTrace, Res.bind_assoc]
  cases stableBlocks comp s n with
  | ok t =>
    simp only [Res.ok_bind]
    exact iter_erase (stableMergeBody comp n) (stableMergeTraceBody comp n)
      (fun q => (q.1, q.2.1)) (fun q => q.1) hbody (n.toNat + 1) (20, t, true)
  | oob => rfl
  | timeout => rfl

theorem stableBlocks_safe {α : Type} (comp : α → α → Bool) (s : Mem α) (n : Int)
    (hn0 : 0 ≤ n) (hn : n ≤ s.arr.length) :
    ∃ t1, stableBlocks comp s n = .ok t1 ∧ Shuffle 0 n s.arr t1.arr := by
  have hblocks : ∃ r, iter (stableBlocksBody comp n 20) (n.toNat + 1) (0, 20, s) = .ok r ∧
      (0 ≤ r.1 ∧ r.1 ≤ n ∧ Shuffle 0 n s.arr r.2.arr) := by
    apply iter_total (stableBlocksBody comp n 20)
      (fun p => 0 ≤ p.1 ∧ p.1 ≤ n ∧ p.1 < p.2.1 ∧ Shuffle 0 n s.arr p.2.2.arr)
      (fun p => (n - p.1).toNat)
    · rintro ⟨a, b, t⟩ ⟨h1, h2, h3, h4⟩
      have hl := h4.length_eq
      simp only at h1 h2 h3 h4 hl
      by_cases hc : b ≤ n
      · obtain ⟨t', ht', k⟩ := insertion_sort_safe comp t a b h1 (by omega)
        have hbd : stableBlocksBody comp n 20 (a, b, t) = .ok (.inl (b, b + 2 * 20, t')) := by
          simp [stableBlocksBody, hc, ht']
        exact Or.inl ⟨_, hbd, ⟨by simp <;> omega, by simp <;> omega, by simp <;> omega,
          h4.trans (k.widen h1 hc)⟩, by simp <;> omega⟩
      · have hbd : stableBlocksBody comp n 20 (a, b, t) = .ok (.inr (a, t)) := by
          simp [stableBlocksBody, hc]
        exact Or.inr ⟨_, hbd, h1, h2, h4⟩
    · exact ⟨le_refl _, hn0, by simp, Shuffle.refl _⟩
    · simp
  obtain ⟨⟨a, t⟩, hr, h1, h2, h3⟩ := hblocks
  simp only at h1 h2 h3
  have hl := h3.length_eq
  obtain ⟨t1, ht1, k1⟩ := insertion_sort_safe comp t a n h1 (by omega)
  exact ⟨t1, by simp only [stableBlocks, hr, Res.ok_bind, ht1],
    h3.trans (k1.widen h1 (le_refl _))⟩

/-- The stable engine returns with its ghost flag set: all its calls of `_sym_merge` and
`rotate` have non-degenerate arguments within the sequence. -/
theorem stableTrace_spec {α : Type} (comp : α → α → Bool) (s : Mem α) (n : Int)
    (hn0 : 0 ≤ n) (hn : n ≤ s.arr.length) :
    ∃ s', stableTrace comp s n = .ok (s', true) ∧ Shuffle 0 n s.arr s'.arr := by
  obtain ⟨t1, ht1, k1'⟩ := stableBlocks_safe comp s n hn0 hn
  have hmerge : ∃ r, iter (stableMergeTraceBody comp n) (n.toNat + 1) (20, t1, true) = .ok r ∧
      (Shuffle 0 n s.arr r.1.arr ∧ r.2 = true) := by
    apply iter_total (stableMergeTraceBody comp n)
      (fun p => 0 < p.1 ∧ Shuffle 0 n s.arr p.2.1.arr ∧ p.2.2 = true)
      (fun p => (n - p.1).toNat)
    · rintro ⟨bs, u, g⟩ ⟨g1, g2, g3⟩
      have hlu := g2.length_eq
      simp only at g1 g2 g3 hlu
      subst g3
      by_cases hc : bs < n
      · have hpass : ∃ r, iter (stablePassTraceBody comp n bs) (n.toNat + 1)
              (0, 2 * bs, u, true) = .ok r ∧
            (0 ≤ r.1 ∧ r.1 ≤ n ∧ Shuffle 0 n s.arr r.2.1.arr ∧ r.2.2 = true) := by
          apply iter_total (stablePassTraceBody comp n bs)
            (fun p => 0 ≤ p.1 ∧ p.1 ≤ n ∧ p.2.1 = p.1 + 2 * bs ∧
              Shuffle 0 n s.arr p.2.2.1.arr ∧ p.2.2.2 = true)
            (fun p => (n - p.1).toNat)
          · rintro ⟨a', b', v, g'⟩ ⟨q1, q2, q3, q4, q5⟩
            have hlv := q4.length_eq
            simp only at q1 q2 q3 q4 q5 hlv
            subst q5
            by_cases hc' : b' ≤ n
            · obtain ⟨⟨v', d, g''⟩, hv', kv, -, gv⟩ := symMergeTrace_spec comp
                ((b' - a').toNat + 1) v a' (a' + bs) b' q1 (by omega) (by omega) (by omega)
                (by omega)
              simp only at kv gv
              subst gv
              have hbd : stablePassTraceBody comp n bs (a', b', v, true) =
                  .ok (.inl (b', b' + 2 * bs, v', true)) := by
                simp [stablePassTraceBody, hc', hv']
              exact Or.inl ⟨_, hbd, ⟨by simp <;> omega, by simp <;> omega, by simp,
                q4.trans (kv.widen q1 hc'), rfl⟩, by simp <;> omega⟩
            · have hbd : stablePassTraceBody comp n bs (a', b', v, true) =
                  .ok (.inr (a', v, true)) := by
                simp [stablePassTraceBody, hc']
              exact Or.inr ⟨_, hbd, q1, q2, q4, rfl⟩
          · exact ⟨le_refl _, hn0, by simp, g2, rfl⟩
          · simp
        obtain ⟨⟨a', v, g'⟩, hv, q1, q2, q4, q5⟩ := hpass
        simp only at q1 q2 q4 q5
        subst q5
        have hlv := q4.length_eq
        have hlast : ∃ w, (if a' + bs < n then do
              let t ← symMergeTrace comp ((n - a').toNat + 1) v a' (a' + bs) n
              pure (t.1, true && t.2.2)
            else pure (v, true) : Res (Mem α × Bool)) = .ok (w, true) ∧
            Shuffle 0 n s.arr w.arr := by
          by_cases c : a' + bs < n
          · obtain ⟨⟨w, d, g''⟩, hw, kw, -, gw⟩ := symMergeTrace_spec comp
              ((n - a').toNat + 1) v a' (a' + bs) n q1 (by omega) c (by omega) (by omega)
            simp only at kw gw
            subst gw
            exact ⟨w, by simp [c, hw], q4.trans (kw.widen q1 (le_refl _))⟩
          · exact ⟨v, by simp [c], q4⟩
        obtain ⟨w, hw, kw⟩ := hlast
        have hbd : stableMergeTraceBody comp n (bs, u, true) = .ok (.inl (bs * 2, w, true)) := by
          simp only [stableMergeTraceBody, hc, if_true, hv, Res.ok_bind, hw]
          rfl
        exact Or.inl ⟨_, hbd, ⟨by simp <;> omega, kw, rfl⟩, by simp <;> omega⟩
      · have hbd : stableMergeTraceBody comp n (bs, u, true) = .ok (.inr (u, true)) := by
          simp [stableMergeTraceBody, hc]
        exact Or.inr ⟨_, hbd, g2, rfl⟩
    · exact ⟨by simp, k1', rfl⟩
    · simp <;> omega
  obtain ⟨⟨s', g⟩, hs', ks', gs⟩ := hmerge
  simp only at ks' gs
  subst gs
  exact ⟨s', by simp only [stableTrace, ht1, Res.ok_bind, hs'], ks'⟩

/-- C37: for every input and every comparator, `sort_stable` returns and in its run every
call of `_sym_merge` made by `_stable`, every recursive call of `_sym_merge` and every call
of `rotate` made by `_sym_merge` has arguments `0 ≤ a < m < b ≤ n` (the ghost flag of
`stableTrace` is `true`). -/
theorem stable_calls_nondegenerate {α : Type} (comp : α → α → Bool) (l : List α) :
    ∃ s', stableTrace comp (Mem.init l) (l.length : Int) = .ok (s', true) ∧
      sort_stable comp l = .ok s' := by
  obtain ⟨s', hs', -⟩ := stableTrace_spec comp (Mem.init l) (l.length : Int) (by omega)
    (by simp [Mem.init])
  refine ⟨s', hs', ?_⟩
  rw [sort_stable, stableTrace_erase, hs']
  rfl

/-- C38: for `0 ≤ a < m < b ≤ n` and every comparator, `_sym_merge(arr, a, m, b, comp)`
returns and its calls are nested at most `⌈log₂ (b - a)⌉` deep, the outermost call counted;
in the general case the recursive calls are on `(a, start, mid)` and `(mid, end, b)` with
`mid = (a + b) / 2`. -/
theorem sym_merge_recursion_depth {α : Type} (comp : α → α → Bool) (s : Mem α) (a m b : Int)
    (ha : 0 ≤ a) (ham : a < m) (hmb : m < b) (hb : b ≤ s.arr.length) :
    ∃ s' depth nondeg,
      symMergeTrace comp ((b - a).toNat + 1) s a m b = .ok (s', depth, nondeg) ∧
      _sym_merge comp s a m b = .ok s' ∧ depth ≤ Nat.clog 2 (b - a).toNat ∧
      (∀ (f : Nat), ¬ m - a = 1 → ¬ b - m = 1 →
        symMergeAux comp (f + 1) s a m b = (do
          let q ← symMergeSplit comp s a m b
          let t ← (if a < q.2.1 ∧ q.2.1 < q.1 then symMergeAux comp f q.2.2.2 a q.2.1 q.1
            else pure q.2.2.2)
          if q.1 < q.2.2.1 ∧ q.2.2.1 < b then symMergeAux comp f t q.1 q.2.2.1 b
          else pure t) ∧
        ∃ q, symMergeSplit comp s a m b = .ok q ∧ q.1 = (a + b) / 2) := by
  obtain ⟨⟨s', depth, nondeg⟩, hr, -, hd, -⟩ := symMergeTrace_spec comp ((b - a).toNat + 1)
    s a m b ha ham hmb hb (by omega)
  refine ⟨s', depth, nondeg, hr, ?_, hd, ?_⟩
  · rw [_sym_merge, symMergeTrace_erase, hr]
    rfl
  · intro f c1 c2
    refine ⟨symMergeAux_general comp f s a m b c1 c2, ?_⟩
    obtain ⟨start, s2, hq, -⟩ := symMergeSplit_spec comp s a m b ha (by omega) (by omega) hb
    exact ⟨_, hq, rfl⟩

theorem sym_merge_recursion_depth_witness :
    (0 : Int) ≤ 0 ∧ (0 : Int) < 4 ∧ (4 : Int) < 8 ∧
    (8 : Int) ≤ (Mem.init [1, 3, 5, 7, 2, 4, 6, 8]).arr.length ∧
    ∃ s' depth nondeg,
      symMergeTrace natLess (((8 : Int) - 0).toNat + 1) (Mem.init [1, 3, 5, 7, 2, 4, 6, 8]) 0 4 8
        = .ok (s', depth, nondeg) ∧
      _sym_merge natLess (Mem.init [1, 3, 5, 7, 2, 4, 6, 8]) 0 4 8 = .ok s' ∧
      depth ≤ Nat.clog 2 ((8 : Int) - 0).toNat ∧
      (∀ (f : Nat), ¬ (4 : Int) - 0 = 1 → ¬ (8 : Int) - 4 = 1 →
        symMergeAux natLess (f + 1) (Mem.init [1, 3, 5, 7, 2, 4, 6, 8]) 0 4 8 = (do
          let q ← symMergeSplit natLess (Mem.init [1, 3, 5, 7, 2, 4, 6, 8]) 0 4 8
          let t ← (if 0 < q.2.1 ∧ q.2.1 < q.1 then symMergeAux natLess f q.2.2.2 0 q.2.1 q.1
            else pure q.2.2.2)
          if q.1 < q.2.2.1 ∧ q.2.2.1 < 8 then symMergeAux natLess f t q.1 q.2.2.1 8
          else pure t) ∧
        ∃ q, symMergeSplit natLess (Mem.init [1, 3, 5, 7, 2, 4, 6, 8]) 0 4 8 = .ok q ∧
          q.1 = (0 + 8) / 2) :=
  ⟨by decide, by decide, by decide, by decide,
    sym_merge_recursion_depth natLess (Mem.init [1, 3, 5, 7, 2, 4, 6, 8]) 0 4 8
      (by decide) (by decide) (by decide) (by decide)⟩

/-! ## Ghost counters of self-swaps in the unstable engine -/

theorem swapOther_erase {α : Type} (p : Mem α × Nat × Nat) (i j : Int) :
    (swapOther p i j >>= fun r => Res.ok r.1) = swap p.1 i j := by
  unfold swapOther
  cases swap p.1 i j <;> rfl

theorem swapExtract_erase {α : Type} (p : Mem α × Nat × Nat) (i j : Int) :
    (swapExtract p i j >>= fun r => Res.ok r.1) = swap p.1 i j := by
  unfold swapExtract
  cases swap p.1 i j <;> rfl

theorem insInnerSelf_erase {α : Type} (comp : α → α → Bool) (a i : Int)
    (p : Mem α × Nat × Nat) :
    insInner comp a i p.1 = (insInnerSelf comp a i p >>= fun r => Res.ok r.1) := by
  unfold insInner insInnerSelf
  refine iter_erase (insInnerBody comp a) (insInnerSelfBody comp a)
    (fun q => (q.1, q.2.1)) (fun r => r.1) ?_ _ (i, p)
  rintro ⟨j, s, g⟩
  simp only [insInnerBody, insInnerSelfBody]
  by_cases c : j > a
  · simp only [c, if_true]
    cases less comp s j (j - 1) with
    | ok r =>
      simp only [Res.ok_bind]
      cases hr : r.1
      · rfl
      · simp only [if_true, swapOther]
        cases swap r.2 j (j - 1) <;> rfl
    | oob => rfl
    | timeout => rfl
  · simp only [c, if_false]
    rfl

theorem insertionSortSelf_erase {α : Type} (comp : α → α → Bool) (p : Mem α × Nat × Nat)
    (a b : Int) :
    _insertion_sort comp p.1 a b = (insertionSortSelf comp p a b >>= fun r => Res.ok r.1) := by
  unfold _insertion_sort insertionSortSelf
  refine iter_erase (insOuterBody comp a b) (insOuterSelfBody comp a b)
    (fun q => (q.1, q.2.1)) (fun r => r.1) ?_ _ (a + 1, p)
  rintro ⟨i, q⟩
  simp only [insOuterBody, insOuterSelfBody]
  by_cases c : i < b
  · simp only [c, if_true, insInnerSelf_erase comp a i q]
    cases insInnerSelf comp a i q <;> rfl
  · simp only [c, if_false]
    rfl

theorem heapSiftSelf_erase {α : Type} (comp : α → α → Bool) (p : Mem α × Nat × Nat)
    (lo hi first : Int) :
    _heap_sift comp p.1 lo hi first
      = (heapSiftSelf comp p lo hi first >>= fun r => Res.ok r.1) := by
  unfold _heap_sift heapSiftSelf
  refine iter_erase (heapSiftBody comp hi first) (heapSiftSelfBody comp hi first)
    (fun q => (q.1, q.2.1)) (fun r => r.1) ?_ _ (lo, p)
  rintro ⟨root, s, g⟩
  simp only [heapSiftBody, heapSiftSelfBody]
  by_cases c : 2 * root + 1 ≥ hi
  · simp only [c, if_true]
    rfl
  · simp only [c, if_false]
    cases (if 2 * root + 1 + 1 < hi then do
        let r ← less comp s (first + (2 * root + 1)) (first + (2 * root + 1) + 1)
        pure (if r.1 then 2 * root + 1 + 1 else 2 * root + 1, r.2)
      else pure (2 * root + 1, s) : Res (Int × Mem α)) with
    | ok q =>
      simp only [Res.ok_bind]
      cases less comp q.2 (first + q.1) (first + root) with
      | ok r =>
        simp only [Res.ok_bind]
        cases hr : r.1
        · simp only [swapOther]
          cases swap r.2 (first + root) (first + q.1) <;> rfl
        · rfl
      | oob => rfl
      | timeout => rfl
    | oob => rfl
    | timeout => rfl

theorem heapSortSelf_erase {α : Type} (comp : α → α → Bool) (p : Mem α × Nat × Nat)
    (a b : Int) :
    _heap_sort comp p.1 a b = (heapSortSelf comp p a b >>= fun r => Res.ok r.1) := by
  have hbuild : ∀ (f : Nat) (q : Int × Mem α × Nat × Nat),
      iter (heapBuildBody comp (b - a) a) f (q.1, q.2.1)
        = (iter (heapBuildSelfBody comp (b - a) a) f q >>= fun r => Res.ok r.1) := by
    apply iter_erase (heapBuildBody comp (b - a) a) (heapBuildSelfBody comp (b - a) a)
      (fun q => (q.1, q.2.1)) (fun r => r.1)
    rintro ⟨i, q⟩
    simp only [heapBuildBody, heapBuildSelfBody]
    by_cases c : i ≥ 0
    · simp only [c, if_true, heapSiftSelf_erase comp q i (b - a) a]
      cases heapSiftSelf comp q i (b - a) a <;> rfl
    · simp only [c, if_false]
      rfl
  have hpop : ∀ (f : Nat) (q : Int × Mem α × Nat × Nat),
      iter (heapPopBody comp 0 a) f (q.1, q.2.1)
        = (iter (heapPopSelfBody comp 0 a) f q >>= fun r => Res.ok r.1) := by
    apply iter_erase (heapPopBody comp 0 a) (heapPopSelfBody comp 0 a)
      (fun q => (q.1, q.2.1)) (fun r => r.1)
    rintro ⟨i, q⟩
    simp only [heapPopBody, heapPopSelfBody]
    by_cases c : i ≥ 0
    · simp only [c, if_true, ← swapExtract_erase q a (a + i), Res.bind_assoc, Res.ok_bind]
      cases swapExtract q a (a + i) with
      | ok q1 =>
        simp only [Res.ok_bind, heapSiftSelf_erase comp q1 0 i a]
        cases heapSiftSelf comp q1 0 i a <;> rfl
      | oob => rfl
      | timeout => rfl
    · simp only [c, if_false]
      rfl
  simp only [_heap_sort, heapSortSelf]
  rw [hbuild ((b - a).toNat + 2) (cdiv (b - a - 1) 2, p)]
  cases iter (heapBuildSelfBody comp (b - a) a) ((b - a).toNat + 2) (cdiv (b - a - 1) 2, p) with
  | ok q =>
    simp only [Res.ok_bind]
    exact hpop ((b - a).toNat + 2) (b - a - 1, q)
  | oob => rfl
  | timeout => rfl

theorem medianOf3Self_erase {α : Type} (comp : α → α → Bool) (p : Mem α × Nat × Nat)
    (m1 m0 m2 : Int) :
    _median_of_3 comp p.1 m1 m0 m2 = (medianOf3Self comp p m1 m0 m2 >>= fun r => Res.ok r.1) := by
  obtain ⟨s, g⟩ := p
  have last : ∀ (c : Bool) (s1 : Mem α) (g1 : Nat × Nat),
      (if c = true then swap s1 m1 m0 else pure s1) =
        ((if c = true then swapOther (s1, g1) m1 m0 else pure (s1, g1)) >>=
          fun r => Res.ok r.1) := by
    intro c s1 g1
    cases c
    · rfl
    · simp only [if_true, swapOther_erase]
  have tail : ∀ (s1 : Mem α) (g1 : Nat × Nat),
      (do
        let r ← less comp s1 m2 m1
        if r.1 = true then do
          let s ← swap r.2 m2 m1
          let r ← less comp s m1 m0
          if r.1 = true then swap r.2 m1 m0 else pure r.2
        else pure r.2) =
      ((do
        let r ← less comp s1 m2 m1
        if r.1 = true then do
          let p ← swapOther (r.2, g1) m2 m1
          let r ← less comp p.1 m1 m0
          if r.1 = true then swapOther (r.2, p.2) m1 m0 else pure (r.2, p.2)
        else pure (r.2, g1)) >>= fun r => Res.ok r.1) := by
    intro s1 g1
    cases less comp s1 m2 m1 with
    | ok r =>
      simp only [Res.ok_bind]
      cases hr : r.1
      · rfl
      · simp only [if_true, swapOther]
        cases swap r.2 m2 m1 with
        | ok s2 =>
          simp only [Res.ok_bind, Res.pure_eq]
          cases less comp s2 m1 m0 with
          | ok r2 =>
            simp only [Res.ok_bind]
            exact last r2.1 r2.2 _
          | oob => rfl
          | timeout => rfl
        | oob => rfl
        | timeout => rfl
    | oob => rfl
    | timeout => rfl
  simp only [_median_of_3, medianOf3Self]
  cases less comp s m1 m0 with
  | ok r =>
    simp only [Res.ok_bind]
    cases hr : r.1
    · simp only [Bool.false_eq_true, if_false, Res.pure_eq, Res.ok_bind]
      exact tail r.2 g
    · simp only [if_true, swapOther]
      cases swap r.2 m1 m0 with
      | ok s1 =>
        simp only [Res.ok_bind, Res.pure_eq]
        exact tail s1 _
      | oob => rfl
      | timeout => rfl
  | oob => rfl
  | timeout => rfl

theorem pivotSelectSelf_erase {α : Type} (comp : α → α → Bool) (p : Mem α × Nat × Nat)
    (lo hi : Int) :
    pivotSelect comp p.1 lo hi = (pivotSelectSelf comp p lo hi >>= fun r => Res.ok r.1) := by
  simp only [pivotSelect, pivotNinther, pivotSelectSelf]
  by_cases c : hi - lo > 40
  · simp only [c, if_true, Res.bind_assoc]
    rw [medianOf3Self_erase comp p]
    cases medianOf3Self comp p lo (lo + cdiv (hi - lo) 8) (lo + 2 * cdiv (hi - lo) 8) with
    | ok p1 =>
      simp only [Res.ok_bind]
      rw [medianOf3Self_erase comp p1]
      cases medianOf3Self comp p1 ((lo + hi) >>> (1 : Nat))
        ((lo + hi) >>> (1 : Nat) - cdiv (hi - lo) 8)
        ((lo + hi) >>> (1 : Nat) + cdiv (hi - lo) 8) with
      | ok p2 =>
        simp only [Res.ok_bind]
        rw [medianOf3Self_erase comp p2]
        cases medianOf3Self comp p2 (hi - 1) (hi - 1 - cdiv (hi - lo) 8)
          (hi - 1 - 2 * cdiv (hi - lo) 8) with
        | ok p3 =>
          simp only [Res.ok_bind]
          exact medianOf3Self_erase comp p3 _ _ _
        | oob => rfl
        | timeout => rfl
      | oob => rfl
      | timeout => rfl
    | oob => rfl
    | timeout => rfl
  · simp only [c, if_false, Res.pure_eq, Res.ok_bind]
    exact medianOf3Self_erase comp p _ _ _

theorem Res.bind_ok_triple {β γ δ : Type} (x : Res (β × γ × δ)) :
    (x >>= fun a => Res.ok (a.1, a.2.1, a.2.2)) = x := by
  cases x <;> rfl

theorem doPivotSelf_erase {α : Type} (comp : α → α → Bool) (p : Mem α × Nat × Nat)
    (lo hi : Int) :
    _do_pivot comp p.1 lo hi
      = (doPivotSelf comp p lo hi >>= fun r => Res.ok (r.1.1, r.2.1, r.2.2)) := by
  rw [do_pivot_stages]
  simp only [pivotPartition, doPivotSelf, Res.bind_assoc, Res.pure_eq, Res.ok_bind]
  rw [pivotSelectSelf_erase comp p, Res.bind_assoc]
  simp only [Res.ok_bind, Res.bind_ok_triple]

theorem shellSortSelf_erase {α : Type} (comp : α → α → Bool) (p : Mem α × Nat × Nat)
    (a b : Int) :
    _shell_sort comp p.1 a b = (shellSortSelf comp p a b >>= fun r => Res.ok r.1) := by
  unfold _shell_sort shellSortSelf
  refine iter_erase (shellBody comp b) (shellSelfBody comp b)
    (fun q => (q.1, q.2.1)) (fun r => r.1) ?_ _ (a + 6, p)
  rintro ⟨i, s, g⟩
  simp only [shellBody, shellSelfBody]
  by_cases c : i < b
  · simp only [c, if_true]
    cases less comp s i (i - 6) with
    | ok r =>
      simp only [Res.ok_bind]
      cases hr : r.1
      · rfl
      · simp only [if_true, swapOther]
        cases swap r.2 i (i - 6) <;> rfl
    | oob => rfl
    | timeout => rfl
  · simp only [c, if_false]
    rfl

theorem quickSortLoopSelf_erase {α : Type} (comp : α → α → Bool) : ∀ (f : Nat)
    (p : Mem α × Nat × Nat) (a b d : Int), quickSortLoopAux comp f p.1 a b d
      = (quickSortLoopSelf comp f p a b d >>= fun r => Res.ok r.1) := by
  intro f
  induction f with
  | zero => intro p a b d; rfl
  | succ f ih =>
    intro p a b d
    rw [quickSortLoopAux, quickSortLoopSelf]
    by_cases c1 : b - a > 12
    · by_cases c2 : d = 0
      · simp only [c1, c2, if_true]
        exact heapSortSelf_erase comp p a b
      · simp only [c1, c2, if_true, if_false]
        rw [doPivotSelf_erase comp p, Res.bind_assoc]
        cases doPivotSelf comp p a b with
        | ok r =>
          simp only [Res.ok_bind]
          by_cases c3 : r.2.1 - a < b - r.2.2
          · simp only [c3, if_true]
            rw [ih r.1, Res.bind_assoc]
            cases quickSortLoopSelf comp f r.1 a r.2.1 (d - 1) with
            | ok t =>
              simp only [Res.ok_bind]
              exact ih t _ _ _
            | oob => rfl
            | timeout => rfl
          · simp only [c3, if_false]
            rw [ih r.1, Res.bind_assoc]
            cases quickSortLoopSelf comp f r.1 r.2.2 b (d - 1) with
            | ok t =>
              simp only [Res.ok_bind]
              exact ih t _ _ _
            | oob => rfl
            | timeout => rfl
        | oob => rfl
        | timeout => rfl
    · by_cases c2 : b - a > 1
      · simp only [c1, c2, if_true, if_false]
        rw [shellSortSelf_erase comp p, Res.bind_assoc]
        cases shellSortSelf comp p a b with
        | ok t =>
          simp only [Res.ok_bind]
          exact insertionSortSelf_erase comp t a b
        | oob => rfl
        | timeout => rfl
      · simp only [c1, c2, if_false]
        rfl

/-- Forgetting the ghost counters of `sortUnstableSelf` gives `sort_unstable`. -/
theorem sortUnstableSelf_erase {α : Type} (comp : α → α → Bool) (l : List α) :
    sort_unstable comp l = (sortUnstableSelf comp l >>= fun r => Res.ok r.1) := by
  simp only [sort_unstable, sortUnstableSelf, _quick_sort_loop, Res.bind_assoc]
  cases _max_depth (l.length : Int) with
  | ok d =>
    simp only [Res.ok_bind]
    exact quickSortLoopSelf_erase comp _ (Mem.init l, 0, 0) 0 _ d
  | oob => rfl
  | timeout => rfl

theorem swapOther_count {α : Type} {p r : Mem α × Nat × Nat} {i j : Int}
    (h : swapOther p i j = .ok r) (hij : i ≠ j) : r.2 = p.2 := by
  unfold swapOther at h
  obtain ⟨s, -, h⟩ := (Res.bind_eq_ok _ _ _).mp h
  simp only [Res.pure_eq, Res.ok.injEq] at h
  subst h
  simp [hij]

theorem swapExtract_count {α : Type} {p r : Mem α × Nat × Nat} {i j : Int}
    (h : swapExtract p i j = .ok r) :
    r.2.1 = p.2.1 + (if i = j then 1 else 0) ∧ r.2.2 = p.2.2 := by
  unfold swapExtract at h
  obtain ⟨s, -, h⟩ := (Res.bind_eq_ok _ _ _).mp h
  simp only [Res.pure_eq, Res.ok.injEq] at h
  subst h
  exact ⟨rfl, rfl⟩

theorem insInnerSelf_count {α : Type} (comp : α → α → Bool) (a i : Int)
    (p r : Mem α × Nat × Nat) (h : insInnerSelf comp a i p = .ok r) : r.2 = p.2 := by
  unfold insInnerSelf at h
  refine iter_inv (insInnerSelfBody comp a) (fun q => q.2.2 = p.2) (fun r => r.2 = p.2)
    ?_ _ _ _ rfl h
  rintro ⟨j, s, g⟩ hinv
  simp only at hinv
  subst hinv
  constructor
  · intro q hb
    unfold insInnerSelfBody at hb
    simp only at hb
    split at hb
    · obtain ⟨c, hc, hb⟩ := (Res.bind_eq_ok _ _ _).mp hb
      split at hb
      · obtain ⟨t, ht, hb⟩ := (Res.bind_eq_ok _ _ _).mp hb
        simp only [Res.pure_eq, Res.ok.injEq, Sum.inl.injEq] at hb
        subst hb
        have e := swapOther_count ht (show j ≠ j - 1 by omega)
        exact e
      · simp at hb
    · simp at hb
  · intro q hb
    unfold insInnerSelfBody at hb
    simp only at hb
    split at hb
    · obtain ⟨c, hc, hb⟩ := (Res.bind_eq_ok _ _ _).mp hb
      split at hb
      · obtain ⟨t, ht, hb⟩ := (Res.bind_eq_ok _ _ _).mp hb
        simp at hb
      · simp only [Res.pure_eq, Res.ok.injEq, Sum.inr.injEq] at hb
        subst hb
        rfl
    · simp only [Res.pure_eq, Res.ok.injEq, Sum.inr.injEq] at hb
      subst hb
      rfl

theorem insertionSortSelf_count {α : Type} (comp : α → α → Bool) (a b : Int)
    (p r : Mem α × Nat × Nat) (h : insertionSortSelf comp p a b = .ok r) : r.2 = p.2 := by
  unfold insertionSortSelf at h
  refine iter_inv (insOuterSelfBody comp a b) (fun q => q.2.2 = p.2) (fun r => r.2 = p.2)
    ?_ _ _ _ rfl h
  rintro ⟨i, q⟩ hinv
  simp only at hinv
  constructor
  · intro q' hb
    unfold insOuterSelfBody at hb
    simp only at hb
    split at hb
    · obtain ⟨t, ht, hb⟩ := (Res.bind_eq_ok _ _ _).mp hb
      simp only [Res.pure_eq, Res.ok.injEq, Sum.inl.injEq] at hb
      subst hb
      simp only
      rw [insInnerSelf_count comp a i q t ht, hinv]
    · simp at hb
  · intro q' hb
    unfold insOuterSelfBody at hb
    simp only at hb
    split at hb
    · obtain ⟨t, ht, hb⟩ := (Res.bind_eq_ok _ _ _).mp hb
      simp at hb
    · simp only [Res.pure_eq, Res.ok.injEq, Sum.inr.injEq] at hb
      subst hb
      exact hinv

theorem shellSortSelf_count {α : Type} (comp : α → α → Bool) (a b : Int)
    (p r : Mem α × Nat × Nat) (h : shellSortSelf comp p a b = .ok r) : r.2 = p.2 := by
  unfold shellSortSelf at h
  refine iter_inv (shellSelfBody comp b) (fun q => q.2.2 = p.2) (fun r => r.2 = p.2)
    ?_ _ _ _ rfl h
  rintro ⟨i, s, g⟩ hinv
  simp only at hinv
  subst hinv
  constructor
  · intro q hb
    unfold shellSelfBody at hb
    simp only at hb
    split at hb
    · obtain ⟨c, hc, hb⟩ := (Res.bind_eq_ok _ _ _).mp hb
      obtain ⟨t, ht, hb⟩ := (Res.bind_eq_ok _ _ _).mp hb
      simp only [Res.pure_eq, Res.ok.injEq, Sum.inl.injEq] at hb
      subst hb
      simp only
      split at ht
      · have e := swapOther_count ht (show i ≠ i - 6 by omega)
        exact e
      · simp only [Res.pure_eq, Res.ok.injEq] at ht
        subst ht
        rfl
    · simp at hb
  · intro q hb
    unfold shellSelfBody at hb
    simp only at hb
    split at hb
    · obtain ⟨c, hc, hb⟩ := (Res.bind_eq_ok _ _ _).mp hb
      obtain ⟨t, ht, hb⟩ := (Res.bind_eq_ok _ _ _).mp hb
      simp at hb
    · simp only [Res.pure_eq, Res.ok.injEq, Sum.inr.injEq] at hb
      subst hb
      rfl

theorem heapSiftSelf_count {α : Type} (comp : α → α → Bool) (lo hi first : Int)
    (p r : Mem α × Nat × Nat) (hlo : 0 ≤ lo) (h : heapSiftSelf comp p lo hi first = .ok r) :
    r.2 = p.2 := by
  unfold heapSiftSelf at h
  refine iter_inv (heapSiftSelfBody comp hi first) (fun q => 0 ≤ q.1 ∧ q.2.2 = p.2)
    (fun r => r.2 = p.2) ?_ _ _ _ ⟨hlo, rfl⟩ h
  rintro ⟨root, s, g⟩ ⟨h0, hinv⟩
  simp only at h0 hinv
  subst hinv
  have hpick : ∀ q : Int × Mem α, (if 2 * root + 1 + 1 < hi then do
        let r ← less comp s (first + (2 * root + 1)) (first + (2 * root + 1) + 1)
        pure (if r.1 then 2 * root + 1 + 1 else 2 * root + 1, r.2)
      else pure (2 * root + 1, s) : Res (Int × Mem α)) = .ok q → root < q.1 := by
    intro q hq
    split at hq
    · obtain ⟨c, hc, hq⟩ := (Res.bind_eq_ok _ _ _).mp hq
      simp only [Res.pure_eq, Res.ok.injEq] at hq
      subst hq
      simp only
      split_ifs <;> omega
    · simp only [Res.pure_eq, Res.ok.injEq] at hq
      subst hq
      simp only
      omega
  constructor
  · intro q hb
    unfold heapSiftSelfBody at hb
    simp only at hb
    split at hb
    · simp at hb
    · obtain ⟨q1, hq1, hb⟩ := (Res.bind_eq_ok _ _ _).mp hb
      obtain ⟨c, hc, hb⟩ := (Res.bind_eq_ok _ _ _).mp hb
      have hlt := hpick q1 hq1
      split at hb
      · simp at hb
      · obtain ⟨t, ht, hb⟩ := (Res.bind_eq_ok _ _ _).mp hb
        simp only [Res.pure_eq, Res.ok.injEq, Sum.inl.injEq] at hb
        subst hb
        have e := swapOther_count ht (show first + root ≠ first + q1.1 by omega)
        exact ⟨by simp only; omega, e⟩
  · intro q hb
    unfold heapSiftSelfBody at hb
    simp only at hb
    split at hb
    · simp only [Res.pure_eq, Res.ok.injEq, Sum.inr.injEq] at hb
      subst hb
      rfl
    · obtain ⟨q1, hq1, hb⟩ := (Res.bind_eq_ok _ _ _).mp hb
      obtain ⟨c, hc, hb⟩ := (Res.bind_eq_ok _ _ _).mp hb
      split at hb
      · simp only [Res.pure_eq, Res.ok.injEq, Sum.inr.injEq] at hb
        subst hb
        rfl
      · obtain ⟨t, ht, hb⟩ := (Res.bind_eq_ok _ _ _).mp hb
        simp at hb

/-- In `_heap_sort(arr, a, b, comp)` the swaps of `_heap_sift` are between distinct positions
and the extraction loop swaps a position with itself exactly once when `a < b` (in its step
`i = 0`), never otherwise. -/
theorem heapSortSelf_count {α : Type} (comp : α → α → Bool) (a b : Int)
    (p r : Mem α × Nat × Nat) (h : heapSortSelf comp p a b = .ok r) :
    r.2.1 = p.2.1 + (if a < b then 1 else 0) ∧ r.2.2 = p.2.2 := by
  simp only [heapSortSelf] at h
  obtain ⟨q, hq, h⟩ := (Res.bind_eq_ok _ _ _).mp h
  have hbuild : q.2 = p.2 := by
    refine iter_inv (heapBuildSelfBody comp (b - a) a) (fun t => t.2.2 = p.2)
      (fun r => r.2 = p.2) ?_ _ _ _ rfl hq
    rintro ⟨i, t⟩ hinv
    simp only at hinv
    constructor
    · intro t' hb
      unfold heapBuildSelfBody at hb
      simp only at hb
      split at hb
      · rename_i hi0
        obtain ⟨u, hu, hb⟩ := (Res.bind_eq_ok _ _ _).mp hb
        simp only [Res.pure_eq, Res.ok.injEq, Sum.inl.injEq] at hb
        subst hb
        simp only
        rw [heapSiftSelf_count comp i (b - a) a t u hi0 hu, hinv]
      · simp at hb
    · intro t' hb
      unfold heapBuildSelfBody at hb
      simp only at hb
      split at hb
      · obtain ⟨u, hu, hb⟩ := (Res.bind_eq_ok _ _ _).mp hb
        simp at hb
      · simp only [Res.pure_eq, Res.ok.injEq, Sum.inr.injEq] at hb
        subst hb
        exact hinv
  have hpop : r.2.1 = q.2.1 + (if 0 < b - a then 1 else 0) ∧ r.2.2 = q.2.2 := by
    refine iter_inv (heapPopSelfBody comp 0 a)
      (fun t => t.1 < b - a ∧ t.2.2.1 = q.2.1 + (if t.1 < 0 ∧ 0 < b - a then 1 else 0) ∧
        t.2.2.2 = q.2.2)
      (fun r => r.2.1 = q.2.1 + (if 0 < b - a then 1 else 0) ∧ r.2.2 = q.2.2) ?_ _ _ _ ?_ h
    · rintro ⟨i, t⟩ ⟨h1, h2, h3⟩
      simp only at h1 h2 h3
      constructor
      · intro t' hb
        unfold heapPopSelfBody at hb
        simp only at hb
        split at hb
        · rename_i hi0
          obtain ⟨u, hu, hb⟩ := (Res.bind_eq_ok _ _ _).mp hb
          obtain ⟨v, hv, hb⟩ := (Res.bind_eq_ok _ _ _).mp hb
          simp only [Res.pure_eq, Res.ok.injEq, Sum.inl.injEq] at hb
          subst hb
          obtain ⟨e1, e2⟩ := swapExtract_count hu
          have e3 := heapSiftSelf_count comp 0 i a u v (le_refl _) hv
          simp only
          rw [e3]
          refine ⟨by omega, ?_, by rw [e2, h3]⟩
          rw [e1, h2]
          have c1 : ¬ (i < 0 ∧ 0 < b - a) := by omega
          simp only [c1, if_false, add_zero]
          by_cases c0 : i = 0
          · subst c0
            simp [show (0 : Int) < b - a by omega]
          · have c2 : ¬ (a = a + i) := by omega
            have c3 : ¬ (i - 1 < 0 ∧ 0 < b - a) := by omega
            rw [if_neg c2, if_neg c3]
        · simp at hb
      · intro t' hb
        unfold heapPopSelfBody at hb
        simp only at hb
        split at hb
        · obtain ⟨u, hu, hb⟩ := (Res.bind_eq_ok _ _ _).mp hb
          obtain ⟨v, hv, hb⟩ := (Res.bind_eq_ok _ _ _).mp hb
          simp at hb
        · rename_i hi0
          simp only [Res.pure_eq, Res.ok.injEq, Sum.inr.injEq] at hb
          subst hb
          refine ⟨?_, h3⟩
          rw [h2]
          by_cases c : 0 < b - a
          · simp [c, show i < 0 by omega]
          · simp [c]
    · refine ⟨by simp, ?_, rfl⟩
      have c : ¬ (b - a - 1 < 0 ∧ 0 < b - a) := by omega
      simp only
      rw [if_neg c]
      rfl
  rw [hbuild] at hpop
  obtain ⟨e1, e2⟩ := hpop
  refine ⟨?_, e2⟩
  rw [e1]
  by_cases c : a < b
  · simp [c, show (0 : Int) < b - a by omega]
  · simp [c, show ¬ (0 : Int) < b - a by omega]

theorem condSwapOther_count {α : Type} (c : Bool) {q r : Mem α × Nat × Nat} {i j : Int}
    (h : (if c = true then swapOther q i j else pure q) = .ok r) (hij : i ≠ j) : r.2 = q.2 := by
  cases c
  · simp only [Bool.false_eq_true, if_false, Res.pure_eq, Res.ok.injEq] at h
    subst h
    rfl
  · simp only [if_true] at h
    exact swapOther_count h hij

theorem medianOf3Self_count {α : Type} (comp : α → α → Bool) (m1 m0 m2 : Int)
    (p r : Mem α × Nat × Nat) (h10 : m1 ≠ m0) (h21 : m2 ≠ m1)
    (h : medianOf3Self comp p m1 m0 m2 = .ok r) : r.2 = p.2 := by
  unfold medianOf3Self at h
  obtain ⟨c1, -, h⟩ := (Res.bind_eq_ok _ _ _).mp h
  obtain ⟨p1, hp1, h⟩ := (Res.bind_eq_ok _ _ _).mp h
  have e1 := condSwapOther_count c1.1 hp1 h10
  simp only at e1
  obtain ⟨c2, -, h⟩ := (Res.bind_eq_ok _ _ _).mp h
  split at h
  · obtain ⟨p2, hp2, h⟩ := (Res.bind_eq_ok _ _ _).mp h
    have e2 := swapOther_count hp2 h21
    simp only at e2
    obtain ⟨c3, -, h⟩ := (Res.bind_eq_ok _ _ _).mp h
    have e3 := condSwapOther_count c3.1 h h10
    simp only at e3
    rw [e3, e2, e1]
  · simp only [Res.pure_eq, Res.ok.injEq] at h
    subst h
    exact e1

theorem pivotSelectSelf_count {α : Type} (comp : α → α → Bool) (lo hi : Int)
    (p r : Mem α × Nat × Nat) (hsz : hi - lo > 12)
    (h : pivotSelectSelf comp p lo hi = .ok r) : r.2 = p.2 := by
  unfold pivotSelectSelf at h
  simp only [shr1_eq] at h
  obtain ⟨p1, hp1, h⟩ := (Res.bind_eq_ok _ _ _).mp h
  have e1 : p1.2 = p.2 := by
    split at hp1
    · rename_i c
      have et : cdiv (hi - lo) 8 = (hi - lo) / 8 := cdiv_eq (by omega) (by omega)
      rw [et] at hp1
      obtain ⟨q1, hq1, hp1⟩ := (Res.bind_eq_ok _ _ _).mp hp1
      obtain ⟨q2, hq2, hp1⟩ := (Res.bind_eq_ok _ _ _).mp hp1
      have f1 := medianOf3Self_count comp _ _ _ p q1 (by omega) (by omega) hq1
      have f2 := medianOf3Self_count comp _ _ _ q1 q2 (by omega) (by omega) hq2
      have f3 := medianOf3Self_count comp _ _ _ q2 p1 (by omega) (by omega) hp1
      rw [f3, f2, f1]
    · simp only [Res.pure_eq, Res.ok.injEq] at hp1
      subst hp1
      rfl
  have e2 := medianOf3Self_count comp _ _ _ p1 r (by omega) (by omega) h
  rw [e2, e1]

theorem doPivotSelf_count {α : Type} (comp : α → α → Bool) (lo hi : Int)
    (p : Mem α × Nat × Nat) (r : (Mem α × Nat × Nat) × Int × Int) (hsz : hi - lo > 12)
    (h : doPivotSelf comp p lo hi = .ok r) : r.1.2 = p.2 := by
  unfold doPivotSelf at h
  obtain ⟨p1, hp1, h⟩ := (Res.bind_eq_ok _ _ _).mp h
  obtain ⟨ra, -, h⟩ := (Res.bind_eq_ok _ _ _).mp h
  obtain ⟨rm, -, h⟩ := (Res.bind_eq_ok _ _ _).mp h
  obtain ⟨q, -, h⟩ := (Res.bind_eq_ok _ _ _).mp h
  obtain ⟨t, -, h⟩ := (Res.bind_eq_ok _ _ _).mp h
  simp only [Res.pure_eq, Res.ok.injEq] at h
  subst h
  exact pivotSelectSelf_count comp lo hi p p1 hsz hp1

/-- In the quicksort loop no swap of `_insertion_sort`, `_shell_sort`, `_median_of_3` or
`_heap_sift` is a self-swap. -/
theorem quickSortLoopSelf_count {α : Type} (comp : α → α → Bool) : ∀ (f : Nat)
    (p r : Mem α × Nat × Nat) (a b d : Int), quickSortLoopSelf comp f p a b d = .ok r →
    r.2.2 = p.2.2 := by
  intro f
  induction f with
  | zero => intro p r a b d h; simp [quickSortLoopSelf] at h
  | succ f ih =>
    intro p r a b d h
    rw [quickSortLoopSelf] at h
    split at h
    · rename_i c1
      split at h
      · exact (heapSortSelf_count comp a b p r h).2
      · obtain ⟨q, hq, h⟩ := (Res.bind_eq_ok _ _ _).mp h
        have e1 := doPivotSelf_count comp a b p q c1 hq
        simp only at h
        split at h
        · obtain ⟨t, ht, h⟩ := (Res.bind_eq_ok _ _ _).mp h
          rw [ih _ _ _ _ _ h, ih _ _ _ _ _ ht, e1]
        · obtain ⟨t, ht, h⟩ := (Res.bind_eq_ok _ _ _).mp h
          rw [ih _ _ _ _ _ h, ih _ _ _ _ _ ht, e1]
    · split at h
      · obtain ⟨t, ht, h⟩ := (Res.bind_eq_ok _ _ _).mp h
        rw [insertionSortSelf_count comp a b t r h, shellSortSelf_count comp a b p t ht]
      · simp only [Res.pure_eq, Res.ok.injEq] at h
        subst h
        rfl

theorem sortUnstableSelf_spec {α : Type} (comp : α → α → Bool) (l : List α) :
    ∃ s' extract, sortUnstableSelf comp l = .ok (s', extract, 0) ∧
      sort_unstable comp l = .ok s' := by
  obtain ⟨s', hs', -⟩ := sort_unstable_safe comp l
  have h := hs'
  rw [sortUnstableSelf_erase] at h
  obtain ⟨r, hr, e⟩ := (Res.bind_eq_ok _ _ _).mp h
  simp only [Res.ok.injEq] at e
  subst e
  have hr' := hr
  unfold sortUnstableSelf at hr'
  obtain ⟨d, -, hq⟩ := (Res.bind_eq_ok _ _ _).mp hr'
  have e2 := quickSortLoopSelf_count comp _ _ _ _ _ _ hq
  simp only at e2
  refine ⟨r.1, r.2.1, ?_, hs'⟩
  rw [hr, ← e2]

theorem heapSortSelf_spec {α : Type} (comp : α → α → Bool) (s : Mem α) (h o : Nat)
    (a b : Int) (ha : 0 ≤ a) (hab : a < b) (hb : b ≤ s.arr.length) :
    ∃ s1, heapSortSelf comp (s, h, o) a b = .ok (s1, h + 1, o) ∧
      _heap_sort comp s a b = .ok s1 := by
  obtain ⟨s1, hs1, -⟩ := heap_sort_safe comp s a b ha (by omega) hb
  have e := hs1
  rw [heapSortSelf_erase comp (s, h, o)] at e
  obtain ⟨r, hr, e⟩ := (Res.bind_eq_ok _ _ _).mp e
  simp only [Res.ok.injEq] at e
  subst e
  obtain ⟨c1, c2⟩ := heapSortSelf_count comp a b (s, h, o) r hr
  simp only [hab, if_true] at c1 c2
  refine ⟨r.1, ?_, hs1⟩
  rw [hr, ← c1, ← c2]

set_option maxRecDepth 100000 in
/-- C39 (as stated, refuted): on the 37 distinct values of `budgetEater37` under `<`,
`sort_unstable` uses up its depth budget and calls `_heap_sort`, whose extraction loop swaps
a position with itself once; no other counted swap is a self-swap. -/
theorem sort_unstable_self_swap_in_extraction :
    (sortUnstableSelf natLess budgetEater37).bind (fun r => Res.ok (r.1.arr, r.2.1, r.2.2))
      = .ok (List.range 37, 1, 0) ∧
    (sort_unstable natLess budgetEater37).bind (fun s => Res.ok s.arr) = .ok (List.range 37) ∧
    budgetEater37.Nodup := by
  decide

/-- C39 (amended): for every input and every comparator, `sort_unstable` returns and none of
the swaps made by `_insertion_sort`, `_shell_sort`, `_median_of_3` and `_heap_sift` is a
self-swap (`other = 0`); the extraction loop of `_heap_sort` swaps a position with itself
only in its step `i = 0`, where it swaps `arr[first]` with itself, exactly once per call on a
non-empty range.  The swaps that `_do_pivot` makes itself are not covered. -/
theorem unstable_self_swaps_only_in_extraction {α : Type} (comp : α → α → Bool) (l : List α) :
    (∃ s' extract, sortUnstableSelf comp l = .ok (s', extract, 0) ∧
      sort_unstable comp l = .ok s') ∧
    (∀ (s : Mem α) (h o : Nat) (a b : Int), 0 ≤ a → a < b → b ≤ s.arr.length →
      ∃ s1, heapSortSelf comp (s, h, o) a b = .ok (s1, h + 1, o) ∧
        _heap_sort comp s a b = .ok s1) ∧
    (∀ (p r : Mem α × Nat × Nat) (first i : Int),
      swapExtract p first (first + i) = .ok r →
      r.2.1 = p.2.1 + (if i = 0 then 1 else 0) ∧ r.2.2 = p.2.2) := by
  refine ⟨sortUnstableSelf_spec comp l, heapSortSelf_spec comp, ?_⟩
  intro p r first i h
  obtain ⟨e1, e2⟩ := swapExtract_count h
  refine ⟨?_, e2⟩
  rw [e1]
  by_cases c : i = 0
  · subst c
    simp
  · have c' : ¬ first = first + i := by omega
    rw [if_neg c, if_neg c']

end gosort
end MayanSort
